import Mathlib

/-!
QALSH: the k-NN query procedure of `qalsh.cc`

A shallow embedding of `QALSH::knn` and of the functions it calls
(`init_search_params`, `find_radius`, `update_radius`, `update_left_buffer`,
`update_right_buffer`, `calc_dist`, `delete_tree_ptr`).

Conventions of the embedding.

* C `int` is `Int`; `float` is `ℚ` (exact arithmetic).
* The member arrays `freq_`, `checked_`, `flag_`, `q_val_`, `lptr_`, `rptr_`
  are functions on `Int`; an access outside the allocated range is undefined
  behaviour in the source and is a *fault* of the model.
* A `NULL` dereference is a fault as well.
* A heap object created by `new BLeafNode()` is identified by an address taken
  from an allocation counter; `delete` appends the address to a log.
* Calls that leave the class (`read_data_new_format`, `calc_lp_dist`,
  `MinK_List::insert`) are recorded, in order, in a call trace.
* `QALSH::knn` is a step function on a state with a program counter; one step
  is one loop test or one loop body statement group of the source.
* `QALSH::calc_params` is embedded over the reals; the probability functions
  it calls are fields of a structure `Kernel`.
* The parameter file is a list of characters; `fprintf` and `fscanf` are
  embedded for the conversions `%d` and `%f` and the literal text of the
  formats that `write_params` and `read_params` use. A file system maps names
  to contents. Here the machine types matter: `%f` of `scanf` stores the
  binary32 number nearest to the numeral (`fl32`), `%d` stores a 32-bit `int`
  (`store_int`), and a `new` expression with a negative array size throws.
* `QALSH::knn` of qalsh.cpp is a second step function (`cpp_step`); functions
  whose statements agree with those of qalsh.cc share one definition.
-/

namespace QALSH

/-! ## B+-tree nodes -/

/-- Modelled from the spec: the leaf node class `BLeafNode` (its header and
implementation are not among the sources). A leaf stores one representative
key per key-slot, the ids of its entries, the number `increment` of entries
that share a key-slot, and the links to its left and right sibling. -/
structure BLeafNode where
  block_ : Int
  increment_ : Int
  key_ : List ℚ
  id_ : List Int
  left_sibling_ : Option Int
  right_sibling_ : Option Int

/-- Modelled from the spec: the internal node class `BIndexNode` (not among the
sources): a level and (key, child-block) pairs. -/
structure BIndexNode where
  level_ : Int
  key_ : List ℚ
  son_ : List Int

/-- Modelled from the spec: the class `BTree` (not among the sources).
`root_` is the root block; `index_node b` and `leaf_node b` are what
`init_restore(tree, b)` loads from block `b` into a `BIndexNode` and a
`BLeafNode`. -/
structure BTree where
  root_ : Int
  index_node : Int → BIndexNode
  leaf_node : Int → BLeafNode

/-- Array read `xs[i]` with a C `int` index; `none` outside the array. -/
def arr_get {α : Type} (xs : List α) (i : Int) : Option α :=
  if 0 ≤ i then xs[i.toNat]? else none

/-- Modelled from the spec: `find_position_by_key(q)`, the largest slot whose
key is `≤ q`, or `-1` if there is none. -/
def find_position_by_key (keys : List ℚ) (q : ℚ) : Int :=
  keys.enum.foldl (fun pos e => if e.2 ≤ q then (e.1 : Int) else pos) (-1)

def BLeafNode.get_increment (n : BLeafNode) : Int := n.increment_

def BLeafNode.get_num_keys (n : BLeafNode) : Int := n.key_.length

def BLeafNode.get_num_entries (n : BLeafNode) : Int := n.id_.length

def BLeafNode.get_key (n : BLeafNode) (pos : Int) : Option ℚ := arr_get n.key_ pos

def BLeafNode.get_entry_id (n : BLeafNode) (pos : Int) : Option Int := arr_get n.id_ pos

def BLeafNode.find_position_by_key (n : BLeafNode) (q : ℚ) : Int :=
  QALSH.find_position_by_key n.key_ q

def BIndexNode.get_level (n : BIndexNode) : Int := n.level_

def BIndexNode.get_son (n : BIndexNode) (pos : Int) : Option Int := arr_get n.son_ pos

def BIndexNode.find_position_by_key (n : BIndexNode) (q : ℚ) : Int :=
  QALSH.find_position_by_key n.key_ q

/-! ## Heap objects and cursors -/

/-- A pointer to a `BLeafNode` object on the heap: the address that identifies
the object and the content `init_restore` loaded into it. -/
structure LeafPtr where
  addr : Nat
  node : BLeafNode

/-- The allocation state: the next fresh address and the log of `delete`d
addresses (oldest first). -/
structure Mem where
  next : Nat
  freed : List Nat

/-- The body of `new BLeafNode(); init_restore(tree, block)`. -/
def Mem.new_leaf (mem : Mem) (T : BTree) (block : Int) : LeafPtr × Mem :=
  (⟨mem.next, T.leaf_node block⟩, { mem with next := mem.next + 1 })

def Mem.delete (mem : Mem) (a : Nat) : Mem := { mem with freed := mem.freed ++ [a] }

/-- `get_left_sibling()`: `NULL` without a left link, else a new object loaded
from the linked block. -/
def get_left_sibling (T : BTree) (mem : Mem) (n : BLeafNode) : Option LeafPtr × Mem :=
  match n.left_sibling_ with
  | none => (none, mem)
  | some b => let r := mem.new_leaf T b; (some r.1, r.2)

/-- `get_right_sibling()`: `NULL` without a right link, else a new object
loaded from the linked block. -/
def get_right_sibling (T : BTree) (mem : Mem) (n : BLeafNode) : Option LeafPtr × Mem :=
  match n.right_sibling_ with
  | none => (none, mem)
  | some b => let r := mem.new_leaf T b; (some r.1, r.2)

/-- `struct PageBuffer`: the cursor of one direction of one projection. -/
structure PageBuffer where
  leaf_node_ : Option LeafPtr
  index_pos_ : Int
  leaf_pos_ : Int
  size_ : Int

/-- The four assignments `leaf_node_ = NULL; index_pos_ = leaf_pos_ = size_ = -1`. -/
def PageBuffer.null : PageBuffer := ⟨none, -1, -1, -1⟩

/-- The address a cursor points at (`none` for `NULL`). -/
def PageBuffer.ptr (b : PageBuffer) : Option Nat := b.leaf_node_.map LeafPtr.addr

/-- The library function `fabs`. -/
def fabs (x : ℚ) : ℚ := if x < 0 then -x else x

/-- `QALSH::calc_dist` (qalsh.cc 927-936); `none` is a fault (`NULL` leaf or
a key index outside the leaf). -/
def calc_dist (q_val : ℚ) (ptr : PageBuffer) : Option ℚ :=
  match ptr.leaf_node_ with
  | none => none
  | some p =>
    match p.node.get_key ptr.index_pos_ with
    | none => none
    | some key => some (fabs (key - q_val))

/-- The result of a cursor advance: the cursor written back, `page_io_`, and
the allocation state. -/
structure Advance where
  buf : PageBuffer
  page_io_ : Int
  mem : Mem

/-- `QALSH::update_left_buffer` (qalsh.cc 829-870); `none` is a `NULL`
dereference of `lptr->leaf_node_`. -/
def update_left_buffer (T : BTree) (mem : Mem) (page_io_ : Int)
    (rptr lptr : PageBuffer) : Option Advance :=
  match lptr.leaf_node_ with
  | none => none
  | some old =>
    if lptr.index_pos_ > 0 then
      let pos := lptr.index_pos_ - 1
      let increment := old.node.get_increment
      some ⟨{ lptr with index_pos_ := pos, leaf_pos_ := pos * increment + increment - 1,
                        size_ := increment }, page_io_, mem⟩
    else
      let sib := get_left_sibling T mem old.node
      let mem1 := sib.2
      let res : PageBuffer × Int :=
        match sib.1 with
        | some leaf =>
          let pos := leaf.node.get_num_keys - 1
          let increment := leaf.node.get_increment
          let num_entries := leaf.node.get_num_entries
          (⟨some leaf, pos, num_entries - 1, num_entries - pos * increment⟩, page_io_ + 1)
        | none => (PageBuffer.null, page_io_)
      let mem2 := if rptr.ptr ≠ some old.addr then mem1.delete old.addr else mem1
      some ⟨res.1, res.2, mem2⟩

/-- `QALSH::update_right_buffer` (qalsh.cc 873-924); `none` is a `NULL`
dereference of `rptr->leaf_node_`. -/
def update_right_buffer (T : BTree) (mem : Mem) (page_io_ : Int)
    (lptr rptr : PageBuffer) : Option Advance :=
  match rptr.leaf_node_ with
  | none => none
  | some old =>
    if rptr.index_pos_ < old.node.get_num_keys - 1 then
      let pos := rptr.index_pos_ + 1
      let increment := old.node.get_increment
      let size :=
        if pos = old.node.get_num_keys - 1 then old.node.get_num_entries - pos * increment
        else increment
      some ⟨{ rptr with index_pos_ := pos, leaf_pos_ := pos * increment, size_ := size },
            page_io_, mem⟩
    else
      let sib := get_right_sibling T mem old.node
      let mem1 := sib.2
      let res : PageBuffer × Int :=
        match sib.1 with
        | some leaf =>
          let increment := leaf.node.get_increment
          let num_entries := leaf.node.get_num_entries
          (⟨some leaf, 0, 0, if increment > num_entries then num_entries else increment⟩,
           page_io_ + 1)
        | none => (PageBuffer.null, page_io_)
      let mem2 := if lptr.ptr ≠ some old.addr then mem1.delete old.addr else mem1
      some ⟨res.1, res.2, mem2⟩

/-! ## The index, its environment and the state of a query -/

/-- The members of `class QALSH` that a query only reads. -/
structure Index where
  n_pts_ : Int
  dim_ : Int
  m_ : Int
  l_ : Int
  w_ : ℚ
  appr_ratio_ : ℚ
  a_array_ : Int → ℚ
  trees_ : Int → BTree

/-- What `knn` uses and the sources do not define: the constants `CANDIDATES`
and `MAXREAL`, the composite `x ↦ pow(appr_ratio_, (int) ceil(log(x) /
log(appr_ratio_)))` of the C math library, and the distance
`calc_lp_dist(dim_, p_, data_, query)` of the object that
`read_data_new_format(id, ...)` loads from the data folder. -/
structure Env where
  CANDIDATES : Int
  MAXREAL : ℚ
  pow_ceil_log : ℚ → ℚ
  lp_dist : Int → ℚ

/-- Modelled from the spec: the top-k result list `MinK_List` (not among the
sources), a list of at most `k_` (distance, id) pairs sorted by distance. -/
structure MinK_List where
  k_ : Int
  list_ : List (ℚ × Int)

/-- Insertion into a list sorted by distance, after the entries of equal
distance. -/
def sorted_insert (key : ℚ) (id : Int) : List (ℚ × Int) → List (ℚ × Int)
  | [] => [(key, id)]
  | e :: es => if e.1 > key then (key, id) :: e :: es else e :: sorted_insert key id es

/-- Modelled from the spec: the k-th distance of the list, the sentinel
`MAXREAL` while fewer than `k_` entries are stored. -/
def MinK_List.max_key (E : Env) (L : MinK_List) : ℚ :=
  match arr_get L.list_ (L.k_ - 1) with
  | some e => e.1
  | none => E.MAXREAL

/-- Modelled from the spec: `MinK_List::insert`, insert-with-eviction; the
value returned to `knn` is the k-th distance afterwards. -/
def MinK_List.insert (E : Env) (L : MinK_List) (key : ℚ) (id : Int) : MinK_List × ℚ :=
  let L1 : MinK_List := { L with list_ := (sorted_insert key id L.list_).take L.k_.toNat }
  (L1, L1.max_key E)

/-- A call that leaves the class. -/
inductive Call where
  | read_data_new_format (id : Int)
  | calc_lp_dist (dist : ℚ)
  | insert (dist : ℚ) (id : Int)
  deriving DecidableEq

/-- The program points of `QALSH::knn` (line numbers of qalsh.cc). -/
inductive PC where
  /-- Line 464: top of `while (true)`. -/
  | round
  /-- Line 470: the test of `while (num_flag < m_)`. -/
  | while_test
  /-- Line 471: the test of `for (i ...; i < m_; ...)`. -/
  | for_test (i : Int)
  /-- Line 494: the test of `for (j = end; j > start; --j)`. -/
  | scan_left (i j start : Int)
  /-- Line 508: the call `update_left_buffer(&rptr_[i], &lptr_[i])`. -/
  | advance_left (i : Int)
  /-- Line 514: the test of `for (j = start; j < end; ++j)`. -/
  | scan_right (i j e : Int)
  /-- Line 528: the call `update_right_buffer(&lptr_[i], &rptr_[i])`. -/
  | advance_right (i : Int)
  /-- Line 534: the break test that ends the body of the loop over `i`. -/
  | body_end (i : Int)
  /-- Line 536: the break test after the loop over `i`. -/
  | for_exit
  /-- Line 541: the stop conditions. -/
  | stop_test
  /-- Line 552: `knn` has returned. -/
  | returned
  /-- Undefined behaviour was executed (`NULL` dereference, array access
  outside its bounds). -/
  | fault
  deriving DecidableEq

/-- The mutable members of `class QALSH`, the local variables of `knn`, the
result list, the allocation state and the call trace. -/
structure State where
  freq_ : Int → Int
  checked_ : Int → Bool
  flag_ : Int → Bool
  q_val_ : Int → ℚ
  lptr_ : Int → PageBuffer
  rptr_ : Int → PageBuffer
  page_io_ : Int
  dist_io_ : Int
  num_flag : Int
  knn_dist : ℚ
  radius : ℚ
  bucket : ℚ
  list : MinK_List
  mem : Mem
  trace : List Call
  pc : PC

/-! ## `init_search_params` -/

/-- Why the preamble of a query does not hand over to the main loop. -/
inductive InitFault where
  /-- The call `exit(1)` after "No branch found". -/
  | no_branch
  /-- A `NULL` dereference or an array access outside its bounds. -/
  | bad_access
  /-- The descent did not reach level 1 within the given number of iterations. -/
  | out_of_fuel
  deriving DecidableEq

/-- `QALSH::calc_hash_value` (qalsh.cc 330-339). -/
def calc_hash_value (Q : Index) (table_id : Int) (point : Int → ℚ) : ℚ :=
  (List.range Q.dim_.toNat).foldl
    (fun ret i => ret + Q.a_array_ (table_id * Q.dim_ + (i : Int)) * point (i : Int)) 0

/-- The loop `while (index_node->get_level() > 1)` of `init_search_params`
(qalsh.cc 605-629) with its variables `block`, `index_node`, `lescape` and
`page_io_`; the first argument bounds the number of iterations. -/
def descend (T : BTree) (q : ℚ) :
    Nat → Int → BIndexNode → Bool → Int → Except InitFault (Int × BIndexNode × Bool × Int)
  | 0, _, _, _, _ => .error .out_of_fuel
  | fuel + 1, block, index_node, lescape, page_io_ =>
    if index_node.get_level > 1 then
      let follow := index_node.find_position_by_key q
      let r : Except InitFault (Int × Bool) :=
        if follow = -1 then
          if lescape then .ok (0, lescape)
          else if block ≠ T.root_ then .error .no_branch
          else .ok (0, true)
        else .ok (follow, lescape)
      match r with
      | .error e => .error e
      | .ok (follow, lescape) =>
        match index_node.get_son follow with
        | none => .error .bad_access
        | some block => descend T q fuel block (T.index_node block) lescape (page_io_ + 1)
    else .ok (block, index_node, lescape, page_io_)

/-- The block "init left buffer" (qalsh.cc 672-685 and 731-744) for the leaf
just loaded; returns `pos` and the left cursor. -/
def init_left_buffer (leaf : LeafPtr) (q : ℚ) : Int × PageBuffer :=
  let pos0 := leaf.node.find_position_by_key q
  let pos := if pos0 < 0 then 0 else pos0
  let increment := leaf.node.get_increment
  if pos = leaf.node.get_num_keys - 1 then
    let num_entries := leaf.node.get_num_entries
    (pos, ⟨some leaf, pos, num_entries - 1, num_entries - pos * increment⟩)
  else
    (pos, ⟨some leaf, pos, pos * increment + increment - 1, increment⟩)

/-- The right cursor on the key-slot after `pos` of the leaf of the left cursor
(qalsh.cc 692-702 and 751-761). -/
def init_right_same_leaf (leaf : LeafPtr) (pos : Int) : PageBuffer :=
  let increment := leaf.node.get_increment
  let size :=
    if pos + 1 = leaf.node.get_num_keys - 1 then leaf.node.get_num_entries - (pos + 1) * increment
    else increment
  ⟨some leaf, pos + 1, (pos + 1) * increment, size⟩

/-- The right cursor on key-slot 0 of a leaf just loaded (qalsh.cc 649-661 and
707-717). -/
def init_right_first_slot (leaf : LeafPtr) : PageBuffer :=
  let increment := leaf.node.get_increment
  let num_entries := leaf.node.get_num_entries
  ⟨some leaf, 0, 0, if increment > num_entries then num_entries else increment⟩

/-- What one iteration of the loop over the projections computes. -/
structure TreeInit where
  lptr : PageBuffer
  rptr : PageBuffer
  page_io_ : Int
  mem : Mem

/-- The body of the loop `for (int i = 0; i < m_; ++i)` of
`init_search_params` (qalsh.cc 590-773) for one tree and the projected query
value `q`; the cursors of the projection were reset before (lines 567-577). -/
def init_tree (T : BTree) (q : ℚ) (fuel : Nat) (page_io_ : Int) (mem : Mem) :
    Except InitFault TreeInit :=
  if T.root_ > 1 then
    match descend T q fuel T.root_ (T.index_node T.root_) false (page_io_ + 1) with
    | .error e => .error e
    | .ok (_, index_node, lescape0, page_io_) =>
      let follow0 := index_node.find_position_by_key q
      let lescape := if follow0 < 0 then true else lescape0
      let follow := if follow0 < 0 then 0 else follow0
      if lescape then
        match index_node.get_son 0 with
        | none => .error .bad_access
        | some block =>
          let r := mem.new_leaf T block
          .ok ⟨PageBuffer.null, init_right_first_slot r.1, page_io_ + 1, r.2⟩
      else
        match index_node.get_son follow with
        | none => .error .bad_access
        | some block =>
          let r := mem.new_leaf T block
          let l := init_left_buffer r.1 q
          if l.1 < r.1.node.get_num_keys - 1 then
            .ok ⟨l.2, init_right_same_leaf r.1 l.1, page_io_ + 1, r.2⟩
          else
            let sib := get_right_sibling T r.2 r.1.node
            match sib.1 with
            | some leaf => .ok ⟨l.2, init_right_first_slot leaf, page_io_ + 1 + 1, sib.2⟩
            | none => .ok ⟨l.2, PageBuffer.null, page_io_ + 1, sib.2⟩
  else
    let r := mem.new_leaf T T.root_
    let l := init_left_buffer r.1 q
    if l.1 < r.1.node.get_num_keys - 1 then
      .ok ⟨l.2, init_right_same_leaf r.1 l.1, page_io_ + 1, r.2⟩
    else
      .ok ⟨l.2, PageBuffer.null, page_io_ + 1, r.2⟩

/-- The loop over the projections `i = from, ..., m_ - 1` of
`init_search_params` (qalsh.cc 588-774), `count` iterations. -/
def init_trees (Q : Index) (query : Int → ℚ) (fuel : Nat) :
    Nat → Int → State → Except InitFault State
  | 0, _, s => .ok s
  | count + 1, i, s =>
    let q := calc_hash_value Q i query
    match init_tree (Q.trees_ i) q fuel s.page_io_ s.mem with
    | .error e => .error e
    | .ok r =>
      init_trees Q query fuel count (i + 1)
        { s with q_val_ := Function.update s.q_val_ i q
                 lptr_ := Function.update s.lptr_ i r.lptr
                 rptr_ := Function.update s.rptr_ i r.rptr
                 page_io_ := r.page_io_
                 mem := r.mem }

/-- `QALSH::init_search_params` (qalsh.cc 556-775). -/
def init_search_params (Q : Index) (query : Int → ℚ) (fuel : Nat) (s : State) :
    Except InitFault State :=
  init_trees Q query fuel Q.m_.toNat 0
    { s with
      page_io_ := 0
      dist_io_ := 0
      freq_ := fun i => if 0 ≤ i ∧ i < Q.n_pts_ then 0 else s.freq_ i
      checked_ := fun i => if 0 ≤ i ∧ i < Q.n_pts_ then false else s.checked_ i
      lptr_ := fun i => if 0 ≤ i ∧ i < Q.m_ then PageBuffer.null else s.lptr_ i
      rptr_ := fun i => if 0 ≤ i ∧ i < Q.m_ then PageBuffer.null else s.rptr_ i }

/-! ## The radius -/

/-- The loop of `update_radius` that collects the projected distances of the
live cursors of the projections `i, ..., i + count - 1` (qalsh.cc 799-808);
`none` is a fault inside `calc_dist`. -/
def dist_list (q_val : Int → ℚ) (lptr rptr : Int → PageBuffer) : Nat → Int → Option (List ℚ)
  | 0, _ => some []
  | count + 1, i =>
    let l : Option (List ℚ) :=
      if (lptr i).size_ ≠ -1 then (calc_dist (q_val i) (lptr i)).map (fun d => [d]) else some []
    let r : Option (List ℚ) :=
      if (rptr i).size_ ≠ -1 then (calc_dist (q_val i) (rptr i)).map (fun d => [d]) else some []
    match l, r, dist_list q_val lptr rptr count (i + 1) with
    | some l, some r, some rest => some (l ++ r ++ rest)
    | _, _, _ => none

/-- `QALSH::update_radius` (qalsh.cc 790-826). -/
def update_radius (Q : Index) (E : Env) (old_radius : ℚ) (q_val : Int → ℚ)
    (lptr rptr : Int → PageBuffer) : Option ℚ :=
  match dist_list q_val lptr rptr Q.m_.toNat 0 with
  | none => none
  | some unsorted =>
    let list := unsorted.insertionSort (fun a b => a ≤ b)
    let num := list.length
    if num = 0 then some (Q.appr_ratio_ * old_radius)
    else
      let dist :=
        if num % 2 = 0 then (list.getD (num / 2 - 1) 0 + list.getD (num / 2) 0) / 2
        else list.getD (num / 2) 0
      some (E.pow_ceil_log (2 * dist / Q.w_))

/-- `QALSH::find_radius` (qalsh.cc 778-787). -/
def find_radius (Q : Index) (E : Env) (q_val : Int → ℚ) (lptr rptr : Int → PageBuffer) :
    Option ℚ :=
  match update_radius Q E (1 / Q.appr_ratio_) q_val lptr rptr with
  | none => none
  | some radius => some (if radius < 1 then 1 else radius)

/-! ## `knn` -/

/-- The threshold `candidates = CANDIDATES + top_k - 1` (qalsh.cc 445). -/
def candidates (E : Env) (top_k : Int) : Int := E.CANDIDATES + top_k - 1

/-- The preamble of `QALSH::knn` (qalsh.cc 440-458), started with the members
as an earlier call left them (`old`) and the result list `list` of the caller. -/
def knn_start (Q : Index) (E : Env) (query : Int → ℚ) (list : MinK_List) (fuel : Nat)
    (old : State) : Except InitFault State :=
  match init_search_params Q query fuel old with
  | .error e => .error e
  | .ok s =>
    match find_radius Q E s.q_val_ s.lptr_ s.rptr_ with
    | none => .error .bad_access
    | some radius =>
      .ok { s with num_flag := 0, knn_dist := E.MAXREAL, radius := radius,
                   bucket := Q.w_ * radius / 2, list := list, trace := [], pc := .round }

/-- The statements that promote a frequent object (qalsh.cc 499-505 and
519-525, without the break test): mark it checked, read its data page, compute
its distance, insert it into the result list and count the evaluation. -/
def evaluate (E : Env) (s : State) (id : Int) : State :=
  let dist := E.lp_dist id
  let r := s.list.insert E dist id
  { s with checked_ := Function.update s.checked_ id true
           trace := s.trace ++ [.read_data_new_format id, .calc_lp_dist dist, .insert dist id]
           list := r.1
           knn_dist := r.2
           dist_io_ := s.dist_io_ + 1 }

/-- Collision counting for one entry id (qalsh.cc 496-506 and 516-526); `next`
is the program point of the next iteration of the scan, `brk` the one after
the `break`. -/
def collide (Q : Index) (E : Env) (top_k : Int) (s : State) (id : Int) (next brk : PC) :
    State :=
  if ¬ (0 ≤ id ∧ id < Q.n_pts_) then { s with pc := .fault }
  else if s.checked_ id then { s with pc := next }
  else
    let s1 := { s with freq_ := Function.update s.freq_ id (s.freq_ id + 1) }
    if s1.freq_ id > Q.l_ then
      let s2 := evaluate E s1 id
      if s2.dist_io_ ≥ candidates E top_k then { s2 with pc := brk } else { s2 with pc := next }
    else { s1 with pc := next }

/-- The body of the loop of `QALSH::delete_tree_ptr` (qalsh.cc 949-954). -/
def delete_tree_ptr_at (s : State) (i : Int) : State :=
  let s1 : State :=
    match (s.lptr_ i).leaf_node_ with
    | some p =>
      if (s.lptr_ i).ptr ≠ (s.rptr_ i).ptr then
        { s with mem := s.mem.delete p.addr
                 lptr_ := Function.update s.lptr_ i { s.lptr_ i with leaf_node_ := none } }
      else s
    | none => s
  match (s1.rptr_ i).leaf_node_ with
  | some p =>
    { s1 with mem := s1.mem.delete p.addr
              rptr_ := Function.update s1.rptr_ i { s1.rptr_ i with leaf_node_ := none } }
  | none => s1

/-- `QALSH::delete_tree_ptr` (qalsh.cc 939-956). -/
def delete_tree_ptr (Q : Index) (s : State) : State :=
  (List.range Q.m_.toNat).foldl (fun s i => delete_tree_ptr_at s (i : Int)) s

/-- The projected distance of a cursor as `knn` computes it in step 2.1
(qalsh.cc 477-481): `MAXREAL` for an exhausted cursor. -/
def side_dist (E : Env) (q_val : ℚ) (ptr : PageBuffer) : Option ℚ :=
  if ptr.size_ ≠ -1 then calc_dist q_val ptr else some E.MAXREAL

/-- One step of `QALSH::knn` (qalsh.cc 460-552). -/
def step (Q : Index) (E : Env) (top_k : Int) (s : State) : State :=
  match s.pc with
  | .round =>
    { s with num_flag := 0
             flag_ := fun i => if 0 ≤ i ∧ i < Q.m_ then true else s.flag_ i
             pc := .while_test }
  | .while_test =>
    if s.num_flag < Q.m_ then { s with pc := .for_test 0 } else { s with pc := .stop_test }
  | .for_test i =>
    if i < Q.m_ then
      if !s.flag_ i then { s with pc := .for_test (i + 1) }
      else
        match side_dist E (s.q_val_ i) (s.lptr_ i), side_dist E (s.q_val_ i) (s.rptr_ i) with
        | some ldist, some rdist =>
          if ldist < s.bucket ∧ ldist ≤ rdist then
            let e := (s.lptr_ i).leaf_pos_
            { s with pc := .scan_left i e (e - (s.lptr_ i).size_) }
          else if rdist < s.bucket ∧ ldist > rdist then
            let start := (s.rptr_ i).leaf_pos_
            { s with pc := .scan_right i start (start + (s.rptr_ i).size_) }
          else
            { s with flag_ := Function.update s.flag_ i false
                     num_flag := s.num_flag + 1
                     pc := .body_end i }
        | _, _ => { s with pc := .fault }
    else { s with pc := .for_exit }
  | .scan_left i j start =>
    if j > start then
      match (s.lptr_ i).leaf_node_ with
      | none => { s with pc := .fault }
      | some p =>
        match p.node.get_entry_id j with
        | none => { s with pc := .fault }
        | some id => collide Q E top_k s id (.scan_left i (j - 1) start) (.advance_left i)
    else { s with pc := .advance_left i }
  | .advance_left i =>
    match update_left_buffer (Q.trees_ i) s.mem s.page_io_ (s.rptr_ i) (s.lptr_ i) with
    | none => { s with pc := .fault }
    | some a =>
      { s with lptr_ := Function.update s.lptr_ i a.buf
               page_io_ := a.page_io_
               mem := a.mem
               pc := .body_end i }
  | .scan_right i j e =>
    if j < e then
      match (s.rptr_ i).leaf_node_ with
      | none => { s with pc := .fault }
      | some p =>
        match p.node.get_entry_id j with
        | none => { s with pc := .fault }
        | some id => collide Q E top_k s id (.scan_right i (j + 1) e) (.advance_right i)
    else { s with pc := .advance_right i }
  | .advance_right i =>
    match update_right_buffer (Q.trees_ i) s.mem s.page_io_ (s.lptr_ i) (s.rptr_ i) with
    | none => { s with pc := .fault }
    | some a =>
      { s with rptr_ := Function.update s.rptr_ i a.buf
               page_io_ := a.page_io_
               mem := a.mem
               pc := .body_end i }
  | .body_end i =>
    if s.num_flag ≥ Q.m_ ∨ s.dist_io_ ≥ candidates E top_k then { s with pc := .for_exit }
    else { s with pc := .for_test (i + 1) }
  | .for_exit =>
    if s.num_flag ≥ Q.m_ ∨ s.dist_io_ ≥ candidates E top_k then { s with pc := .stop_test }
    else { s with pc := .while_test }
  | .stop_test =>
    if s.knn_dist < Q.appr_ratio_ * s.radius ∧ s.dist_io_ ≥ top_k then
      { delete_tree_ptr Q s with pc := .returned }
    else if s.dist_io_ ≥ candidates E top_k then
      { delete_tree_ptr Q s with pc := .returned }
    else
      match update_radius Q E s.radius s.q_val_ s.lptr_ s.rptr_ with
      | none => { s with pc := .fault }
      | some radius => { s with radius := radius, bucket := radius * Q.w_ / 2, pc := .round }
  | .returned => s
  | .fault => s

/-- The state after `n` steps. -/
def run (Q : Index) (E : Env) (top_k : Int) : Nat → State → State
  | 0, s => s
  | n + 1, s => run Q E top_k n (step Q E top_k s)

/-- The value `knn` returns (qalsh.cc 552), once it has returned. -/
def result (s : State) : Option Int :=
  if s.pc = .returned then some (s.page_io_ + s.dist_io_) else none

/-- The states of one call `knn(top_k, query, data_folder, list)`: those the
main loop passes through after the preamble. -/
def Reachable (Q : Index) (E : Env) (top_k : Int) (query : Int → ℚ) (list : MinK_List)
    (fuel : Nat) (old : State) (s : State) : Prop :=
  ∃ s0 n, knn_start Q E query list fuel old = .ok s0 ∧ s = run Q E top_k n s0

/-! ## Invariants of the main loop -/

/-- The candidate-budget invariant. -/
def BudgetInv (E : Env) (top_k : Int) (s : State) : Prop :=
  s.dist_io_ ≤ candidates E top_k ∧
  ((s.pc = .round ∨ s.pc = .while_test ∨ (∃ i, s.pc = .for_test i) ∨
    (∃ i j k, s.pc = .scan_left i j k) ∨ (∃ i j k, s.pc = .scan_right i j k)) →
    s.dist_io_ < candidates E top_k)

/-- Two states agree on what collision counting writes. -/
def SameEval (s t : State) : Prop :=
  t.freq_ = s.freq_ ∧ t.checked_ = s.checked_ ∧ t.trace = s.trace ∧ t.dist_io_ = s.dist_io_ ∧
  t.knn_dist = s.knn_dist ∧ t.list = s.list

/-- The program points inside the scan of a key-slot. -/
def PC.in_scan : PC → Bool
  | .scan_left _ _ _ => true
  | .scan_right _ _ _ => true
  | _ => false

/-- The id of an `insert` call. -/
def Call.inserted_id : Call → Option Int
  | .insert _ id => some id
  | _ => none

def Call.is_read : Call → Bool
  | .read_data_new_format _ => true
  | _ => false

def Call.is_calc : Call → Bool
  | .calc_lp_dist _ => true
  | _ => false

def Call.is_insert : Call → Bool
  | .insert _ _ => true
  | _ => false

/-- The ids passed to `list->insert`, in call order. -/
def inserted (tr : List Call) : List Int := tr.filterMap Call.inserted_id

/-- The number of entries of `checked_[0..n_pts_)` that are set. -/
def checked_count (Q : Index) (s : State) : Nat :=
  (List.range Q.n_pts_.toNat).countP (fun (i : Nat) => s.checked_ (Int.ofNat i))

/-- The invariant of collision counting. -/
structure EvalInv (Q : Index) (E : Env) (s : State) : Prop where
  mem_inserted : ∀ id, id ∈ inserted s.trace ↔ (0 ≤ id ∧ id < Q.n_pts_ ∧ s.checked_ id = true)
  nodup : (inserted s.trace).Nodup
  freq_gt : ∀ id, 0 ≤ id → id < Q.n_pts_ → s.checked_ id = true → Q.l_ < s.freq_ id
  freq_eq : 0 ≤ Q.l_ → ∀ id, 0 ≤ id → id < Q.n_pts_ →
    (s.checked_ id = true → s.freq_ id = Q.l_ + 1) ∧ (s.checked_ id = false → s.freq_ id ≤ Q.l_)
  reads : (s.trace.countP Call.is_read : Int) = s.dist_io_
  calcs : (s.trace.countP Call.is_calc : Int) = s.dist_io_
  inserts : (s.trace.countP Call.is_insert : Int) = s.dist_io_
  knn_dist_init : s.trace = [] → s.knn_dist = E.MAXREAL
  knn_dist_list : s.trace ≠ [] → s.knn_dist = s.list.max_key E
  bucket : s.bucket = Q.w_ * s.radius / 2

/-- The two stop conditions of `knn` (qalsh.cc 541-542). -/
def stop_condition (Q : Index) (E : Env) (top_k : Int) (s : State) : Prop :=
  (s.knn_dist < Q.appr_ratio_ * s.radius ∧ s.dist_io_ ≥ top_k) ∨ s.dist_io_ ≥ candidates E top_k

/-- `knn` has returned only with a stop condition satisfied. -/
def ReturnInv (Q : Index) (E : Env) (top_k : Int) (s : State) : Prop :=
  s.pc = .returned → stop_condition Q E top_k s

/-- What the body of the loop over `i` leaves behind when it processed the
left side: the left cursor of `i` advanced by `update_left_buffer`, nothing
else changed among the cursors. -/
def LeftDone (Q : Index) (i : Int) (s t : State) : Prop :=
  t.pc = .body_end i ∧ t.rptr_ = s.rptr_ ∧
  ∃ a, update_left_buffer (Q.trees_ i) s.mem s.page_io_ (s.rptr_ i) (s.lptr_ i) = some a ∧
    t.lptr_ = Function.update s.lptr_ i a.buf ∧ t.page_io_ = a.page_io_

/-- The mirror image of `LeftDone`. -/
def RightDone (Q : Index) (i : Int) (s t : State) : Prop :=
  t.pc = .body_end i ∧ t.lptr_ = s.lptr_ ∧
  ∃ a, update_right_buffer (Q.trees_ i) s.mem s.page_io_ (s.lptr_ i) (s.rptr_ i) = some a ∧
    t.rptr_ = Function.update s.rptr_ i a.buf ∧ t.page_io_ = a.page_io_

/-- A cursor differs from another at most by a cleared leaf pointer. -/
def Cleared (b c : PageBuffer) : Prop := c = b ∨ c = { b with leaf_node_ := none }

/-- A well-formed leaf: at least one entry per key-slot run, `num_keys =
ceil(num_entries / increment)`. -/
def BLeafNode.WF (n : BLeafNode) : Prop :=
  1 ≤ n.get_increment ∧ 1 ≤ n.get_num_entries ∧
  (n.get_num_keys - 1) * n.get_increment < n.get_num_entries ∧
  n.get_num_entries ≤ n.get_num_keys * n.get_increment

/-- Every block of the tree, read as a leaf, is well formed. -/
def BTree.WF (T : BTree) : Prop := ∀ b, (T.leaf_node b).WF

/-- The trees of all projections are well formed. -/
def Index.WF (Q : Index) : Prop := ∀ i, 0 ≤ i → i < Q.m_ → (Q.trees_ i).WF

/-- A cursor that points at a leaf points at a leaf of the tree, at one of its
key-slots, and has a positive size. -/
def CursorOK (T : BTree) (b : PageBuffer) : Prop :=
  ∀ p, b.leaf_node_ = some p →
    (∃ blk, p.node = T.leaf_node blk) ∧ 0 ≤ b.index_pos_ ∧ b.index_pos_ < p.node.get_num_keys ∧
      1 ≤ b.size_

/-- All cursors of the projections `0, ..., m_ - 1` are in order. -/
def CursorsOK (Q : Index) (s : State) : Prop :=
  ∀ i, 0 ≤ i → i < Q.m_ → CursorOK (Q.trees_ i) (s.lptr_ i) ∧ CursorOK (Q.trees_ i) (s.rptr_ i)

/-- An exhausted cursor: `size_ == -1` and `leaf_node_ == NULL`. -/
def Exhausted (b : PageBuffer) : Prop := b.size_ = -1 ∧ b.leaf_node_ = none

/-- The key of the key-slot a cursor is on, as `calc_dist` reads it. -/
def cursor_key (b : PageBuffer) : Option ℚ :=
  match b.leaf_node_ with
  | none => none
  | some p => p.node.get_key b.index_pos_

/-- The leaves of a tree are linked left to right with keys sorted ascending:
the keys of a leaf are sorted, those of its left sibling are not larger and
those of its right sibling are not smaller. -/
def BTree.Ordered (T : BTree) : Prop :=
  ∀ b, (T.leaf_node b).key_.Sorted (fun x y => x ≤ y) ∧
    (∀ c, (T.leaf_node b).left_sibling_ = some c →
      ∀ x ∈ (T.leaf_node c).key_, ∀ y ∈ (T.leaf_node b).key_, x ≤ y) ∧
    (∀ c, (T.leaf_node b).right_sibling_ = some c →
      ∀ x ∈ (T.leaf_node b).key_, ∀ y ∈ (T.leaf_node c).key_, x ≤ y)

/-- The trees of all projections are ordered. -/
def Index.Ordered (Q : Index) : Prop := ∀ i, 0 ≤ i → i < Q.m_ → (Q.trees_ i).Ordered

/-- The key of cursor `c`, if it has one, is at most that of cursor `b`. -/
def KeyLe (b c : PageBuffer) : Prop :=
  ∀ y, cursor_key c = some y → ∃ x, cursor_key b = some x ∧ y ≤ x

/-- The key of cursor `c`, if it has one, is at least that of cursor `b`. -/
def KeyGe (b c : PageBuffer) : Prop :=
  ∀ y, cursor_key c = some y → ∃ x, cursor_key b = some x ∧ x ≤ y

/-- An entry `knn` reads from a leaf: the projection, the id and the projected
distance `calc_dist` of the key-slot the entry lies in. -/
structure Emission where
  proj : Int
  id : Int
  slot_dist : ℚ
  deriving DecidableEq

/-- The entry that the next step reads from a leaf (qalsh.cc 495 and 515),
if the state is inside the scan of a key-slot. -/
def emitted (s : State) : Option Emission :=
  match s.pc with
  | .scan_left i j start =>
    if j > start then
      match (s.lptr_ i).leaf_node_ with
      | none => none
      | some p =>
        match p.node.get_entry_id j, calc_dist (s.q_val_ i) (s.lptr_ i) with
        | some id, some d => some ⟨i, id, d⟩
        | _, _ => none
    else none
  | .scan_right i j e =>
    if j < e then
      match (s.rptr_ i).leaf_node_ with
      | none => none
      | some p =>
        match p.node.get_entry_id j, calc_dist (s.q_val_ i) (s.rptr_ i) with
        | some id, some d => some ⟨i, id, d⟩
        | _, _ => none
    else none
  | _ => none

/-- The left cursor lies on a key `≤ q`, or on the first key-slot of the
leftmost leaf (from where it can only become exhausted). -/
def SideL (q : ℚ) (b : PageBuffer) : Prop :=
  ∀ p, b.leaf_node_ = some p →
    (∃ x, p.node.get_key b.index_pos_ = some x ∧ x ≤ q) ∨
    (b.index_pos_ ≤ 0 ∧ p.node.left_sibling_ = none)

/-- The right cursor lies on a key `≥ q`. -/
def SideR (q : ℚ) (b : PageBuffer) : Prop := ∀ x, cursor_key b = some x → q ≤ x

/-- The cursors of every projection lie on either side of the projected query
value. -/
def SidesOK (Q : Index) (s : State) : Prop :=
  ∀ i, 0 ≤ i → i < Q.m_ → SideL (s.q_val_ i) (s.lptr_ i) ∧ SideR (s.q_val_ i) (s.rptr_ i)

/-- Cursor `c`, if it is on a key-slot, is at least as far from `q` as `b`. -/
def DistLe (q : ℚ) (b c : PageBuffer) : Prop :=
  ∀ y, calc_dist q c = some y → ∃ x, calc_dist q b = some x ∧ x ≤ y

/-- While a key-slot of projection `i` is scanned, the scanned cursor is the
closer one. -/
def ScanInv (Q : Index) (s : State) : Prop :=
  ∀ i, 0 ≤ i → i < Q.m_ →
    ((∃ j k, s.pc = .scan_left i j k) → ∀ x y, calc_dist (s.q_val_ i) (s.lptr_ i) = some x →
      calc_dist (s.q_val_ i) (s.rptr_ i) = some y → x ≤ y) ∧
    ((∃ j k, s.pc = .scan_right i j k) → ∀ x y, calc_dist (s.q_val_ i) (s.lptr_ i) = some x →
      calc_dist (s.q_val_ i) (s.rptr_ i) = some y → y ≤ x)

/-- The claim C6 as it is stated, for the run of `knn` that starts in `s0` on
an index built over the data set `data`: the entries emitted for one
projection have non-decreasing projected distance `|key(entry) - q_val_[i]|`,
where the key of the entry `id` of projection `i` is the hash value
`calc_hash_value(i, data[id])` that `bulkload` sorts by (qalsh.cc 257). -/
def EntryOrder (Q : Index) (E : Env) (top_k : Int) (data : Int → Int → ℚ) (s0 : State) : Prop :=
  ∀ (n m : Nat) (e1 e2 : Emission), emitted (run Q E top_k n s0) = some e1 →
    emitted (run Q E top_k (n + m) s0) = some e2 → e2.proj = e1.proj →
    fabs (calc_hash_value Q e1.proj (data e1.id) - s0.q_val_ e1.proj) ≤
      fabs (calc_hash_value Q e2.proj (data e2.id) - s0.q_val_ e2.proj)

/-- The value of `dist` that `update_radius` derives from the sorted list
`list` of projected distances (qalsh.cc 811-819). -/
def median_dist (list : List ℚ) : ℚ :=
  let num := list.length
  if num % 2 = 0 then (list.getD (num / 2 - 1) 0 + list.getD (num / 2) 0) / 2
  else list.getD (num / 2) 0

/-- The lower of the two middle elements of a sorted list of even length,
the middle element of one of odd length. -/
def lower_median (list : List ℚ) : ℚ := list.getD ((list.length - 1) / 2) 0

/-- The claim C16 as it is stated, for one call of `update_radius`: the radius
is derived from the lower median of the sorted projected distances. -/
def LowerMedian (Q : Index) (E : Env) (old_radius : ℚ) (q_val : Int → ℚ)
    (lptr rptr : Int → PageBuffer) : Prop :=
  ∀ dists, dist_list q_val lptr rptr Q.m_.toNat 0 = some dists → dists ≠ [] →
    update_radius Q E old_radius q_val lptr rptr =
      some (E.pow_ceil_log
        (2 * lower_median (dists.insertionSort (fun a b => a ≤ b)) / Q.w_))

/-- The blocks that hold index nodes: the root of a multi-level tree
(`root_ > 1`) and the children of the index nodes above level 1. -/
inductive BTree.IsIndex (T : BTree) : Int → Prop where
  | root : T.root_ > 1 → T.IsIndex T.root_
  | son (b c : Int) : T.IsIndex b → (T.index_node b).get_level > 1 →
      c ∈ (T.index_node b).son_ → T.IsIndex c

/-- Well-formed index nodes: levels count down to 1 from parent to child, every
node has at least one child and one key per child. -/
def BTree.IndexWF (T : BTree) : Prop :=
  ∀ b, T.IsIndex b →
    1 ≤ (T.index_node b).get_level ∧ (T.index_node b).son_ ≠ [] ∧
    (T.index_node b).key_.length = (T.index_node b).son_.length ∧
    ((T.index_node b).get_level > 1 →
      ∀ c ∈ (T.index_node b).son_, (T.index_node c).get_level = (T.index_node b).get_level - 1)

/-- The block of the leftmost leaf below the index node in `block`: follow the
first child down to level 1 (at most `fuel` nodes). -/
def leftmost (T : BTree) : Nat → Int → Option Int
  | 0, _ => none
  | fuel + 1, block =>
    match (T.index_node block).get_son 0 with
    | none => none
    | some c => if (T.index_node block).get_level > 1 then leftmost T fuel c else some c

/-- The number of tree nodes the preamble loads for one projection, given the
cursors it leaves behind: the index nodes from the root down to level 1 (none
in a leaf-only tree), the leaf of the descent, and the right sibling of that
leaf if the right cursor starts there. -/
def loads (T : BTree) (lptr rptr : PageBuffer) : Int :=
  (if T.root_ > 1 then (T.index_node T.root_).get_level else 0) + 1 +
    (if lptr.ptr ≠ none ∧ rptr.ptr ≠ none ∧ rptr.ptr ≠ lptr.ptr then 1 else 0)

/-- What the blocks "init left buffer" and "init right buffer" of
`init_search_params` (qalsh.cc 668-720 and 728-768) leave behind for the leaf
loaded from `blk`: the left cursor on the slot of `q`, and the right cursor on
the next slot of the same leaf, on the first slot of the right sibling (only
in a multi-level tree, `sib = true`), or exhausted. -/
def FromLeaf (T : BTree) (q : ℚ) (mem : Mem) (blk : Int) (io : Int) (sib : Bool)
    (r : TreeInit) : Prop :=
  r.lptr = (init_left_buffer (mem.new_leaf T blk).1 q).2 ∧
  (((init_left_buffer (mem.new_leaf T blk).1 q).1 < (T.leaf_node blk).get_num_keys - 1 ∧
      r.rptr = init_right_same_leaf (mem.new_leaf T blk).1
        (init_left_buffer (mem.new_leaf T blk).1 q).1 ∧
      r.page_io_ = io + 1 ∧ r.mem = ⟨mem.next + 1, mem.freed⟩) ∨
   (¬ (init_left_buffer (mem.new_leaf T blk).1 q).1 < (T.leaf_node blk).get_num_keys - 1 ∧
      sib = true ∧ ∃ c, (T.leaf_node blk).right_sibling_ = some c ∧
      r.rptr = init_right_first_slot ⟨mem.next + 1, T.leaf_node c⟩ ∧
      r.page_io_ = io + 2 ∧ r.mem = ⟨mem.next + 2, mem.freed⟩) ∨
   (¬ (init_left_buffer (mem.new_leaf T blk).1 q).1 < (T.leaf_node blk).get_num_keys - 1 ∧
      (sib = true → (T.leaf_node blk).right_sibling_ = none) ∧
      r.rptr = PageBuffer.null ∧ r.page_io_ = io + 1 ∧ r.mem = ⟨mem.next + 1, mem.freed⟩))

/-- Cursor `j` of the state pins the leaf object at address `a`. -/
def Pins (s : State) (j : Int) (a : Nat) : Prop :=
  (s.lptr_ j).ptr = some a ∨ (s.rptr_ j).ptr = some a

/-- The number of index nodes on the path from the root to level 1 (none in a
leaf-only tree). -/
def index_levels (T : BTree) : Int :=
  if T.root_ > 1 then (T.index_node T.root_).get_level else 0

/-- The block of the first (leftmost) leaf of a tree: the root of a leaf-only
tree, else the leaf `leftmost` reaches from the root. -/
def first_leaf (T : BTree) (fuel : Nat) : Option Int :=
  if T.root_ > 1 then leftmost T fuel T.root_ else some T.root_

/-- The claim C11 as it is stated, for one call of `init_search_params`: a
projected query value smaller than every key of tree `i` leaves the left
cursor exhausted and puts the right cursor on key-slot 0, entry 0 of the first
leaf. -/
def SmallestKey (Q : Index) (query : Int → ℚ) (fuel : Nat) (old : State) : Prop :=
  ∀ s i, init_search_params Q query fuel old = .ok s → 0 ≤ i → i < Q.m_ →
    (∀ b, ∀ k ∈ ((Q.trees_ i).leaf_node b).key_, s.q_val_ i < k) →
    (∀ b, ∀ k ∈ ((Q.trees_ i).index_node b).key_, s.q_val_ i < k) →
    Exhausted (s.lptr_ i) ∧
    ∃ blk p, first_leaf (Q.trees_ i) fuel = some blk ∧ (s.rptr_ i).leaf_node_ = some p ∧
      p.node = (Q.trees_ i).leaf_node blk ∧ (s.rptr_ i).index_pos_ = 0 ∧
      (s.rptr_ i).leaf_pos_ = 0

/-- The first leaf below the child `c` of the index node `n`: `c` itself if
`n` is at level 1, else the first leaf below the index node in `c`. -/
def child_first (first : Int → Int) (n : BIndexNode) (c : Int) : Int :=
  if n.get_level > 1 then first c else c

/-- The last leaf below the child `c` of the index node `n`. -/
def child_last (last : Int → Int) (n : BIndexNode) (c : Int) : Int :=
  if n.get_level > 1 then last c else c

/-- The routing structure of a B+-tree as `bulkload` builds it, with `first b`
and `last b` the first and the last leaf below the index node in block `b`:
every index key equals the first key of its child, and the leaves below
consecutive children are linked by the sibling pointers. -/
def BTree.Routed (T : BTree) (first last : Int → Int) : Prop :=
  ∀ b, T.IsIndex b →
    (∀ j k c, arr_get (T.index_node b).key_ j = some k → (T.index_node b).get_son j = some c →
      if (T.index_node b).get_level > 1 then arr_get (T.index_node c).key_ 0 = some k
      else (T.leaf_node c).get_key 0 = some k) ∧
    (∀ c, (T.index_node b).get_son 0 = some c → first b = child_first first (T.index_node b) c) ∧
    (∀ c, (T.index_node b).get_son ((T.index_node b).son_.length - 1) = some c →
      last b = child_last last (T.index_node b) c) ∧
    (∀ j c d, (T.index_node b).get_son j = some c → (T.index_node b).get_son (j + 1) = some d →
      (T.leaf_node (child_last last (T.index_node b) c)).right_sibling_ =
        some (child_first first (T.index_node b) d))

/-- Every leaf to the right of leaf `blk` starts with a key `> q`: stated for
the right sibling, the first of them. -/
def UpperBound (T : BTree) (q : ℚ) (blk : Int) : Prop :=
  ∀ d, (T.leaf_node blk).right_sibling_ = some d →
    ∃ k, (T.leaf_node d).get_key 0 = some k ∧ q < k

/-- The first leaf of a routed tree. -/
def Routed_first (T : BTree) (first : Int → Int) : Int :=
  if T.root_ > 1 then first T.root_ else T.root_

/-- The last leaf of a routed tree. -/
def Routed_last (T : BTree) (last : Int → Int) : Int :=
  if T.root_ > 1 then last T.root_ else T.root_

/-- The loop variable `i` of a program point inside the loop over the
projections is a projection index. -/
def PcRange (Q : Index) (pc : PC) : Prop :=
  match pc with
  | .for_test i => 0 ≤ i
  | .scan_left i _ _ => 0 ≤ i ∧ i < Q.m_
  | .advance_left i => 0 ≤ i ∧ i < Q.m_
  | .scan_right i _ _ => 0 ≤ i ∧ i < Q.m_
  | .advance_right i => 0 ≤ i ∧ i < Q.m_
  | .body_end i => 0 ≤ i ∧ i < Q.m_
  | _ => True

/-- The ownership invariant of the leaf objects allocated since address `lo`,
while `knn` runs: the cursors of the projections pin live objects, every
object is pinned or was deleted exactly once, and the cursors of different
projections pin different objects. -/
structure MemInv (Q : Index) (lo : Nat) (s : State) : Prop where
  freed_lt : ∀ a ∈ s.mem.freed, a < s.mem.next
  pin_range : ∀ j a, 0 ≤ j → j < Q.m_ → Pins s j a →
    lo ≤ a ∧ a < s.mem.next ∧ s.mem.freed.count a = 0
  alloc : ∀ a, lo ≤ a → a < s.mem.next →
    (∃ j, 0 ≤ j ∧ j < Q.m_ ∧ Pins s j a) ∨ s.mem.freed.count a = 1
  disjoint : ∀ j k a, 0 ≤ j → j < Q.m_ → 0 ≤ k → k < Q.m_ → Pins s j a → Pins s k a → j = k

/-- Every leaf object allocated since address `lo` was deleted exactly once. -/
def Released (lo : Nat) (s : State) : Prop :=
  ∀ a, lo ≤ a → a < s.mem.next → s.mem.freed.count a = 1

/-- The invariant of the allocation state along a call of `knn`. -/
def OwnerInv (Q : Index) (lo : Nat) (s : State) : Prop :=
  (s.pc ≠ .returned → MemInv Q lo s ∧ PcRange Q s.pc) ∧ (s.pc = .returned → Released lo s)

/-- Modelled from the spec: the probability kernel of the stable-distribution
sampler (`new_levy_prob`, `new_gaussian_prob` and `new_stable_prob` are not
among the sources): `Pr[|X| < x]` for the Levy, the Gaussian and the general
p-stable distribution with parameters `(p, zeta)`, as exact functions of `x`. -/
structure Kernel where
  new_levy_prob : ℝ → ℝ
  new_gaussian_prob : ℝ → ℝ
  stable_cdf : ℝ → ℝ → ℝ → ℝ

/-- Modelled from the spec: `new_cauchy_prob` (not among the sources),
`2 * atan(x) / pi`. -/
noncomputable def new_cauchy_prob (x : ℝ) : ℝ := 2 * Real.arctan x / Real.pi

/-- Modelled from the spec: `new_stable_prob(p, zeta, ratio, radius, w, ...)`
(not among the sources), the pair `(p1, p2)` with `p_j = Pr[|X| < w / (2 r_j)]`
for `r_1 = radius` and `r_2 = ratio * radius`, taken exactly. -/
noncomputable def new_stable_prob (K : Kernel) (p zeta ratio radius w : ℝ) : ℝ × ℝ :=
  (K.stable_cdf p zeta (w / (2 * radius)), K.stable_cdf p zeta (w / (2 * ratio * radius)))

/-- `QALSH::calc_l0_prob` (qalsh.cc 178-182). -/
def calc_l0_prob (K : Kernel) (x : ℝ) : ℝ := K.new_levy_prob x

/-- `QALSH::calc_l1_prob` (qalsh.cc 185-189). -/
noncomputable def calc_l1_prob (x : ℝ) : ℝ := new_cauchy_prob x

/-- `QALSH::calc_l2_prob` (qalsh.cc 192-196). -/
def calc_l2_prob (K : Kernel) (x : ℝ) : ℝ := K.new_gaussian_prob x

/-- The members `calc_params` assigns. -/
structure Params where
  w_ : ℝ
  p1_ : ℝ
  p2_ : ℝ
  alpha_ : ℝ
  beta_ : ℝ
  delta_ : ℝ
  m_ : Int
  l_ : Int

/-- The choice of `w_`, `p1_` and `p2_` in `QALSH::calc_params` (qalsh.cc
122-156) over the reals. `FLOATZERO` is a constant the sources do not
define. -/
noncomputable def calc_width (K : Kernel) (FLOATZERO : ℝ) (p_ zeta_ appr_ratio_ : ℝ) :
    ℝ × ℝ × ℝ :=
  let w0 := (appr_ratio_ - 1) / Real.log (Real.sqrt appr_ratio_)
  let w1 := 2 * Real.sqrt appr_ratio_
  let w2 := Real.sqrt ((8 * appr_ratio_ * appr_ratio_ * Real.log appr_ratio_) /
    (appr_ratio_ * appr_ratio_ - 1))
  if |p_ - 1 / 2| < FLOATZERO then
    (w0, calc_l0_prob K (w0 / 2), calc_l0_prob K (w0 / (2 * appr_ratio_)))
  else if |p_ - 1| < FLOATZERO then
    (w1, calc_l1_prob (w1 / 2), calc_l1_prob (w1 / (2 * appr_ratio_)))
  else if |p_ - 2| < FLOATZERO then
    (w2, calc_l2_prob K (w2 / 2), calc_l2_prob K (w2 / (2 * appr_ratio_)))
  else
    let w : ℝ :=
      if |p_ - 8 / 10| < FLOATZERO then 2503 / 1000
      else if |p_ - 12 / 10| < FLOATZERO then 3151 / 1000
      else if |p_ - 15 / 10| < FLOATZERO then 3465 / 1000
      else (w2 - w1) * p_ + (2 * w1 - w2)
    let pr := new_stable_prob K p_ zeta_ appr_ratio_ 1 w
    (w, pr.1, pr.2)

/-- `QALSH::calc_params` (qalsh.cc 109-166) over the reals; `E` is Euler's
number, `CANDIDATES` a constant the sources do not define. -/
noncomputable def calc_params (K : Kernel) (FLOATZERO : ℝ) (CANDIDATES n_pts_ : Int)
    (p_ zeta_ appr_ratio_ : ℝ) : Params :=
  let delta_ := 1 / Real.exp 1
  let beta_ := (CANDIDATES : ℝ) / (n_pts_ : ℝ)
  let wp := calc_width K FLOATZERO p_ zeta_ appr_ratio_
  let p1_ := wp.2.1
  let p2_ := wp.2.2
  let para1 := Real.sqrt (Real.log (2 / beta_))
  let para2 := Real.sqrt (Real.log (1 / delta_))
  let para3 := 2 * (p1_ - p2_) * (p1_ - p2_)
  let eta := para1 / para2
  let alpha_ := (eta * p1_ + p2_) / (1 + eta)
  let m_ : Int := ⌈(para1 + para2) * (para1 + para2) / para3⌉
  let l_ : Int := ⌈alpha_ * (m_ : ℝ)⌉
  ⟨wp.1, p1_, p2_, alpha_, beta_, delta_, m_, l_⟩

/-- The probability functions of the kernel are strictly increasing on the
positive reals, as the distribution functions of `|X|` are. -/
def Kernel.Increasing (K : Kernel) : Prop :=
  StrictMonoOn K.new_levy_prob (Set.Ioi 0) ∧ StrictMonoOn K.new_gaussian_prob (Set.Ioi 0) ∧
  ∀ p zeta, StrictMonoOn (K.stable_cdf p zeta) (Set.Ioi 0)

/-- `struct HashValue` of qalsh.cpp: an object id and its projection. -/
structure HashValue where
  id_ : Int
  proj_ : ℚ
  deriving DecidableEq

/-- `HashValueQsortComp` (qalsh.cpp 1051-1067). -/
def HashValueQsortComp (value1 value2 : HashValue) : Int :=
  if value1.proj_ < value2.proj_ then -1
  else if value1.proj_ > value2.proj_ then 1
  else if value1.id_ < value2.id_ then -1
  else if value1.id_ > value2.id_ then 1
  else 0

/-- The library function `qsort(base, n, size, compar)`: the array in ascending
order of `compar`. The order of elements that compare equal is unspecified by
the C standard; insertion sort fixes one. -/
def qsort {α : Type} (compar : α → α → Int) (base : List α) : List α :=
  base.insertionSort (fun a b => compar a b ≤ 0)

/-- The loop that fills `hashtable` for tree `i` in `QALSH::bulkload`
(qalsh.cpp 244-247); `data j` is the `j`-th data object. `calc_hash_value` of
qalsh.cpp (324-333) has the statements of the one of qalsh.cc. -/
def hashtable (Q : Index) (data : Int → Int → ℚ) (i : Int) : List HashValue :=
  (List.range Q.n_pts_.toNat).map
    (fun (j : Nat) => ⟨(j : Int), calc_hash_value Q i (data (j : Int))⟩)

/-- The array `QALSH::bulkload` hands to `bt->bulkload` for tree `i`
(qalsh.cpp 250-256). -/
def bulkload_table (Q : Index) (data : Int → Int → ℚ) (i : Int) : List HashValue :=
  qsort HashValueQsortComp (hashtable Q data i)

/-- The strict lexicographic order on `(proj_, id_)`. -/
def LexLt (a b : HashValue) : Prop :=
  a.proj_ < b.proj_ ∨ (a.proj_ = b.proj_ ∧ a.id_ < b.id_)

instance decidableLexLt (a b : HashValue) : Decidable (LexLt a b) := by
  unfold LexLt
  exact inferInstance

/-- The C division `x / y` on `float`. With a zero divisor IEEE arithmetic
yields NaN (for `0 / 0`) or an infinity, which no later addition or division
turns into a number again; the model has no value there. -/
def fdiv (x y : ℚ) : Option ℚ := if y = 0 then none else some (x / y)

/-- The loop `for (int j = 0; j < top_k; ++j) ratio += list->ith_key(j) /
R[i][j];` of `lshknn` (ann.cc 266-269) and of `linear_scan` (ann.cc 387-390):
`count` iterations from rank `j` on, `ith_key j` being what `list->ith_key(j)`
returns and `R` the row `R[i]` of the ground truth. -/
def ratio_loop (ith_key R : Int → ℚ) : Nat → Int → Option ℚ → Option ℚ
  | 0, _, ratio => ratio
  | count + 1, j, ratio =>
    ratio_loop ith_key R count (j + 1)
      (match ratio, fdiv (ith_key j) (R j) with
       | some r, some q => some (r + q)
       | _, _ => none)

/-- The value `ratio / top_k` that one query adds to `overall_ratio`
(ann.cc 266-270 and 387-391). -/
def query_ratio (top_k : Int) (ith_key R : Int → ℚ) : Option ℚ :=
  match ratio_loop ith_key R top_k.toNat 0 (some 0) with
  | some ratio => fdiv ratio top_k
  | none => none

/-- A C `float` as `fprintf` and `fscanf` see it: the sign bit and the
magnitude, a rational number. The sign bit keeps `-0.0` apart from `0.0`,
which `%f` prints differently. The values a `float` member can hold are the
finite binary32 numbers (`CFloat.IsFloat32`); infinities and NaN have no
value in the model. -/
structure CFloat where
  neg : Bool
  mag : ℚ
  deriving DecidableEq

/-- The character of a decimal digit. -/
def digit_char (d : Nat) : Char := Char.ofNat (48 + d)

/-- The decimal numeral of a natural number, most significant digit first. -/
def put_nat (n : Nat) : List Char :=
  if n = 0 then ['0'] else (Nat.digits 10 n).reverse.map digit_char

/-- What `fprintf` writes for `%d`. -/
def put_int (i : Int) : List Char :=
  if i < 0 then '-' :: put_nat i.natAbs else put_nat i.natAbs

/-- The magnitude in units of `10^-6`, rounded to the nearest unit, ties to
even (the rounding of `%f`, whose default precision is 6). -/
def round6 (x : ℚ) : Nat :=
  let y := x * 1000000
  let f := ⌊y⌋
  let d := y - f
  let r := if d < 1 / 2 then f else if 1 / 2 < d then f + 1 else if f % 2 = 0 then f else f + 1
  r.toNat

/-- Six decimal digits, leading zeros included. -/
def frac6 (k : Nat) : List Char :=
  [k / 100000 % 10, k / 10000 % 10, k / 1000 % 10, k / 100 % 10, k / 10 % 10, k % 10].map
    digit_char

/-- What `fprintf` writes for `%f`: sign, integer part, point, six decimals. -/
def put_float (x : CFloat) : List Char :=
  (if x.neg then ['-'] else []) ++ put_nat (round6 x.mag / 1000000) ++
    '.' :: frac6 (round6 x.mag % 1000000)

/-- The value of the numeral that `%f` of `printf` writes: the magnitude
rounded to six decimals. -/
def CFloat.round (x : CFloat) : CFloat := ⟨x.neg, (round6 x.mag : ℚ) / 1000000⟩

/-- Rounding to the nearest integer, ties to even. -/
def round_even (y : ℚ) : Int :=
  let f := ⌊y⌋
  let d := y - f
  if d < 1 / 2 then f else if 1 / 2 < d then f + 1 else if f % 2 = 0 then f else f + 1

/-- The binary32 number nearest to the magnitude `x` (IEEE 754 rounding to
nearest, ties to even): a multiple of the quantum `2^(e - 23)` of the binade
`2^e <= x < 2^(e + 1)`, that is 24 significant bits, with `e >= -126`, so
that below `2^-126` the quantum is `2^-149` (subnormal numbers). The result is
a `float` unless it exceeds `FLT_MAX`. -/
def fl32 (x : ℚ) : ℚ :=
  let q : ℚ := 2 ^ (max (Int.log 2 x) (-126) - 23)
  (round_even (x / q) : ℚ) * q

/-- The largest finite `float`, `(2^24 - 1) * 2^104`. -/
def FLT_MAX : ℚ := 16777215 * 2 ^ 104

/-- A finite `float`: a sign and a magnitude that is a binary32 number. -/
def CFloat.IsFloat32 (x : CFloat) : Prop := 0 ≤ x.mag ∧ fl32 x.mag = x.mag ∧ x.mag ≤ FLT_MAX

instance decidableIsFloat32 (x : CFloat) : Decidable x.IsFloat32 := by
  unfold CFloat.IsFloat32
  exact inferInstance

/-- The `float` that the library stores for a decimal numeral (as `strtof`
does): the nearest binary32 number, ties to even. A numeral beyond the range
of `float` yields an infinity, for which the model has no value (`none`). -/
def to_float (x : CFloat) : Option CFloat :=
  if fl32 x.mag ≤ FLT_MAX then some ⟨x.neg, fl32 x.mag⟩ else none

/-- The value a `float` has after it was written with `%f` and read back with
`%f`: the float nearest to the numeral with six decimals. -/
def CFloat.reload (x : CFloat) : CFloat := ⟨x.neg, fl32 ((round6 x.mag : ℚ) / 1000000)⟩

/-- The values of a C `int` (32 bits). -/
def IsInt32 (v : Int) : Prop := -2147483648 ≤ v ∧ v < 2147483648

instance decidableIsInt32 (v : Int) : Decidable (IsInt32 v) := by
  unfold IsInt32
  exact inferInstance

/-- The `int` that `%d` of `scanf` stores for a numeral of value `v`: the
library converts the digits with `strtol` to a `long` of 64 bits, which
saturates, and stores the low 32 bits of it. (For a `v` that is no `int` the
C standard leaves the behaviour undefined; this is what the library does.) -/
def store_int (v : Int) : Int :=
  (max (-9223372036854775808) (min v 9223372036854775807) + 2147483648) % 4294967296 -
    2147483648

/-- The library predicate `isspace`. -/
def is_space (c : Char) : Bool :=
  c = ' ' || c = '\n' || c = '\t' || c = '\r' || c = Char.ofNat 11 || c = Char.ofNat 12

/-- The library predicate `isdigit`. -/
def is_digit (c : Char) : Bool := decide ('0' ≤ c ∧ c ≤ '9')

/-- The number a run of digits denotes. -/
def digits_val (ds : List Char) : Nat := ds.foldl (fun a c => 10 * a + (c.toNat - 48)) 0

/-- A white-space directive of a `scanf` format: skip any white space. -/
def skip_ws (t : List Char) : List Char := t.dropWhile is_space

/-- The ordinary characters of a `scanf` format: each must equal the next
input character. The flag tells whether all matched; the text is the input
left, from the first mismatch on. -/
def match_lit : List Char → List Char → Bool × List Char
  | [], t => (true, t)
  | _ :: _, [] => (false, [])
  | c :: cs, x :: t => if x = c then match_lit cs t else (false, x :: t)

/-- The optional sign of a number. -/
def scan_sign (t : List Char) : Bool × List Char :=
  match t with
  | '-' :: r => (true, r)
  | '+' :: r => (false, r)
  | _ => (false, t)

/-- The conversion `%d` of `scanf`: white space, an optional sign, a non-empty
run of digits; `none` is a matching or input failure (nothing is assigned). -/
def conv_int (t : List Char) : Option Int × List Char :=
  let r := scan_sign (skip_ws t)
  let ds := r.2.takeWhile is_digit
  if ds = [] then (none, r.2)
  else (some (store_int (if r.1 then -(digits_val ds : Int) else (digits_val ds : Int))),
    r.2.dropWhile is_digit)

/-- The plain decimal numeral that `%f` of `scanf` matches (white space, an
optional sign, digits, optionally a point and digits) with its exact value;
`none` is a matching or input failure. The exponent, hexadecimal, `inf` and
`nan` forms that the library also accepts are never written by `%f` for a
finite number and are not read here. -/
def scan_numeral (t : List Char) : Option CFloat × List Char :=
  let r := scan_sign (skip_ws t)
  let ip := r.2.takeWhile is_digit
  let r1 := r.2.dropWhile is_digit
  let fr : List Char × List Char :=
    match r1 with
    | '.' :: r2 => (r2.takeWhile is_digit, r2.dropWhile is_digit)
    | _ => ([], r1)
  if ip = [] ∧ fr.1 = [] then (none, r1)
  else (some ⟨r.1, (digits_val ip : ℚ) + (digits_val fr.1 : ℚ) / 10 ^ fr.1.length⟩, fr.2)

/-- The conversion `%f` of `scanf` into a `float`. -/
def conv_float (t : List Char) : Option CFloat × List Char :=
  let r := scan_numeral t
  (r.1.bind to_float, r.2)

/-- The members of `class QALSH` that the parameter file stores, and the
index path. -/
structure ParaState where
  n_pts_ : Int
  dim_ : Int
  B_ : Int
  appr_ratio_ : CFloat
  w_ : CFloat
  p1_ : CFloat
  p2_ : CFloat
  p_ : CFloat
  alpha_ : CFloat
  beta_ : CFloat
  delta_ : CFloat
  zeta_ : CFloat
  m_ : Int
  l_ : Int
  a_array_ : Int → CFloat
  index_path_ : String

/-- The members hold values of their C types: every `int` is a 32-bit integer
and every `float`, the elements of `a_array_[0 .. m_ * dim_)` included, is a
finite binary32 number. -/
def ParaState.Typed (S : ParaState) : Prop :=
  IsInt32 S.n_pts_ ∧ IsInt32 S.dim_ ∧ IsInt32 S.B_ ∧ IsInt32 S.m_ ∧ IsInt32 S.l_ ∧
  S.appr_ratio_.IsFloat32 ∧ S.w_.IsFloat32 ∧ S.p1_.IsFloat32 ∧ S.p2_.IsFloat32 ∧
  S.p_.IsFloat32 ∧ S.alpha_.IsFloat32 ∧ S.beta_.IsFloat32 ∧ S.delta_.IsFloat32 ∧
  S.zeta_.IsFloat32 ∧ ∀ k, 0 ≤ k → k < S.m_ * S.dim_ → (S.a_array_ k).IsFloat32

/-- The files `fopen(name, "r")` can open, with their content, and the names
`fopen(name, "w")` can create. -/
structure FileSys where
  file : String → Option (List Char)
  can_create : String → Bool

/-- How a call ends: it returns a status, or the process ends in `exit`. -/
inductive Outcome where
  | returned (status : Int)
  | exited (code : Int)
  deriving DecidableEq

/-- How `read_params` and `load` end: they return a status, or they are left
by the exception that a `new` expression with a negative array size throws (no
status reaches the caller), or the behaviour is undefined (the product `m_ *
dim_` overflows). -/
inductive LoadEnd where
  | returned (status : Int)
  | thrown
  | undefined
  deriving DecidableEq

/-- The call `fprintf(fp, "<name> = %d\n", v)`. -/
def fprintf_d (name : String) (v : Int) : List Char :=
  name.toList ++ (' ' :: '=' :: ' ' :: (put_int v ++ ['\n']))

/-- The call `fprintf(fp, "<name> = %f\n", x)`. -/
def fprintf_f (name : String) (x : CFloat) : List Char :=
  name.toList ++ (' ' :: '=' :: ' ' :: (put_float x ++ ['\n']))

/-- The loop `for (int j = 1; j < dim_; ++j) fprintf(fp, " %f",
a_array_[count++]);` of `write_params` (qalsh.cc 319-321), `k` iterations. -/
def row_tail (a : Int → CFloat) : Nat → Int → List Char
  | 0, _ => []
  | k + 1, count => ' ' :: (put_float (a count) ++ row_tail a k (count + 1))

/-- The loop over the rows of `a_array_` in `write_params` (qalsh.cc 317-323),
`i` iterations from element `count` on. The first element of a row is written
whatever `dim_` is. -/
def rows (a : Int → CFloat) (dim_ : Int) : Nat → Int → List Char
  | 0, _ => []
  | i + 1, count =>
    put_float (a count) ++ (row_tail a (dim_ - 1).toNat (count + 1) ++
      '\n' :: rows a dim_ i (count + 1 + ((dim_ - 1).toNat : Int)))

/-- The fourteen lines before the rows of `a_array_` that `write_params`
writes (qalsh.cc 298-314), followed by `rest`. -/
def para_header (S : ParaState) (rest : List Char) : List Char :=
  fprintf_d "n" S.n_pts_ ++ (fprintf_d "d" S.dim_ ++ (fprintf_d "B" S.B_ ++
  (fprintf_f "ratio" S.appr_ratio_ ++ (fprintf_f "w" S.w_ ++ (fprintf_f "p1" S.p1_ ++
  (fprintf_f "p2" S.p2_ ++ (fprintf_f "p" S.p_ ++ (fprintf_f "alpha" S.alpha_ ++
  (fprintf_f "beta" S.beta_ ++ (fprintf_f "delta" S.delta_ ++ (fprintf_f "zeta" S.zeta_ ++
  (fprintf_d "m" S.m_ ++ (fprintf_d "l" S.l_ ++ rest)))))))))))))

/-- What `write_params` writes into the file (qalsh.cc 298-323). -/
def para_text (S : ParaState) : List Char :=
  para_header S (rows S.a_array_ S.dim_ S.m_.toNat 0)

/-- `QALSH::write_params` (qalsh.cc 279-327). -/
def write_params (S : ParaState) (fs : FileSys) : Outcome × FileSys :=
  let fname := S.index_path_ ++ "para"
  match fs.file fname with
  | some _ => (.exited 1, fs)
  | none =>
    if !fs.can_create fname then (.returned 1, fs)
    else (.returned 0, { fs with file := Function.update fs.file fname (some (para_text S)) })

/-- The call `fscanf(fp, "<name> = %d\n", &var)`: the new value of `var` and
the text left. -/
def fscanf_d (name : String) (var : Int) (t : List Char) : Int × List Char :=
  let a := match_lit name.toList t
  if !a.1 then (var, a.2)
  else
    let b := match_lit ['='] (skip_ws a.2)
    if !b.1 then (var, b.2)
    else
      let c := conv_int (skip_ws b.2)
      match c.1 with
      | none => (var, c.2)
      | some v => (v, skip_ws c.2)

/-- The call `fscanf(fp, "<name> = %f\n", &var)`. -/
def fscanf_f (name : String) (var : CFloat) (t : List Char) : CFloat × List Char :=
  let a := match_lit name.toList t
  if !a.1 then (var, a.2)
  else
    let b := match_lit ['='] (skip_ws a.2)
    if !b.1 then (var, b.2)
    else
      let c := conv_float (skip_ws b.2)
      match c.1 with
      | none => (var, c.2)
      | some v => (v, skip_ws c.2)

/-- The loop `for (int j = 0; j < dim_; ++j) fscanf(fp, "%f",
&a_array_[count++]);` of `read_params` (qalsh.cc 412-414), `k` iterations. -/
def read_row : Nat → (Int → CFloat) → Int → List Char → (Int → CFloat) × Int × List Char
  | 0, a, count, t => (a, count, t)
  | k + 1, a, count, t =>
    let c := conv_float t
    let a1 := match c.1 with
      | some v => Function.update a count v
      | none => a
    read_row k a1 (count + 1) c.2

/-- The loop over the rows in `read_params` (qalsh.cc 411-416), `i`
iterations; each row ends with `fscanf(fp, "\n")`. -/
def read_rows (dim_ : Int) :
    Nat → (Int → CFloat) → Int → List Char → (Int → CFloat) × Int × List Char
  | 0, a, count, t => (a, count, t)
  | i + 1, a, count, t =>
    let r := read_row dim_.toNat a count t
    read_rows dim_ i r.1 r.2.1 (skip_ws r.2.2)

/-- The fourteen `fscanf` calls of `read_params` before the rows (qalsh.cc
391-407): the members afterwards and the text left. -/
def read_header (S : ParaState) (t0 : List Char) : ParaState × List Char :=
  let n := fscanf_d "n" S.n_pts_ t0
  let d := fscanf_d "d" S.dim_ n.2
  let B := fscanf_d "B" S.B_ d.2
  let ratio := fscanf_f "ratio" S.appr_ratio_ B.2
  let w := fscanf_f "w" S.w_ ratio.2
  let p1 := fscanf_f "p1" S.p1_ w.2
  let p2 := fscanf_f "p2" S.p2_ p1.2
  let p := fscanf_f "p" S.p_ p2.2
  let alpha := fscanf_f "alpha" S.alpha_ p.2
  let beta := fscanf_f "beta" S.beta_ alpha.2
  let delta := fscanf_f "delta" S.delta_ beta.2
  let zeta := fscanf_f "zeta" S.zeta_ delta.2
  let m := fscanf_d "m" S.m_ zeta.2
  let l := fscanf_d "l" S.l_ m.2
  (⟨n.1, d.1, B.1, ratio.1, w.1, p1.1, p2.1, p.1, alpha.1, beta.1, delta.1, zeta.1,
    m.1, l.1, S.a_array_, S.index_path_⟩, l.2)

/-- `QALSH::read_params` (qalsh.cc 379-428): how the call ends and the members
then; `fresh` is the content of the array `new float[m_ * dim_]` before
anything is stored in it. A `new` expression with a negative array size
throws: `new float[m_ * dim_]` before the rows are read, `new int[n_pts_]`,
`new bool[m_]`, `new float[dim_]` and the others after them. A request of
non-negative size is granted (memory is not exhausted, as everywhere in this
development). -/
def read_params (S : ParaState) (fs : FileSys) (fresh : Int → CFloat) : LoadEnd × ParaState :=
  match fs.file (S.index_path_ ++ "para") with
  | none => (.returned 1, S)
  | some t0 =>
    let h := read_header S t0
    if ¬ IsInt32 (h.1.m_ * h.1.dim_) then (.undefined, h.1)
    else if h.1.m_ * h.1.dim_ < 0 then (.thrown, h.1)
    else
      let r := read_rows h.1.dim_ h.1.m_.toNat fresh 0 h.2
      if h.1.n_pts_ < 0 ∨ h.1.m_ < 0 ∨ h.1.dim_ < 0 then (.thrown, { h.1 with a_array_ := r.1 })
      else (.returned 0, { h.1 with a_array_ := r.1 })

/-- The array after the elements `lo, ..., hi - 1` were read back. -/
def stored (a0 a : Int → CFloat) (lo hi : Int) : Int → CFloat :=
  fun i => if lo ≤ i ∧ i < hi then (a i).reload else a0 i

/-- The members after `write_params` for the state `S` and then `read_params`
into an object in state `S0`. -/
def reload (S S0 : ParaState) (fs : FileSys) (fresh : Int → CFloat) : ParaState :=
  (read_params S0 (write_params S fs).2 fresh).2

/-- `QALSH::load` (qalsh.cc 350-376): how the call ends and the members then.
After `read_params` has returned 0 the size of `new BTree*[m_]` is not
negative. The trees that `init_restore` opens are not part of the parameter
state. -/
def load (S : ParaState) (index_path : String) (fs : FileSys) (fresh : Int → CFloat) :
    LoadEnd × ParaState :=
  let r := read_params { S with index_path_ := index_path } fs fresh
  match r.1 with
  | .returned status => if status ≠ 0 then (.returned 1, r.2) else (.returned 0, r.2)
  | .thrown => (.thrown, r.2)
  | .undefined => (.undefined, r.2)

/-- The loop over the trees in `QALSH::bulkload` (qalsh.cc 252-266), `k`
iterations from tree `i` on: `tree_status i` is what `bt->bulkload(n_pts_,
hashtable)` returns for tree `i` (the class `BTree` is not among the sources). -/
def bulkload_trees (tree_status : Int → Int) : Nat → Int → Int
  | 0, _ => 0
  | k + 1, i => if tree_status i ≠ 0 then 1 else bulkload_trees tree_status k (i + 1)

/-- `QALSH::bulkload` (qalsh.cc 241-276). -/
def bulkload (S : ParaState) (fs : FileSys) (tree_status : Int → Int) : Outcome × FileSys :=
  let w := write_params S fs
  match w.1 with
  | .exited code => (.exited code, w.2)
  | .returned status =>
    if status ≠ 0 then (.returned 1, w.2)
    else (.returned (bulkload_trees tree_status S.m_.toNat 0), w.2)

/-- `QALSH::build` (qalsh.cc 72-106) from the call of `bulkload` on, `S` being
the members after `calc_params` and `gen_hash_func`. The function ends after
the statement `bulkload(data);` without a `return`: unless the process has
exited, control flows off the end of a function declared `int`, and the caller
gets no defined status (`none`). -/
def build (S : ParaState) (fs : FileSys) (tree_status : Int → Int) :
    Option Outcome × FileSys :=
  let b := bulkload S fs tree_status
  match b.1 with
  | .exited code => (some (.exited code), b.2)
  | .returned _ => (none, b.2)

/-- The program points of the main loop outside the scans and cursor advances. -/
def PcLoop : PC → Prop
  | .round => True
  | .while_test => True
  | .for_exit => True
  | .stop_test => True
  | .for_test i => 0 ≤ i
  | .body_end i => 0 ≤ i
  | _ => False

/-- A state in which no round can make progress: no cursor is inside the
bucket, no stop condition holds, and `update_radius` returns the radius again. -/
def Stalled (Q : Index) (E : Env) (top_k : Int) (s : State) : Prop :=
  (∀ i, 0 ≤ i → i < Q.m_ → ∃ ld rd,
    side_dist E (s.q_val_ i) (s.lptr_ i) = some ld ∧
    side_dist E (s.q_val_ i) (s.rptr_ i) = some rd ∧
    ¬ (ld < s.bucket ∧ ld ≤ rd) ∧ ¬ (rd < s.bucket ∧ ld > rd)) ∧
  ¬ (s.knn_dist < Q.appr_ratio_ * s.radius ∧ s.dist_io_ ≥ top_k) ∧
  ¬ (s.dist_io_ ≥ candidates E top_k) ∧
  update_radius Q E s.radius s.q_val_ s.lptr_ s.rptr_ = some s.radius ∧
  s.bucket = s.radius * Q.w_ / 2 ∧ PcLoop s.pc

/-- Two states agree on what `Stalled` reads. -/
def Frozen (s t : State) : Prop :=
  t.q_val_ = s.q_val_ ∧ t.lptr_ = s.lptr_ ∧ t.rptr_ = s.rptr_ ∧ t.bucket = s.bucket ∧
  t.radius = s.radius ∧ t.knn_dist = s.knn_dist ∧ t.dist_io_ = s.dist_io_

/-- `struct ResultItem` of qalsh.cpp: one entry of the k-NN result array. -/
structure ResultItem where
  id_ : Int
  dist_ : ℚ
  deriving DecidableEq

/-- Modelled from the spec: `compfloats` (not among the sources), the
three-way comparison of two `float`s. -/
def compfloats (f1 f2 : ℚ) : Int := if f1 < f2 then -1 else if f1 > f2 then 1 else 0

/-- The first loop of `QALSH::update_result` (qalsh.cpp 918-927), `count`
iterations from `i` on: the value of `i` when the loop ends and `alreadyIn`;
`none` is a read outside the array. -/
def update_result_scan (rslt : List ResultItem) (item : ResultItem) :
    Nat → Int → Option (Int × Bool)
  | 0, i => some (i, false)
  | count + 1, i =>
    match arr_get rslt i with
    | none => none
    | some r =>
      if item.id_ = r.id_ then some (i, true)
      else if compfloats item.dist_ r.dist_ = -1 then some (i, false)
      else update_result_scan rslt item count (i + 1)

/-- The loop `for (i = top_k - 1; i > pos; i--) rslt[i].setto(&(rslt[i - 1]));`
(qalsh.cpp 931-933), `count` iterations from `i` on. -/
def update_result_shift : List ResultItem → Nat → Int → List ResultItem
  | rslt, 0, _ => rslt
  | rslt, count + 1, i =>
    match arr_get rslt (i - 1) with
    | none => rslt
    | some r => update_result_shift (rslt.set i.toNat r) count (i - 1)

/-- `QALSH::update_result` (qalsh.cpp 909-937): the array afterwards and the
value returned, `rslt[top_k - 1].dist_`; `none` is an access outside the
array. -/
def update_result (rslt : List ResultItem) (item : ResultItem) (top_k : Int) :
    Option (List ResultItem × ℚ) :=
  if (rslt.length : Int) < top_k then none
  else
    match update_result_scan rslt item top_k.toNat 0 with
    | none => none
    | some (pos, alreadyIn) =>
      let rslt1 :=
        if !alreadyIn ∧ pos < top_k then
          (update_result_shift rslt (top_k - 1 - pos).toNat (top_k - 1)).set pos.toNat item
        else rslt
      match arr_get rslt1 (top_k - 1) with
      | none => none
      | some r => some (rslt1, r.dist_)

/-- `QALSH::calc_proj_dist` (qalsh.cpp 1037-1046), the statements of
`calc_dist` of qalsh.cc. -/
def calc_proj_dist (ptr : PageBuffer) (q_val : ℚ) : Option ℚ := calc_dist q_val ptr

/-- The program points of `QALSH::knn` of qalsh.cpp (line numbers of
qalsh.cpp). -/
inductive CppPC where
  /-- Line 512: the test of `while (again)`. -/
  | outer_test
  /-- Line 525: the test of `for (i ...; i < m_; ...)` inside `while (true)`. -/
  | for_test (i : Int)
  /-- Line 554: the test of `for (j = end; j > start; j--)`. -/
  | scan_left (i j start : Int)
  /-- Line 577: the call `update_left_buffer(&lptr[i], &rptr[i])`. -/
  | advance_left (i : Int)
  /-- Line 586: the test of `for (j = start; j < end; j++)`. -/
  | scan_right (i j e : Int)
  /-- Line 608: the call `update_right_buffer(&lptr[i], &rptr[i])`. -/
  | advance_right (i : Int)
  /-- Line 614: the break test that ends the body of the loop over `i`. -/
  | body_end (i : Int)
  /-- Line 616: the break test after the loop over `i`. -/
  | for_exit
  /-- Line 621: terminating condition 1. -/
  | stop_test
  /-- Line 671: `knn` has returned. -/
  | returned
  /-- Undefined behaviour was executed. -/
  | fault

/-- The local variables of `QALSH::knn` of qalsh.cpp, the members `page_io_`
and `dist_io_`, the result array of the caller and the allocation state. -/
structure CppState where
  freq : Int → Int
  checked : Int → Bool
  flag : Int → Bool
  q_val : Int → ℚ
  lptr : Int → PageBuffer
  rptr : Int → PageBuffer
  page_io_ : Int
  dist_io_ : Int
  flag_num : Int
  scanned_id : Int
  knn_dist : ℚ
  radius : ℚ
  bucket_width : ℚ
  again : Bool
  rslt : List ResultItem
  mem : Mem
  pc : CppPC

/-- `QALSH::init_buffer` (qalsh.cpp 674-856), `count` iterations of its loop
from projection `i` on. The loop body has the statements of the loop body of
`init_search_params` of qalsh.cc (`init_tree`). -/
def init_buffer (Q : Index) (query : Int → ℚ) (fuel : Nat) :
    Nat → Int → CppState → Except InitFault CppState
  | 0, _, s => .ok s
  | count + 1, i, s =>
    let q := calc_hash_value Q i query
    match init_tree (Q.trees_ i) q fuel s.page_io_ s.mem with
    | .error e => .error e
    | .ok r =>
      init_buffer Q query fuel count (i + 1)
        { s with q_val := Function.update s.q_val i q
                 lptr := Function.update s.lptr i r.lptr
                 rptr := Function.update s.rptr i r.rptr
                 page_io_ := r.page_io_
                 mem := r.mem }

/-- The preamble of `QALSH::knn` of qalsh.cpp (lines 427-509): `rslt` is the
array of the caller, `mem` the allocation state. `find_radius` and
`update_radius` of qalsh.cpp (859-906) have the statements of those of
qalsh.cc. -/
def cpp_knn_start (Q : Index) (E : Env) (query : Int → ℚ) (top_k : Int)
    (rslt : List ResultItem) (fuel : Nat) (mem : Mem) : Except InitFault CppState :=
  if (rslt.length : Int) < top_k then .error .bad_access
  else
    let s0 : CppState :=
      ⟨fun _ => 0, fun _ => false, fun _ => true, fun _ => -1, fun _ => PageBuffer.null,
        fun _ => PageBuffer.null, 0, 0, 0, 0, E.MAXREAL, 0, 0, true,
        List.replicate top_k.toNat ⟨-1, E.MAXREAL⟩ ++ rslt.drop top_k.toNat, mem, .outer_test⟩
    match init_buffer Q query fuel Q.m_.toNat 0 s0 with
    | .error e => .error e
    | .ok s =>
      match find_radius Q E s.q_val s.lptr s.rptr with
      | none => .error .bad_access
      | some radius => .ok { s with radius := radius, bucket_width := Q.w_ * radius / 2 }

/-- The threshold `candidates = 99 + top_k` (qalsh.cpp 500). -/
def cpp_candidates (top_k : Int) : Int := 99 + top_k

/-- The projected distance of step 2.1 (qalsh.cpp 532-540): `-1` for an
exhausted cursor. -/
def cpp_side_dist (q_val : ℚ) (ptr : PageBuffer) : Option ℚ :=
  if ptr.size_ ≠ -1 then calc_proj_dist ptr q_val else some (-1)

/-- Collision counting for one entry id (qalsh.cpp 555-575 and 587-606);
`next` is the program point of the next iteration of the scan, `brk` the one
after the `break`. -/
def cpp_collide (Q : Index) (E : Env) (top_k : Int) (s : CppState) (id : Int)
    (next brk : CppPC) : CppState :=
  if ¬ (0 ≤ id ∧ id < Q.n_pts_) then { s with pc := .fault }
  else
    let s1 := { s with freq := Function.update s.freq id (s.freq id + 1), scanned_id := s.scanned_id + 1 }
    if s1.freq id > Q.l_ ∧ !s1.checked id then
      match update_result s1.rslt ⟨id, E.lp_dist id⟩ top_k with
      | none => { s1 with pc := .fault }
      | some r =>
        let s2 := { s1 with checked := Function.update s1.checked id true, rslt := r.1, knn_dist := r.2, dist_io_ := s1.dist_io_ + 1 }
        if s2.dist_io_ ≥ cpp_candidates top_k then
          { s2 with again := false, flag_num := s2.flag_num + Q.m_, pc := brk }
        else { s2 with pc := next }
    else { s1 with pc := next }

/-- The body of the release loop at the end of `knn` (qalsh.cpp 652-663). -/
def cpp_release_at (s : CppState) (i : Int) : CppState :=
  let s1 : CppState :=
    match (s.lptr i).leaf_node_ with
    | some p =>
      if (s.lptr i).ptr ≠ (s.rptr i).ptr then
        { s with mem := s.mem.delete p.addr, lptr := Function.update s.lptr i { s.lptr i with leaf_node_ := none } }
      else s
    | none => s
  match (s1.rptr i).leaf_node_ with
  | some p =>
    { s1 with mem := s1.mem.delete p.addr, rptr := Function.update s1.rptr i { s1.rptr i with leaf_node_ := none } }
  | none => s1

/-- The release loop at the end of `knn` (qalsh.cpp 652-663). -/
def cpp_release (Q : Index) (s : CppState) : CppState :=
  (List.range Q.m_.toNat).foldl (fun s (i : Nat) => cpp_release_at s (i : Int)) s

/-- One step of `QALSH::knn` of qalsh.cpp (lines 512-671). -/
def cpp_step (Q : Index) (E : Env) (top_k : Int) (s : CppState) : CppState :=
  match s.pc with
  | .outer_test =>
    if s.again then
      { s with flag_num := 0, flag := fun i => if 0 ≤ i ∧ i < Q.m_ then true else s.flag i, pc := .for_test 0 }
    else { cpp_release Q s with pc := .returned }
  | .for_test i =>
    if i < Q.m_ then
      if !s.flag i then { s with pc := .for_test (i + 1) }
      else
        match cpp_side_dist (s.q_val i) (s.lptr i), cpp_side_dist (s.q_val i) (s.rptr i) with
        | some left_dist, some right_dist =>
          if left_dist ≥ 0 ∧ left_dist < s.bucket_width ∧
              ((right_dist ≥ 0 ∧ left_dist ≤ right_dist) ∨ right_dist < 0) then
            let e := (s.lptr i).leaf_pos_
            { s with pc := .scan_left i e (e - (s.lptr i).size_) }
          else if right_dist ≥ 0 ∧ right_dist < s.bucket_width ∧
              ((left_dist ≥ 0 ∧ left_dist > right_dist) ∨ left_dist < 0) then
            let start := (s.rptr i).leaf_pos_
            { s with pc := .scan_right i start (start + (s.rptr i).size_) }
          else
            { s with flag := Function.update s.flag i false, flag_num := s.flag_num + 1, pc := .body_end i }
        | _, _ => { s with pc := .fault }
    else { s with pc := .for_exit }
  | .scan_left i j start =>
    if j > start then
      match (s.lptr i).leaf_node_ with
      | none => { s with pc := .fault }
      | some p =>
        match p.node.get_entry_id j with
        | none => { s with pc := .fault }
        | some id => cpp_collide Q E top_k s id (.scan_left i (j - 1) start) (.advance_left i)
    else { s with pc := .advance_left i }
  | .advance_left i =>
    match update_left_buffer (Q.trees_ i) s.mem s.page_io_ (s.rptr i) (s.lptr i) with
    | none => { s with pc := .fault }
    | some a =>
      { s with lptr := Function.update s.lptr i a.buf, page_io_ := a.page_io_, mem := a.mem, pc := .body_end i }
  | .scan_right i j e =>
    if j < e then
      match (s.rptr i).leaf_node_ with
      | none => { s with pc := .fault }
      | some p =>
        match p.node.get_entry_id j with
        | none => { s with pc := .fault }
        | some id => cpp_collide Q E top_k s id (.scan_right i (j + 1) e) (.advance_right i)
    else { s with pc := .advance_right i }
  | .advance_right i =>
    match update_right_buffer (Q.trees_ i) s.mem s.page_io_ (s.lptr i) (s.rptr i) with
    | none => { s with pc := .fault }
    | some a =>
      { s with rptr := Function.update s.rptr i a.buf, page_io_ := a.page_io_, mem := a.mem, pc := .body_end i }
  | .body_end i =>
    if s.flag_num ≥ Q.m_ then { s with pc := .for_exit } else { s with pc := .for_test (i + 1) }
  | .for_exit =>
    if s.flag_num ≥ Q.m_ then { s with pc := .stop_test } else { s with pc := .for_test 0 }
  | .stop_test =>
    if s.knn_dist < Q.appr_ratio_ * s.radius ∧ s.dist_io_ ≥ top_k then
      { cpp_release Q { s with again := false } with pc := .returned }
    else
      match update_radius Q E s.radius s.q_val s.lptr s.rptr with
      | none => { s with pc := .fault }
      | some radius =>
        { s with radius := radius, bucket_width := radius * Q.w_ / 2, pc := .outer_test }
  | .returned => s
  | .fault => s

/-- The state after `n` steps of `knn` of qalsh.cpp. -/
def cpp_run (Q : Index) (E : Env) (top_k : Int) : Nat → CppState → CppState
  | 0, s => s
  | n + 1, s => cpp_run Q E top_k n (cpp_step Q E top_k s)

/-- The number of entries of `checked[0..n_pts_)` that are set. -/
def cpp_checked_count (Q : Index) (s : CppState) : Nat :=
  (List.range Q.n_pts_.toNat).countP (fun (i : Nat) => s.checked (i : Int))

/-- The invariant of `knn` of qalsh.cpp on fewer objects than `top_k`: every
evaluated object is a checked one, so `again` is never cleared. -/
def FewInv (Q : Index) (s : CppState) : Prop :=
  s.dist_io_ = (cpp_checked_count Q s : Int) ∧ s.again = true ∧ s.pc ≠ .returned

/-- Whether the preamble of `knn` of qalsh.cpp handed over to the main loop. -/
def cpp_started (r : Except InitFault CppState) : Bool :=
  match r with
  | .ok _ => true
  | .error _ => false

/-- The state the preamble hands over (`d` if it does not). -/
def cpp_start_state (r : Except InitFault CppState) (d : CppState) : CppState :=
  match r with
  | .ok s => s
  | .error _ => d

/-- The three outcomes of step 2.2 for one projection. -/
inductive Direction where
  | left
  | right
  | flag_off

/-- The outcome of step 2.2 that a program point of qalsh.cc stands for. -/
def PC.choice : PC → Option Direction
  | .scan_left _ _ _ => some .left
  | .scan_right _ _ _ => some .right
  | .body_end _ => some .flag_off
  | _ => none

/-- The outcome of step 2.2 that a program point of qalsh.cpp stands for. -/
def CppPC.choice : CppPC → Option Direction
  | .scan_left _ _ _ => some .left
  | .scan_right _ _ _ => some .right
  | .body_end _ => some .flag_off
  | _ => none

/-- Insertion into a list sorted by distance, after the entries of equal
distance: the sorted list of the specification. -/
def insert_by_dist (item : ResultItem) : List ResultItem → List ResultItem
  | [] => [item]
  | r :: rs => if item.dist_ < r.dist_ then item :: r :: rs else r :: insert_by_dist item rs

/-- Insert-with-eviction of the specification on the first `k` entries of an
array: insert by distance and keep the `k` smallest. -/
def insert_evict (rslt : List ResultItem) (item : ResultItem) (k : Nat) : List ResultItem :=
  (insert_by_dist item (rslt.take k)).take k ++ rslt.drop k

/-- The array after the calls `update_result(rslt, item, top_k)` for the items
of a list, in order (qalsh.cpp 568 and 599); `none` is an access outside the
array. -/
def update_results (top_k : Int) : List ResultItem → List ResultItem → Option (List ResultItem)
  | rslt, [] => some rslt
  | rslt, item :: items =>
    match update_result rslt item top_k with
    | none => none
    | some r => update_results top_k r.1 items

/-- The collision-counting step of qalsh.cc (494-507) for the ids of a list,
in order; the program point stays where it is. -/
def count_ids (Q : Index) (E : Env) (top_k : Int) (s : State) (ids : List Int) : State :=
  ids.foldl (fun s id => collide Q E top_k s id s.pc s.pc) s

/-- The collision-counting step of qalsh.cpp (555-578) for the ids of a list,
in order; the program point stays where it is. -/
def cpp_count_ids (Q : Index) (E : Env) (top_k : Int) (t : CppState) (ids : List Int) :
    CppState :=
  ids.foldl (fun t id => cpp_collide Q E top_k t id t.pc t.pc) t

/-- The ids of a list at which the step of qalsh.cpp evaluates the object
(the block that ends with `dist_io_++`), in order. -/
def cpp_evaluated (Q : Index) (E : Env) (top_k : Int) : CppState → List Int → List Int
  | _, [] => []
  | t, id :: ids =>
    (if (cpp_collide Q E top_k t id t.pc t.pc).dist_io_ = t.dist_io_ + 1 then [id] else []) ++
      cpp_evaluated Q E top_k (cpp_collide Q E top_k t id t.pc t.pc) ids

/-- The relation between the counting state of qalsh.cc and that of
qalsh.cpp: the same checked objects and `dist_io_`, `checked_[id]` exactly
when `freq_[id] > l_`, and the frequency of qalsh.cc the one of qalsh.cpp
capped at `l_ + 1`. -/
def CountRel (Q : Index) (top_k : Int) (s : State) (t : CppState) : Prop :=
  (∀ id, 0 ≤ id → id < Q.n_pts_ →
    t.checked id = s.checked_ id ∧ (s.checked_ id = true ↔ Q.l_ < s.freq_ id) ∧
    s.freq_ id = min (t.freq id) (Q.l_ + 1)) ∧
  t.dist_io_ = s.dist_io_ ∧ top_k ≤ t.rslt.length

/-- The statements of `QALSH::calc_params` of qalsh.cc that derive `alpha_`,
`m_` and `l_` (lines 158-166), over the reals: the triple
`(alpha_, m_, l_)`. -/
noncomputable def calc_ml (beta_ delta_ p1_ p2_ : ℝ) : ℝ × Int × Int :=
  let para1 := Real.sqrt (Real.log (2 / beta_))
  let para2 := Real.sqrt (Real.log (1 / delta_))
  let para3 := 2 * (p1_ - p2_) * (p1_ - p2_)
  let eta := para1 / para2
  let alpha_ := (eta * p1_ + p2_) / (1 + eta)
  let m_ : Int := ⌈(para1 + para2) * (para1 + para2) / para3⌉
  let l_ : Int := ⌈alpha_ * (m_ : ℝ)⌉
  (alpha_, m_, l_)

/-- The statements of `QALSH::calc_params` of qalsh.cpp that derive `alpha_`,
`m_` and `l_` (lines 135-143), over the reals. -/
noncomputable def cpp_calc_ml (beta_ delta_ p1_ p2_ : ℝ) : ℝ × Int × Int :=
  let para1 := Real.sqrt (Real.log (2 / beta_))
  let para2 := Real.sqrt (Real.log (1 / delta_))
  let para3 := 2 * (p1_ - p2_) * (p1_ - p2_)
  let eta := para1 / para2
  let alpha_ := (eta * p1_ + p2_) / (1 + eta)
  let m_ : Int := ⌈(para1 + para2) * (para1 + para2) / para3⌉
  let l_ : Int := ⌈(p1_ * para1 + p2_ * para2) * (para1 + para2) / para3⌉
  (alpha_, m_, l_)

/-- The projection whose key-slot is being scanned or whose cursor is being
advanced. -/
def PC.active : PC → Option Int
  | .scan_left i _ _ => some i
  | .advance_left i => some i
  | .scan_right i _ _ => some i
  | .advance_right i => some i
  | _ => none

/-- The entries a left cursor will emit, `leaf_pos_ - size_ + 1, ...,
leaf_pos_`, are the entries of its key-slot. -/
def LeftSlot (b : PageBuffer) : Prop :=
  ∀ p, b.leaf_node_ = some p →
    b.leaf_pos_ - b.size_ + 1 = b.index_pos_ * p.node.get_increment ∧
    b.leaf_pos_ + 1 = min ((b.index_pos_ + 1) * p.node.get_increment) p.node.get_num_entries

/-- The entries a right cursor will emit, `leaf_pos_, ..., leaf_pos_ + size_ -
1`, are the entries of its key-slot. -/
def RightSlot (b : PageBuffer) : Prop :=
  ∀ p, b.leaf_node_ = some p →
    b.leaf_pos_ = b.index_pos_ * p.node.get_increment ∧
    b.leaf_pos_ + b.size_ =
      min ((b.index_pos_ + 1) * p.node.get_increment) p.node.get_num_entries

/-- A cursor without a leaf has the fields of an exhausted cursor. -/
def NullShape (b : PageBuffer) : Prop := b.leaf_node_ = none → b.leaf_pos_ = -1 ∧ b.size_ = -1

/-- The loop variables of the scan of a key-slot lie in the range the cursor
announces. -/
def ScanOK (s : State) : Prop :=
  match s.pc with
  | .scan_left i j start =>
    start = (s.lptr_ i).leaf_pos_ - (s.lptr_ i).size_ ∧ j ≤ (s.lptr_ i).leaf_pos_ ∧
      ((s.lptr_ i).leaf_node_ ≠ none → start ≤ j)
  | .scan_right i j e =>
    e = (s.rptr_ i).leaf_pos_ + (s.rptr_ i).size_ ∧ (s.rptr_ i).leaf_pos_ ≤ j ∧
      ((s.rptr_ i).leaf_node_ ≠ none → j ≤ e)
  | _ => True

/-- The cursor slot invariant of `knn`. -/
def SlotInv (Q : Index) (s : State) : Prop :=
  ScanOK s ∧ ∀ i, 0 ≤ i → i < Q.m_ →
    LeftSlot (s.lptr_ i) ∧ RightSlot (s.rptr_ i) ∧
    (s.pc ≠ .returned → NullShape (s.lptr_ i) ∧ NullShape (s.rptr_ i))

/-- What `init_search_params` leaves behind for one projection: both cursors
on the entries of their key-slots, the right cursor on the key-slot after that
of the left cursor (in the same leaf or in the right sibling). -/
def InitPair (T : BTree) (l r : PageBuffer) : Prop :=
  LeftSlot l ∧ RightSlot r ∧ NullShape l ∧ NullShape r ∧
  ∀ p p1, l.leaf_node_ = some p → r.leaf_node_ = some p1 →
    (p1.node = p.node ∧ l.leaf_pos_ < r.leaf_pos_) ∨
    (∃ c, p.node.right_sibling_ = some c ∧ p1.node = T.leaf_node c)

/-- Two states of `knn` agree on everything the query uses: the entries of
`freq_` and `checked_` of the data points, the cursors and projected query
values of the projections, the flags once the round has set them, and all
scalars, the result list, the allocation state and the program point. -/
def Agree (Q : Index) (s t : State) : Prop :=
  (∀ id, 0 ≤ id → id < Q.n_pts_ → t.freq_ id = s.freq_ id ∧ t.checked_ id = s.checked_ id) ∧
  (∀ i, 0 ≤ i → i < Q.m_ →
    t.q_val_ i = s.q_val_ i ∧ t.lptr_ i = s.lptr_ i ∧ t.rptr_ i = s.rptr_ i) ∧
  (s.pc ≠ .round → ∀ i, 0 ≤ i → i < Q.m_ → t.flag_ i = s.flag_ i) ∧
  t.page_io_ = s.page_io_ ∧ t.dist_io_ = s.dist_io_ ∧ t.num_flag = s.num_flag ∧
  t.knn_dist = s.knn_dist ∧ t.radius = s.radius ∧ t.bucket = s.bucket ∧ t.list = s.list ∧
  t.mem = s.mem ∧ t.trace = s.trace ∧ t.pc = s.pc

/-- Each tree stores an id at most once, in a chain of leaves: `rank` numbers
the leaves from left to right along the sibling links, and an id occurs in one
entry of one leaf only. -/
def BTree.Stores (T : BTree) (rank : BLeafNode → Int) : Prop :=
  (∀ b c, (T.leaf_node b).left_sibling_ = some c →
    rank (T.leaf_node c) = rank (T.leaf_node b) - 1) ∧
  (∀ b c, (T.leaf_node b).right_sibling_ = some c →
    rank (T.leaf_node c) = rank (T.leaf_node b) + 1) ∧
  (∀ b c j k id, (T.leaf_node b).get_entry_id j = some id →
    (T.leaf_node c).get_entry_id k = some id →
    rank (T.leaf_node b) = rank (T.leaf_node c) ∧ j = k)

/-- The order of the entries of a tree: by the rank of the leaf, then by the
position in the leaf. -/
def EntryLt (a b : Int × Int) : Prop := a.1 < b.1 ∨ (a.1 = b.1 ∧ a.2 < b.2)

/-- The entry the left cursor of projection `i` reads next, within its leaf:
the loop variable during the scan, the entry before the key-slot once the scan
is over, the last entry of the key-slot otherwise. -/
def left_edge (s : State) (i : Int) : Int :=
  match s.pc with
  | .scan_left k j _ => if k = i then j else (s.lptr_ i).leaf_pos_
  | .advance_left k =>
    if k = i then (s.lptr_ i).leaf_pos_ - (s.lptr_ i).size_ else (s.lptr_ i).leaf_pos_
  | _ => (s.lptr_ i).leaf_pos_

/-- The entry the right cursor of projection `i` reads next, within its leaf. -/
def right_edge (s : State) (i : Int) : Int :=
  match s.pc with
  | .scan_right k j _ => if k = i then j else (s.rptr_ i).leaf_pos_
  | .advance_right k =>
    if k = i then (s.rptr_ i).leaf_pos_ + (s.rptr_ i).size_ else (s.rptr_ i).leaf_pos_
  | _ => (s.rptr_ i).leaf_pos_

/-- The entry of the tree the left cursor reads next (`none` when exhausted). -/
def left_front (rank : BLeafNode → Int) (s : State) (i : Int) : Option (Int × Int) :=
  (s.lptr_ i).leaf_node_.map (fun p => (rank p.node, left_edge s i))

/-- The entry of the tree the right cursor reads next (`none` when exhausted). -/
def right_front (rank : BLeafNode → Int) (s : State) (i : Int) : Option (Int × Int) :=
  (s.rptr_ i).leaf_node_.map (fun p => (rank p.node, right_edge s i))

/-- The entries of one projection emitted so far lie strictly between the
entry the left cursor reads next and the entry the right cursor reads next. -/
def Sweep (T : BTree) (rank : BLeafNode → Int) (L R : Option (Int × Int))
    (seen : Int → Bool) : Prop :=
  (∀ a b, L = some a → R = some b → EntryLt a b) ∧
  (∀ id, seen id = true → ∀ blk j, (T.leaf_node blk).get_entry_id j = some id →
    (∀ a, L = some a → EntryLt a (rank (T.leaf_node blk), j)) ∧
    (∀ b, R = some b → EntryLt (rank (T.leaf_node blk), j) b))

/-- The invariant of collision counting for a record `seen` of the pairs
(projection, id) emitted so far: `freq_[id]` is at most the number of
projections that emitted `id`, and the entries of the recorded ids lie between
the cursors of their projection. -/
def SweepInv (Q : Index) (rank : Int → BLeafNode → Int) (seen : Int → Int → Bool)
    (s : State) : Prop :=
  (∀ id, 0 ≤ id → id < Q.n_pts_ →
    s.freq_ id ≤ ((List.range Q.m_.toNat).countP (fun (i : Nat) => seen (i : Int) id) : Int)) ∧
  (s.pc ≠ .fault → ∀ i, 0 ≤ i → i < Q.m_ →
    Sweep (Q.trees_ i) (rank i) (left_front (rank i) s i) (right_front (rank i) s i) (seen i))

/-- The projection and the entry id that the next step passes to collision
counting (qalsh.cc 495 and 515), if it does. -/
def emits (s : State) : Option (Int × Int) :=
  match s.pc with
  | .scan_left i j start =>
    if j > start then
      (s.lptr_ i).leaf_node_.bind (fun p => (p.node.get_entry_id j).map (fun id => (i, id)))
    else none
  | .scan_right i j e =>
    if j < e then
      (s.rptr_ i).leaf_node_.bind (fun p => (p.node.get_entry_id j).map (fun id => (i, id)))
    else none
  | _ => none

/-- The record of emitted pairs after a step from `s` to `t`: it extends the
record before, it keeps the invariant, and the pair the step emits was not in
the record before and is in it now. -/
def SweepNext (Q : Index) (rank : Int → BLeafNode → Int) (seen : Int → Int → Bool)
    (s t : State) : Prop :=
  ∃ seen' : Int → Int → Bool, SweepInv Q rank seen' t ∧
    (∀ i id, seen i id = true → seen' i id = true) ∧
    (∀ i id, emits s = some (i, id) → seen i id = false ∧ seen' i id = true)

/-! ## Example inputs -/

/-- Whether the preamble handed over to the main loop. -/
def started (r : Except InitFault State) : Bool :=
  match r with
  | .ok _ => true
  | .error _ => false

/-- The state the preamble hands over (`d` if it does not). -/
def start_state (r : Except InitFault State) (d : State) : State :=
  match r with
  | .ok s => s
  | .error _ => d

/-- A leaf with the keys 0, 1, 2 of the points 0, 1, 2, one entry per key-slot. -/
def ex_leaf : BLeafNode := ⟨1, 1, [0, 1, 2], [0, 1, 2], none, none⟩

/-- A tree that consists of the single leaf `ex_leaf` (`root_ == 1`). -/
def ex_tree : BTree := ⟨1, fun _ => ⟨0, [], []⟩, fun _ => ex_leaf⟩

/-- An index over three points on a line with two identical projections;
an object is frequent once it collided in both (`l_ = 1`); `w_ = 2`, `c = 2`. -/
def ex_index : Index := ⟨3, 1, 2, 1, 2, 2, fun _ => 1, fun _ => ex_tree⟩

/-- The value of `pow(2, ceil(log(x) / log(2)))` for `1/4 < x ≤ 16`. -/
def ex_pow (x : ℚ) : ℚ :=
  if x ≤ 1 / 2 then 1 / 2 else if x ≤ 1 then 1 else if x ≤ 2 then 2 else if x ≤ 4 then 4
  else if x ≤ 8 then 8 else 16

/-- The distance of point `id` from the query point 1. -/
def ex_lp_dist (id : Int) : ℚ := fabs ((id : ℚ) - 1)

/-- An environment with a candidate budget of one (`CANDIDATES = 1`) in which
every point is at distance 5 from the query. -/
def ex_env : Env := ⟨1, 1000, ex_pow, fun _ => 5⟩

/-- An environment with `CANDIDATES = 100` and the distances on the line. -/
def ex_env2 : Env := ⟨100, 1000, ex_pow, ex_lp_dist⟩

/-- The query point 1. -/
def ex_query : Int → ℚ := fun _ => 1

/-- The members as an earlier query may have left them. -/
def ex_old : State :=
  ⟨fun _ => 7, fun _ => true, fun _ => false, fun _ => 0, fun _ => PageBuffer.null,
   fun _ => PageBuffer.null, 5, 5, 0, 0, 0, 0, ⟨1, []⟩, ⟨0, []⟩, [], .fault⟩

/-- The state after `n` steps of `knn(1, ex_query, ...)` in `ex_env`. -/
def ex_state (n : Nat) : State :=
  run ex_index ex_env 1 n (start_state (knn_start ex_index ex_env ex_query ⟨1, []⟩ 1 ex_old) ex_old)

/-- The state after `n` steps of `knn(1, ex_query, ...)` in `ex_env2`. -/
def ex_state2 (n : Nat) : State :=
  run ex_index ex_env2 1 n
    (start_state (knn_start ex_index ex_env2 ex_query ⟨1, []⟩ 1 ex_old) ex_old)

/-- The left leaf of a tree with two leaves: keys 0, 1 of the points 0, 1. -/
def two_leaf_a : BLeafNode := ⟨1, 1, [0, 1], [0, 1], none, some 2⟩

/-- The right leaf of a tree with two leaves: keys 2, 3, 4 of the points 2, 3, 4,
two entries per key-slot. -/
def two_leaf_b : BLeafNode := ⟨2, 2, [2, 4], [2, 3, 4], some 1, none⟩

/-- A tree with the root index node in block 3 and the leaves in blocks 1 and 2. -/
def two_tree : BTree :=
  ⟨3, fun _ => ⟨1, [0, 2], [1, 2]⟩, fun b => if b = 2 then two_leaf_b else two_leaf_a⟩

/-- The state after `n` steps of `knn(1, q, ...)` in `ex_env2` for the query
`q = 1/2`, which lies midway between the keys 0 and 1. -/
def tie_state (n : Nat) : State :=
  run ex_index ex_env2 1 n
    (start_state (knn_start ex_index ex_env2 (fun _ => 1 / 2) ⟨1, []⟩ 1 ex_old) ex_old)

/-- A leaf that holds the single point 0 under the key 0. -/
def one_leaf : BLeafNode := ⟨1, 1, [0], [0], none, none⟩

/-- The tree that consists of the leaf `one_leaf`. -/
def one_tree : BTree := ⟨1, fun _ => ⟨0, [], []⟩, fun _ => one_leaf⟩

/-- An index over one point with two projections and `l_ = 1`; `w_ = 2`,
`c = 2`. -/
def one_index : Index := ⟨1, 1, 2, 1, 2, 2, fun _ => 1, fun _ => one_tree⟩

/-- `CANDIDATES` is 100 and `MAXREAL` is the largest `float`,
`(2 - 2^-23) * 2^127`. -/
def one_env : Env := ⟨100, 340282346638528859811704183484516925440, ex_pow, fun _ => 0⟩

/-- The state after `n` steps of `knn(2, q, ...)` on `one_index` for the query
`q = 0`, the data point itself, with a result list of capacity 2. -/
def one_state (n : Nat) : State :=
  run one_index one_env 2 n
    (start_state (knn_start one_index one_env (fun _ => 0) ⟨2, []⟩ 1 ex_old) ex_old)

/-- An environment with `CANDIDATES = 100` and the distances of the points
0, ..., 4 on a line from the query point 2. -/
def two_env : Env := ⟨100, 1000, ex_pow, fun id => fabs ((id : ℚ) - 2)⟩

/-- An index over the five points 0, ..., 4 on a line with one projection
stored in `two_tree`; every collision makes an object frequent (`l_ = 0`). -/
def two_index : Index := ⟨5, 1, 1, 0, 2, 2, fun _ => 1, fun _ => two_tree⟩

/-- The state after `n` steps of `knn(1, q, ...)` on `two_index` for the query
`q = 2`. -/
def two_state (n : Nat) : State :=
  run two_index two_env 1 n
    (start_state (knn_start two_index two_env (fun _ => 2) ⟨1, []⟩ 1 ex_old) ex_old)

/-- The state after `n` steps of `knn(3, q, ...)` on `two_index` for the query
`q = 2`. -/
def two_state3 (n : Nat) : State :=
  run two_index two_env 3 n
    (start_state (knn_start two_index two_env (fun _ => 2) ⟨3, []⟩ 1 ex_old) ex_old)

/-- A leaf with the points 0 and 1, of keys 0 and 10, in one key-slot
(`increment = 2`); the stored key is the key of the first entry. -/
def slot_leaf : BLeafNode := ⟨1, 2, [0], [0, 1], none, none⟩

/-- The tree that consists of the leaf `slot_leaf`. -/
def slot_tree : BTree := ⟨1, fun _ => ⟨0, [], []⟩, fun _ => slot_leaf⟩

/-- The data set of `slot_index`: point 0 is 0, point 1 is 10 (dimension 1). -/
def slot_data (id : Int) : Int → ℚ := fun _ => if id = 1 then 10 else 0

/-- The index `bulkload` builds over `slot_data` with the hash function
`a = (1)` and `increment = 2`; `l_ = 0`, `w_ = 2`, `c = 2`. -/
def slot_index : Index := ⟨2, 1, 1, 0, 2, 2, fun _ => 1, fun _ => slot_tree⟩

/-- An environment with `CANDIDATES = 100` and the distances of the points of
`slot_data` from the query point 3. -/
def slot_env : Env := ⟨100, 1000, ex_pow, fun id => fabs (slot_data id 0 - 3)⟩

/-- The state after `n` steps of `knn(1, q, ...)` on `slot_index` for the
query `q = 3`. -/
def slot_state (n : Nat) : State :=
  run slot_index slot_env 1 n
    (start_state (knn_start slot_index slot_env (fun _ => 3) ⟨1, []⟩ 1 ex_old) ex_old)

/-- The state the preamble of `knn(1, q, ...)` hands over on `two_index` for
the query `q = 5/2`: the left cursor is on key 2, the right cursor on key 4. -/
def med_state : State :=
  start_state (knn_start two_index two_env (fun _ => 5 / 2) ⟨1, []⟩ 1 ex_old) ex_old

/-- A leaf with the points 0 and 1 under the keys -2 and 2. -/
def stall_leaf : BLeafNode := ⟨1, 1, [-2, 2], [0, 1], none, none⟩

/-- The tree that consists of the leaf `stall_leaf`. -/
def stall_tree : BTree := ⟨1, fun _ => ⟨0, [], []⟩, fun _ => stall_leaf⟩

/-- An index over the two points -2 and 2 on a line with one projection;
`l_ = 1`, `c = 4` and `w_ = 2 * sqrt(c) = 4`, the width `calc_params` picks
for the L1 distance. -/
def stall_index : Index := ⟨2, 1, 1, 1, 4, 4, fun _ => 1, fun _ => stall_tree⟩

/-- The value of `pow(4, ceil(log(x) / log(4)))` for `1/16 < x ≤ 16`. -/
def stall_pow (x : ℚ) : ℚ :=
  if x ≤ 1 / 4 then 1 / 4 else if x ≤ 1 then 1 else if x ≤ 4 then 4 else 16

/-- An environment with `CANDIDATES = 100` and the distances of the points
-2 and 2 from the query point 0. -/
def stall_env : Env := ⟨100, 1000, stall_pow, fun _ => 2⟩

/-- The state after `n` steps of `knn(1, q, ...)` on `stall_index` for the
query `q = 0`. -/
def stall_state (n : Nat) : State :=
  run stall_index stall_env 1 n
    (start_state (knn_start stall_index stall_env (fun _ => 0) ⟨1, []⟩ 1 ex_old) ex_old)

/-- The leaves of a tree with three levels: keys 0, ..., 7 of the points
0, ..., 7, two per leaf, in the blocks 1, ..., 4. -/
def deep_leaf (b : Int) : BLeafNode :=
  if b = 1 then ⟨1, 1, [0, 1], [0, 1], none, some 2⟩
  else if b = 2 then ⟨2, 1, [2, 3], [2, 3], some 1, some 3⟩
  else if b = 3 then ⟨3, 1, [4, 5], [4, 5], some 2, some 4⟩
  else ⟨4, 1, [6, 7], [6, 7], some 3, none⟩

/-- The index nodes of `deep_tree`: the root in block 7 (level 2) over the
nodes in the blocks 5 and 6 (level 1). -/
def deep_node (b : Int) : BIndexNode :=
  if b = 7 then ⟨2, [0, 4], [5, 6]⟩
  else if b = 5 then ⟨1, [0, 2], [1, 2]⟩
  else ⟨1, [4, 6], [3, 4]⟩

/-- A tree with two index levels over four leaves. -/
def deep_tree : BTree := ⟨7, deep_node, deep_leaf⟩

/-- An index over the points 0, ..., 7 on a line with two projections, the
first stored in `deep_tree`, the second in the leaf-only `ex_tree`. -/
def deep_index : Index :=
  ⟨8, 1, 2, 1, 2, 2, fun _ => 1, fun i => if i = 0 then deep_tree else ex_tree⟩

/-- The state `init_search_params` leaves behind on `deep_index` for the query
point `q`. -/
def deep_init (q : ℚ) : State :=
  start_state (init_search_params deep_index (fun _ => q) 2 ex_old) ex_old

/-- The state `init_search_params` leaves behind on `ex_index` (leaf-only
trees with the keys 0, 1, 2) for the query point -1. -/
def low_init : State :=
  start_state (init_search_params ex_index (fun _ => -1) 1 ex_old) ex_old

/-- The first leaf below each index node of `deep_tree`. -/
def deep_first (b : Int) : Int := if b = 6 then 3 else 1

/-- The last leaf below each index node of `deep_tree`. -/
def deep_last (b : Int) : Int := if b = 5 then 2 else 4

/-- A kernel for examples: the probability function `x / (1 + x)` in the place
of the Levy, Gaussian and p-stable distribution functions. -/
noncomputable def par_kernel : Kernel :=
  ⟨fun x => x / (1 + x), fun x => x / (1 + x), fun _ _ x => x / (1 + x)⟩

/-- A parameter state whose width has more than six decimals. -/
def cx_para : ParaState :=
  ⟨1, 1, 4096, ⟨false, 2⟩, ⟨false, 1 / 256⟩, ⟨false, 1 / 2⟩, ⟨false, 1 / 4⟩, ⟨false, 1⟩,
    ⟨false, 1 / 2⟩, ⟨false, 1⟩, ⟨false, 1 / 2⟩, ⟨false, 0⟩, 1, 1, fun _ => ⟨true, 3 / 2⟩, "idx/"⟩

/-- A file system without files in which every file can be created. -/
def cx_fs : FileSys := ⟨fun _ => none, fun _ => true⟩

/-- A file system in which the para file of `cx_para` exists already. -/
def cx_fs_full : FileSys :=
  ⟨fun name => if name = "idx/para" then some ['o', 'l', 'd'] else none, fun _ => true⟩

/-- A file system in which the index folder is missing: nothing can be created. -/
def cx_fs_nodir : FileSys := ⟨fun _ => none, fun _ => false⟩

/-- An object as the constructor leaves it (qalsh.cc 4-33: every `int` is -1,
every `float` is `-1.0f`, `a_array_` is `NULL`), with the index path of
`cx_para`. -/
def cx_new : ParaState :=
  ⟨-1, -1, -1, ⟨true, 1⟩, ⟨true, 1⟩, ⟨true, 1⟩, ⟨true, 1⟩, ⟨true, 1⟩, ⟨true, 1⟩,
    ⟨true, 1⟩, ⟨true, 1⟩, ⟨true, 1⟩, -1, -1, fun _ => ⟨false, 0⟩, "idx/"⟩

/-- The float `0.8f`. -/
def cx_point8 : CFloat := ⟨false, 13421773 / 16777216⟩

/-- A leaf that holds the single point 0 under the key 2. -/
def solo_leaf : BLeafNode := ⟨1, 1, [2], [0], none, none⟩

/-- The tree that consists of the leaf `solo_leaf`. -/
def solo_tree : BTree := ⟨1, fun _ => ⟨0, [], []⟩, fun _ => solo_leaf⟩

/-- An index over the single point `x = 2` on a line (`n = 1`, `d = 1`) with
two projections `a_i = 1`, so both trees hold the key 2; `l_ = 1`, `c = 4` and
`w_ = 2 * sqrt(c) = 4`. -/
def solo_index : Index := ⟨1, 1, 2, 1, 4, 4, fun _ => 1, fun _ => solo_tree⟩

/-- An environment with `CANDIDATES = 100`, `MAXREAL` the largest `float`, and
the distance 2 of the point from the query point 0. -/
def solo_env : Env := ⟨100, 340282346638528859811704183484516925440, stall_pow, fun _ => 2⟩

/-- The state after `n` steps of `knn(1, q, ...)` on `solo_index` for the
query `q = 0`. -/
def solo_state (n : Nat) : State :=
  run solo_index solo_env 1 n
    (start_state (knn_start solo_index solo_env (fun _ => 0) ⟨1, []⟩ 1 ex_old) ex_old)

/-- A leaf with the keys 0, ..., 49 of the points 0, ..., 49. -/
def few_leaf : BLeafNode :=
  ⟨1, 1, (List.range 50).map (fun (j : Nat) => (j : ℚ)),
    (List.range 50).map (fun (j : Nat) => (j : Int)), none, none⟩

/-- The tree that consists of the leaf `few_leaf`. -/
def few_tree : BTree := ⟨1, fun _ => ⟨0, [], []⟩, fun _ => few_leaf⟩

/-- An index over the 50 points 0, ..., 49 on a line with two projections
`a_i = 1`; `l_ = 1`, `w_ = 2`, `c = 2`. -/
def few_index : Index := ⟨50, 1, 2, 1, 2, 2, fun _ => 1, fun _ => few_tree⟩

/-- The value of `pow(2, ceil(log(x) / log(2)))` for `1/4 < x ≤ 128`. -/
def few_pow (x : ℚ) : ℚ :=
  if x ≤ 1 / 2 then 1 / 2 else if x ≤ 1 then 1 else if x ≤ 2 then 2 else if x ≤ 4 then 4
  else if x ≤ 8 then 8 else if x ≤ 16 then 16 else if x ≤ 32 then 32 else if x ≤ 64 then 64
  else 128

/-- An environment with `MAXREAL` the largest `float` and the distances of the
points from the query point `1/3`. -/
def few_env : Env :=
  ⟨100, 340282346638528859811704183484516925440, few_pow, fun id => fabs ((id : ℚ) - 1 / 3)⟩

/-- The preamble of `knn(q, 100, rslt, ...)` of qalsh.cpp on `few_index` for
the query `q = 1/3`, with a result array of 100 entries. -/
def few_start : Except InitFault CppState :=
  cpp_knn_start few_index few_env (fun _ => 1 / 3) 100 (List.replicate 100 ⟨0, 0⟩) 1 ⟨0, []⟩

/-- A state that stands for a preamble that did not hand over. -/
def few_default : CppState :=
  ⟨fun _ => 0, fun _ => false, fun _ => false, fun _ => 0, fun _ => PageBuffer.null,
    fun _ => PageBuffer.null, 0, 0, 0, 0, 0, 0, 0, false, [], ⟨0, []⟩, .fault⟩

/-- The state after `n` steps of the main loop that follows `few_start`. -/
def few_state (n : Nat) : CppState :=
  cpp_run few_index few_env 100 n (cpp_start_state few_start few_default)

/-- The state of qalsh.cpp with the cursors, flags and bucket width of the state
`ex_state 2` of qalsh.cc, at the test of the loop over the projections. -/
def ex_cpp : CppState :=
  ⟨(ex_state 2).freq_, (ex_state 2).checked_, (ex_state 2).flag_, (ex_state 2).q_val_,
   (ex_state 2).lptr_, (ex_state 2).rptr_, 0, 0, 0, 0, 1000, (ex_state 2).radius,
   (ex_state 2).bucket, true, [⟨-1, 1000⟩], (ex_state 2).mem, .for_test 0⟩

/-- Freshly reset members of qalsh.cc. -/
def ex_fresh : State :=
  ⟨fun _ => 0, fun _ => false, fun _ => true, fun _ => 1, fun _ => PageBuffer.null,
   fun _ => PageBuffer.null, 0, 0, 0, 1000, 1, 1, ⟨1, []⟩, ⟨0, []⟩, [], .round⟩

/-- Freshly reset local arrays of `knn` of qalsh.cpp and a result array of one
entry. -/
def ex_fresh_cpp : CppState :=
  ⟨fun _ => 0, fun _ => false, fun _ => true, fun _ => 1, fun _ => PageBuffer.null,
   fun _ => PageBuffer.null, 0, 0, 0, 0, 1000, 1, 1, true, [⟨-1, 1000⟩], ⟨0, []⟩, .outer_test⟩

/-- The state after `n` steps of `knn(5, ex_query, ...)` in `ex_env2`, on the
index over three points. -/
def ex_state5 (n : Nat) : State :=
  run ex_index ex_env2 5 n
    (start_state (knn_start ex_index ex_env2 ex_query ⟨5, []⟩ 1 ex_old) ex_old)

theorem run_add (Q : Index) (E : Env) (top_k : Int) (a b : Nat) (s : State) :
    run Q E top_k (a + b) s = run Q E top_k b (run Q E top_k a s) := by
  induction a generalizing s with
  | zero => simp [run]
  | succ a ih => rw [Nat.succ_add]; simp [run, ih]

theorem run_succ_last (Q : Index) (E : Env) (top_k : Int) (n : Nat) (s : State) :
    run Q E top_k (n + 1) s = step Q E top_k (run Q E top_k n s) := by
  rw [run_add]; rfl

theorem reachable_step {Q : Index} {E : Env} {top_k : Int} {query : Int → ℚ}
    {list : MinK_List} {fuel : Nat} {old s : State}
    (h : Reachable Q E top_k query list fuel old s) :
    Reachable Q E top_k query list fuel old (QALSH.step Q E top_k s) := by
  obtain ⟨s0, n, h0, rfl⟩ := h
  exact ⟨s0, n + 1, h0, (run_succ_last Q E top_k n s0).symm⟩

theorem reachable_run {Q : Index} {E : Env} {top_k : Int} {query : Int → ℚ}
    {list : MinK_List} {fuel : Nat} {old s : State}
    (h : Reachable Q E top_k query list fuel old s) (n : Nat) :
    Reachable Q E top_k query list fuel old (QALSH.run Q E top_k n s) := by
  obtain ⟨s0, k, h0, rfl⟩ := h
  exact ⟨s0, k + n, h0, (run_add Q E top_k k n s0).symm⟩

/-- Invariant principle. -/
theorem reachable_induct {Q : Index} {E : Env} {top_k : Int} {query : Int → ℚ}
    {list : MinK_List} {fuel : Nat} {old : State} (P : State → Prop)
    (h0 : ∀ s0, knn_start Q E query list fuel old = .ok s0 → P s0)
    (hs : ∀ s, P s → P (QALSH.step Q E top_k s)) {s : State}
    (h : Reachable Q E top_k query list fuel old s) : P s := by
  obtain ⟨s0, n, hk, rfl⟩ := h
  induction n with
  | zero => exact h0 s0 hk
  | succ n ih => rw [run_succ_last]; exact hs _ ih

/-- Fields not touched by delete_tree_ptr_at. -/
theorem delete_tree_ptr_at_frame (s : State) (i : Int) :
    (delete_tree_ptr_at s i).freq_ = s.freq_ ∧ (delete_tree_ptr_at s i).checked_ = s.checked_ ∧
    (delete_tree_ptr_at s i).flag_ = s.flag_ ∧ (delete_tree_ptr_at s i).q_val_ = s.q_val_ ∧
    (delete_tree_ptr_at s i).page_io_ = s.page_io_ ∧ (delete_tree_ptr_at s i).dist_io_ = s.dist_io_ ∧
    (delete_tree_ptr_at s i).num_flag = s.num_flag ∧ (delete_tree_ptr_at s i).knn_dist = s.knn_dist ∧
    (delete_tree_ptr_at s i).radius = s.radius ∧ (delete_tree_ptr_at s i).bucket = s.bucket ∧
    (delete_tree_ptr_at s i).list = s.list ∧ (delete_tree_ptr_at s i).trace = s.trace ∧
    (delete_tree_ptr_at s i).pc = s.pc := by
  unfold delete_tree_ptr_at
  cases h1 : (s.lptr_ i).leaf_node_ <;> simp only [] <;> split <;> (try split) <;> simp

theorem delete_tree_ptr_frame (Q : Index) (s : State) :
    (delete_tree_ptr Q s).freq_ = s.freq_ ∧ (delete_tree_ptr Q s).checked_ = s.checked_ ∧
    (delete_tree_ptr Q s).flag_ = s.flag_ ∧ (delete_tree_ptr Q s).q_val_ = s.q_val_ ∧
    (delete_tree_ptr Q s).page_io_ = s.page_io_ ∧ (delete_tree_ptr Q s).dist_io_ = s.dist_io_ ∧
    (delete_tree_ptr Q s).num_flag = s.num_flag ∧ (delete_tree_ptr Q s).knn_dist = s.knn_dist ∧
    (delete_tree_ptr Q s).radius = s.radius ∧ (delete_tree_ptr Q s).bucket = s.bucket ∧
    (delete_tree_ptr Q s).list = s.list ∧ (delete_tree_ptr Q s).trace = s.trace ∧
    (delete_tree_ptr Q s).pc = s.pc := by
  unfold delete_tree_ptr
  generalize List.range Q.m_.toNat = l
  induction l generalizing s with
  | nil => exact ⟨rfl, rfl, rfl, rfl, rfl, rfl, rfl, rfl, rfl, rfl, rfl, rfl, rfl⟩
  | cons a l ih =>
    have h1 := ih (delete_tree_ptr_at s a)
    have h2 := delete_tree_ptr_at_frame s a
    simp only [h2] at h1
    exact h1

/-- The four outcomes of collision counting. -/
theorem collide_cases (Q : Index) (E : Env) (top_k : Int) (s : State) (id : Int) (next brk : PC) :
    (¬ (0 ≤ id ∧ id < Q.n_pts_) ∧ collide Q E top_k s id next brk = { s with pc := .fault }) ∨
    ((0 ≤ id ∧ id < Q.n_pts_) ∧ s.checked_ id = true ∧
      collide Q E top_k s id next brk = { s with pc := next }) ∨
    ((0 ≤ id ∧ id < Q.n_pts_) ∧ s.checked_ id = false ∧ s.freq_ id + 1 ≤ Q.l_ ∧
      collide Q E top_k s id next brk =
        { s with freq_ := Function.update s.freq_ id (s.freq_ id + 1), pc := next }) ∨
    ((0 ≤ id ∧ id < Q.n_pts_) ∧ s.checked_ id = false ∧ Q.l_ < s.freq_ id + 1 ∧
      collide Q E top_k s id next brk =
        { evaluate E { s with freq_ := Function.update s.freq_ id (s.freq_ id + 1) } id with
          pc := if candidates E top_k ≤ s.dist_io_ + 1 then brk else next }) := by
  unfold collide
  by_cases hr : 0 ≤ id ∧ id < Q.n_pts_
  · right
    cases hc : s.checked_ id
    · right
      by_cases hf : Q.l_ < s.freq_ id + 1
      · right
        refine ⟨hr, rfl, hf, ?_⟩
        simp only [hr, hc, evaluate]
        simp [hf]
        split_ifs <;> rfl
      · left
        refine ⟨hr, rfl, by omega, ?_⟩
        simp [hr, hc, hf]
    · left
      refine ⟨hr, rfl, ?_⟩
      simp [hr, hc]
  · left
    exact ⟨hr, by simp [hr]⟩

theorem collide_budget (Q : Index) (E : Env) (top_k : Int) (s : State) (id i : Int) (next : PC)
    (brk : PC) (hb : brk = .advance_left i ∨ brk = .advance_right i)
    (h : s.dist_io_ < candidates E top_k) :
    BudgetInv E top_k (collide Q E top_k s id next brk) := by
  rcases collide_cases Q E top_k s id next brk with ⟨_, h⟩ | ⟨_, _, h⟩ | ⟨_, _, _, h⟩ | ⟨_, _, _, h⟩
  · rw [h]; exact ⟨le_of_lt (by simpa using ‹_›), by simp⟩
  · rw [h]; exact ⟨le_of_lt (by simpa using ‹_›), fun _ => by simpa using ‹s.dist_io_ < _›⟩
  · rw [h]; exact ⟨le_of_lt (by simpa using ‹_›), fun _ => by simpa using ‹s.dist_io_ < _›⟩
  · rw [h]
    refine ⟨by simp [evaluate]; omega, ?_⟩
    by_cases hc : candidates E top_k ≤ s.dist_io_ + 1
    · rcases hb with rfl | rfl <;> simp [hc]
    · intro _; simp [evaluate]; omega

theorem step_budget (Q : Index) (E : Env) (top_k : Int) (s : State)
    (h : BudgetInv E top_k s) : BudgetInv E top_k (step Q E top_k s) := by
  obtain ⟨h1, h2⟩ := h
  unfold step
  split
  all_goals (rename_i hpc; simp only [hpc] at h2)
  · simp_all [BudgetInv]
  · split_ifs <;> simp_all [BudgetInv]
  · have h3 : s.dist_io_ < candidates E top_k := by simpa using h2
    split_ifs
    · exact ⟨h1, fun _ => h3⟩
    · split
      · split_ifs
        · exact ⟨h1, fun _ => h3⟩
        · exact ⟨h1, fun _ => h3⟩
        · exact ⟨h1, by simp⟩
      · exact ⟨h1, by simp⟩
    · exact ⟨h1, by simp⟩
  · have h3 : s.dist_io_ < candidates E top_k := by simpa using h2
    split_ifs
    · split
      · exact ⟨h1, by simp⟩
      · split
        · exact ⟨h1, by simp⟩
        · exact collide_budget Q E top_k s _ _ _ _ (Or.inl rfl) h3
    · exact ⟨h1, by simp⟩
  · split
    · exact ⟨h1, by simp⟩
    · exact ⟨h1, by simp⟩
  · have h3 : s.dist_io_ < candidates E top_k := by simpa using h2
    split_ifs
    · split
      · exact ⟨h1, by simp⟩
      · split
        · exact ⟨h1, by simp⟩
        · exact collide_budget Q E top_k s _ _ _ _ (Or.inr rfl) h3
    · exact ⟨h1, by simp⟩
  · split
    · exact ⟨h1, by simp⟩
    · exact ⟨h1, by simp⟩
  · split_ifs with hc
    · exact ⟨h1, by simp⟩
    · exact ⟨h1, fun _ => by show s.dist_io_ < _; simp at hc; omega⟩
  · split_ifs with hc
    · exact ⟨h1, by simp⟩
    · exact ⟨h1, fun _ => by show s.dist_io_ < _; simp at hc; omega⟩
  · have hf := delete_tree_ptr_frame Q s
    split_ifs with hc1 hc2
    · exact ⟨by simp [hf]; exact h1, by simp⟩
    · exact ⟨by simp [hf]; exact h1, by simp⟩
    · split
      · exact ⟨h1, by simp⟩
      · exact ⟨h1, fun _ => by
          show s.dist_io_ < _
          have := hf.2.2.2.2.2.1
          simp at hc2; omega⟩
  · exact ⟨h1, by simp [hpc]⟩
  · exact ⟨h1, by simp [hpc]⟩

theorem init_trees_frame (Q : Index) (query : Int → ℚ) (fuel : Nat) (count : Nat) (i : Int)
    (s s1 : State) (h : init_trees Q query fuel count i s = .ok s1) :
    s1.freq_ = s.freq_ ∧ s1.checked_ = s.checked_ ∧ s1.flag_ = s.flag_ ∧
    s1.dist_io_ = s.dist_io_ ∧ s1.num_flag = s.num_flag ∧ s1.knn_dist = s.knn_dist ∧
    s1.radius = s.radius ∧ s1.bucket = s.bucket ∧ s1.list = s.list ∧ s1.trace = s.trace ∧
    s1.pc = s.pc := by
  induction count generalizing i s with
  | zero =>
    simp only [init_trees, Except.ok.injEq] at h
    subst h
    exact ⟨rfl, rfl, rfl, rfl, rfl, rfl, rfl, rfl, rfl, rfl, rfl⟩
  | succ count ih =>
    simp only [init_trees] at h
    split at h
    · exact absurd h (by simp)
    · have h3 := ih _ _ h
      exact h3

/-- What the preamble of `knn` establishes. -/
theorem knn_start_spec (Q : Index) (E : Env) (query : Int → ℚ) (list : MinK_List) (fuel : Nat)
    (old s0 : State) (h : knn_start Q E query list fuel old = .ok s0) :
    s0.dist_io_ = 0 ∧ s0.pc = .round ∧ s0.trace = [] ∧ s0.knn_dist = E.MAXREAL ∧
    s0.bucket = Q.w_ * s0.radius / 2 ∧ s0.list = list ∧
    (∀ id, 0 ≤ id → id < Q.n_pts_ → s0.freq_ id = 0 ∧ s0.checked_ id = false) := by
  unfold knn_start at h
  split at h
  · exact absurd h (by simp)
  · rename_i s hs
    split at h
    · exact absurd h (by simp)
    · simp only [Except.ok.injEq] at h
      subst h
      have hf := init_trees_frame _ _ _ _ _ _ _ hs
      refine ⟨by simp [hf], rfl, rfl, rfl, rfl, rfl, ?_⟩
      intro id h1 h2
      simp [hf, h1, h2]

/-- A step is collision counting for one entry (from a scan point), or it
leaves the collision-counting data alone and keeps `bucket = radius * w_ / 2`
up to date. -/
theorem step_eval_cases (Q : Index) (E : Env) (top_k : Int) (s : State) :
    (s.pc.in_scan = true ∧ ∃ id next brk, next ≠ .returned ∧ brk ≠ .returned ∧
        step Q E top_k s = collide Q E top_k s id next brk) ∨
    (SameEval s (step Q E top_k s) ∧
      (((step Q E top_k s).radius = s.radius ∧ (step Q E top_k s).bucket = s.bucket) ∨
        (step Q E top_k s).bucket = (step Q E top_k s).radius * Q.w_ / 2)) := by
  have hf := delete_tree_ptr_frame Q s
  unfold step
  split
  · right; exact ⟨⟨rfl, rfl, rfl, rfl, rfl, rfl⟩, Or.inl ⟨rfl, rfl⟩⟩
  · right; split_ifs <;> exact ⟨⟨rfl, rfl, rfl, rfl, rfl, rfl⟩, Or.inl ⟨rfl, rfl⟩⟩
  · right
    split_ifs
    · exact ⟨⟨rfl, rfl, rfl, rfl, rfl, rfl⟩, Or.inl ⟨rfl, rfl⟩⟩
    · split
      · split_ifs <;> exact ⟨⟨rfl, rfl, rfl, rfl, rfl, rfl⟩, Or.inl ⟨rfl, rfl⟩⟩
      · exact ⟨⟨rfl, rfl, rfl, rfl, rfl, rfl⟩, Or.inl ⟨rfl, rfl⟩⟩
    · exact ⟨⟨rfl, rfl, rfl, rfl, rfl, rfl⟩, Or.inl ⟨rfl, rfl⟩⟩
  · rename_i hpc
    split_ifs
    · split
      · right; exact ⟨⟨rfl, rfl, rfl, rfl, rfl, rfl⟩, Or.inl ⟨rfl, rfl⟩⟩
      · split
        · right; exact ⟨⟨rfl, rfl, rfl, rfl, rfl, rfl⟩, Or.inl ⟨rfl, rfl⟩⟩
        · left; exact ⟨by simp [hpc, PC.in_scan], _, _, _, by simp, by simp, rfl⟩
    · right; exact ⟨⟨rfl, rfl, rfl, rfl, rfl, rfl⟩, Or.inl ⟨rfl, rfl⟩⟩
  · right; split <;> exact ⟨⟨rfl, rfl, rfl, rfl, rfl, rfl⟩, Or.inl ⟨rfl, rfl⟩⟩
  · rename_i hpc
    split_ifs
    · split
      · right; exact ⟨⟨rfl, rfl, rfl, rfl, rfl, rfl⟩, Or.inl ⟨rfl, rfl⟩⟩
      · split
        · right; exact ⟨⟨rfl, rfl, rfl, rfl, rfl, rfl⟩, Or.inl ⟨rfl, rfl⟩⟩
        · left; exact ⟨by simp [hpc, PC.in_scan], _, _, _, by simp, by simp, rfl⟩
    · right; exact ⟨⟨rfl, rfl, rfl, rfl, rfl, rfl⟩, Or.inl ⟨rfl, rfl⟩⟩
  · right; split <;> exact ⟨⟨rfl, rfl, rfl, rfl, rfl, rfl⟩, Or.inl ⟨rfl, rfl⟩⟩
  · right; split_ifs <;> exact ⟨⟨rfl, rfl, rfl, rfl, rfl, rfl⟩, Or.inl ⟨rfl, rfl⟩⟩
  · right; split_ifs <;> exact ⟨⟨rfl, rfl, rfl, rfl, rfl, rfl⟩, Or.inl ⟨rfl, rfl⟩⟩
  · right
    split_ifs
    · exact ⟨⟨hf.1, hf.2.1, hf.2.2.2.2.2.2.2.2.2.2.2.1, hf.2.2.2.2.2.1, hf.2.2.2.2.2.2.2.1,
        hf.2.2.2.2.2.2.2.2.2.2.1⟩, Or.inl ⟨hf.2.2.2.2.2.2.2.2.1, hf.2.2.2.2.2.2.2.2.2.1⟩⟩
    · exact ⟨⟨hf.1, hf.2.1, hf.2.2.2.2.2.2.2.2.2.2.2.1, hf.2.2.2.2.2.1, hf.2.2.2.2.2.2.2.1,
        hf.2.2.2.2.2.2.2.2.2.2.1⟩, Or.inl ⟨hf.2.2.2.2.2.2.2.2.1, hf.2.2.2.2.2.2.2.2.2.1⟩⟩
    · split
      · exact ⟨⟨rfl, rfl, rfl, rfl, rfl, rfl⟩, Or.inl ⟨rfl, rfl⟩⟩
      · exact ⟨⟨rfl, rfl, rfl, rfl, rfl, rfl⟩, Or.inr rfl⟩
  · right; exact ⟨⟨rfl, rfl, rfl, rfl, rfl, rfl⟩, Or.inl ⟨rfl, rfl⟩⟩
  · right; exact ⟨⟨rfl, rfl, rfl, rfl, rfl, rfl⟩, Or.inl ⟨rfl, rfl⟩⟩

theorem inserted_length (tr : List Call) : (inserted tr).length = tr.countP Call.is_insert := by
  induction tr with
  | nil => rfl
  | cons c tr ih =>
    cases c <;> simp [inserted, Call.inserted_id, Call.is_insert, List.filterMap_cons] at ih ⊢ <;>
      exact ih

theorem collide_eval_inv (Q : Index) (E : Env) (top_k : Int) (s : State) (id : Int)
    (next brk : PC) (h : EvalInv Q E s) : EvalInv Q E (collide Q E top_k s id next brk) := by
  rcases collide_cases Q E top_k s id next brk with
    ⟨_, e⟩ | ⟨_, _, e⟩ | ⟨⟨hr1, hr2⟩, hc, hf, e⟩ | ⟨⟨hr1, hr2⟩, hc, hf, e⟩
  · rw [e]; exact ⟨h.1, h.2, h.3, h.4, h.5, h.6, h.7, h.8, h.9, h.10⟩
  · rw [e]; exact ⟨h.1, h.2, h.3, h.4, h.5, h.6, h.7, h.8, h.9, h.10⟩
  · rw [e]
    refine ⟨h.1, h.2, ?_, ?_, h.5, h.6, h.7, h.8, h.9, h.10⟩
    · intro id2 a b c
      by_cases hid : id2 = id
      · subst hid; simp [hc] at c
      · simpa [Function.update_noteq hid] using h.3 id2 a b c
    · intro hl id2 a b
      by_cases hid : id2 = id
      · subst hid
        simp only [Function.update_same]
        exact ⟨fun c => by simp [hc] at c, fun _ => hf⟩
      · simpa [Function.update_noteq hid] using h.4 hl id2 a b
  · rw [e]
    have hni : id ∉ inserted s.trace := by
      intro hm
      have := (h.1 id).1 hm
      simp [hc] at this
    have hins : inserted (s.trace ++ [Call.read_data_new_format id,
        Call.calc_lp_dist (E.lp_dist id), Call.insert (E.lp_dist id) id]) =
        inserted s.trace ++ [id] := by
      simp [inserted, Call.inserted_id, List.filterMap_append]
    refine ⟨?_, ?_, ?_, ?_, ?_, ?_, ?_, ?_, ?_, ?_⟩
    · intro id2
      simp only [evaluate, hins, List.mem_append, List.mem_singleton]
      by_cases hid : id2 = id
      · subst hid; simp [hr1, hr2]
      · simp [Function.update_noteq hid, hid, h.1 id2]
    · simp only [evaluate, hins]
      exact List.Nodup.append h.2 (List.nodup_singleton _) (by simpa using hni)
    · intro id2 a b c
      by_cases hid : id2 = id
      · subst hid; simpa [evaluate] using hf
      · simp only [evaluate, Function.update_noteq hid] at c ⊢
        exact h.3 id2 a b c
    · intro hl id2 a b
      by_cases hid : id2 = id
      · subst hid
        simp only [evaluate, Function.update_same]
        have := (h.4 hl id2 a b).2 hc
        exact ⟨fun _ => by omega, fun c => by simp at c⟩
      · simpa [evaluate, Function.update_noteq hid] using h.4 hl id2 a b
    · simp [evaluate, List.countP_append, Call.is_read, List.countP_cons, ← h.5]
    · simp [evaluate, List.countP_append, Call.is_calc, List.countP_cons, ← h.6]
    · simp [evaluate, List.countP_append, Call.is_insert, List.countP_cons, ← h.7]
    · intro c; simp [evaluate] at c
    · intro _; simp [evaluate, MinK_List.insert]
    · simpa [evaluate] using h.10

theorem step_eval_inv (Q : Index) (E : Env) (top_k : Int) (s : State) (h : EvalInv Q E s) :
    EvalInv Q E (step Q E top_k s) := by
  rcases step_eval_cases Q E top_k s with ⟨_, id, next, brk, _, _, e⟩ | ⟨⟨e1, e2, e3, e4, e5, e6⟩, hb⟩
  · rw [e]; exact collide_eval_inv Q E top_k s id next brk h
  · refine ⟨?_, ?_, ?_, ?_, ?_, ?_, ?_, ?_, ?_, ?_⟩
    · simpa only [e2, e3] using h.1
    · simpa only [e3] using h.2
    · simpa only [e1, e2] using h.3
    · simpa only [e1, e2] using h.4
    · simpa only [e3, e4] using h.5
    · simpa only [e3, e4] using h.6
    · simpa only [e3, e4] using h.7
    · simpa only [e3, e5] using h.8
    · simpa only [e3, e5, e6] using h.9
    · rcases hb with ⟨b1, b2⟩ | b
      · rw [b1, b2]; exact h.10
      · rw [b]; ring

theorem knn_start_eval_inv (Q : Index) (E : Env) (query : Int → ℚ) (list : MinK_List)
    (fuel : Nat) (old s0 : State) (h : knn_start Q E query list fuel old = .ok s0) :
    EvalInv Q E s0 := by
  obtain ⟨h1, _, h3, h4, h5, _, h7⟩ := knn_start_spec Q E query list fuel old s0 h
  refine ⟨?_, ?_, ?_, ?_, ?_, ?_, ?_, ?_, ?_, ?_⟩
  · intro id
    rw [h3]
    simp only [inserted, List.filterMap_nil, List.not_mem_nil, false_iff]
    rintro ⟨a, b, c⟩
    rw [(h7 id a b).2] at c
    exact absurd c (by simp)
  · rw [h3]; exact List.nodup_nil
  · intro id a b c
    rw [(h7 id a b).2] at c
    exact absurd c (by simp)
  · intro hl id a b
    rw [(h7 id a b).1, (h7 id a b).2]
    exact ⟨fun c => absurd c (by simp), fun _ => hl⟩
  · rw [h3, h1]; rfl
  · rw [h3, h1]; rfl
  · rw [h3, h1]; rfl
  · intro _; exact h4
  · intro c; exact absurd h3 c
  · exact h5

theorem reachable_eval_inv {Q : Index} {E : Env} {top_k : Int} {query : Int → ℚ}
    {list : MinK_List} {fuel : Nat} {old s : State}
    (h : Reachable Q E top_k query list fuel old s) : EvalInv Q E s :=
  reachable_induct (EvalInv Q E) (knn_start_eval_inv Q E query list fuel old)
    (step_eval_inv Q E top_k) h

theorem reachable_budget_inv {Q : Index} {E : Env} {top_k : Int} {query : Int → ℚ}
    {list : MinK_List} {fuel : Nat} {old s : State} (hT : 1 ≤ candidates E top_k)
    (h : Reachable Q E top_k query list fuel old s) : BudgetInv E top_k s := by
  refine reachable_induct (BudgetInv E top_k) ?_ (step_budget Q E top_k) h
  intro s0 h0
  obtain ⟨h1, _⟩ := knn_start_spec Q E query list fuel old s0 h0
  exact ⟨by rw [h1]; omega, fun _ => by rw [h1]; omega⟩

theorem step_checked_mono (Q : Index) (E : Env) (top_k : Int) (s : State) (id : Int)
    (h : s.checked_ id = true) : (step Q E top_k s).checked_ id = true := by
  rcases step_eval_cases Q E top_k s with ⟨_, id2, next, brk, _, _, e⟩ | ⟨⟨_, e2, _⟩, _⟩
  · rw [e]
    rcases collide_cases Q E top_k s id2 next brk with
      ⟨_, e⟩ | ⟨_, _, e⟩ | ⟨_, _, _, e⟩ | ⟨_, _, _, e⟩ <;> rw [e]
    · exact h
    · exact h
    · exact h
    · by_cases hid : id = id2
      · subst hid; simp [evaluate]
      · simpa [evaluate, Function.update_noteq hid] using h
  · rw [e2]; exact h

theorem run_checked_mono (Q : Index) (E : Env) (top_k : Int) (n : Nat) (s : State) (id : Int)
    (h : s.checked_ id = true) : (run Q E top_k n s).checked_ id = true := by
  induction n generalizing s with
  | zero => exact h
  | succ n ih => exact ih _ (step_checked_mono Q E top_k s id h)

/-- C1: every call `list->insert(dist, id)` of `QALSH::knn` is made by a step
that changes `checked_[id]` from false to true and raises `freq_[id]` above
`l_` (to exactly `l_ + 1` when `l_ ≥ 0`); `checked_[id]` is never reset, the
inserted ids are pairwise distinct, and an inserted id has `freq_[id] > l_`. -/
theorem knn_insert_sound (Q : Index) (E : Env) (top_k : Int) (query : Int → ℚ)
    (list : MinK_List) (fuel : Nat) (old s : State)
    (h : Reachable Q E top_k query list fuel old s) :
    ((step Q E top_k s).trace = s.trace ∨
      ∃ id, (step Q E top_k s).trace = s.trace ++
          [.read_data_new_format id, .calc_lp_dist (E.lp_dist id), .insert (E.lp_dist id) id] ∧
        0 ≤ id ∧ id < Q.n_pts_ ∧
        s.checked_ id = false ∧ (step Q E top_k s).checked_ id = true ∧
        (step Q E top_k s).freq_ id = s.freq_ id + 1 ∧ Q.l_ < (step Q E top_k s).freq_ id ∧
        (0 ≤ Q.l_ → (step Q E top_k s).freq_ id = Q.l_ + 1)) ∧
    (∀ id n, s.checked_ id = true → (run Q E top_k n s).checked_ id = true) ∧
    (inserted s.trace).Nodup ∧
    (∀ id, id ∈ inserted s.trace → Q.l_ < s.freq_ id) := by
  have hi := reachable_eval_inv h
  refine ⟨?_, fun id n hc => run_checked_mono Q E top_k n s id hc, hi.2, ?_⟩
  · rcases step_eval_cases Q E top_k s with ⟨_, id, next, brk, _, _, e⟩ | ⟨⟨_, _, e3, _⟩, _⟩
    · rw [e]
      rcases collide_cases Q E top_k s id next brk with
        ⟨_, e⟩ | ⟨_, _, e⟩ | ⟨_, _, _, e⟩ | ⟨⟨hr1, hr2⟩, hc, hf, e⟩ <;> rw [e]
      · left; rfl
      · left; rfl
      · left; rfl
      · right
        refine ⟨id, rfl, hr1, hr2, hc, by simp [evaluate], by simp [evaluate],
          by simpa [evaluate] using hf, fun hl => ?_⟩
        have := (hi.4 hl id hr1 hr2).2 hc
        simp only [evaluate, Function.update_same]
        omega
    · left; exact e3
  · intro id hm
    obtain ⟨a, b, c⟩ := (hi.1 id).1 hm
    exact hi.3 id a b c

/-- C2: for `top_k ≥ 1` (and `CANDIDATES ≥ 1`) the counter `dist_io_` never
exceeds `T = CANDIDATES + top_k - 1`; a step that evaluates a distance starts
with `dist_io_ < T`; and when the stop test is left through termination
condition 2, `dist_io_` is exactly `T`. -/
theorem knn_budget (Q : Index) (E : Env) (top_k : Int) (query : Int → ℚ)
    (list : MinK_List) (fuel : Nat) (old s : State) (hk : 1 ≤ top_k) (hC : 1 ≤ E.CANDIDATES)
    (h : Reachable Q E top_k query list fuel old s) :
    s.dist_io_ ≤ candidates E top_k ∧
    ((step Q E top_k s).trace ≠ s.trace → s.dist_io_ < candidates E top_k) ∧
    ((step Q E top_k s).dist_io_ ≠ s.dist_io_ → s.dist_io_ < candidates E top_k) ∧
    (s.pc = .stop_test → ¬ (s.knn_dist < Q.appr_ratio_ * s.radius ∧ s.dist_io_ ≥ top_k) →
      s.dist_io_ ≥ candidates E top_k →
      (step Q E top_k s).pc = .returned ∧ s.dist_io_ = candidates E top_k) := by
  have hT : 1 ≤ candidates E top_k := by unfold candidates; omega
  have hb := reachable_budget_inv hT h
  have hscan : s.pc.in_scan = true → s.dist_io_ < candidates E top_k := by
    intro hs
    apply hb.2
    cases hpc : s.pc <;> simp [hpc, PC.in_scan] at hs ⊢
  refine ⟨hb.1, ?_, ?_, ?_⟩
  · intro hne
    rcases step_eval_cases Q E top_k s with ⟨hs, _⟩ | ⟨⟨_, _, e3, _⟩, _⟩
    · exact hscan hs
    · exact absurd e3 hne
  · intro hne
    rcases step_eval_cases Q E top_k s with ⟨hs, _⟩ | ⟨⟨_, _, _, e4, _⟩, _⟩
    · exact hscan hs
    · exact absurd e4 hne
  · intro hpc hn hge
    refine ⟨?_, le_antisymm hb.1 hge⟩
    unfold step
    simp only [hpc]
    rw [if_neg hn, if_pos hge]

theorem collide_pc (Q : Index) (E : Env) (top_k : Int) (s : State) (id : Int) (next brk : PC) :
    (collide Q E top_k s id next brk).pc = .fault ∨
    (collide Q E top_k s id next brk).pc = next ∨
    (collide Q E top_k s id next brk).pc = brk := by
  rcases collide_cases Q E top_k s id next brk with
    ⟨_, e⟩ | ⟨_, _, e⟩ | ⟨_, _, _, e⟩ | ⟨_, _, _, e⟩ <;> rw [e]
  · left; rfl
  · right; left; rfl
  · right; left; rfl
  · by_cases hc : candidates E top_k ≤ s.dist_io_ + 1
    · right; right; simp [hc]
    · right; left; simp [hc]

theorem step_pc_ne_returned (Q : Index) (E : Env) (top_k : Int) (s : State)
    (h1 : s.pc ≠ .returned) (h2 : s.pc ≠ .stop_test) : (step Q E top_k s).pc ≠ .returned := by
  unfold step
  split
  · simp
  · split_ifs <;> simp
  · split_ifs
    · simp
    · split
      · split_ifs <;> simp
      · simp
    · simp
  · split_ifs
    · split
      · simp
      · split
        · simp
        · rcases collide_pc Q E top_k s _ (.scan_left _ (_ - 1) _) (.advance_left _) with
            e | e | e <;> rw [e] <;> simp
    · simp
  · split <;> simp
  · split_ifs
    · split
      · simp
      · split
        · simp
        · rcases collide_pc Q E top_k s _ (.scan_right _ (_ + 1) _) (.advance_right _) with
            e | e | e <;> rw [e] <;> simp
    · simp
  · split <;> simp
  · split_ifs <;> simp
  · split_ifs <;> simp
  · rename_i hpc; exact absurd hpc h2
  · rename_i hpc; exact absurd hpc h1
  · rename_i hpc; rw [hpc]; simp

/-- A step reaches `returned` only from the stop test with a stop condition
satisfied (or stays there). -/
theorem step_returned (Q : Index) (E : Env) (top_k : Int) (s : State)
    (h : (step Q E top_k s).pc = .returned) :
    s.pc = .returned ∨
    (s.pc = .stop_test ∧ stop_condition Q E top_k s ∧
      step Q E top_k s = { delete_tree_ptr Q s with pc := .returned }) := by
  by_cases h1 : s.pc = .returned
  · exact Or.inl h1
  · by_cases h2 : s.pc = .stop_test
    · right
      refine ⟨h2, ?_⟩
      unfold step at h ⊢
      simp only [h2] at h ⊢
      by_cases c1 : s.knn_dist < Q.appr_ratio_ * s.radius ∧ s.dist_io_ ≥ top_k
      · exact ⟨Or.inl c1, by rw [if_pos c1]⟩
      · by_cases c2 : s.dist_io_ ≥ candidates E top_k
        · exact ⟨Or.inr c2, by rw [if_neg c1, if_pos c2]⟩
        · rw [if_neg c1, if_neg c2] at h
          split at h <;> simp at h
    · exact absurd h (step_pc_ne_returned Q E top_k s h1 h2)

theorem checked_count_eq (Q : Index) (E : Env) (s : State) (h : EvalInv Q E s) :
    checked_count Q s = (inserted s.trace).length := by
  unfold checked_count
  rw [List.countP_eq_length_filter]
  have hnd : (((List.range Q.n_pts_.toNat).filter (fun (i : Nat) => s.checked_ (Int.ofNat i))).map
      (fun i : Nat => (i : Int))).Nodup :=
    ((List.nodup_range _).filter _).map (fun a b hab => by exact_mod_cast hab)
  have hperm : (((List.range Q.n_pts_.toNat).filter (fun (i : Nat) => s.checked_ (Int.ofNat i))).map
      (fun i : Nat => (i : Int))).Perm (inserted s.trace) := by
    rw [List.perm_ext_iff_of_nodup hnd h.2]
    intro x
    rw [h.1 x]
    simp only [List.mem_map, List.mem_filter, List.mem_range]
    constructor
    · rintro ⟨i, ⟨hi, hc⟩, rfl⟩
      exact ⟨by omega, by omega, hc⟩
    · rintro ⟨a, b, c⟩
      refine ⟨x.toNat, ⟨by omega, ?_⟩, by omega⟩
      simpa [Int.toNat_of_nonneg a] using c
  rw [← hperm.length_eq, List.length_map]

/-- C3: the value `knn` returns is `page_io_ + dist_io_`, and `dist_io_`
equals the number of data-page reads, of `calc_lp_dist` calls, of
`list->insert` calls and of ids with `checked_[id]` set. -/
theorem knn_io_accounting (Q : Index) (E : Env) (top_k : Int) (query : Int → ℚ)
    (list : MinK_List) (fuel : Nat) (old s : State)
    (h : Reachable Q E top_k query list fuel old s) :
    (s.pc = .returned → result s = some (s.page_io_ + s.dist_io_)) ∧
    (s.trace.countP Call.is_read : Int) = s.dist_io_ ∧
    (s.trace.countP Call.is_calc : Int) = s.dist_io_ ∧
    (s.trace.countP Call.is_insert : Int) = s.dist_io_ ∧
    (checked_count Q s : Int) = s.dist_io_ := by
  have hi := reachable_eval_inv h
  refine ⟨fun hpc => by simp [result, hpc], hi.5, hi.6, hi.7, ?_⟩
  rw [checked_count_eq Q E s hi, inserted_length]
  exact hi.7

theorem step_return_inv (Q : Index) (E : Env) (top_k : Int) (s : State)
    (h : ReturnInv Q E top_k s) : ReturnInv Q E top_k (step Q E top_k s) := by
  intro hpc
  rcases step_returned Q E top_k s hpc with h1 | ⟨_, h2, e⟩
  · have e : step Q E top_k s = s := by unfold step; simp [h1]
    rw [e]; exact h h1
  · have hf := delete_tree_ptr_frame Q s
    rw [e]
    unfold stop_condition at h2 ⊢
    simpa [hf] using h2

/-- C4: `knn` returns only from the stop test, in a state where
`knn_dist < appr_ratio_ * radius ∧ dist_io_ ≥ top_k` or `dist_io_ ≥ T` holds;
the radius is the one of the round just finished (`bucket = w_ * radius / 2`)
and `knn_dist` is the k-th distance last reported by the result list
(`MAXREAL` before the first insertion). -/
theorem knn_return_condition (Q : Index) (E : Env) (top_k : Int) (query : Int → ℚ)
    (list : MinK_List) (fuel : Nat) (old s : State)
    (h : Reachable Q E top_k query list fuel old s) :
    (s.pc = .returned →
      stop_condition Q E top_k s ∧
      (s.dist_io_ < candidates E top_k →
        s.knn_dist < Q.appr_ratio_ * s.radius ∧ top_k ≤ s.dist_io_)) ∧
    (s.pc ≠ .returned → (step Q E top_k s).pc = .returned →
      s.pc = .stop_test ∧ stop_condition Q E top_k s ∧
      (step Q E top_k s).knn_dist = s.knn_dist ∧ (step Q E top_k s).radius = s.radius ∧
      (step Q E top_k s).dist_io_ = s.dist_io_) ∧
    s.bucket = Q.w_ * s.radius / 2 ∧
    (s.trace = [] → s.knn_dist = E.MAXREAL) ∧
    (s.trace ≠ [] → s.knn_dist = s.list.max_key E) := by
  have hi := reachable_eval_inv h
  have hr : ReturnInv Q E top_k s :=
    reachable_induct (ReturnInv Q E top_k)
      (fun s0 h0 hpc => by
        rw [(knn_start_spec Q E query list fuel old s0 h0).2.1] at hpc
        exact absurd hpc (by simp))
      (step_return_inv Q E top_k) h
  refine ⟨fun hpc => ⟨hr hpc, fun hlt => ?_⟩, fun hne hpc => ?_, hi.10, hi.8, hi.9⟩
  · rcases hr hpc with c | c
    · exact c
    · exact absurd c (by omega)
  · rcases step_returned Q E top_k s hpc with h1 | ⟨h1, h2, e⟩
    · exact absurd h1 hne
    · have hf := delete_tree_ptr_frame Q s
      refine ⟨h1, h2, ?_, ?_, ?_⟩ <;> rw [e] <;> simp [hf]

theorem start_state_ok (r : Except InitFault State) (d : State) (h : started r = true) :
    r = .ok (start_state r d) := by
  cases r with
  | error e => simp [started] at h
  | ok s => rfl

theorem ex_reachable (n : Nat) :
    Reachable ex_index ex_env 1 ex_query ⟨1, []⟩ 1 ex_old (ex_state n) :=
  ⟨_, n, start_state_ok _ ex_old (by decide!), rfl⟩

theorem ex_reachable2 (n : Nat) :
    Reachable ex_index ex_env2 1 ex_query ⟨1, []⟩ 1 ex_old (ex_state2 n) :=
  ⟨_, n, start_state_ok _ ex_old (by decide!), rfl⟩

/-- The run in `ex_env` evaluates point 1 in the step from state 8, reaches
the stop test with `dist_io_ = T = 1` and returns `page_io_ + dist_io_ = 3`. -/
theorem ex_run :
    (ex_state 8).pc = .scan_left 1 1 0 ∧ (ex_state 8).trace = [] ∧
    (ex_state 9).trace = [.read_data_new_format 1, .calc_lp_dist 5, .insert 5 1] ∧
    (ex_state 12).pc = .stop_test ∧ (ex_state 12).dist_io_ = 1 ∧
    (ex_state 13).pc = .returned ∧ result (ex_state 13) = some 3 := by
  decide!

/-- The run in `ex_env2` returns through termination condition 1 with
`dist_io_ = 1 < T = 100`. -/
theorem ex_run2 :
    (ex_state2 22).pc = .returned ∧ (ex_state2 22).dist_io_ = 1 ∧
    (ex_state2 22).knn_dist = 0 ∧ (ex_state2 22).radius = 1 := by
  decide!

theorem knn_insert_sound_witness :
    Reachable ex_index ex_env 1 ex_query ⟨1, []⟩ 1 ex_old (ex_state 8) ∧
    (((step ex_index ex_env 1 (ex_state 8)).trace = (ex_state 8).trace ∨
      ∃ id, (step ex_index ex_env 1 (ex_state 8)).trace = (ex_state 8).trace ++
          [.read_data_new_format id, .calc_lp_dist (ex_env.lp_dist id),
            .insert (ex_env.lp_dist id) id] ∧
        0 ≤ id ∧ id < ex_index.n_pts_ ∧
        (ex_state 8).checked_ id = false ∧ (step ex_index ex_env 1 (ex_state 8)).checked_ id = true ∧
        (step ex_index ex_env 1 (ex_state 8)).freq_ id = (ex_state 8).freq_ id + 1 ∧
        ex_index.l_ < (step ex_index ex_env 1 (ex_state 8)).freq_ id ∧
        (0 ≤ ex_index.l_ → (step ex_index ex_env 1 (ex_state 8)).freq_ id = ex_index.l_ + 1)) ∧
    (∀ id n, (ex_state 8).checked_ id = true →
      (run ex_index ex_env 1 n (ex_state 8)).checked_ id = true) ∧
    (inserted (ex_state 8).trace).Nodup ∧
    (∀ id, id ∈ inserted (ex_state 8).trace → ex_index.l_ < (ex_state 8).freq_ id)) :=
  ⟨ex_reachable 8,
   knn_insert_sound ex_index ex_env 1 ex_query ⟨1, []⟩ 1 ex_old (ex_state 8) (ex_reachable 8)⟩

theorem knn_budget_witness :
    (1 : Int) ≤ 1 ∧ 1 ≤ ex_env.CANDIDATES ∧
    Reachable ex_index ex_env 1 ex_query ⟨1, []⟩ 1 ex_old (ex_state 12) ∧
    ((ex_state 12).dist_io_ ≤ candidates ex_env 1 ∧
    ((step ex_index ex_env 1 (ex_state 12)).trace ≠ (ex_state 12).trace →
      (ex_state 12).dist_io_ < candidates ex_env 1) ∧
    ((step ex_index ex_env 1 (ex_state 12)).dist_io_ ≠ (ex_state 12).dist_io_ →
      (ex_state 12).dist_io_ < candidates ex_env 1) ∧
    ((ex_state 12).pc = .stop_test →
      ¬ ((ex_state 12).knn_dist < ex_index.appr_ratio_ * (ex_state 12).radius ∧
        (ex_state 12).dist_io_ ≥ 1) →
      (ex_state 12).dist_io_ ≥ candidates ex_env 1 →
      (step ex_index ex_env 1 (ex_state 12)).pc = .returned ∧
        (ex_state 12).dist_io_ = candidates ex_env 1)) :=
  ⟨by decide, by decide, ex_reachable 12,
   knn_budget ex_index ex_env 1 ex_query ⟨1, []⟩ 1 ex_old (ex_state 12) (by decide) (by decide)
     (ex_reachable 12)⟩

theorem knn_io_accounting_witness :
    Reachable ex_index ex_env 1 ex_query ⟨1, []⟩ 1 ex_old (ex_state 13) ∧
    (((ex_state 13).pc = .returned →
      result (ex_state 13) = some ((ex_state 13).page_io_ + (ex_state 13).dist_io_)) ∧
    ((ex_state 13).trace.countP Call.is_read : Int) = (ex_state 13).dist_io_ ∧
    ((ex_state 13).trace.countP Call.is_calc : Int) = (ex_state 13).dist_io_ ∧
    ((ex_state 13).trace.countP Call.is_insert : Int) = (ex_state 13).dist_io_ ∧
    (checked_count ex_index (ex_state 13) : Int) = (ex_state 13).dist_io_) :=
  ⟨ex_reachable 13,
   knn_io_accounting ex_index ex_env 1 ex_query ⟨1, []⟩ 1 ex_old (ex_state 13) (ex_reachable 13)⟩

theorem knn_return_condition_witness :
    Reachable ex_index ex_env2 1 ex_query ⟨1, []⟩ 1 ex_old (ex_state2 22) ∧
    (((ex_state2 22).pc = .returned →
      stop_condition ex_index ex_env2 1 (ex_state2 22) ∧
      ((ex_state2 22).dist_io_ < candidates ex_env2 1 →
        (ex_state2 22).knn_dist < ex_index.appr_ratio_ * (ex_state2 22).radius ∧
          1 ≤ (ex_state2 22).dist_io_)) ∧
    ((ex_state2 22).pc ≠ .returned → (step ex_index ex_env2 1 (ex_state2 22)).pc = .returned →
      (ex_state2 22).pc = .stop_test ∧ stop_condition ex_index ex_env2 1 (ex_state2 22) ∧
      (step ex_index ex_env2 1 (ex_state2 22)).knn_dist = (ex_state2 22).knn_dist ∧
      (step ex_index ex_env2 1 (ex_state2 22)).radius = (ex_state2 22).radius ∧
      (step ex_index ex_env2 1 (ex_state2 22)).dist_io_ = (ex_state2 22).dist_io_) ∧
    (ex_state2 22).bucket = ex_index.w_ * (ex_state2 22).radius / 2 ∧
    ((ex_state2 22).trace = [] → (ex_state2 22).knn_dist = ex_env2.MAXREAL) ∧
    ((ex_state2 22).trace ≠ [] → (ex_state2 22).knn_dist = (ex_state2 22).list.max_key ex_env2)) :=
  ⟨ex_reachable2 22,
   knn_return_condition ex_index ex_env2 1 ex_query ⟨1, []⟩ 1 ex_old (ex_state2 22)
     (ex_reachable2 22)⟩

/-- C10: `update_left_buffer` on a live left cursor does exactly one of:
(a) with `index_pos_ > 0` it stays on the leaf, decrements `index_pos_`, sets
`leaf_pos_ = index_pos_ * increment + increment - 1` and `size_ = increment`
and keeps `page_io_`; (b) otherwise, with a left sibling, it pins the sibling
on its last key-slot and last entry with `size_ = num_entries - (num_keys - 1)
* increment` and adds 1 to `page_io_`; (c) otherwise, without a left sibling,
it sets the cursor to `NULL, -1, -1, -1` and keeps `page_io_`. -/
theorem update_left_buffer_cases (T : BTree) (mem : Mem) (page_io_ : Int)
    (rptr lptr : PageBuffer) (old : LeafPtr) (h : lptr.leaf_node_ = some old) :
    (lptr.index_pos_ > 0 →
      ∃ a, update_left_buffer T mem page_io_ rptr lptr = some a ∧
        a.buf.leaf_node_ = some old ∧ a.buf.index_pos_ = lptr.index_pos_ - 1 ∧
        a.buf.leaf_pos_ = a.buf.index_pos_ * old.node.get_increment + old.node.get_increment - 1 ∧
        a.buf.size_ = old.node.get_increment ∧ a.page_io_ = page_io_) ∧
    (lptr.index_pos_ ≤ 0 → ∀ b, old.node.left_sibling_ = some b →
      ∃ a, update_left_buffer T mem page_io_ rptr lptr = some a ∧
        a.buf.leaf_node_ = some ⟨mem.next, T.leaf_node b⟩ ∧
        a.buf.index_pos_ = (T.leaf_node b).get_num_keys - 1 ∧
        a.buf.leaf_pos_ = (T.leaf_node b).get_num_entries - 1 ∧
        a.buf.size_ = (T.leaf_node b).get_num_entries -
          ((T.leaf_node b).get_num_keys - 1) * (T.leaf_node b).get_increment ∧
        a.page_io_ = page_io_ + 1) ∧
    (lptr.index_pos_ ≤ 0 → old.node.left_sibling_ = none →
      ∃ a, update_left_buffer T mem page_io_ rptr lptr = some a ∧
        a.buf.leaf_node_ = none ∧ a.buf.index_pos_ = -1 ∧ a.buf.leaf_pos_ = -1 ∧
        a.buf.size_ = -1 ∧ a.page_io_ = page_io_) := by
  refine ⟨fun hp => ?_, fun hp b hb => ?_, fun hp hb => ?_⟩
  · refine ⟨_, by simp only [update_left_buffer, h, if_pos hp]; rfl, ?_⟩
    simp [h]
  · have hn : ¬ lptr.index_pos_ > 0 := by omega
    refine ⟨_, by simp only [update_left_buffer, h, if_neg hn]; rfl, ?_⟩
    simp [get_left_sibling, hb, Mem.new_leaf]
  · have hn : ¬ lptr.index_pos_ > 0 := by omega
    refine ⟨_, by simp only [update_left_buffer, h, if_neg hn]; rfl, ?_⟩
    simp [get_left_sibling, hb, PageBuffer.null]

theorem update_left_buffer_cases_witness :
    (⟨some ⟨7, two_leaf_b⟩, 0, 1, 2⟩ : PageBuffer).leaf_node_ = some ⟨7, two_leaf_b⟩ ∧
    (((⟨some ⟨7, two_leaf_b⟩, 0, 1, 2⟩ : PageBuffer).index_pos_ > 0 →
      ∃ a, update_left_buffer two_tree ⟨8, []⟩ 3 PageBuffer.null ⟨some ⟨7, two_leaf_b⟩, 0, 1, 2⟩
          = some a ∧
        a.buf.leaf_node_ = some ⟨7, two_leaf_b⟩ ∧ a.buf.index_pos_ = 0 - 1 ∧
        a.buf.leaf_pos_ = a.buf.index_pos_ * two_leaf_b.get_increment +
          two_leaf_b.get_increment - 1 ∧
        a.buf.size_ = two_leaf_b.get_increment ∧ a.page_io_ = 3) ∧
    ((⟨some ⟨7, two_leaf_b⟩, 0, 1, 2⟩ : PageBuffer).index_pos_ ≤ 0 → ∀ b,
        two_leaf_b.left_sibling_ = some b →
      ∃ a, update_left_buffer two_tree ⟨8, []⟩ 3 PageBuffer.null ⟨some ⟨7, two_leaf_b⟩, 0, 1, 2⟩
          = some a ∧
        a.buf.leaf_node_ = some ⟨8, two_tree.leaf_node b⟩ ∧
        a.buf.index_pos_ = (two_tree.leaf_node b).get_num_keys - 1 ∧
        a.buf.leaf_pos_ = (two_tree.leaf_node b).get_num_entries - 1 ∧
        a.buf.size_ = (two_tree.leaf_node b).get_num_entries -
          ((two_tree.leaf_node b).get_num_keys - 1) * (two_tree.leaf_node b).get_increment ∧
        a.page_io_ = 3 + 1) ∧
    ((⟨some ⟨7, two_leaf_b⟩, 0, 1, 2⟩ : PageBuffer).index_pos_ ≤ 0 →
        two_leaf_b.left_sibling_ = none →
      ∃ a, update_left_buffer two_tree ⟨8, []⟩ 3 PageBuffer.null ⟨some ⟨7, two_leaf_b⟩, 0, 1, 2⟩
          = some a ∧
        a.buf.leaf_node_ = none ∧ a.buf.index_pos_ = -1 ∧ a.buf.leaf_pos_ = -1 ∧
        a.buf.size_ = -1 ∧ a.page_io_ = 3)) :=
  ⟨rfl, update_left_buffer_cases two_tree ⟨8, []⟩ 3 PageBuffer.null
    ⟨some ⟨7, two_leaf_b⟩, 0, 1, 2⟩ ⟨7, two_leaf_b⟩ rfl⟩

/-- Collision counting leaves the cursors, the flags and the page counter alone. -/
theorem collide_frame (Q : Index) (E : Env) (top_k : Int) (s : State) (id : Int) (next brk : PC) :
    (collide Q E top_k s id next brk).lptr_ = s.lptr_ ∧
    (collide Q E top_k s id next brk).rptr_ = s.rptr_ ∧
    (collide Q E top_k s id next brk).mem = s.mem ∧
    (collide Q E top_k s id next brk).page_io_ = s.page_io_ ∧
    (collide Q E top_k s id next brk).flag_ = s.flag_ ∧
    (collide Q E top_k s id next brk).q_val_ = s.q_val_ ∧
    (collide Q E top_k s id next brk).num_flag = s.num_flag ∧
    (collide Q E top_k s id next brk).radius = s.radius ∧
    (collide Q E top_k s id next brk).bucket = s.bucket := by
  rcases collide_cases Q E top_k s id next brk with
    ⟨_, e⟩ | ⟨_, _, e⟩ | ⟨_, _, _, e⟩ | ⟨_, _, _, e⟩ <;> rw [e] <;>
    exact ⟨rfl, rfl, rfl, rfl, rfl, rfl, rfl, rfl, rfl⟩

theorem advance_left_run (Q : Index) (E : Env) (top_k : Int) (s : State) (i : Int)
    (hpc : s.pc = .advance_left i) :
    (step Q E top_k s).pc = .fault ∨ LeftDone Q i s (step Q E top_k s) := by
  unfold step
  simp only [hpc]
  cases hu : update_left_buffer (Q.trees_ i) s.mem s.page_io_ (s.rptr_ i) (s.lptr_ i) with
  | none => left; rfl
  | some a => right; exact ⟨rfl, rfl, a, hu, rfl, rfl⟩

theorem advance_right_run (Q : Index) (E : Env) (top_k : Int) (s : State) (i : Int)
    (hpc : s.pc = .advance_right i) :
    (step Q E top_k s).pc = .fault ∨ RightDone Q i s (step Q E top_k s) := by
  unfold step
  simp only [hpc]
  cases hu : update_right_buffer (Q.trees_ i) s.mem s.page_io_ (s.lptr_ i) (s.rptr_ i) with
  | none => left; rfl
  | some a => right; exact ⟨rfl, rfl, a, hu, rfl, rfl⟩

theorem leftDone_congr {Q : Index} {i : Int} {s s1 t : State} (h : LeftDone Q i s1 t)
    (h1 : s1.lptr_ = s.lptr_) (h2 : s1.rptr_ = s.rptr_) (h3 : s1.mem = s.mem)
    (h4 : s1.page_io_ = s.page_io_) : LeftDone Q i s t := by
  unfold LeftDone at h ⊢
  rw [h1, h2, h3, h4] at h
  exact h

theorem rightDone_congr {Q : Index} {i : Int} {s s1 t : State} (h : RightDone Q i s1 t)
    (h1 : s1.lptr_ = s.lptr_) (h2 : s1.rptr_ = s.rptr_) (h3 : s1.mem = s.mem)
    (h4 : s1.page_io_ = s.page_io_) : RightDone Q i s t := by
  unfold RightDone at h ⊢
  rw [h1, h2, h3, h4] at h
  exact h

/-- The scan of the left key-slot ends, after finitely many steps, in a fault
or with the left cursor advanced. -/
theorem scan_left_run (Q : Index) (E : Env) (top_k : Int) (k : Nat) (s : State)
    (i j start : Int) (hpc : s.pc = .scan_left i j start) (hk : j - start ≤ k) :
    ∃ n, (run Q E top_k n s).pc = .fault ∨ LeftDone Q i s (run Q E top_k n s) := by
  induction k generalizing s j with
  | zero =>
    have hs : step Q E top_k s = { s with pc := .advance_left i } := by
      unfold step; simp only [hpc]; rw [if_neg (by omega)]
    rcases advance_left_run Q E top_k (step Q E top_k s) i (by rw [hs]) with h | h
    · exact ⟨2, Or.inl h⟩
    · exact ⟨2, Or.inr (leftDone_congr h (by rw [hs]) (by rw [hs]) (by rw [hs]) (by rw [hs]))⟩
  | succ k ih =>
    by_cases hj : j > start
    · have hs : step Q E top_k s = { s with pc := .fault } ∨
          ∃ id, step Q E top_k s =
            collide Q E top_k s id (.scan_left i (j - 1) start) (.advance_left i) := by
        unfold step; simp only [hpc]; rw [if_pos hj]
        split
        · left; rfl
        · split
          · left; rfl
          · right; exact ⟨_, rfl⟩
      rcases hs with hs | ⟨id, hs⟩
      · exact ⟨1, Or.inl (by show (step Q E top_k s).pc = _; rw [hs])⟩
      · have hf := collide_frame Q E top_k s id (.scan_left i (j - 1) start) (.advance_left i)
        rw [← hs] at hf
        obtain ⟨f1, f2, f3, f4, _⟩ := hf
        rcases collide_pc Q E top_k s id (.scan_left i (j - 1) start) (.advance_left i) with
          e | e | e <;> rw [← hs] at e
        · exact ⟨1, Or.inl e⟩
        · obtain ⟨n, hn⟩ := ih (step Q E top_k s) (j - 1) e (by omega)
          refine ⟨n + 1, ?_⟩
          rcases hn with hn | hn
          · exact Or.inl hn
          · exact Or.inr (leftDone_congr hn f1 f2 f3 f4)
        · rcases advance_left_run Q E top_k (step Q E top_k s) i e with h | h
          · exact ⟨2, Or.inl h⟩
          · exact ⟨2, Or.inr (leftDone_congr h f1 f2 f3 f4)⟩
    · have hs : step Q E top_k s = { s with pc := .advance_left i } := by
        unfold step; simp only [hpc]; rw [if_neg hj]
      rcases advance_left_run Q E top_k (step Q E top_k s) i (by rw [hs]) with h | h
      · exact ⟨2, Or.inl h⟩
      · exact ⟨2, Or.inr (leftDone_congr h (by rw [hs]) (by rw [hs]) (by rw [hs]) (by rw [hs]))⟩

/-- The scan of the right key-slot ends, after finitely many steps, in a fault
or with the right cursor advanced. -/
theorem scan_right_run (Q : Index) (E : Env) (top_k : Int) (k : Nat) (s : State)
    (i j e : Int) (hpc : s.pc = .scan_right i j e) (hk : e - j ≤ k) :
    ∃ n, (run Q E top_k n s).pc = .fault ∨ RightDone Q i s (run Q E top_k n s) := by
  induction k generalizing s j with
  | zero =>
    have hs : step Q E top_k s = { s with pc := .advance_right i } := by
      unfold step; simp only [hpc]; rw [if_neg (by omega)]
    rcases advance_right_run Q E top_k (step Q E top_k s) i (by rw [hs]) with h | h
    · exact ⟨2, Or.inl h⟩
    · exact ⟨2, Or.inr (rightDone_congr h (by rw [hs]) (by rw [hs]) (by rw [hs]) (by rw [hs]))⟩
  | succ k ih =>
    by_cases hj : j < e
    · have hs : step Q E top_k s = { s with pc := .fault } ∨
          ∃ id, step Q E top_k s =
            collide Q E top_k s id (.scan_right i (j + 1) e) (.advance_right i) := by
        unfold step; simp only [hpc]; rw [if_pos hj]
        split
        · left; rfl
        · split
          · left; rfl
          · right; exact ⟨_, rfl⟩
      rcases hs with hs | ⟨id, hs⟩
      · exact ⟨1, Or.inl (by show (step Q E top_k s).pc = _; rw [hs])⟩
      · have hf := collide_frame Q E top_k s id (.scan_right i (j + 1) e) (.advance_right i)
        rw [← hs] at hf
        obtain ⟨f1, f2, f3, f4, _⟩ := hf
        rcases collide_pc Q E top_k s id (.scan_right i (j + 1) e) (.advance_right i) with
          c | c | c <;> rw [← hs] at c
        · exact ⟨1, Or.inl c⟩
        · obtain ⟨n, hn⟩ := ih (step Q E top_k s) (j + 1) c (by omega)
          refine ⟨n + 1, ?_⟩
          rcases hn with hn | hn
          · exact Or.inl hn
          · exact Or.inr (rightDone_congr hn f1 f2 f3 f4)
        · rcases advance_right_run Q E top_k (step Q E top_k s) i c with h | h
          · exact ⟨2, Or.inl h⟩
          · exact ⟨2, Or.inr (rightDone_congr h f1 f2 f3 f4)⟩
    · have hs : step Q E top_k s = { s with pc := .advance_right i } := by
        unfold step; simp only [hpc]; rw [if_neg hj]
      rcases advance_right_run Q E top_k (step Q E top_k s) i (by rw [hs]) with h | h
      · exact ⟨2, Or.inl h⟩
      · exact ⟨2, Or.inr (rightDone_congr h (by rw [hs]) (by rw [hs]) (by rw [hs]) (by rw [hs]))⟩

/-- C9: in the body of the loop over `i` (projection `i` still flagged, both
projected distances computed) the left side is chosen iff `ldist < bucket` and
`ldist ≤ rdist`, the right side iff `rdist < bucket` and `rdist < ldist`, and
otherwise the projection is flagged off. When the left side is chosen, in
particular when `ldist = rdist < bucket`, the body ends with the left cursor
advanced by `update_left_buffer` and the right cursors unchanged (unless
undefined behaviour is executed on the way). -/
theorem knn_direction (Q : Index) (E : Env) (top_k : Int) (s : State) (i : Int)
    (ldist rdist : ℚ) (hpc : s.pc = .for_test i) (hi : i < Q.m_) (hflag : s.flag_ i = true)
    (hl : side_dist E (s.q_val_ i) (s.lptr_ i) = some ldist)
    (hr : side_dist E (s.q_val_ i) (s.rptr_ i) = some rdist) :
    ((∃ j k, (step Q E top_k s).pc = .scan_left i j k) ↔ (ldist < s.bucket ∧ ldist ≤ rdist)) ∧
    ((∃ j k, (step Q E top_k s).pc = .scan_right i j k) ↔ (rdist < s.bucket ∧ rdist < ldist)) ∧
    (((step Q E top_k s).pc = .body_end i ∧ (step Q E top_k s).flag_ i = false ∧
        (step Q E top_k s).num_flag = s.num_flag + 1) ↔
      (¬ (ldist < s.bucket ∧ ldist ≤ rdist) ∧ ¬ (rdist < s.bucket ∧ rdist < ldist))) ∧
    (ldist < s.bucket ∧ ldist ≤ rdist →
      step Q E top_k s = { s with pc := PC.scan_left i (s.lptr_ i).leaf_pos_ ((s.lptr_ i).leaf_pos_ - (s.lptr_ i).size_) } ∧
      ∃ n, (run Q E top_k n s).pc = .fault ∨ LeftDone Q i s (run Q E top_k n s)) ∧
    (rdist < s.bucket ∧ rdist < ldist →
      step Q E top_k s = { s with pc := PC.scan_right i (s.rptr_ i).leaf_pos_ ((s.rptr_ i).leaf_pos_ + (s.rptr_ i).size_) } ∧
      ∃ n, (run Q E top_k n s).pc = .fault ∨ RightDone Q i s (run Q E top_k n s)) ∧
    (ldist = rdist → ldist < s.bucket →
      ∃ n, (run Q E top_k n s).pc = .fault ∨ LeftDone Q i s (run Q E top_k n s)) := by
  have hL : ldist < s.bucket ∧ ldist ≤ rdist →
      step Q E top_k s = { s with pc := PC.scan_left i (s.lptr_ i).leaf_pos_ ((s.lptr_ i).leaf_pos_ - (s.lptr_ i).size_) } := by
    intro c
    unfold step
    simp only [hpc, if_pos hi, hflag, hl, hr, if_pos c]
    simp
  have hR : rdist < s.bucket ∧ rdist < ldist →
      step Q E top_k s = { s with pc := PC.scan_right i (s.rptr_ i).leaf_pos_ ((s.rptr_ i).leaf_pos_ + (s.rptr_ i).size_) } := by
    intro c
    have c1 : ¬ (ldist < s.bucket ∧ ldist ≤ rdist) := fun c1 => absurd c.2 (not_lt.2 c1.2)
    have c2 : rdist < s.bucket ∧ ldist > rdist := c
    unfold step
    simp only [hpc, if_pos hi, hflag, hl, hr, if_neg c1, if_pos c2]
    simp
  have hN : ¬ (ldist < s.bucket ∧ ldist ≤ rdist) → ¬ (rdist < s.bucket ∧ rdist < ldist) →
      step Q E top_k s =
        { s with flag_ := Function.update s.flag_ i false, num_flag := s.num_flag + 1, pc := .body_end i } := by
    intro c1 c
    have c2 : ¬ (rdist < s.bucket ∧ ldist > rdist) := c
    unfold step
    simp only [hpc, if_pos hi, hflag, hl, hr, if_neg c1, if_neg c2]
    simp
  have hLrun : ldist < s.bucket ∧ ldist ≤ rdist →
      ∃ n, (run Q E top_k n s).pc = .fault ∨ LeftDone Q i s (run Q E top_k n s) := by
    intro c
    obtain ⟨n, hn⟩ := scan_left_run Q E top_k ((s.lptr_ i).leaf_pos_ -
      ((s.lptr_ i).leaf_pos_ - (s.lptr_ i).size_)).toNat (step Q E top_k s) i _ _
      (by rw [hL c]) (Int.self_le_toNat _)
    refine ⟨n + 1, ?_⟩
    rcases hn with hn | hn
    · exact Or.inl hn
    · exact Or.inr (leftDone_congr hn (by rw [hL c]) (by rw [hL c]) (by rw [hL c]) (by rw [hL c]))
  have hRrun : rdist < s.bucket ∧ rdist < ldist →
      ∃ n, (run Q E top_k n s).pc = .fault ∨ RightDone Q i s (run Q E top_k n s) := by
    intro c
    obtain ⟨n, hn⟩ := scan_right_run Q E top_k (((s.rptr_ i).leaf_pos_ + (s.rptr_ i).size_) -
      (s.rptr_ i).leaf_pos_).toNat (step Q E top_k s) i _ _
      (by rw [hR c]) (Int.self_le_toNat _)
    refine ⟨n + 1, ?_⟩
    rcases hn with hn | hn
    · exact Or.inl hn
    · exact Or.inr (rightDone_congr hn (by rw [hR c]) (by rw [hR c]) (by rw [hR c]) (by rw [hR c]))
  refine ⟨⟨?_, fun c => ⟨_, _, by rw [hL c]⟩⟩, ⟨?_, fun c => ⟨_, _, by rw [hR c]⟩⟩,
    ⟨?_, fun c => by rw [hN c.1 c.2]; simp⟩, fun c => ⟨hL c, hLrun c⟩,
    fun c => ⟨hR c, hRrun c⟩, fun e c => hLrun ⟨c, le_of_eq e⟩⟩
  · rintro ⟨j, k, e⟩
    by_contra c1
    by_cases c2 : rdist < s.bucket ∧ rdist < ldist
    · rw [hR c2] at e; simp at e
    · rw [hN c1 c2] at e; simp at e
  · rintro ⟨j, k, e⟩
    by_contra c2
    by_cases c1 : ldist < s.bucket ∧ ldist ≤ rdist
    · rw [hL c1] at e; simp at e
    · rw [hN c1 c2] at e; simp at e
  · rintro ⟨e, _, _⟩
    constructor
    · intro c1; rw [hL c1] at e; simp at e
    · intro c2; rw [hR c2] at e; simp at e

theorem knn_direction_witness :
    (tie_state 2).pc = .for_test 0 ∧ (0 : Int) < ex_index.m_ ∧ (tie_state 2).flag_ 0 = true ∧
    side_dist ex_env2 ((tie_state 2).q_val_ 0) ((tie_state 2).lptr_ 0) = some (1 / 2) ∧
    side_dist ex_env2 ((tie_state 2).q_val_ 0) ((tie_state 2).rptr_ 0) = some (1 / 2) ∧
    (((∃ j k, (step ex_index ex_env2 1 (tie_state 2)).pc = .scan_left 0 j k) ↔
      ((1 / 2 : ℚ) < (tie_state 2).bucket ∧ (1 / 2 : ℚ) ≤ 1 / 2)) ∧
    ((∃ j k, (step ex_index ex_env2 1 (tie_state 2)).pc = .scan_right 0 j k) ↔
      ((1 / 2 : ℚ) < (tie_state 2).bucket ∧ (1 / 2 : ℚ) < 1 / 2)) ∧
    (((step ex_index ex_env2 1 (tie_state 2)).pc = .body_end 0 ∧
        (step ex_index ex_env2 1 (tie_state 2)).flag_ 0 = false ∧
        (step ex_index ex_env2 1 (tie_state 2)).num_flag = (tie_state 2).num_flag + 1) ↔
      (¬ ((1 / 2 : ℚ) < (tie_state 2).bucket ∧ (1 / 2 : ℚ) ≤ 1 / 2) ∧
        ¬ ((1 / 2 : ℚ) < (tie_state 2).bucket ∧ (1 / 2 : ℚ) < 1 / 2))) ∧
    ((1 / 2 : ℚ) < (tie_state 2).bucket ∧ (1 / 2 : ℚ) ≤ 1 / 2 →
      step ex_index ex_env2 1 (tie_state 2) =
        { tie_state 2 with pc := PC.scan_left 0 ((tie_state 2).lptr_ 0).leaf_pos_ (((tie_state 2).lptr_ 0).leaf_pos_ - ((tie_state 2).lptr_ 0).size_) } ∧
      ∃ n, (run ex_index ex_env2 1 n (tie_state 2)).pc = .fault ∨
        LeftDone ex_index 0 (tie_state 2) (run ex_index ex_env2 1 n (tie_state 2))) ∧
    ((1 / 2 : ℚ) < (tie_state 2).bucket ∧ (1 / 2 : ℚ) < 1 / 2 →
      step ex_index ex_env2 1 (tie_state 2) =
        { tie_state 2 with pc := PC.scan_right 0 ((tie_state 2).rptr_ 0).leaf_pos_ (((tie_state 2).rptr_ 0).leaf_pos_ + ((tie_state 2).rptr_ 0).size_) } ∧
      ∃ n, (run ex_index ex_env2 1 n (tie_state 2)).pc = .fault ∨
        RightDone ex_index 0 (tie_state 2) (run ex_index ex_env2 1 n (tie_state 2))) ∧
    ((1 / 2 : ℚ) = 1 / 2 → (1 / 2 : ℚ) < (tie_state 2).bucket →
      ∃ n, (run ex_index ex_env2 1 n (tie_state 2)).pc = .fault ∨
        LeftDone ex_index 0 (tie_state 2) (run ex_index ex_env2 1 n (tie_state 2)))) :=
  ⟨by decide!, by decide, by decide!, by decide!, by decide!,
   knn_direction ex_index ex_env2 1 (tie_state 2) 0 (1 / 2) (1 / 2) (by decide!) (by decide)
     (by decide!) (by decide!) (by decide!)⟩

/-- In the tie of `tie_state 2` (both distances 1/2, bucket 1) the left cursor
of projection 0 is the one advanced: four steps later the body has ended, the
left cursor, which was on key-slot 0 of the only leaf, is exhausted and the
right cursor is still on key-slot 1. -/
theorem tie_run :
    (tie_state 2).bucket = 1 ∧
    ((tie_state 2).lptr_ 0).index_pos_ = 0 ∧ ((tie_state 2).rptr_ 0).index_pos_ = 1 ∧
    (tie_state 3).pc = .scan_left 0 0 (-1) ∧ (tie_state 6).pc = .body_end 0 ∧
    ((tie_state 6).lptr_ 0).size_ = -1 ∧ ((tie_state 6).rptr_ 0).index_pos_ = 1 := by
  decide!

theorem cleared_trans {a b c : PageBuffer} (h1 : Cleared a b) (h2 : Cleared b c) : Cleared a c := by
  rcases h1 with rfl | rfl <;> rcases h2 with rfl | rfl
  · left; rfl
  · right; rfl
  · right; rfl
  · right; rfl

theorem delete_tree_ptr_at_cursor (s : State) (j i : Int) :
    Cleared (s.lptr_ i) ((delete_tree_ptr_at s j).lptr_ i) ∧
    Cleared (s.rptr_ i) ((delete_tree_ptr_at s j).rptr_ i) := by
  unfold delete_tree_ptr_at
  by_cases hij : i = j
  · subst hij
    cases h1 : (s.lptr_ i).leaf_node_ <;> simp only [] <;> split <;> (try split) <;>
      simp_all [Cleared]
  · cases h1 : (s.lptr_ j).leaf_node_ <;> simp only [] <;> split <;> (try split) <;>
      simp [Cleared, Function.update_noteq hij]

theorem delete_tree_ptr_cursor (Q : Index) (s : State) (i : Int) :
    Cleared (s.lptr_ i) ((delete_tree_ptr Q s).lptr_ i) ∧
    Cleared (s.rptr_ i) ((delete_tree_ptr Q s).rptr_ i) := by
  unfold delete_tree_ptr
  generalize List.range Q.m_.toNat = l
  induction l generalizing s with
  | nil => exact ⟨Or.inl rfl, Or.inl rfl⟩
  | cons a l ih =>
    have h1 := ih (delete_tree_ptr_at s a)
    have h2 := delete_tree_ptr_at_cursor s a i
    exact ⟨cleared_trans h2.1 h1.1, cleared_trans h2.2 h1.2⟩

/-- How one step changes the left cursor of projection `i`: not at all, by
clearing its leaf pointer (`delete_tree_ptr`), or by `update_left_buffer`. -/
theorem step_lptr_cases (Q : Index) (E : Env) (top_k : Int) (s : State) (i : Int) :
    Cleared (s.lptr_ i) ((step Q E top_k s).lptr_ i) ∨
    (s.pc = .advance_left i ∧
      ∃ a, update_left_buffer (Q.trees_ i) s.mem s.page_io_ (s.rptr_ i) (s.lptr_ i) = some a ∧
        (step Q E top_k s).lptr_ i = a.buf) := by
  have hd := (delete_tree_ptr_cursor Q s i).1
  unfold step
  split
  · left; left; rfl
  · left; left; split_ifs <;> rfl
  · left; left
    split_ifs
    · rfl
    · split
      · split_ifs <;> rfl
      · rfl
    · rfl
  · left; left
    split_ifs
    · split
      · rfl
      · split
        · rfl
        · rw [(collide_frame Q E top_k s _ _ _).1]
    · rfl
  · rename_i j hpc
    split
    · left; left; rfl
    · rename_i a ha
      by_cases hij : i = j
      · subst hij
        right; exact ⟨hpc, a, ha, by simp⟩
      · left; left; simp [Function.update_noteq hij]
  · left; left
    split_ifs
    · split
      · rfl
      · split
        · rfl
        · rw [(collide_frame Q E top_k s _ _ _).1]
    · rfl
  · left; left; split <;> rfl
  · left; left; split_ifs <;> rfl
  · left; left; split_ifs <;> rfl
  · left
    split_ifs
    · exact hd
    · exact hd
    · left; split <;> rfl
  · left; left; rfl
  · left; left; rfl

/-- How one step changes the right cursor of projection `i`. -/
theorem step_rptr_cases (Q : Index) (E : Env) (top_k : Int) (s : State) (i : Int) :
    Cleared (s.rptr_ i) ((step Q E top_k s).rptr_ i) ∨
    (s.pc = .advance_right i ∧
      ∃ a, update_right_buffer (Q.trees_ i) s.mem s.page_io_ (s.lptr_ i) (s.rptr_ i) = some a ∧
        (step Q E top_k s).rptr_ i = a.buf) := by
  have hd := (delete_tree_ptr_cursor Q s i).2
  unfold step
  split
  · left; left; rfl
  · left; left; split_ifs <;> rfl
  · left; left
    split_ifs
    · rfl
    · split
      · split_ifs <;> rfl
      · rfl
    · rfl
  · left; left
    split_ifs
    · split
      · rfl
      · split
        · rfl
        · rw [(collide_frame Q E top_k s _ _ _).2.1]
    · rfl
  · left; left; split <;> rfl
  · left; left
    split_ifs
    · split
      · rfl
      · split
        · rfl
        · rw [(collide_frame Q E top_k s _ _ _).2.1]
    · rfl
  · rename_i j hpc
    split
    · left; left; rfl
    · rename_i a ha
      by_cases hij : i = j
      · subst hij
        right; exact ⟨hpc, a, ha, by simp⟩
      · left; left; simp [Function.update_noteq hij]
  · left; left; split_ifs <;> rfl
  · left; left; split_ifs <;> rfl
  · left
    split_ifs
    · exact hd
    · exact hd
    · left; split <;> rfl
  · left; left; rfl
  · left; left; rfl

theorem find_position_aux (q : ℚ) (keys : List ℚ) (n : Nat) (pos : Int)
    (h1 : -1 ≤ pos) (h2 : pos < n) :
    -1 ≤ (keys.enumFrom n).foldl (fun pos e => if e.2 ≤ q then (e.1 : Int) else pos) pos ∧
    (keys.enumFrom n).foldl (fun pos e => if e.2 ≤ q then (e.1 : Int) else pos) pos <
      (n + keys.length : Nat) := by
  induction keys generalizing n pos with
  | nil => simpa using ⟨h1, h2⟩
  | cons k ks ih =>
    simp only [List.enumFrom_cons, List.foldl_cons, List.length_cons]
    have := ih (n + 1) (if k ≤ q then (n : Int) else pos)
      (by split_ifs <;> omega) (by split_ifs <;> push_cast <;> omega)
    refine ⟨this.1, ?_⟩
    have h3 := this.2
    push_cast at h3 ⊢
    omega

theorem find_position_bounds (keys : List ℚ) (q : ℚ) :
    -1 ≤ find_position_by_key keys q ∧ find_position_by_key keys q < keys.length := by
  have := find_position_aux q keys 0 (-1) (le_refl _) (by norm_num)
  simpa [find_position_by_key, List.enum] using this

theorem cursorOK_null (T : BTree) : CursorOK T PageBuffer.null := by
  intro p hp; simp [PageBuffer.null] at hp

theorem cursorOK_cleared {T : BTree} {b c : PageBuffer} (h : CursorOK T b) (hc : Cleared b c) :
    CursorOK T c := by
  rcases hc with rfl | rfl
  · exact h
  · intro p hp; simp at hp

theorem leaf_wf_num_keys_pos {n : BLeafNode} (hw : n.WF) : 1 ≤ n.get_num_keys := by
  obtain ⟨w1, w2, _, w4⟩ := hw
  by_contra hk
  have : n.get_num_keys * n.get_increment ≤ 0 :=
    Int.mul_nonpos_of_nonpos_of_nonneg (by omega) (by omega)
  omega

/-- The cursor `init_left_buffer` builds, in one expression. -/
theorem init_left_buffer_eq (leaf : LeafPtr) (q : ℚ) :
    ∃ pos : Int,
      pos = (if leaf.node.find_position_by_key q < 0 then 0
        else leaf.node.find_position_by_key q) ∧
      init_left_buffer leaf q =
        (pos, ⟨some leaf, pos,
          if pos = leaf.node.get_num_keys - 1 then leaf.node.get_num_entries - 1
          else pos * leaf.node.get_increment + leaf.node.get_increment - 1,
          if pos = leaf.node.get_num_keys - 1 then
            leaf.node.get_num_entries - pos * leaf.node.get_increment
          else leaf.node.get_increment⟩) := by
  refine ⟨_, rfl, ?_⟩
  unfold init_left_buffer
  dsimp only
  generalize (if leaf.node.find_position_by_key q < 0 then 0
    else leaf.node.find_position_by_key q) = pos
  split_ifs <;> rfl

theorem init_left_buffer_ok (T : BTree) (leaf : LeafPtr) (q : ℚ) (hw : leaf.node.WF)
    (hb : ∃ blk, leaf.node = T.leaf_node blk) :
    CursorOK T (init_left_buffer leaf q).2 ∧ 0 ≤ (init_left_buffer leaf q).1 ∧
    (init_left_buffer leaf q).1 < leaf.node.get_num_keys := by
  have hk := leaf_wf_num_keys_pos hw
  obtain ⟨w1, w2, w3, w4⟩ := hw
  have hb1 := find_position_bounds leaf.node.key_ q
  obtain ⟨pos, f1, f2⟩ := init_left_buffer_eq leaf q
  have hp0 : 0 ≤ pos ∧ pos < leaf.node.get_num_keys := by
    rw [f1]
    unfold BLeafNode.find_position_by_key BLeafNode.get_num_keys at *
    split_ifs <;> omega
  rw [f2]
  refine ⟨?_, hp0.1, hp0.2⟩
  intro p hp
  simp only [Option.some.injEq] at hp
  subst hp
  refine ⟨hb, hp0.1, hp0.2, ?_⟩
  dsimp only
  split_ifs with h
  · rw [h]; omega
  · exact w1

theorem init_right_same_leaf_ok (T : BTree) (leaf : LeafPtr) (pos : Int) (hw : leaf.node.WF)
    (hb : ∃ blk, leaf.node = T.leaf_node blk) (h0 : 0 ≤ pos)
    (h1 : pos < leaf.node.get_num_keys - 1) : CursorOK T (init_right_same_leaf leaf pos) := by
  obtain ⟨w1, w2, w3, w4⟩ := hw
  intro p hp
  unfold init_right_same_leaf at hp ⊢
  simp only [Option.some.injEq] at hp
  subst hp
  refine ⟨hb, by simp only; omega, by simp only; omega, ?_⟩
  simp only
  split_ifs with h
  · rw [h]; omega
  · exact w1

theorem init_right_first_slot_ok (T : BTree) (leaf : LeafPtr) (hw : leaf.node.WF)
    (hb : ∃ blk, leaf.node = T.leaf_node blk) : CursorOK T (init_right_first_slot leaf) := by
  have hk := leaf_wf_num_keys_pos hw
  obtain ⟨w1, w2, w3, w4⟩ := hw
  intro p hp
  unfold init_right_first_slot at hp ⊢
  simp only [Option.some.injEq] at hp
  subst hp
  refine ⟨hb, by simp, by simp only; omega, ?_⟩
  simp only
  split_ifs <;> omega

theorem get_right_sibling_some (T : BTree) (mem : Mem) (n : BLeafNode) (leaf : LeafPtr)
    (h : (get_right_sibling T mem n).1 = some leaf) : ∃ blk, leaf.node = T.leaf_node blk := by
  unfold get_right_sibling at h
  split at h
  · simp at h
  · simp only [Option.some.injEq] at h
    subst h
    exact ⟨_, rfl⟩

theorem get_left_sibling_some (T : BTree) (mem : Mem) (n : BLeafNode) (leaf : LeafPtr)
    (h : (get_left_sibling T mem n).1 = some leaf) : ∃ blk, leaf.node = T.leaf_node blk := by
  unfold get_left_sibling at h
  split at h
  · simp at h
  · simp only [Option.some.injEq] at h
    subst h
    exact ⟨_, rfl⟩

/-- The cursors built from the leaf in `block` (qalsh.cc 668-720). -/
theorem init_from_leaf_ok (T : BTree) (q : ℚ) (mem : Mem) (block : Int) (io : Int)
    (r : TreeInit) (hw : T.WF)
    (h : (if (init_left_buffer (mem.new_leaf T block).1 q).1 <
          (mem.new_leaf T block).1.node.get_num_keys - 1 then
        Except.ok
          { lptr := (init_left_buffer (mem.new_leaf T block).1 q).2,
            rptr := init_right_same_leaf (mem.new_leaf T block).1
              (init_left_buffer (mem.new_leaf T block).1 q).1,
            page_io_ := io + 1, mem := (mem.new_leaf T block).2 }
      else
        match (get_right_sibling T (mem.new_leaf T block).2 (mem.new_leaf T block).1.node).1 with
        | some leaf =>
          Except.ok
            { lptr := (init_left_buffer (mem.new_leaf T block).1 q).2,
              rptr := init_right_first_slot leaf, page_io_ := io + 1 + 1,
              mem := (get_right_sibling T (mem.new_leaf T block).2
                (mem.new_leaf T block).1.node).2 }
        | none =>
          Except.ok
            { lptr := (init_left_buffer (mem.new_leaf T block).1 q).2, rptr := PageBuffer.null,
              page_io_ := io + 1,
              mem := (get_right_sibling T (mem.new_leaf T block).2
                (mem.new_leaf T block).1.node).2 }) = (Except.ok r : Except InitFault TreeInit)) :
    CursorOK T r.lptr ∧ CursorOK T r.rptr := by
  have hl := init_left_buffer_ok T (mem.new_leaf T block).1 q (hw _) ⟨_, rfl⟩
  split_ifs at h with hlt
  · simp only [Except.ok.injEq] at h
    subst h
    exact ⟨hl.1, init_right_same_leaf_ok T _ _ (hw _) ⟨_, rfl⟩ hl.2.1 hlt⟩
  · split at h
    · rename_i leaf hs
      simp only [Except.ok.injEq] at h
      subst h
      obtain ⟨blk, hb⟩ := get_right_sibling_some T _ _ _ hs
      exact ⟨hl.1, init_right_first_slot_ok T _ (by rw [hb]; exact hw _) ⟨blk, hb⟩⟩
    · simp only [Except.ok.injEq] at h
      subst h
      exact ⟨hl.1, cursorOK_null T⟩

theorem init_tree_ok (T : BTree) (q : ℚ) (fuel : Nat) (page_io_ : Int) (mem : Mem)
    (r : TreeInit) (hw : T.WF) (h : init_tree T q fuel page_io_ mem = .ok r) :
    CursorOK T r.lptr ∧ CursorOK T r.rptr := by
  unfold init_tree at h
  by_cases hroot : T.root_ > 1
  · rw [if_pos hroot] at h
    split at h
    · exact absurd h (by simp)
    · rename_i blk index_node lescape0 pio hd
      dsimp only at h
      by_cases hesc : (if index_node.find_position_by_key q < 0 then true else lescape0) = true
      · rw [if_pos hesc] at h
        split at h
        · exact absurd h (by simp)
        · simp only [Except.ok.injEq] at h
          subst h
          exact ⟨cursorOK_null T, init_right_first_slot_ok T _ (hw _) ⟨_, rfl⟩⟩
      · rw [if_neg hesc] at h
        split at h
        · exact absurd h (by simp)
        · exact init_from_leaf_ok T q mem _ pio r hw h
  · rw [if_neg hroot] at h
    have hl := init_left_buffer_ok T (mem.new_leaf T T.root_).1 q (hw _) ⟨_, rfl⟩
    dsimp only at h
    split_ifs at h with hlt
    · simp only [Except.ok.injEq] at h
      subst h
      exact ⟨hl.1, init_right_same_leaf_ok T _ _ (hw _) ⟨_, rfl⟩ hl.2.1 hlt⟩
    · simp only [Except.ok.injEq] at h
      subst h
      exact ⟨hl.1, cursorOK_null T⟩

theorem init_trees_ok (Q : Index) (query : Int → ℚ) (fuel : Nat) (count : Nat) (i : Int)
    (s s1 : State) (h : init_trees Q query fuel count i s = .ok s1)
    (hw : ∀ j, i ≤ j → j < i + count → (Q.trees_ j).WF) :
    (∀ j, i ≤ j → j < i + count →
      CursorOK (Q.trees_ j) (s1.lptr_ j) ∧ CursorOK (Q.trees_ j) (s1.rptr_ j)) ∧
    (∀ j, j < i → s1.lptr_ j = s.lptr_ j ∧ s1.rptr_ j = s.rptr_ j) := by
  induction count generalizing i s with
  | zero =>
    simp only [init_trees, Except.ok.injEq] at h
    subst h
    exact ⟨fun j h1 h2 => by simp at h2; omega, fun j _ => ⟨rfl, rfl⟩⟩
  | succ count ih =>
    simp only [init_trees] at h
    split at h
    · exact absurd h (by simp)
    · rename_i r hr
      have hr1 := init_tree_ok _ _ _ _ _ _ (hw i (le_refl _) (by push_cast; omega)) hr
      have h3 := ih _ _ h (fun j h1 h2 => hw j (by omega) (by push_cast; omega))
      obtain ⟨h4, h5⟩ := h3
      refine ⟨fun j h1 h2 => ?_, fun j hj => ?_⟩
      · by_cases hji : j = i
        · subst hji
          have := h5 j (by omega)
          simp only [Function.update_same] at this
          rw [this.1, this.2]
          exact hr1
        · exact h4 j (by omega) (by push_cast at h2; omega)
      · have := h5 j (by omega)
        have hne : j ≠ i := by omega
        simpa [Function.update_noteq hne] using this

theorem knn_start_cursors_ok (Q : Index) (E : Env) (query : Int → ℚ) (list : MinK_List)
    (fuel : Nat) (old s0 : State) (hw : Q.WF)
    (h : knn_start Q E query list fuel old = .ok s0) : CursorsOK Q s0 := by
  unfold knn_start at h
  split at h
  · exact absurd h (by simp)
  · rename_i s hs
    split at h
    · exact absurd h (by simp)
    · simp only [Except.ok.injEq] at h
      subst h
      unfold init_search_params at hs
      have := (init_trees_ok Q query fuel _ _ _ _ hs
        (fun j h1 h2 => hw j h1 (by omega))).1
      intro i h0 h1
      exact this i h0 (by omega)

theorem update_left_buffer_ok (T : BTree) (mem : Mem) (page_io_ : Int) (rptr lptr : PageBuffer)
    (a : Advance) (hw : T.WF) (hc : CursorOK T lptr)
    (h : update_left_buffer T mem page_io_ rptr lptr = some a) : CursorOK T a.buf := by
  unfold update_left_buffer at h
  split at h
  · simp at h
  · rename_i old hold
    obtain ⟨⟨blk, hb⟩, c1, c2, c3⟩ := hc old hold
    have hwo : old.node.WF := by rw [hb]; exact hw _
    by_cases hp : lptr.index_pos_ > 0
    · rw [if_pos hp] at h
      simp only [Option.some.injEq] at h
      subst h
      intro p hp2
      simp only [hold, Option.some.injEq] at hp2
      subst hp2
      exact ⟨⟨blk, hb⟩, by simp only; omega, by simp only; omega, hwo.1⟩
    · rw [if_neg hp] at h
      simp only [Option.some.injEq] at h
      subst h
      dsimp only
      split
      · rename_i leaf hs
        obtain ⟨blk2, hb2⟩ := get_left_sibling_some T _ _ _ hs
        have hwl : leaf.node.WF := by rw [hb2]; exact hw _
        have hk := leaf_wf_num_keys_pos hwl
        obtain ⟨w1, w2, w3, w4⟩ := hwl
        intro p hp2
        simp only [Option.some.injEq] at hp2
        subst hp2
        exact ⟨⟨blk2, hb2⟩, by simp only; omega, by simp only; omega, by simp only; omega⟩
      · exact cursorOK_null T

theorem update_right_buffer_ok (T : BTree) (mem : Mem) (page_io_ : Int) (lptr rptr : PageBuffer)
    (a : Advance) (hw : T.WF) (hc : CursorOK T rptr)
    (h : update_right_buffer T mem page_io_ lptr rptr = some a) : CursorOK T a.buf := by
  unfold update_right_buffer at h
  split at h
  · simp at h
  · rename_i old hold
    obtain ⟨⟨blk, hb⟩, c1, c2, c3⟩ := hc old hold
    have hwo : old.node.WF := by rw [hb]; exact hw _
    by_cases hp : rptr.index_pos_ < old.node.get_num_keys - 1
    · rw [if_pos hp] at h
      simp only [Option.some.injEq] at h
      subst h
      intro p hp2
      simp only [hold, Option.some.injEq] at hp2
      subst hp2
      refine ⟨⟨blk, hb⟩, by simp only; omega, by simp only; omega, ?_⟩
      obtain ⟨w1, w2, w3, w4⟩ := hwo
      dsimp only
      split_ifs with h5
      · rw [h5]; omega
      · exact w1
    · rw [if_neg hp] at h
      simp only [Option.some.injEq] at h
      subst h
      dsimp only
      split
      · rename_i leaf hs
        obtain ⟨blk2, hb2⟩ := get_right_sibling_some T _ _ _ hs
        have hwl : leaf.node.WF := by rw [hb2]; exact hw _
        have hk := leaf_wf_num_keys_pos hwl
        obtain ⟨w1, w2, w3, w4⟩ := hwl
        intro p hp2
        simp only [Option.some.injEq] at hp2
        subst hp2
        refine ⟨⟨blk2, hb2⟩, by simp, by simp only; omega, ?_⟩
        dsimp only
        split_ifs <;> omega
      · exact cursorOK_null T

theorem step_cursors_ok (Q : Index) (E : Env) (top_k : Int) (s : State) (hw : Q.WF)
    (h : CursorsOK Q s) : CursorsOK Q (step Q E top_k s) := by
  intro i h0 h1
  obtain ⟨hl, hr⟩ := h i h0 h1
  constructor
  · rcases step_lptr_cases Q E top_k s i with c | ⟨_, a, ha, e⟩
    · exact cursorOK_cleared hl c
    · rw [e]; exact update_left_buffer_ok _ _ _ _ _ _ (hw i h0 h1) hl ha
  · rcases step_rptr_cases Q E top_k s i with c | ⟨_, a, ha, e⟩
    · exact cursorOK_cleared hr c
    · rw [e]; exact update_right_buffer_ok _ _ _ _ _ _ (hw i h0 h1) hr ha

theorem reachable_cursors_ok {Q : Index} {E : Env} {top_k : Int} {query : Int → ℚ}
    {list : MinK_List} {fuel : Nat} {old s : State} (hw : Q.WF)
    (h : Reachable Q E top_k query list fuel old s) : CursorsOK Q s :=
  reachable_induct (CursorsOK Q) (fun s0 h0 => knn_start_cursors_ok Q E query list fuel old s0 hw h0)
    (fun s hs => step_cursors_ok Q E top_k s hw hs) h

theorem exhausted_cleared {b c : PageBuffer} (h : Exhausted b) (hc : Cleared b c) :
    Exhausted c := by
  rcases hc with rfl | rfl
  · exact h
  · exact ⟨h.1, rfl⟩

theorem update_left_buffer_null (T : BTree) (mem : Mem) (page_io_ : Int) (rptr lptr : PageBuffer)
    (h : lptr.leaf_node_ = none) : update_left_buffer T mem page_io_ rptr lptr = none := by
  unfold update_left_buffer; rw [h]

theorem update_right_buffer_null (T : BTree) (mem : Mem) (page_io_ : Int)
    (lptr rptr : PageBuffer) (h : rptr.leaf_node_ = none) :
    update_right_buffer T mem page_io_ lptr rptr = none := by
  unfold update_right_buffer; rw [h]

theorem run_exhausted_left (Q : Index) (E : Env) (top_k : Int) (n : Nat) (s : State) (i : Int)
    (h : Exhausted (s.lptr_ i)) : Exhausted ((run Q E top_k n s).lptr_ i) := by
  induction n generalizing s with
  | zero => exact h
  | succ n ih =>
    apply ih
    rcases step_lptr_cases Q E top_k s i with c | ⟨_, a, ha, _⟩
    · exact exhausted_cleared h c
    · rw [update_left_buffer_null _ _ _ _ _ h.2] at ha
      exact absurd ha (by simp)

theorem run_exhausted_right (Q : Index) (E : Env) (top_k : Int) (n : Nat) (s : State) (i : Int)
    (h : Exhausted (s.rptr_ i)) : Exhausted ((run Q E top_k n s).rptr_ i) := by
  induction n generalizing s with
  | zero => exact h
  | succ n ih =>
    apply ih
    rcases step_rptr_cases Q E top_k s i with c | ⟨_, a, ha, _⟩
    · exact exhausted_cleared h c
    · rw [update_right_buffer_null _ _ _ _ _ h.2] at ha
      exact absurd ha (by simp)

/-- C8: on a well-formed index, a cursor of a projection `0 ≤ i < m_` that has
`size_ == -1` in some state of a `knn` call (after `init_search_params` or
after an advance) has `leaf_node_ == NULL` there and keeps `size_ == -1` and
`leaf_node_ == NULL` in every later state of the call. -/
theorem knn_exhausted_absorbing (Q : Index) (E : Env) (top_k : Int) (query : Int → ℚ)
    (list : MinK_List) (fuel : Nat) (old s : State) (i : Int) (hw : Q.WF)
    (h : Reachable Q E top_k query list fuel old s) (h0 : 0 ≤ i) (h1 : i < Q.m_) :
    ((s.lptr_ i).size_ = -1 → ∀ n, ((run Q E top_k n s).lptr_ i).size_ = -1 ∧
      ((run Q E top_k n s).lptr_ i).leaf_node_ = none) ∧
    ((s.rptr_ i).size_ = -1 → ∀ n, ((run Q E top_k n s).rptr_ i).size_ = -1 ∧
      ((run Q E top_k n s).rptr_ i).leaf_node_ = none) := by
  obtain ⟨hl, hr⟩ := reachable_cursors_ok hw h i h0 h1
  constructor
  · intro hs n
    have hn : (s.lptr_ i).leaf_node_ = none := by
      cases hp : (s.lptr_ i).leaf_node_ with
      | none => rfl
      | some p => have := (hl p hp).2.2.2; omega
    exact run_exhausted_left Q E top_k n s i ⟨hs, hn⟩
  · intro hs n
    have hn : (s.rptr_ i).leaf_node_ = none := by
      cases hp : (s.rptr_ i).leaf_node_ with
      | none => rfl
      | some p => have := (hr p hp).2.2.2; omega
    exact run_exhausted_right Q E top_k n s i ⟨hs, hn⟩

theorem tie_reachable (n : Nat) :
    Reachable ex_index ex_env2 1 (fun _ => 1 / 2) ⟨1, []⟩ 1 ex_old (tie_state n) :=
  ⟨_, n, start_state_ok _ ex_old (by decide!), rfl⟩

theorem one_reachable (n : Nat) :
    Reachable one_index one_env 2 (fun _ => 0) ⟨2, []⟩ 1 ex_old (one_state n) :=
  ⟨_, n, start_state_ok _ ex_old (by decide!), rfl⟩

theorem ex_leaf_wf : ex_leaf.WF := by
  unfold BLeafNode.WF BLeafNode.get_increment BLeafNode.get_num_entries BLeafNode.get_num_keys
  decide

theorem ex_index_wf : ex_index.WF := fun _ _ _ _ => ex_leaf_wf

theorem one_index_wf : one_index.WF := by
  intro _ _ _ _
  show one_leaf.WF
  unfold BLeafNode.WF BLeafNode.get_increment BLeafNode.get_num_entries BLeafNode.get_num_keys
  decide

theorem knn_exhausted_absorbing_witness :
    ex_index.WF ∧
    Reachable ex_index ex_env2 1 (fun _ => 1 / 2) ⟨1, []⟩ 1 ex_old (tie_state 6) ∧
    (0 : Int) ≤ 0 ∧ (0 : Int) < ex_index.m_ ∧
    ((((tie_state 6).lptr_ 0).size_ = -1 →
      ∀ n, ((run ex_index ex_env2 1 n (tie_state 6)).lptr_ 0).size_ = -1 ∧
        ((run ex_index ex_env2 1 n (tie_state 6)).lptr_ 0).leaf_node_ = none) ∧
    (((tie_state 6).rptr_ 0).size_ = -1 →
      ∀ n, ((run ex_index ex_env2 1 n (tie_state 6)).rptr_ 0).size_ = -1 ∧
        ((run ex_index ex_env2 1 n (tie_state 6)).rptr_ 0).leaf_node_ = none)) :=
  ⟨ex_index_wf, tie_reachable 6, by decide, by decide,
   knn_exhausted_absorbing ex_index ex_env2 1 (fun _ => 1 / 2) ⟨1, []⟩ 1 ex_old (tie_state 6) 0
     ex_index_wf (tie_reachable 6) (by decide) (by decide)⟩

/-- An exhausted left cursor is selected only when the bucket width exceeds
`MAXREAL`. -/
theorem exhausted_left_selected (Q : Index) (E : Env) (top_k : Int) (s : State) (i j k : Int)
    (hpc : s.pc = .for_test i) (hs : (s.lptr_ i).size_ = -1)
    (h : (step Q E top_k s).pc = .scan_left i j k) : E.MAXREAL < s.bucket := by
  have hl : side_dist E (s.q_val_ i) (s.lptr_ i) = some E.MAXREAL := by simp [side_dist, hs]
  unfold step at h
  simp only [hpc, hl] at h
  by_cases h1 : i < Q.m_
  · rw [if_pos h1] at h
    by_cases h2 : (!s.flag_ i) = true
    · rw [if_pos h2] at h; simp at h
    · rw [if_neg h2] at h
      cases hr : side_dist E (s.q_val_ i) (s.rptr_ i) with
      | none => rw [hr] at h; simp at h
      | some rdist =>
        rw [hr] at h
        dsimp only at h
        split_ifs at h with c1
        exact c1.1
  · rw [if_neg h1] at h; simp at h

/-- C7 (the code violates it): `knn(2, q, ...)` on a well-formed index over
one point never meets a stop condition, the radius doubles every round, and
once `bucket = w_ * radius / 2` exceeds `MAXREAL` the test `ldist < bucket &&
ldist <= rdist` selects the exhausted left cursor of projection 0
(`size_ == -1`, `leaf_node_ == NULL`); the scan is empty and
`update_left_buffer` dereferences the `NULL` leaf. -/
theorem knn_selects_exhausted_cursor :
    one_index.WF ∧
    Reachable one_index one_env 2 (fun _ => 0) ⟨2, []⟩ 1 ex_old (one_state 1039) ∧
    (one_state 1039).pc = .for_test 0 ∧ (one_state 1039).flag_ 0 = true ∧
    ((one_state 1039).lptr_ 0).size_ = -1 ∧
    ((one_state 1039).lptr_ 0).leaf_node_.isNone = true ∧
    (one_state 1039).dist_io_ = 1 ∧
    (one_state 1039).bucket = 2 ^ 128 ∧ one_env.MAXREAL < (one_state 1039).bucket ∧
    (step one_index one_env 2 (one_state 1039)).pc = .scan_left 0 (-1) 0 ∧
    (one_state 1041).pc = .advance_left 0 ∧
    (one_state 1042).pc = .fault :=
  ⟨one_index_wf, one_reachable 1039, by decide!⟩

theorem arr_get_mem {α : Type} (xs : List α) (i : Int) (x : α) (h : arr_get xs i = some x) :
    x ∈ xs := by
  unfold arr_get at h
  split_ifs at h
  obtain ⟨hi, rfl⟩ := List.getElem?_eq_some.1 h
  exact List.getElem_mem _

theorem arr_get_some {α : Type} (xs : List α) (i : Int) (h0 : 0 ≤ i) (h1 : i < xs.length) :
    ∃ x, arr_get xs i = some x := by
  unfold arr_get
  rw [if_pos h0]
  have : i.toNat < xs.length := by omega
  exact ⟨xs[i.toNat], List.getElem?_eq_getElem this⟩

theorem arr_get_sorted (xs : List ℚ) (i j : Int) (x y : ℚ) (hs : xs.Sorted (fun x y => x ≤ y))
    (hij : i ≤ j) (hx : arr_get xs i = some x) (hy : arr_get xs j = some y) : x ≤ y := by
  unfold arr_get at hx hy
  split_ifs at hx hy with h0 h1
  · obtain ⟨hi, rfl⟩ := List.getElem?_eq_some.1 hx
    obtain ⟨hj, rfl⟩ := List.getElem?_eq_some.1 hy
    rcases Nat.eq_or_lt_of_le (Int.toNat_le_toNat hij) with e | e
    · simp [e]
    · exact (List.pairwise_iff_getElem.1 hs) _ _ hi hj e

theorem keyLe_refl (b : PageBuffer) : KeyLe b b := fun y hy => ⟨y, hy, le_refl _⟩

theorem keyGe_refl (b : PageBuffer) : KeyGe b b := fun y hy => ⟨y, hy, le_refl _⟩

theorem keyGe_trans {a b c : PageBuffer} (h1 : KeyGe a b) (h2 : KeyGe b c) : KeyGe a c := by
  intro z hz
  obtain ⟨y, hy, hzy⟩ := h2 z hz
  obtain ⟨x, hx, hyx⟩ := h1 y hy
  exact ⟨x, hx, le_trans hyx hzy⟩

theorem keyLe_of_cleared {b c : PageBuffer} (h : Cleared b c) : KeyLe b c := by
  rcases h with rfl | rfl
  · exact keyLe_refl _
  · intro y hy; simp [cursor_key] at hy

theorem keyGe_of_cleared {b c : PageBuffer} (h : Cleared b c) : KeyGe b c := by
  rcases h with rfl | rfl
  · exact keyGe_refl _
  · intro y hy; simp [cursor_key] at hy

theorem get_left_sibling_eq (T : BTree) (mem : Mem) (n : BLeafNode) (leaf : LeafPtr)
    (h : (get_left_sibling T mem n).1 = some leaf) :
    ∃ c, n.left_sibling_ = some c ∧ leaf.node = T.leaf_node c := by
  unfold get_left_sibling at h
  split at h
  · simp at h
  · rename_i c hc
    simp only [Option.some.injEq] at h
    subst h
    exact ⟨c, hc, rfl⟩

theorem get_right_sibling_eq (T : BTree) (mem : Mem) (n : BLeafNode) (leaf : LeafPtr)
    (h : (get_right_sibling T mem n).1 = some leaf) :
    ∃ c, n.right_sibling_ = some c ∧ leaf.node = T.leaf_node c := by
  unfold get_right_sibling at h
  split at h
  · simp at h
  · rename_i c hc
    simp only [Option.some.injEq] at h
    subst h
    exact ⟨c, hc, rfl⟩

/-- `update_left_buffer` moves the left cursor to a key that is not larger. -/
theorem update_left_buffer_key (T : BTree) (mem : Mem) (page_io_ : Int) (rptr lptr : PageBuffer)
    (a : Advance) (ho : T.Ordered) (hc : CursorOK T lptr)
    (h : update_left_buffer T mem page_io_ rptr lptr = some a) : KeyLe lptr a.buf := by
  unfold update_left_buffer at h
  split at h
  · simp at h
  · rename_i old hold
    obtain ⟨⟨blk, hb⟩, c1, c2, _⟩ := hc old hold
    obtain ⟨x, hx⟩ := arr_get_some old.node.key_ lptr.index_pos_ c1 c2
    have hkx : cursor_key lptr = some x := by simp [cursor_key, hold, BLeafNode.get_key, hx]
    have hso := ho blk
    rw [← hb] at hso
    by_cases hp : lptr.index_pos_ > 0
    · rw [if_pos hp] at h
      simp only [Option.some.injEq] at h
      subst h
      intro y hy
      simp only [cursor_key, hold, BLeafNode.get_key] at hy
      exact ⟨x, hkx, arr_get_sorted _ _ _ _ _ hso.1 (by omega) hy hx⟩
    · rw [if_neg hp] at h
      simp only [Option.some.injEq] at h
      subst h
      dsimp only
      split
      · rename_i leaf hs
        obtain ⟨c, hc1, hc2⟩ := get_left_sibling_eq T _ _ _ hs
        intro y hy
        simp only [cursor_key, BLeafNode.get_key] at hy
        have hy1 := arr_get_mem _ _ _ hy
        rw [hc2] at hy1
        exact ⟨x, hkx, hso.2.1 c hc1 y hy1 x (arr_get_mem _ _ _ hx)⟩
      · intro y hy; simp [cursor_key, PageBuffer.null] at hy

/-- `update_right_buffer` moves the right cursor to a key that is not smaller. -/
theorem update_right_buffer_key (T : BTree) (mem : Mem) (page_io_ : Int)
    (lptr rptr : PageBuffer) (a : Advance) (ho : T.Ordered) (hc : CursorOK T rptr)
    (h : update_right_buffer T mem page_io_ lptr rptr = some a) : KeyGe rptr a.buf := by
  unfold update_right_buffer at h
  split at h
  · simp at h
  · rename_i old hold
    obtain ⟨⟨blk, hb⟩, c1, c2, _⟩ := hc old hold
    obtain ⟨x, hx⟩ := arr_get_some old.node.key_ rptr.index_pos_ c1 c2
    have hkx : cursor_key rptr = some x := by simp [cursor_key, hold, BLeafNode.get_key, hx]
    have hso := ho blk
    rw [← hb] at hso
    by_cases hp : rptr.index_pos_ < old.node.get_num_keys - 1
    · rw [if_pos hp] at h
      simp only [Option.some.injEq] at h
      subst h
      intro y hy
      simp only [cursor_key, hold, BLeafNode.get_key] at hy
      exact ⟨x, hkx, arr_get_sorted _ _ _ _ _ hso.1 (by omega) hx hy⟩
    · rw [if_neg hp] at h
      simp only [Option.some.injEq] at h
      subst h
      dsimp only
      split
      · rename_i leaf hs
        obtain ⟨c, hc1, hc2⟩ := get_right_sibling_eq T _ _ _ hs
        intro y hy
        simp only [cursor_key, BLeafNode.get_key] at hy
        have hy1 := arr_get_mem _ _ _ hy
        rw [hc2] at hy1
        exact ⟨x, hkx, hso.2.2 c hc1 x (arr_get_mem _ _ _ hx) y hy1⟩
      · intro y hy; simp [cursor_key, PageBuffer.null] at hy

theorem step_key_mono (Q : Index) (E : Env) (top_k : Int) (s : State) (i : Int)
    (ho : Q.Ordered) (hc : CursorsOK Q s) (h0 : 0 ≤ i) (h1 : i < Q.m_) :
    KeyLe (s.lptr_ i) ((step Q E top_k s).lptr_ i) ∧
    KeyGe (s.rptr_ i) ((step Q E top_k s).rptr_ i) := by
  obtain ⟨hl, hr⟩ := hc i h0 h1
  constructor
  · rcases step_lptr_cases Q E top_k s i with c | ⟨_, a, ha, e⟩
    · exact keyLe_of_cleared c
    · rw [e]; exact update_left_buffer_key _ _ _ _ _ _ (ho i h0 h1) hl ha
  · rcases step_rptr_cases Q E top_k s i with c | ⟨_, a, ha, e⟩
    · exact keyGe_of_cleared c
    · rw [e]; exact update_right_buffer_key _ _ _ _ _ _ (ho i h0 h1) hr ha

theorem run_key_mono (Q : Index) (E : Env) (top_k : Int) (n : Nat) (s : State) (i : Int)
    (hw : Q.WF) (ho : Q.Ordered) (hc : CursorsOK Q s) (h0 : 0 ≤ i) (h1 : i < Q.m_) :
    KeyLe (s.lptr_ i) ((run Q E top_k n s).lptr_ i) ∧
    KeyGe (s.rptr_ i) ((run Q E top_k n s).rptr_ i) := by
  have keyLe_trans : ∀ {a b c : PageBuffer} (h1 : KeyLe a b) (h2 : KeyLe b c),
      KeyLe a c := by
    intro a b c h1 h2
    intro z hz
    obtain ⟨y, hy, hzy⟩ := h2 z hz
    obtain ⟨x, hx, hyx⟩ := h1 y hy
    exact ⟨x, hx, le_trans hzy hyx⟩
  induction n generalizing s with
  | zero => exact ⟨keyLe_refl _, keyGe_refl _⟩
  | succ n ih =>
    have h2 := step_key_mono Q E top_k s i ho hc h0 h1
    have h3 := ih (step Q E top_k s) (step_cursors_ok Q E top_k s hw hc)
    exact ⟨keyLe_trans h2.1 h3.1, keyGe_trans h2.2 h3.2⟩

/-- C5: on a well-formed index whose leaves are linked left to right with
keys sorted ascending, the slot key `get_key(index_pos_)` of the left cursor
of a projection never increases and that of the right cursor never decreases
in the course of one `knn` call: between any state and any later state in
which the cursor is still on a key-slot. -/
theorem knn_cursor_monotone (Q : Index) (E : Env) (top_k : Int) (query : Int → ℚ)
    (list : MinK_List) (fuel : Nat) (old s : State) (i : Int) (n : Nat)
    (hw : Q.WF) (ho : Q.Ordered) (h : Reachable Q E top_k query list fuel old s)
    (h0 : 0 ≤ i) (h1 : i < Q.m_) :
    (∀ x y, cursor_key (s.lptr_ i) = some x →
      cursor_key ((run Q E top_k n s).lptr_ i) = some y → y ≤ x) ∧
    (∀ x y, cursor_key (s.rptr_ i) = some x →
      cursor_key ((run Q E top_k n s).rptr_ i) = some y → x ≤ y) := by
  obtain ⟨hl, hr⟩ := run_key_mono Q E top_k n s i hw ho (reachable_cursors_ok hw h) h0 h1
  constructor
  · intro x y hx hy
    obtain ⟨x1, hx1, hle⟩ := hl y hy
    rw [hx] at hx1
    simp only [Option.some.injEq] at hx1
    rw [hx1]; exact hle
  · intro x y hx hy
    obtain ⟨x1, hx1, hle⟩ := hr y hy
    rw [hx] at hx1
    simp only [Option.some.injEq] at hx1
    rw [hx1]; exact hle

theorem two_reachable (n : Nat) :
    Reachable two_index two_env 1 (fun _ => 2) ⟨1, []⟩ 1 ex_old (two_state n) :=
  ⟨_, n, start_state_ok _ ex_old (by decide!), rfl⟩

theorem two_index_wf : two_index.WF := by
  intro _ _ _ b
  show (if b = 2 then two_leaf_b else two_leaf_a).WF
  split_ifs <;>
    (unfold BLeafNode.WF BLeafNode.get_increment BLeafNode.get_num_entries
      BLeafNode.get_num_keys; decide)

theorem two_index_ordered : two_index.Ordered := by
  intro _ _ _ b
  show (if b = 2 then two_leaf_b else two_leaf_a).key_.Sorted (fun x y => x ≤ y) ∧
    (∀ c, (if b = 2 then two_leaf_b else two_leaf_a).left_sibling_ = some c →
      ∀ x ∈ (if c = 2 then two_leaf_b else two_leaf_a).key_,
        ∀ y ∈ (if b = 2 then two_leaf_b else two_leaf_a).key_, x ≤ y) ∧
    (∀ c, (if b = 2 then two_leaf_b else two_leaf_a).right_sibling_ = some c →
      ∀ x ∈ (if b = 2 then two_leaf_b else two_leaf_a).key_,
        ∀ y ∈ (if c = 2 then two_leaf_b else two_leaf_a).key_, x ≤ y)
  by_cases hb : b = 2
  · simp only [if_pos hb]
    refine ⟨by decide!, ?_, ?_⟩
    · intro c hc
      have : c = 1 := by simpa [two_leaf_b] using hc.symm
      subst this
      decide!
    · intro c hc
      simp [two_leaf_b] at hc
  · simp only [if_neg hb]
    refine ⟨by decide!, ?_, ?_⟩
    · intro c hc
      simp [two_leaf_a] at hc
    · intro c hc
      have : c = 2 := by simpa [two_leaf_a] using hc.symm
      subst this
      decide!

/-- In the run on `two_index` the left cursor starts on the key 2 of the right
leaf and is moved to the key 1 of the left leaf by its first advance (one
page read); the right cursor stays on the key 4. -/
theorem two_run :
    cursor_key ((two_state 0).lptr_ 0) = some 2 ∧ cursor_key ((two_state 0).rptr_ 0) = some 4 ∧
    (two_state 6).pc = .advance_left 0 ∧ (two_state 6).page_io_ = 2 ∧
    cursor_key ((two_state 7).lptr_ 0) = some 1 ∧ (two_state 7).page_io_ = 3 ∧
    cursor_key ((two_state 8).rptr_ 0) = some 4 ∧ (two_state 15).pc = .returned := by
  decide!

theorem knn_cursor_monotone_witness :
    two_index.WF ∧ two_index.Ordered ∧
    Reachable two_index two_env 1 (fun _ => 2) ⟨1, []⟩ 1 ex_old (two_state 0) ∧
    (0 : Int) ≤ 0 ∧ (0 : Int) < two_index.m_ ∧
    ((∀ x y, cursor_key ((two_state 0).lptr_ 0) = some x →
      cursor_key ((run two_index two_env 1 8 (two_state 0)).lptr_ 0) = some y → y ≤ x) ∧
    (∀ x y, cursor_key ((two_state 0).rptr_ 0) = some x →
      cursor_key ((run two_index two_env 1 8 (two_state 0)).rptr_ 0) = some y → x ≤ y)) :=
  ⟨two_index_wf, two_index_ordered, two_reachable 0, by decide, by decide,
   knn_cursor_monotone two_index two_env 1 (fun _ => 2) ⟨1, []⟩ 1 ex_old (two_state 0) 0 8
     two_index_wf two_index_ordered (two_reachable 0) (by decide) (by decide)⟩

theorem calc_dist_eq (q : ℚ) (b : PageBuffer) :
    calc_dist q b = (cursor_key b).map (fun x => fabs (x - q)) := by
  unfold calc_dist cursor_key
  cases b.leaf_node_ with
  | none => rfl
  | some p =>
    dsimp only
    cases p.node.get_key b.index_pos_ <;> rfl

theorem distLe_refl (q : ℚ) (b : PageBuffer) : DistLe q b b := fun y hy => ⟨y, hy, le_refl _⟩

theorem distLe_trans {q : ℚ} {a b c : PageBuffer} (h1 : DistLe q a b) (h2 : DistLe q b c) :
    DistLe q a c := by
  intro z hz
  obtain ⟨y, hy, hzy⟩ := h2 z hz
  obtain ⟨x, hx, hyx⟩ := h1 y hy
  exact ⟨x, hx, le_trans hyx hzy⟩

theorem distLe_of_cleared {q : ℚ} {b c : PageBuffer} (h : Cleared b c) : DistLe q b c := by
  rcases h with rfl | rfl
  · exact distLe_refl _ _
  · intro y hy; simp [calc_dist] at hy

theorem sideL_cleared {q : ℚ} {b c : PageBuffer} (h : SideL q b) (hc : Cleared b c) :
    SideL q c := by
  rcases hc with rfl | rfl
  · exact h
  · intro p hp; simp at hp

theorem sideR_cleared {q : ℚ} {b c : PageBuffer} (h : SideR q b) (hc : Cleared b c) :
    SideR q c := by
  rcases hc with rfl | rfl
  · exact h
  · intro x hx; simp [cursor_key] at hx

/-- One step leaves the projected query values alone. -/
theorem step_q_val (Q : Index) (E : Env) (top_k : Int) (s : State) :
    (step Q E top_k s).q_val_ = s.q_val_ := by
  have hd := (delete_tree_ptr_frame Q s).2.2.2.1
  unfold step
  split
  · rfl
  · split_ifs <;> rfl
  · split_ifs
    · rfl
    · split
      · split_ifs <;> rfl
      · rfl
    · rfl
  · split_ifs
    · split
      · rfl
      · split
        · rfl
        · rw [(collide_frame Q E top_k s _ _ _).2.2.2.2.2.1]
    · rfl
  · split <;> rfl
  · split_ifs
    · split
      · rfl
      · split
        · rfl
        · rw [(collide_frame Q E top_k s _ _ _).2.2.2.2.2.1]
    · rfl
  · split <;> rfl
  · split_ifs <;> rfl
  · split_ifs <;> rfl
  · split_ifs
    · exact hd
    · exact hd
    · split <;> rfl
  · rfl
  · rfl

theorem run_q_val (Q : Index) (E : Env) (top_k : Int) (n : Nat) (s : State) :
    (run Q E top_k n s).q_val_ = s.q_val_ := by
  induction n generalizing s with
  | zero => rfl
  | succ n ih => exact (ih _).trans (step_q_val Q E top_k s)

/-- A step enters or continues the scan of a left key-slot only from the
direction test, with the left side closer, or from the same scan. -/
theorem step_to_scan_left (Q : Index) (E : Env) (top_k : Int) (s : State) (i j k : Int)
    (h : (step Q E top_k s).pc = .scan_left i j k) :
    (step Q E top_k s).lptr_ = s.lptr_ ∧ (step Q E top_k s).rptr_ = s.rptr_ ∧
    ((∃ x y, s.pc = .for_test i ∧ side_dist E (s.q_val_ i) (s.lptr_ i) = some x ∧
        side_dist E (s.q_val_ i) (s.rptr_ i) = some y ∧ x ≤ y) ∨
      (∃ j2, s.pc = .scan_left i j2 k)) := by
  cases hpc : s.pc with
  | round => unfold step at h; simp [hpc] at h
  | while_test => unfold step at h; simp only [hpc] at h; split_ifs at h
  | for_test i2 =>
    unfold step at h ⊢
    simp only [hpc] at h ⊢
    by_cases h1 : i2 < Q.m_
    · rw [if_pos h1] at h ⊢
      by_cases h2 : (!s.flag_ i2) = true
      · rw [if_pos h2] at h; simp at h
      · rw [if_neg h2] at h ⊢
        cases hl : side_dist E (s.q_val_ i2) (s.lptr_ i2) with
        | none => (try rw [hl] at h); simp at h
        | some x =>
          cases hr : side_dist E (s.q_val_ i2) (s.rptr_ i2) with
          | none => (try rw [hl] at h); (try rw [hr] at h); simp at h
          | some y =>
            (try rw [hl] at h); (try rw [hr] at h)
            dsimp only at h ⊢
            by_cases c1 : x < s.bucket ∧ x ≤ y
            · rw [if_pos c1] at h ⊢
              simp only [PC.scan_left.injEq] at h
              obtain ⟨rfl, _, _⟩ := h
              exact ⟨rfl, rfl, Or.inl ⟨x, y, rfl, hl, hr, c1.2⟩⟩
            · rw [if_neg c1] at h
              split_ifs at h
    · rw [if_neg h1] at h; simp at h
  | scan_left i2 j2 k2 =>
    unfold step at h ⊢
    simp only [hpc] at h ⊢
    by_cases hj : j2 > k2
    · rw [if_pos hj] at h ⊢
      cases hp : (s.lptr_ i2).leaf_node_ with
      | none => (try rw [hp] at h); simp at h
      | some p =>
        (try rw [hp] at h)
        dsimp only at h ⊢
        cases hid : p.node.get_entry_id j2 with
        | none => (try rw [hid] at h); simp at h
        | some id =>
          (try rw [hid] at h)
          dsimp only at h ⊢
          have hf := collide_frame Q E top_k s id (.scan_left i2 (j2 - 1) k2) (.advance_left i2)
          rcases collide_pc Q E top_k s id (.scan_left i2 (j2 - 1) k2) (.advance_left i2) with
            e | e | e
          · rw [e] at h; simp at h
          · rw [e] at h
            simp only [PC.scan_left.injEq] at h
            obtain ⟨rfl, _, rfl⟩ := h
            exact ⟨hf.1, hf.2.1, Or.inr ⟨j2, rfl⟩⟩
          · rw [e] at h; simp at h
    · rw [if_neg hj] at h; simp at h
  | advance_left i2 => unfold step at h; simp only [hpc] at h; split at h <;> simp at h
  | scan_right i2 j2 k2 =>
    unfold step at h
    simp only [hpc] at h
    by_cases hj : j2 < k2
    · rw [if_pos hj] at h
      cases hp : (s.rptr_ i2).leaf_node_ with
      | none => (try rw [hp] at h); simp at h
      | some p =>
        (try rw [hp] at h)
        dsimp only at h
        cases hid : p.node.get_entry_id j2 with
        | none => (try rw [hid] at h); simp at h
        | some id =>
          (try rw [hid] at h)
          dsimp only at h
          rcases collide_pc Q E top_k s id (.scan_right i2 (j2 + 1) k2) (.advance_right i2) with
            e | e | e <;> rw [e] at h <;> simp at h
    · rw [if_neg hj] at h; simp at h
  | advance_right i2 => unfold step at h; simp only [hpc] at h; split at h <;> simp at h
  | body_end i2 => unfold step at h; simp only [hpc] at h; split_ifs at h
  | for_exit => unfold step at h; simp only [hpc] at h; split_ifs at h
  | stop_test =>
    unfold step at h
    simp only [hpc] at h
    split_ifs at h
    split at h <;> simp at h
  | returned => unfold step at h; simp [hpc] at h
  | fault => unfold step at h; simp [hpc] at h

/-- A step enters or continues the scan of a right key-slot only from
the direction test, with the right side closer, or from the same scan. -/
theorem step_to_scan_right (Q : Index) (E : Env) (top_k : Int) (s : State) (i j k : Int)
    (h : (step Q E top_k s).pc = .scan_right i j k) :
    (step Q E top_k s).lptr_ = s.lptr_ ∧ (step Q E top_k s).rptr_ = s.rptr_ ∧
    ((∃ x y, s.pc = .for_test i ∧ side_dist E (s.q_val_ i) (s.lptr_ i) = some x ∧
        side_dist E (s.q_val_ i) (s.rptr_ i) = some y ∧ y ≤ x) ∨
      (∃ j2, s.pc = .scan_right i j2 k)) := by
  cases hpc : s.pc with
  | round => unfold step at h; simp [hpc] at h
  | while_test => unfold step at h; simp only [hpc] at h; split_ifs at h
  | for_test i2 =>
    unfold step at h ⊢
    simp only [hpc] at h ⊢
    by_cases h1 : i2 < Q.m_
    · rw [if_pos h1] at h ⊢
      by_cases h2 : (!s.flag_ i2) = true
      · rw [if_pos h2] at h; simp at h
      · rw [if_neg h2] at h ⊢
        cases hl : side_dist E (s.q_val_ i2) (s.lptr_ i2) with
        | none => (try rw [hl] at h); simp at h
        | some x =>
          cases hr : side_dist E (s.q_val_ i2) (s.rptr_ i2) with
          | none => (try rw [hl] at h); (try rw [hr] at h); simp at h
          | some y =>
            (try rw [hl] at h); (try rw [hr] at h)
            dsimp only at h ⊢
            by_cases c1 : x < s.bucket ∧ x ≤ y
            · rw [if_pos c1] at h; simp at h
            · rw [if_neg c1] at h ⊢
              by_cases c2 : y < s.bucket ∧ x > y
              · rw [if_pos c2] at h ⊢
                simp only [PC.scan_right.injEq] at h
                obtain ⟨rfl, _, _⟩ := h
                exact ⟨rfl, rfl, Or.inl ⟨x, y, rfl, hl, hr, le_of_lt c2.2⟩⟩
              · rw [if_neg c2] at h; simp at h
    · rw [if_neg h1] at h; simp at h
  | scan_left i2 j2 k2 =>
    unfold step at h
    simp only [hpc] at h
    by_cases hj : j2 > k2
    · rw [if_pos hj] at h
      cases hp : (s.lptr_ i2).leaf_node_ with
      | none => (try rw [hp] at h); simp at h
      | some p =>
        (try rw [hp] at h)
        dsimp only at h
        cases hid : p.node.get_entry_id j2 with
        | none => (try rw [hid] at h); simp at h
        | some id =>
          (try rw [hid] at h)
          dsimp only at h
          rcases collide_pc Q E top_k s id (.scan_left i2 (j2 - 1) k2) (.advance_left i2) with
            e | e | e <;> rw [e] at h <;> simp at h
    · rw [if_neg hj] at h; simp at h
  | advance_left i2 => unfold step at h; simp only [hpc] at h; split at h <;> simp at h
  | scan_right i2 j2 k2 =>
    unfold step at h ⊢
    simp only [hpc] at h ⊢
    by_cases hj : j2 < k2
    · rw [if_pos hj] at h ⊢
      cases hp : (s.rptr_ i2).leaf_node_ with
      | none => (try rw [hp] at h); simp at h
      | some p =>
        (try rw [hp] at h)
        dsimp only at h ⊢
        cases hid : p.node.get_entry_id j2 with
        | none => (try rw [hid] at h); simp at h
        | some id =>
          (try rw [hid] at h)
          dsimp only at h ⊢
          have hf := collide_frame Q E top_k s id (.scan_right i2 (j2 + 1) k2) (.advance_right i2)
          rcases collide_pc Q E top_k s id (.scan_right i2 (j2 + 1) k2) (.advance_right i2) with
            e | e | e
          · rw [e] at h; simp at h
          · rw [e] at h
            simp only [PC.scan_right.injEq] at h
            obtain ⟨rfl, _, rfl⟩ := h
            exact ⟨hf.1, hf.2.1, Or.inr ⟨j2, rfl⟩⟩
          · rw [e] at h; simp at h
    · rw [if_neg hj] at h; simp at h
  | advance_right i2 => unfold step at h; simp only [hpc] at h; split at h <;> simp at h
  | body_end i2 => unfold step at h; simp only [hpc] at h; split_ifs at h
  | for_exit => unfold step at h; simp only [hpc] at h; split_ifs at h
  | stop_test =>
    unfold step at h
    simp only [hpc] at h
    split_ifs at h
    split at h <;> simp at h
  | returned => unfold step at h; simp [hpc] at h
  | fault => unfold step at h; simp [hpc] at h

theorem side_dist_of_calc (E : Env) (T : BTree) (q : ℚ) (b : PageBuffer) (x : ℚ)
    (hc : CursorOK T b) (h : calc_dist q b = some x) : side_dist E q b = some x := by
  unfold side_dist
  cases hp : b.leaf_node_ with
  | none => simp [calc_dist, hp] at h
  | some p =>
    have := (hc p hp).2.2.2
    rw [if_pos (by omega)]
    exact h

/-- An emitted entry belongs to the key-slot that is being scanned. -/
theorem emitted_cases (s : State) (e : Emission) (h : emitted s = some e) :
    ((∃ j k, s.pc = .scan_left e.proj j k) ∧
      calc_dist (s.q_val_ e.proj) (s.lptr_ e.proj) = some e.slot_dist) ∨
    ((∃ j k, s.pc = .scan_right e.proj j k) ∧
      calc_dist (s.q_val_ e.proj) (s.rptr_ e.proj) = some e.slot_dist) := by
  unfold emitted at h
  split at h
  · rename_i i j start hpc
    split_ifs at h
    split at h
    · simp at h
    · split at h
      · rename_i id d _ hd
        simp only [Option.some.injEq] at h
        subst h
        exact Or.inl ⟨⟨j, start, hpc⟩, hd⟩
      · simp at h
  · rename_i i j en hpc
    split_ifs at h
    split at h
    · simp at h
    · split at h
      · rename_i id d _ hd
        simp only [Option.some.injEq] at h
        subst h
        exact Or.inr ⟨⟨j, en, hpc⟩, hd⟩
      · simp at h
  · simp at h

/-- C6 (amended): on a well-formed index with ordered leaves whose cursors
start on either side of the projected query values, the entries `knn` emits
for a projection `0 ≤ i < m_`, from both cursors together and in emission
order, have non-decreasing projected distance of their key-slot,
`|get_key(index_pos_) - q_val_[i]|`, the distance `calc_dist` computes. -/
theorem knn_slot_order (Q : Index) (E : Env) (top_k : Int) (query : Int → ℚ)
    (list : MinK_List) (fuel : Nat) (old s : State) (m : Nat) (e1 e2 : Emission)
    (hw : Q.WF) (ho : Q.Ordered)
    (hstart : ∀ s0, knn_start Q E query list fuel old = .ok s0 → SidesOK Q s0)
    (h : Reachable Q E top_k query list fuel old s)
    (h0 : 0 ≤ e1.proj) (h1 : e1.proj < Q.m_)
    (he1 : emitted s = some e1) (he2 : emitted (run Q E top_k m s) = some e2)
    (hp : e2.proj = e1.proj) : e1.slot_dist ≤ e2.slot_dist := by
  have fabs_le_left : ∀ (x y q : ℚ) (h1 : y ≤ x) (h2 : x ≤ q),
      fabs (x - q) ≤ fabs (y - q) := by
    intro x y q h1 h2
    unfold fabs
    split_ifs <;> linarith
  have fabs_le_right : ∀ (x y q : ℚ) (h1 : x ≤ y) (h2 : q ≤ x),
      fabs (x - q) ≤ fabs (y - q) := by
    intro x y q h1 h2
    unfold fabs
    split_ifs <;> linarith
  -- An advance of the left cursor moves it away from `q` and keeps it on the left side.
  have update_left_buffer_side : ∀ (T : BTree) (mem : Mem) (page_io_ : Int) (rptr lptr : PageBuffer)
      (a : Advance) (q : ℚ) (hw : T.WF) (ho : T.Ordered) (hc : CursorOK T lptr) (hs : SideL q
      lptr) (h : update_left_buffer T mem page_io_ rptr lptr = some a),
      DistLe q lptr a.buf ∧ SideL q a.buf := by
    intro T mem page_io_ rptr lptr a q hw ho hc hs h
    have hk := update_left_buffer_key T mem page_io_ rptr lptr a ho hc h
    have hok := update_left_buffer_ok T mem page_io_ rptr lptr a hw hc h
    cases hold : lptr.leaf_node_ with
    | none => rw [update_left_buffer_null _ _ _ _ _ hold] at h; simp at h
    | some old =>
      rcases hs old hold with ⟨x, hx, hxq⟩ | ⟨hi, hn⟩
      · have hkx : cursor_key lptr = some x := by simp [cursor_key, hold, hx]
        constructor
        · intro d hd
          rw [calc_dist_eq] at hd
          cases hy : cursor_key a.buf with
          | none => rw [hy] at hd; simp at hd
          | some y =>
            rw [hy] at hd
            simp only [Option.map_some', Option.some.injEq] at hd
            obtain ⟨x1, hx1, hle⟩ := hk y hy
            rw [hkx] at hx1
            simp only [Option.some.injEq] at hx1
            subst hx1
            refine ⟨fabs (x - q), by rw [calc_dist_eq, hkx]; rfl, ?_⟩
            rw [← hd]
            exact fabs_le_left x y q hle hxq
        · intro p hp
          obtain ⟨_, c1, c2, _⟩ := hok p hp
          obtain ⟨y, hy⟩ := arr_get_some p.node.key_ a.buf.index_pos_ c1 c2
          have hky : cursor_key a.buf = some y := by simp [cursor_key, hp, BLeafNode.get_key, hy]
          obtain ⟨x1, hx1, hle⟩ := hk y hky
          rw [hkx] at hx1
          simp only [Option.some.injEq] at hx1
          subst hx1
          exact Or.inl ⟨y, hy, le_trans hle hxq⟩
      · have hnull : a.buf = PageBuffer.null := by
          unfold update_left_buffer at h
          rw [hold] at h
          dsimp only at h
          rw [if_neg (by omega)] at h
          simp only [Option.some.injEq] at h
          subst h
          simp [get_left_sibling, hn]
        rw [hnull]
        exact ⟨fun d hd => by simp [calc_dist, PageBuffer.null] at hd,
          fun p hp => by simp [PageBuffer.null] at hp⟩
  -- An advance of the right cursor moves it away from `q` and keeps it on the right side.
  have update_right_buffer_side : ∀ (T : BTree) (mem : Mem) (page_io_ : Int) (lptr rptr :
      PageBuffer) (a : Advance) (q : ℚ) (ho : T.Ordered) (hc : CursorOK T rptr) (hs : SideR q
      rptr) (h : update_right_buffer T mem page_io_ lptr rptr = some a),
      DistLe q rptr a.buf ∧ SideR q a.buf := by
    intro T mem page_io_ lptr rptr a q ho hc hs h
    have hk := update_right_buffer_key T mem page_io_ lptr rptr a ho hc h
    constructor
    · intro d hd
      rw [calc_dist_eq] at hd
      cases hy : cursor_key a.buf with
      | none => rw [hy] at hd; simp at hd
      | some y =>
        rw [hy] at hd
        simp only [Option.map_some', Option.some.injEq] at hd
        obtain ⟨x, hx, hle⟩ := hk y hy
        refine ⟨fabs (x - q), by rw [calc_dist_eq, hx]; rfl, ?_⟩
        rw [← hd]
        exact fabs_le_right x y q hle (hs x hx)
    · intro y hy
      obtain ⟨x, hx, hle⟩ := hk y hy
      exact le_trans (hs x hx) hle
  have step_sides : ∀ (Q : Index) (E : Env) (top_k : Int) (s : State) (i : Int) (hw : Q.WF) (ho :
      Q.Ordered) (hc : CursorsOK Q s) (hs : SidesOK Q s) (h0 : 0 ≤ i) (h1 : i < Q.m_),
      (DistLe (s.q_val_ i) (s.lptr_ i) ((step Q E top_k s).lptr_ i) ∧
        SideL (s.q_val_ i) ((step Q E top_k s).lptr_ i)) ∧
      (DistLe (s.q_val_ i) (s.rptr_ i) ((step Q E top_k s).rptr_ i) ∧
        SideR (s.q_val_ i) ((step Q E top_k s).rptr_ i)) := by
    intro Q E top_k s i hw ho hc hs h0 h1
    obtain ⟨cl, cr⟩ := hc i h0 h1
    obtain ⟨sl, sr⟩ := hs i h0 h1
    constructor
    · rcases step_lptr_cases Q E top_k s i with c | ⟨_, a, ha, e⟩
      · exact ⟨distLe_of_cleared c, sideL_cleared sl c⟩
      · rw [e]
        exact update_left_buffer_side _ _ _ _ _ _ _ (hw i h0 h1) (ho i h0 h1) cl sl ha
    · rcases step_rptr_cases Q E top_k s i with c | ⟨_, a, ha, e⟩
      · exact ⟨distLe_of_cleared c, sideR_cleared sr c⟩
      · rw [e]
        exact update_right_buffer_side _ _ _ _ _ _ _ (ho i h0 h1) cr sr ha
  have step_sides_ok : ∀ (Q : Index) (E : Env) (top_k : Int) (s : State) (hw : Q.WF) (ho :
      Q.Ordered) (hc : CursorsOK Q s) (hs : SidesOK Q s),
      SidesOK Q (step Q E top_k s) := by
    intro Q E top_k s hw ho hc hs
    intro i h0 h1
    rw [step_q_val]
    have := step_sides Q E top_k s i hw ho hc hs h0 h1
    exact ⟨this.1.2, this.2.2⟩
  have run_dist_mono : ∀ (Q : Index) (E : Env) (top_k : Int) (n : Nat) (s : State) (i : Int) (hw :
      Q.WF) (ho : Q.Ordered) (hc : CursorsOK Q s) (hs : SidesOK Q s) (h0 : 0 ≤ i) (h1 : i < Q.m_),
      DistLe (s.q_val_ i) (s.lptr_ i) ((run Q E top_k n s).lptr_ i) ∧
      DistLe (s.q_val_ i) (s.rptr_ i) ((run Q E top_k n s).rptr_ i) := by
    intro Q E top_k n s i hw ho hc hs h0 h1
    induction n generalizing s with
    | zero => exact ⟨distLe_refl _ _, distLe_refl _ _⟩
    | succ n ih =>
      have h2 := step_sides Q E top_k s i hw ho hc hs h0 h1
      have h3 := ih (step Q E top_k s) (step_cursors_ok Q E top_k s hw hc)
        (step_sides_ok Q E top_k s hw ho hc hs)
      rw [step_q_val] at h3
      exact ⟨distLe_trans h2.1.1 h3.1, distLe_trans h2.2.1 h3.2⟩
  have step_scan_inv : ∀ (Q : Index) (E : Env) (top_k : Int) (s : State) (hc : CursorsOK Q s) (h :
      ScanInv Q s),
      ScanInv Q (step Q E top_k s) := by
    intro Q E top_k s hc h
    intro i h0 h1
    obtain ⟨cl, cr⟩ := hc i h0 h1
    rw [step_q_val]
    constructor
    · rintro ⟨j, k, hpc⟩ x y hx hy
      obtain ⟨e1, e2, hc⟩ := step_to_scan_left Q E top_k s i j k hpc
      rw [e1] at hx
      rw [e2] at hy
      rcases hc with ⟨x1, y1, _, hl, hr, hle⟩ | ⟨j2, hpc2⟩
      · rw [side_dist_of_calc E _ _ _ _ cl hx] at hl
        rw [side_dist_of_calc E _ _ _ _ cr hy] at hr
        simp only [Option.some.injEq] at hl hr
        rw [hl, hr]; exact hle
      · exact (h i h0 h1).1 ⟨j2, k, hpc2⟩ x y hx hy
    · rintro ⟨j, k, hpc⟩ x y hx hy
      obtain ⟨e1, e2, hc⟩ := step_to_scan_right Q E top_k s i j k hpc
      rw [e1] at hx
      rw [e2] at hy
      rcases hc with ⟨x1, y1, _, hl, hr, hle⟩ | ⟨j2, hpc2⟩
      · rw [side_dist_of_calc E _ _ _ _ cl hx] at hl
        rw [side_dist_of_calc E _ _ _ _ cr hy] at hr
        simp only [Option.some.injEq] at hl hr
        rw [hl, hr]; exact hle
      · exact (h i h0 h1).2 ⟨j2, k, hpc2⟩ x y hx hy
  -- On a well-formed, ordered index whose cursors start on either side of the query values,
  -- every state of a call satisfies the cursor invariants.
  have reachable_order_inv : ∀ {Q : Index} {E : Env} {top_k : Int} {query : Int → ℚ} {list :
      MinK_List} {fuel : Nat} {old s : State} (hw : Q.WF) (ho : Q.Ordered) (hstart : ∀ s0,
      knn_start Q E query list fuel old = .ok s0 → SidesOK Q s0) (h : Reachable Q E top_k query
      list fuel old s),
      CursorsOK Q s ∧ SidesOK Q s ∧ ScanInv Q s := by
    intro Q E top_k query list fuel old s hw ho hstart h
    refine reachable_induct (fun s => CursorsOK Q s ∧ SidesOK Q s ∧ ScanInv Q s) ?_ ?_ h
    · intro s0 h0
      refine ⟨knn_start_cursors_ok Q E query list fuel old s0 hw h0, hstart s0 h0, ?_⟩
      have hpc := (knn_start_spec Q E query list fuel old s0 h0).2.1
      intro i _ _
      constructor
      · rintro ⟨j, k, e⟩; rw [hpc] at e; simp at e
      · rintro ⟨j, k, e⟩; rw [hpc] at e; simp at e
    · rintro s ⟨h1, h2, h3⟩
      exact ⟨step_cursors_ok Q E top_k s hw h1, step_sides_ok Q E top_k s hw ho h1 h2,
        step_scan_inv Q E top_k s h1 h3⟩
  obtain ⟨hc, hs, hv⟩ := reachable_order_inv hw ho hstart h
  obtain ⟨ml, mr⟩ := run_dist_mono Q E top_k m s e1.proj hw ho hc hs h0 h1
  have habove : (∀ d, calc_dist (s.q_val_ e1.proj) (s.lptr_ e1.proj) = some d →
      e1.slot_dist ≤ d) ∧
      (∀ d, calc_dist (s.q_val_ e1.proj) (s.rptr_ e1.proj) = some d → e1.slot_dist ≤ d) := by
    rcases emitted_cases s e1 he1 with ⟨hpc, hd⟩ | ⟨hpc, hd⟩
    · refine ⟨fun d hd2 => ?_, fun d hd2 => (hv _ h0 h1).1 hpc _ _ hd hd2⟩
      rw [hd] at hd2
      simp only [Option.some.injEq] at hd2
      rw [hd2]
    · refine ⟨fun d hd2 => (hv _ h0 h1).2 hpc _ _ hd2 hd, fun d hd2 => ?_⟩
      rw [hd] at hd2
      simp only [Option.some.injEq] at hd2
      rw [hd2]
  rcases emitted_cases _ e2 he2 with ⟨_, hd⟩ | ⟨_, hd⟩
  · rw [run_q_val, hp] at hd
    obtain ⟨x, hx, hle⟩ := ml _ hd
    exact le_trans (habove.1 x hx) hle
  · rw [run_q_val, hp] at hd
    obtain ⟨x, hx, hle⟩ := mr _ hd
    exact le_trans (habove.2 x hx) hle

theorem sideL_of_key {q : ℚ} {b : PageBuffer} (x : ℚ) (h : cursor_key b = some x)
    (hx : x ≤ q) : SideL q b := by
  intro p hp
  left
  refine ⟨x, ?_, hx⟩
  simpa [cursor_key, hp] using h

theorem sideR_of_key {q : ℚ} {b : PageBuffer} (x : ℚ) (h : cursor_key b = some x)
    (hx : q ≤ x) : SideR q b := by
  intro y hy
  rw [h] at hy
  simp only [Option.some.injEq] at hy
  rw [← hy]; exact hx

theorem two_sides_ok (s0 : State)
    (h : knn_start two_index two_env (fun _ => 2) ⟨3, []⟩ 1 ex_old = .ok s0) :
    SidesOK two_index s0 := by
  rw [start_state_ok _ ex_old (by decide! :
    started (knn_start two_index two_env (fun _ => 2) ⟨3, []⟩ 1 ex_old) = true)] at h
  simp only [Except.ok.injEq] at h
  subst h
  intro i h0 h1
  have h2 : i < 1 := h1
  have h3 : i = 0 := by omega
  subst h3
  exact ⟨sideL_of_key 2 (by decide!) (by decide!), sideR_of_key 4 (by decide!) (by decide!)⟩

theorem two_reachable3 (n : Nat) :
    Reachable two_index two_env 3 (fun _ => 2) ⟨3, []⟩ 1 ex_old (two_state3 n) :=
  ⟨_, n, start_state_ok _ ex_old (by decide!), rfl⟩

theorem knn_slot_order_witness :
    two_index.WF ∧ two_index.Ordered ∧
    (∀ s0, knn_start two_index two_env (fun _ => 2) ⟨3, []⟩ 1 ex_old = .ok s0 →
      SidesOK two_index s0) ∧
    Reachable two_index two_env 3 (fun _ => 2) ⟨3, []⟩ 1 ex_old (two_state3 3) ∧
    (0 : Int) ≤ (⟨0, 3, 0⟩ : Emission).proj ∧ (⟨0, 3, 0⟩ : Emission).proj < two_index.m_ ∧
    emitted (two_state3 3) = some ⟨0, 3, 0⟩ ∧
    emitted (run two_index two_env 3 15 (two_state3 3)) = some ⟨0, 1, 1⟩ ∧
    (⟨0, 1, 1⟩ : Emission).proj = (⟨0, 3, 0⟩ : Emission).proj ∧
    (⟨0, 3, 0⟩ : Emission).slot_dist ≤ (⟨0, 1, 1⟩ : Emission).slot_dist :=
  ⟨two_index_wf, two_index_ordered, two_sides_ok, two_reachable3 3, by decide, by decide,
   by decide!, by decide!, rfl,
   knn_slot_order two_index two_env 3 (fun _ => 2) ⟨3, []⟩ 1 ex_old (two_state3 3) 15
     ⟨0, 3, 0⟩ ⟨0, 1, 1⟩ two_index_wf two_index_ordered two_sides_ok (two_reachable3 3)
     (by decide) (by decide) (by decide!) (by decide!) rfl⟩

theorem slot_index_wf : slot_index.WF := by
  intro _ _ _ _
  show slot_leaf.WF
  unfold BLeafNode.WF BLeafNode.get_increment BLeafNode.get_num_entries BLeafNode.get_num_keys
  decide

theorem slot_index_ordered : slot_index.Ordered := by
  intro _ _ _ _
  show slot_leaf.key_.Sorted (fun x y => x ≤ y) ∧
    (∀ c, slot_leaf.left_sibling_ = some c → ∀ x ∈ slot_leaf.key_, ∀ y ∈ slot_leaf.key_, x ≤ y) ∧
    (∀ c, slot_leaf.right_sibling_ = some c → ∀ x ∈ slot_leaf.key_, ∀ y ∈ slot_leaf.key_, x ≤ y)
  refine ⟨by decide!, fun c hc => ?_, fun c hc => ?_⟩ <;> simp [slot_leaf] at hc

/-- C6 fails as stated: `slot_index` is the well-formed index over the points
0 and 10 with both entries in one key-slot (`increment = 2`, stored key 0).
For the query 3, `knn` scans the slot backwards and emits point 1 (key 10,
projected distance 7) before point 0 (key 0, projected distance 3). -/
theorem entry_order_counterexample :
    slot_index.WF ∧ slot_index.Ordered ∧
    slot_leaf.key_ = [calc_hash_value slot_index 0 (slot_data 0)] ∧
    calc_hash_value slot_index 0 (slot_data 0) ≤ calc_hash_value slot_index 0 (slot_data 1) ∧
    started (knn_start slot_index slot_env (fun _ => 3) ⟨1, []⟩ 1 ex_old) = true ∧
    emitted (slot_state 3) = some ⟨0, 1, 3⟩ ∧ emitted (slot_state 4) = some ⟨0, 0, 3⟩ ∧
    ¬ EntryOrder slot_index slot_env 1 slot_data (slot_state 0) := by
  refine ⟨slot_index_wf, slot_index_ordered, by decide!, by decide!, by decide!, by decide!,
    by decide!, fun h => ?_⟩
  have h1 := h 3 1 ⟨0, 1, 3⟩ ⟨0, 0, 3⟩ (by decide!) (by decide!) rfl
  revert h1
  decide!

theorem update_radius_eq (Q : Index) (E : Env) (old_radius : ℚ) (q_val : Int → ℚ)
    (lptr rptr : Int → PageBuffer) (dists : List ℚ)
    (h : dist_list q_val lptr rptr Q.m_.toNat 0 = some dists) :
    update_radius Q E old_radius q_val lptr rptr =
      if dists = [] then some (Q.appr_ratio_ * old_radius)
      else some (E.pow_ceil_log
        (2 * median_dist (dists.insertionSort (fun a b => a ≤ b)) / Q.w_)) := by
  unfold update_radius
  rw [h]
  simp only [List.length_insertionSort, median_dist]
  by_cases hd : dists = []
  · simp [hd]
  · have : dists.length ≠ 0 := by simpa using hd
    simp [hd, this]

theorem mem_dist_list (q_val : Int → ℚ) (lptr rptr : Int → PageBuffer) (count : Nat) :
    ∀ (i : Int) (dists : List ℚ), dist_list q_val lptr rptr count i = some dists →
      ∀ d, d ∈ dists ↔ ∃ j, i ≤ j ∧ j < i + count ∧
        (((lptr j).size_ ≠ -1 ∧ calc_dist (q_val j) (lptr j) = some d) ∨
         ((rptr j).size_ ≠ -1 ∧ calc_dist (q_val j) (rptr j) = some d)) := by
  induction count with
  | zero =>
    intro i dists h d
    simp only [dist_list, Option.some.injEq] at h
    subst h
    simp only [List.not_mem_nil, Nat.cast_zero, add_zero, false_iff, not_exists, not_and]
    intro j h1 h2
    omega
  | succ count ih =>
    intro i dists h d
    unfold dist_list at h
    dsimp only at h
    split at h
    · rename_i l r rest hl hr hrest
      simp only [Option.some.injEq] at h
      subst h
      have ih1 := ih (i + 1) rest hrest d
      simp only [List.mem_append, ih1]
      constructor
      · rintro ((h1 | h1) | ⟨j, h1, h2, h3⟩)
        · refine ⟨i, le_refl _, by push_cast; omega, Or.inl ?_⟩
          split_ifs at hl with c
          · cases hc : calc_dist (q_val i) (lptr i) with
            | none => rw [hc] at hl; simp at hl
            | some x =>
              rw [hc] at hl; simp at hl; subst hl
              simp at h1; subst h1; exact ⟨c, rfl⟩
          · simp at hl; subst hl; simp at h1
        · refine ⟨i, le_refl _, by push_cast; omega, Or.inr ?_⟩
          split_ifs at hr with c
          · cases hc : calc_dist (q_val i) (rptr i) with
            | none => rw [hc] at hr; simp at hr
            | some x =>
              rw [hc] at hr; simp at hr; subst hr
              simp at h1; subst h1; exact ⟨c, rfl⟩
          · simp at hr; subst hr; simp at h1
        · exact ⟨j, by omega, by push_cast; omega, h3⟩
      · rintro ⟨j, h1, h2, h3⟩
        by_cases hj : j = i
        · subst hj
          rcases h3 with ⟨c, h3⟩ | ⟨c, h3⟩
          · left; left
            rw [if_pos c, h3] at hl
            simp at hl; subst hl; simp
          · left; right
            rw [if_pos c, h3] at hr
            simp at hr; subst hr; simp
        · right
          exact ⟨j, by omega, by push_cast at h2; omega, h3⟩
    · simp at h

/-- C16 (amended): the value `update_radius` derives the radius from is the
median of the sorted projected distances of the live cursors: the middle
element for an odd number of them, the mean of the two middle elements (which
lies between them) for an even number. -/
theorem update_radius_median (Q : Index) (E : Env) (old_radius : ℚ) (q_val : Int → ℚ)
    (lptr rptr : Int → PageBuffer) (dists : List ℚ)
    (h : dist_list q_val lptr rptr Q.m_.toNat 0 = some dists) (hne : dists ≠ []) :
    (∀ d, d ∈ dists ↔ ∃ i, 0 ≤ i ∧ i < Q.m_ ∧
      (((lptr i).size_ ≠ -1 ∧ calc_dist (q_val i) (lptr i) = some d) ∨
       ((rptr i).size_ ≠ -1 ∧ calc_dist (q_val i) (rptr i) = some d))) ∧
    ∃ list : List ℚ, list.Sorted (fun a b => a ≤ b) ∧ list.Perm dists ∧
      update_radius Q E old_radius q_val lptr rptr =
        some (E.pow_ceil_log (2 * median_dist list / Q.w_)) ∧
      (list.length % 2 = 1 → median_dist list = list.getD (list.length / 2) 0) ∧
      (list.length % 2 = 0 →
        median_dist list =
          (list.getD (list.length / 2 - 1) 0 + list.getD (list.length / 2) 0) / 2 ∧
        list.getD (list.length / 2 - 1) 0 ≤ median_dist list ∧
        median_dist list ≤ list.getD (list.length / 2) 0) := by
  have median_dist_between : ∀ (l : List ℚ) (hs : l.Sorted (fun a b => a ≤ b)) (hne : l ≠ []) (he :
      l.length % 2 = 0),
      l.getD (l.length / 2 - 1) 0 ≤ median_dist l ∧ median_dist l ≤ l.getD (l.length / 2) 0 := by
    intro l hs hne he
    have hpos : 0 < l.length := List.length_pos.mpr hne
    have h1 : l.length / 2 - 1 < l.length := by omega
    have h2 : l.length / 2 < l.length := by omega
    have hle : l[l.length / 2 - 1] ≤ l[l.length / 2] := by
      have := List.pairwise_iff_getElem.mp hs (l.length / 2 - 1) (l.length / 2) h1 h2 (by omega)
      exact this
    simp only [median_dist, he, if_true, List.getD_eq_getElem?_getD,
      List.getElem?_eq_getElem h1, List.getElem?_eq_getElem h2, Option.getD_some]
    constructor <;> linarith
  refine ⟨?_, dists.insertionSort (fun a b => a ≤ b), List.sorted_insertionSort _ _,
    List.perm_insertionSort _ _, ?_, ?_, ?_⟩
  · intro d
    rw [mem_dist_list q_val lptr rptr _ 0 dists h d]
    constructor
    · rintro ⟨j, h1, h2, h3⟩
      exact ⟨j, h1, by omega, h3⟩
    · rintro ⟨j, h1, h2, h3⟩
      exact ⟨j, h1, by omega, h3⟩
  · rw [update_radius_eq Q E old_radius q_val lptr rptr dists h, if_neg hne]
  · intro ho
    simp only [median_dist, ho, one_ne_zero, if_false]
  · intro he
    have hs := List.sorted_insertionSort (fun (a b : ℚ) => a ≤ b) dists
    have hn : dists.insertionSort (fun a b => a ≤ b) ≠ [] := by
      intro h0
      have := congrArg List.length h0
      rw [List.length_insertionSort] at this
      exact hne (List.length_eq_zero.mp this)
    refine ⟨?_, median_dist_between _ hs hn he⟩
    simp only [median_dist, he, if_true]

theorem update_radius_median_witness :
    ∃ list : List ℚ, list.Sorted (fun a b => a ≤ b) ∧ list.Perm [1 / 2, 3 / 2] ∧
      update_radius two_index two_env 1 med_state.q_val_ med_state.lptr_ med_state.rptr_ =
        some (two_env.pow_ceil_log (2 * median_dist list / two_index.w_)) :=
  let h := update_radius_median two_index two_env 1 med_state.q_val_ med_state.lptr_
    med_state.rptr_ [1 / 2, 3 / 2] (by decide!) (by decide)
  let ⟨list, h1, h2, h3, _⟩ := h.2
  ⟨list, h1, h2, h3⟩

/-- C16 as stated fails: with one live cursor at projected distance 1/2 and one
at 3/2, `update_radius` derives the radius from their mean 1 (radius 1), not
from the lower middle element 1/2 (radius 1/2). -/
theorem lower_median_counterexample :
    ¬ LowerMedian two_index two_env 1 med_state.q_val_ med_state.lptr_ med_state.rptr_ := by
  intro h
  have h1 := h [1 / 2, 3 / 2] (by decide!) (by decide)
  revert h1
  decide!

/-- C17 fails on the code: on `stall_index` with the query 0 both cursors are
at projected distance 2, which is exactly the bucket width `w_ * radius / 2`
of radius 1. The first round ends (after five steps) at the stop test with
neither stop condition satisfied, and `update_radius` returns the radius 1
again: the radius of the next round is not larger than that of the round just
finished. -/
theorem knn_radius_stalls :
    (stall_state 0).pc = .round ∧ (stall_state 0).radius = 1 ∧
    (stall_state 0).bucket = 2 ∧
    calc_dist ((stall_state 0).q_val_ 0) ((stall_state 0).lptr_ 0) = some 2 ∧
    calc_dist ((stall_state 0).q_val_ 0) ((stall_state 0).rptr_ 0) = some 2 ∧
    (stall_state 5).pc = .stop_test ∧
    ¬ ((stall_state 5).knn_dist < stall_index.appr_ratio_ * (stall_state 5).radius ∧
        (stall_state 5).dist_io_ ≥ 1) ∧
    ¬ ((stall_state 5).dist_io_ ≥ candidates stall_env 1) ∧
    update_radius stall_index stall_env (stall_state 5).radius (stall_state 5).q_val_
      (stall_state 5).lptr_ (stall_state 5).rptr_ = some 1 ∧
    (stall_state 6).pc = .round ∧ (stall_state 6).radius = (stall_state 0).radius ∧
    (stall_state 12).pc = .round ∧ (stall_state 12).radius = (stall_state 0).radius := by
  decide!

theorem find_position_fold (q : ℚ) (keys : List ℚ) (n : Nat) (pos : Int) (h2 : pos < n) :
    let p := (keys.enumFrom n).foldl (fun pos e => if e.2 ≤ q then (e.1 : Int) else pos) pos
    (p = pos ∨ ((n : Int) ≤ p ∧ ∃ k, keys[(p - n).toNat]? = some k ∧ k ≤ q)) ∧
    ∀ (j : Nat) (k : ℚ), p < (n : Int) + j → keys[j]? = some k → q < k := by
  induction keys generalizing n pos with
  | nil => simp
  | cons x xs ih =>
    simp only [List.enumFrom_cons, List.foldl_cons]
    have := ih (n + 1) (if x ≤ q then (n : Int) else pos) (by split_ifs <;> push_cast <;> omega)
    dsimp only at this ⊢
    obtain ⟨h3, h4⟩ := this
    generalize (List.foldl (fun pos e => if e.2 ≤ q then (e.1 : Int) else pos)
      (if x ≤ q then (n : Int) else pos) (List.enumFrom (n + 1) xs)) = p at h3 h4
    constructor
    · rcases h3 with h3 | ⟨h3, k, h5, h6⟩
      · by_cases hx : x ≤ q
        · rw [if_pos hx] at h3
          right
          refine ⟨by omega, x, ?_, hx⟩
          rw [h3]; simp
        · rw [if_neg hx] at h3
          left; exact h3
      · right
        push_cast at h3
        refine ⟨by omega, k, ?_, h6⟩
        have e : (p - (n : Int)).toNat = (p - ((n + 1 : Nat) : Int)).toNat + 1 := by
          push_cast; omega
        rw [e, List.getElem?_cons_succ]
        exact h5
    · intro j k hj hk
      cases j with
      | zero =>
        simp only [List.getElem?_cons_zero, Option.some.injEq] at hk
        subst hk
        by_contra hx
        rw [not_lt] at hx
        rw [if_pos hx] at h3
        rcases h3 with h3 | h3
        · simp at hj; omega
        · push_cast at h3; simp at hj; omega
      | succ j =>
        rw [List.getElem?_cons_succ] at hk
        exact h4 j k (by push_cast at hj ⊢; omega) hk

/-- What `find_position_by_key` returns: `-1` or a slot whose key is `≤ q`,
and every later slot has a key `> q`. -/
theorem find_position_spec (keys : List ℚ) (q : ℚ) :
    (find_position_by_key keys q = -1 ∨
      ∃ k, arr_get keys (find_position_by_key keys q) = some k ∧ k ≤ q) ∧
    ∀ (j : Int) (k : ℚ), find_position_by_key keys q < j → arr_get keys j = some k → q < k := by
  have h := find_position_fold q keys 0 (-1) (by norm_num)
  have hb := find_position_bounds keys q
  simp only [List.enum] at h
  unfold find_position_by_key at hb ⊢
  simp only [List.enum]
  generalize (List.foldl (fun pos e => if e.2 ≤ q then (e.1 : Int) else pos) (-1)
    (List.enumFrom 0 keys)) = p at h hb ⊢
  obtain ⟨h1, h2⟩ := h
  constructor
  · rcases h1 with h1 | ⟨h1, k, h3, h4⟩
    · left; exact h1
    · right
      refine ⟨k, ?_, h4⟩
      unfold arr_get
      simp only [Nat.cast_zero, Int.sub_zero] at h3 h1
      rw [if_pos h1]
      exact h3
  · intro j k hj hk
    unfold arr_get at hk
    split_ifs at hk with h0
    have := h2 j.toNat k (by simp; omega) hk
    exact this

theorem descend_base (T : BTree) (q : ℚ) (fuel : Nat) (block : Int) (n : BIndexNode)
    (lescape : Bool) (pio : Int) (h : ¬ n.get_level > 1) :
    descend T q (fuel + 1) block n lescape pio = .ok (block, n, lescape, pio) := by
  unfold descend
  rw [if_neg h]

theorem descend_follow (T : BTree) (q : ℚ) (fuel : Nat) (block : Int) (n : BIndexNode)
    (lescape : Bool) (pio : Int) (c : Int) (h : n.get_level > 1)
    (hf : n.find_position_by_key q ≠ -1) (hc : n.get_son (n.find_position_by_key q) = some c) :
    descend T q (fuel + 1) block n lescape pio =
      descend T q fuel c (T.index_node c) lescape (pio + 1) := by
  conv_lhs => unfold descend
  rw [if_pos h]
  simp only [if_neg hf, hc]

theorem descend_escape (T : BTree) (q : ℚ) (fuel : Nat) (block : Int) (n : BIndexNode)
    (lescape : Bool) (pio : Int) (c : Int) (h : n.get_level > 1)
    (hf : n.find_position_by_key q = -1) (hl : lescape = true ∨ block = T.root_)
    (hc : n.get_son 0 = some c) :
    descend T q (fuel + 1) block n lescape pio =
      descend T q fuel c (T.index_node c) true (pio + 1) := by
  conv_lhs => unfold descend
  rw [if_pos h]
  simp only [if_pos hf]
  cases lescape with
  | true => simp [hc]
  | false =>
    have hb : block = T.root_ := by simpa using hl
    simp [hb, hc]

theorem descend_no_branch (T : BTree) (q : ℚ) (fuel : Nat) (block : Int) (n : BIndexNode)
    (pio : Int) (h : n.get_level > 1)
    (hf : n.find_position_by_key q = -1) (hb : block ≠ T.root_) :
    descend T q (fuel + 1) block n false pio = .error .no_branch := by
  unfold descend
  rw [if_pos h]
  simp [hf, hb]

theorem index_get_son (T : BTree) (hwf : T.IndexWF) (b : Int) (hb : T.IsIndex b) (j : Int)
    (h0 : 0 ≤ j) (h1 : j < (T.index_node b).key_.length) :
    ∃ c, (T.index_node b).get_son j = some c ∧ c ∈ (T.index_node b).son_ := by
  obtain ⟨_, _, w3, _⟩ := hwf b hb
  have h2 : j < (T.index_node b).son_.length := by rw [← w3]; exact h1
  have := arr_get_some (T.index_node b).son_ j h0 h2
  obtain ⟨c, hc⟩ := this
  exact ⟨c, hc, arr_get_mem _ _ _ hc⟩

theorem index_key_pos (T : BTree) (hwf : T.IndexWF) (b : Int) (hb : T.IsIndex b) :
    (0 : Int) < (T.index_node b).key_.length := by
  obtain ⟨_, w2, w3, _⟩ := hwf b hb
  rw [w3]
  have : 0 < (T.index_node b).son_.length := List.length_pos.mpr w2
  exact_mod_cast this

/-- With well-formed index nodes and enough fuel, the descent ends at a level-1
node after loading one node per level below the start, or stops with
"No branch found". -/
theorem descend_total (T : BTree) (q : ℚ) (hwf : T.IndexWF) (fuel : Nat) :
    ∀ (b : Int) (lescape : Bool) (pio : Int), T.IsIndex b →
      (T.index_node b).get_level ≤ fuel →
      descend T q fuel b (T.index_node b) lescape pio = .error .no_branch ∨
      ∃ b1 l1, descend T q fuel b (T.index_node b) lescape pio =
          .ok (b1, T.index_node b1, l1, pio + ((T.index_node b).get_level - 1)) ∧
        T.IsIndex b1 ∧ (T.index_node b1).get_level = 1 := by
  induction fuel with
  | zero =>
    intro b lescape pio hb hl
    have := (hwf b hb).1
    simp at hl; omega
  | succ fuel ih =>
    intro b lescape pio hb hl
    obtain ⟨w1, w2, w3, w4⟩ := hwf b hb
    by_cases hlev : (T.index_node b).get_level > 1
    · have hbd := find_position_bounds (T.index_node b).key_ q
      have hkp := index_key_pos T hwf b hb
      by_cases hf : (T.index_node b).find_position_by_key q = -1
      · by_cases hlr : lescape = true ∨ b = T.root_
        · obtain ⟨c, hc, hcm⟩ := index_get_son T hwf b hb 0 (le_refl _) hkp
          rw [descend_escape T q fuel b _ lescape pio c hlev hf hlr hc]
          have hcl := w4 hlev c hcm
          rcases ih c true (pio + 1) (.son b c hb hlev hcm) (by push_cast at hl; omega) with h | h
          · left; exact h
          · right
            obtain ⟨b1, l1, h1, h2, h3⟩ := h
            refine ⟨b1, l1, ?_, h2, h3⟩
            rw [h1, hcl]; congr 4; ring
        · left
          have hl0 : lescape = false := by
            cases lescape <;> simp_all
          subst hl0
          exact descend_no_branch T q fuel b _ pio hlev hf (fun h => hlr (Or.inr h))
      · have hf0 : 0 ≤ (T.index_node b).find_position_by_key q := by
          unfold BIndexNode.find_position_by_key at hf ⊢
          omega
        obtain ⟨c, hc, hcm⟩ := index_get_son T hwf b hb _ hf0 hbd.2
        rw [descend_follow T q fuel b _ lescape pio c hlev hf hc]
        have hcl := w4 hlev c hcm
        rcases ih c lescape (pio + 1) (.son b c hb hlev hcm) (by push_cast at hl; omega) with h | h
        · left; exact h
        · right
          obtain ⟨b1, l1, h1, h2, h3⟩ := h
          refine ⟨b1, l1, ?_, h2, h3⟩
          rw [h1, hcl]; congr 4; ring
    · right
      rw [descend_base T q fuel b _ lescape pio hlev]
      have e : (T.index_node b).get_level = 1 := by omega
      exact ⟨b, lescape, by rw [e]; simp, hb, e⟩

theorem descend_ok (T : BTree) (q : ℚ) (hwf : T.IndexWF) (fuel : Nat) :
    ∀ (b : Int) (lescape : Bool) (pio : Int) (res : Int × BIndexNode × Bool × Int),
      T.IsIndex b → descend T q fuel b (T.index_node b) lescape pio = .ok res →
      ∃ b1 l1, res = (b1, T.index_node b1, l1, pio + ((T.index_node b).get_level - 1)) ∧
        T.IsIndex b1 ∧ (T.index_node b1).get_level = 1 := by
  induction fuel with
  | zero =>
    intro b lescape pio res hb h
    simp [descend] at h
  | succ fuel ih =>
    intro b lescape pio res hb h
    obtain ⟨w1, w2, w3, w4⟩ := hwf b hb
    by_cases hlev : (T.index_node b).get_level > 1
    · have hbd := find_position_bounds (T.index_node b).key_ q
      have hkp := index_key_pos T hwf b hb
      by_cases hf : (T.index_node b).find_position_by_key q = -1
      · by_cases hlr : lescape = true ∨ b = T.root_
        · obtain ⟨c, hc, hcm⟩ := index_get_son T hwf b hb 0 (le_refl _) hkp
          rw [descend_escape T q fuel b _ lescape pio c hlev hf hlr hc] at h
          have hcl := w4 hlev c hcm
          obtain ⟨b1, l1, h1, h2, h3⟩ := ih c true (pio + 1) res (.son b c hb hlev hcm) h
          refine ⟨b1, l1, ?_, h2, h3⟩
          have e : pio + 1 + ((T.index_node c).get_level - 1) =
              pio + ((T.index_node b).get_level - 1) := by rw [hcl]; ring
          rw [h1, e]
        · have hl0 : lescape = false := by
            cases lescape <;> simp_all
          subst hl0
          rw [descend_no_branch T q fuel b _ pio hlev hf (fun h => hlr (Or.inr h))] at h
          simp at h
      · have hf0 : 0 ≤ (T.index_node b).find_position_by_key q := by
          unfold BIndexNode.find_position_by_key at hf ⊢
          omega
        obtain ⟨c, hc, hcm⟩ := index_get_son T hwf b hb _ hf0 hbd.2
        rw [descend_follow T q fuel b _ lescape pio c hlev hf hc] at h
        have hcl := w4 hlev c hcm
        obtain ⟨b1, l1, h1, h2, h3⟩ := ih c lescape (pio + 1) res (.son b c hb hlev hcm) h
        refine ⟨b1, l1, ?_, h2, h3⟩
        have e : pio + 1 + ((T.index_node c).get_level - 1) =
            pio + ((T.index_node b).get_level - 1) := by rw [hcl]; ring
        rw [h1, e]
    · rw [descend_base T q fuel b _ lescape pio hlev] at h
      have e : (T.index_node b).get_level = 1 := by omega
      simp only [Except.ok.injEq] at h
      exact ⟨b, lescape, by rw [← h, e]; simp, hb, e⟩

theorem from_leaf_multi (T : BTree) (q : ℚ) (mem : Mem) (blk : Int) (io : Int) (r : TreeInit)
    (h : (if (init_left_buffer (mem.new_leaf T blk).1 q).1 <
          (mem.new_leaf T blk).1.node.get_num_keys - 1 then
        Except.ok
          { lptr := (init_left_buffer (mem.new_leaf T blk).1 q).2,
            rptr := init_right_same_leaf (mem.new_leaf T blk).1
              (init_left_buffer (mem.new_leaf T blk).1 q).1,
            page_io_ := io + 1, mem := (mem.new_leaf T blk).2 }
      else
        match (get_right_sibling T (mem.new_leaf T blk).2 (mem.new_leaf T blk).1.node).1 with
        | some leaf =>
          Except.ok
            { lptr := (init_left_buffer (mem.new_leaf T blk).1 q).2,
              rptr := init_right_first_slot leaf, page_io_ := io + 1 + 1,
              mem := (get_right_sibling T (mem.new_leaf T blk).2
                (mem.new_leaf T blk).1.node).2 }
        | none =>
          Except.ok
            { lptr := (init_left_buffer (mem.new_leaf T blk).1 q).2, rptr := PageBuffer.null,
              page_io_ := io + 1,
              mem := (get_right_sibling T (mem.new_leaf T blk).2
                (mem.new_leaf T blk).1.node).2 }) = (Except.ok r : Except InitFault TreeInit)) :
    FromLeaf T q mem blk io true r := by
  unfold FromLeaf
  have e1 : (mem.new_leaf T blk).1.node = T.leaf_node blk := rfl
  rw [e1] at h
  by_cases hlt : (init_left_buffer (mem.new_leaf T blk).1 q).1 < (T.leaf_node blk).get_num_keys - 1
  · rw [if_pos hlt] at h
    simp only [Except.ok.injEq] at h
    subst h
    exact ⟨rfl, Or.inl ⟨hlt, rfl, rfl, rfl⟩⟩
  · rw [if_neg hlt] at h
    unfold get_right_sibling at h
    cases hs : (T.leaf_node blk).right_sibling_ with
    | none =>
      simp only [hs, Except.ok.injEq] at h
      subst h
      exact ⟨rfl, Or.inr (Or.inr ⟨hlt, fun _ => rfl, rfl, rfl, rfl⟩)⟩
    | some c =>
      simp only [hs, Except.ok.injEq] at h
      subst h
      exact ⟨rfl, Or.inr (Or.inl ⟨hlt, rfl, c, rfl, rfl, by ring, rfl⟩)⟩

/-- The result of the loop body of `init_search_params` for one tree, by
cases. -/
theorem init_tree_spec (T : BTree) (q : ℚ) (fuel : Nat) (pio : Int) (mem : Mem) (r : TreeInit)
    (hwf : T.IndexWF) (h : init_tree T q fuel pio mem = .ok r) :
    (T.root_ > 1 ∧ ∃ b1 l1 blk,
      descend T q fuel T.root_ (T.index_node T.root_) false (pio + 1) =
        .ok (b1, T.index_node b1, l1, pio + (T.index_node T.root_).get_level) ∧
      T.IsIndex b1 ∧ (T.index_node b1).get_level = 1 ∧
      ((((T.index_node b1).find_position_by_key q < 0 ∨ l1 = true) ∧
          (T.index_node b1).get_son 0 = some blk ∧
          r = ⟨PageBuffer.null, init_right_first_slot ⟨mem.next, T.leaf_node blk⟩,
            pio + (T.index_node T.root_).get_level + 1, ⟨mem.next + 1, mem.freed⟩⟩) ∨
       (0 ≤ (T.index_node b1).find_position_by_key q ∧ l1 = false ∧
          (T.index_node b1).get_son ((T.index_node b1).find_position_by_key q) = some blk ∧
          FromLeaf T q mem blk (pio + (T.index_node T.root_).get_level) true r))) ∨
    (T.root_ ≤ 1 ∧ FromLeaf T q mem T.root_ pio false r) := by
  unfold init_tree at h
  by_cases hroot : T.root_ > 1
  · left
    refine ⟨hroot, ?_⟩
    rw [if_pos hroot] at h
    split at h
    · exact absurd h (by simp)
    · rename_i blk0 index_node lescape0 pio1 hd
      obtain ⟨b1, l1, h1, h2, h3⟩ := descend_ok T q hwf fuel _ _ _ _ (.root hroot) hd
      simp only [Prod.mk.injEq] at h1
      obtain ⟨rfl, rfl, rfl, rfl⟩ := h1
      have eio : pio + 1 + ((T.index_node T.root_).get_level - 1) =
          pio + (T.index_node T.root_).get_level := by ring
      rw [eio] at hd h
      dsimp only at h
      by_cases hesc : (if (T.index_node blk0).find_position_by_key q < 0 then true
          else lescape0) = true
      · rw [if_pos hesc] at h
        split at h
        · exact absurd h (by simp)
        · rename_i blk hb
          simp only [Except.ok.injEq] at h
          subst h
          refine ⟨blk0, lescape0, blk, hd, h2, h3, Or.inl ⟨?_, hb, rfl⟩⟩
          by_cases c : (T.index_node blk0).find_position_by_key q < 0
          · exact Or.inl c
          · rw [if_neg c] at hesc; exact Or.inr hesc
      · rw [if_neg hesc] at h
        have c : ¬ (T.index_node blk0).find_position_by_key q < 0 := by
          intro c; rw [if_pos c] at hesc; exact hesc rfl
        rw [if_neg c] at hesc h
        split at h
        · exact absurd h (by simp)
        · rename_i blk hb
          refine ⟨blk0, lescape0, blk, hd, h2, h3, Or.inr ⟨not_lt.mp c, ?_, hb, ?_⟩⟩
          · cases lescape0 <;> simp_all
          · exact from_leaf_multi T q mem blk _ r h
  · right
    refine ⟨not_lt.mp hroot, ?_⟩
    rw [if_neg hroot] at h
    dsimp only at h
    unfold FromLeaf
    have e1 : (mem.new_leaf T T.root_).1.node = T.leaf_node T.root_ := rfl
    rw [e1] at h
    by_cases hlt : (init_left_buffer (mem.new_leaf T T.root_).1 q).1 <
        (T.leaf_node T.root_).get_num_keys - 1
    · rw [if_pos hlt] at h
      simp only [Except.ok.injEq] at h
      subst h
      exact ⟨rfl, Or.inl ⟨hlt, rfl, rfl, rfl⟩⟩
    · rw [if_neg hlt] at h
      simp only [Except.ok.injEq] at h
      subst h
      exact ⟨rfl, Or.inr (Or.inr ⟨hlt, fun c => by simp at c, rfl, rfl, rfl⟩)⟩

theorem init_left_buffer_ptr (leaf : LeafPtr) (q : ℚ) :
    (init_left_buffer leaf q).2.leaf_node_ = some leaf := by
  obtain ⟨pos, _, h⟩ := init_left_buffer_eq leaf q
  rw [h]

theorem sum_range_shift (f : Int → Int) (i : Int) (count : Nat) :
    ((List.range (count + 1)).map (fun (k : Nat) => f (i + k))).sum =
      f i + ((List.range count).map (fun (k : Nat) => f (i + 1 + k))).sum := by
  rw [List.range_succ_eq_map, List.map_cons, List.sum_cons, List.map_map]
  congr 1
  · simp
  · congr 1
    apply List.map_congr_left
    intro k _
    simp only [Function.comp, Nat.succ_eq_add_one]
    push_cast
    congr 1
    ring

/-- What the loop over the projections of `init_search_params` leaves behind. -/
theorem init_trees_spec (Q : Index) (query : Int → ℚ) (fuel : Nat) (count : Nat) :
    ∀ (i : Int) (s s1 : State), init_trees Q query fuel count i s = .ok s1 →
      (∀ j, i ≤ j → j < i + count → (Q.trees_ j).IndexWF) →
      (∀ j, (j < i ∨ i + count ≤ j) →
        s1.lptr_ j = s.lptr_ j ∧ s1.rptr_ j = s.rptr_ j ∧ s1.q_val_ j = s.q_val_ j) ∧
      (∀ j, i ≤ j → j < i + count → ∃ pio mem r,
        init_tree (Q.trees_ j) (calc_hash_value Q j query) fuel pio mem = .ok r ∧
        s1.lptr_ j = r.lptr ∧ s1.rptr_ j = r.rptr ∧
        s1.q_val_ j = calc_hash_value Q j query ∧
        s.mem.next ≤ mem.next ∧ r.mem.next ≤ s1.mem.next) ∧
      s1.mem.freed = s.mem.freed ∧ s.mem.next ≤ s1.mem.next ∧
      s1.page_io_ = s.page_io_ +
        ((List.range count).map (fun (k : Nat) =>
          loads (Q.trees_ (i + k)) (s1.lptr_ (i + k)) (s1.rptr_ (i + k)))).sum ∧
      s1.page_io_ = s.page_io_ +
        ((List.range count).map (fun (k : Nat) => index_levels (Q.trees_ (i + k)))).sum +
        ((s1.mem.next : Int) - s.mem.next) ∧
      (∀ j a, i ≤ j → j < i + count → Pins s1 j a → s.mem.next ≤ a ∧ a < s1.mem.next) ∧
      (∀ a, s.mem.next ≤ a → a < s1.mem.next → ∃ j, i ≤ j ∧ j < i + count ∧ Pins s1 j a) ∧
      (∀ j k a, i ≤ j → j < i + count → i ≤ k → k < i + count →
        Pins s1 j a → Pins s1 k a → j = k) := by
  -- The leaves the preamble allocates for one tree: the addresses `mem.next` and, for a right
  -- cursor in the sibling, `mem.next + 1`; nothing is deleted.
  have init_tree_alloc : ∀ (T : BTree) (q : ℚ) (fuel : Nat) (pio : Int) (mem : Mem) (r : TreeInit)
      (hwf : T.IndexWF) (h : init_tree T q fuel pio mem = .ok r),
      r.mem.freed = mem.freed ∧
      r.page_io_ = pio + (if T.root_ > 1 then (T.index_node T.root_).get_level else 0) +
        ((r.mem.next : Int) - mem.next) ∧
      ((r.lptr.ptr = none ∧ r.rptr.ptr = some mem.next ∧ r.mem.next = mem.next + 1) ∨
       (r.lptr.ptr = some mem.next ∧ r.rptr.ptr = some mem.next ∧ r.mem.next = mem.next + 1) ∨
       (r.lptr.ptr = some mem.next ∧ r.rptr.ptr = some (mem.next + 1) ∧
          r.mem.next = mem.next + 2) ∨
       (r.lptr.ptr = some mem.next ∧ r.rptr.ptr = none ∧ r.mem.next = mem.next + 1)) := by
    intro T q fuel pio mem r hwf h
    have fl : ∀ (blk : Int) (io : Int) (sib : Bool), FromLeaf T q mem blk io sib r →
        r.mem.freed = mem.freed ∧ r.page_io_ = io + ((r.mem.next : Int) - mem.next) ∧
        ((r.lptr.ptr = some mem.next ∧ r.rptr.ptr = some mem.next ∧ r.mem.next = mem.next + 1) ∨
         (r.lptr.ptr = some mem.next ∧ r.rptr.ptr = some (mem.next + 1) ∧
            r.mem.next = mem.next + 2) ∨
         (r.lptr.ptr = some mem.next ∧ r.rptr.ptr = none ∧ r.mem.next = mem.next + 1)) := by
      intro blk io sib hf
      obtain ⟨hl, hr⟩ := hf
      have hlp : r.lptr.ptr = some mem.next := by
        rw [hl]; unfold PageBuffer.ptr; rw [init_left_buffer_ptr]; rfl
      rcases hr with ⟨_, h2, h3, h4⟩ | ⟨_, _, c, _, h2, h3, h4⟩ | ⟨_, _, h2, h3, h4⟩
      · refine ⟨by rw [h4], by rw [h3, h4]; push_cast; ring, Or.inl ⟨hlp, ?_, by rw [h4]⟩⟩
        rw [h2]; rfl
      · refine ⟨by rw [h4], by rw [h3, h4]; push_cast; ring, Or.inr (Or.inl ⟨hlp, ?_, by rw [h4]⟩)⟩
        rw [h2]; rfl
      · refine ⟨by rw [h4], by rw [h3, h4]; push_cast; ring, Or.inr (Or.inr ⟨hlp, ?_, by rw [h4]⟩)⟩
        rw [h2]; rfl
    rcases init_tree_spec T q fuel pio mem r hwf h with
      ⟨hroot, b1, l1, blk, _, _, _, h4⟩ | ⟨hroot, h4⟩
    · rw [if_pos hroot]
      rcases h4 with ⟨_, _, h5⟩ | ⟨_, _, _, h5⟩
      · subst h5
        refine ⟨rfl, ?_, Or.inl ⟨rfl, rfl, rfl⟩⟩
        show pio + (T.index_node T.root_).get_level + 1 = _
        push_cast; ring
      · obtain ⟨f1, f2, f3⟩ := fl _ _ _ h5
        exact ⟨f1, f2, Or.inr f3⟩
    · rw [if_neg (not_lt.mpr hroot)]
      obtain ⟨f1, f2, f3⟩ := fl _ _ _ h4
      exact ⟨f1, by rw [f2]; ring, Or.inr f3⟩
  have init_tree_loads : ∀ (T : BTree) (q : ℚ) (fuel : Nat) (pio : Int) (mem : Mem) (r : TreeInit)
      (hwf : T.IndexWF) (h : init_tree T q fuel pio mem = .ok r),
      r.page_io_ = pio + loads T r.lptr r.rptr := by
    intro T q fuel pio mem r hwf h
    obtain ⟨_, h2, h3⟩ := init_tree_alloc T q fuel pio mem r hwf h
    rw [h2]
    unfold loads
    rcases h3 with ⟨a, b, c⟩ | ⟨a, b, c⟩ | ⟨a, b, c⟩ | ⟨a, b, c⟩ <;> rw [a, b, c] <;> simp <;> ring
  induction count with
  | zero =>
    intro i s s1 h _
    simp only [init_trees, Except.ok.injEq] at h
    subst h
    refine ⟨fun j _ => ⟨rfl, rfl, rfl⟩, ?_, rfl, le_refl _, by simp, by simp, ?_, ?_, ?_⟩
    · intro j h1 h2; simp at h2; omega
    · intro j a h1 h2; simp at h2; omega
    · intro a h1 h2; omega
    · intro j k a h1 h2; simp at h2; omega
  | succ count ih =>
    intro i s s1 h hwf
    simp only [init_trees] at h
    split at h
    · exact absurd h (by simp)
    · rename_i r hr
      have hwi := hwf i (le_refl _) (by push_cast; omega)
      obtain ⟨a1, a2, a3⟩ := init_tree_alloc _ _ _ _ _ _ hwi hr
      have hld := init_tree_loads _ _ _ _ _ _ hwi hr
      obtain ⟨f, p, m1, m2, sm, lv, pa, pb, pc⟩ :=
        ih _ _ _ h (fun j h1 h2 => hwf j (by omega) (by push_cast; omega))
      simp only at m1 m2 sm lv pa pb
      have fi := f i (Or.inl (by omega))
      simp only [Function.update_same] at fi
      have hrn : s.mem.next < r.mem.next := by
        rcases a3 with ⟨_, _, c⟩ | ⟨_, _, c⟩ | ⟨_, _, c⟩ | ⟨_, _, c⟩ <;> omega
      have pin_i : ∀ a, Pins s1 i a → s.mem.next ≤ a ∧ a < r.mem.next := by
        intro a ha
        unfold Pins at ha
        rw [fi.1, fi.2.1] at ha
        rcases a3 with ⟨x, y, c⟩ | ⟨x, y, c⟩ | ⟨x, y, c⟩ | ⟨x, y, c⟩ <;> rw [x, y] at ha <;>
          simp at ha <;> omega
      have cov_i : ∀ a, s.mem.next ≤ a → a < r.mem.next → Pins s1 i a := by
        intro a h1 h2
        unfold Pins
        rw [fi.1, fi.2.1]
        rcases a3 with ⟨x, y, c⟩ | ⟨x, y, c⟩ | ⟨x, y, c⟩ | ⟨x, y, c⟩ <;> rw [x, y] <;>
          simp <;> omega
      refine ⟨?_, ?_, by rw [m1]; exact a1, by omega, ?_, ?_, ?_, ?_, ?_⟩
      · intro j hj
        have hne : j ≠ i := by push_cast at hj; omega
        have := f j (by push_cast at hj ⊢; omega)
        simpa [Function.update_noteq hne] using this
      · intro j h1 h2
        by_cases hji : j = i
        · subst hji
          exact ⟨_, _, r, hr, fi.1, fi.2.1, fi.2.2, le_refl _, m2⟩
        · obtain ⟨pio, mem, r1, q1, q2, q3, q4, q5, q6⟩ :=
            p j (by omega) (by push_cast at h2 ⊢; omega)
          exact ⟨pio, mem, r1, q1, q2, q3, q4, by simp only at q5; omega, q6⟩
      · rw [sum_range_shift (fun j => loads (Q.trees_ j) (s1.lptr_ j) (s1.rptr_ j)) i count,
          sm, fi.1, fi.2.1]
        show r.page_io_ + _ = _
        rw [hld]; ring
      · rw [sum_range_shift (fun j => index_levels (Q.trees_ j)) i count, lv]
        show r.page_io_ + _ + _ = _
        rw [a2]
        unfold index_levels
        ring
      · intro j a h1 h2 hp
        by_cases hji : j = i
        · subst hji
          have := pin_i a hp
          omega
        · have := pa j a (by omega) (by push_cast at h2 ⊢; omega) hp
          omega
      · intro a h1 h2
        by_cases hlt : a < r.mem.next
        · exact ⟨i, le_refl _, by push_cast; omega, cov_i a h1 hlt⟩
        · obtain ⟨j, j1, j2, j3⟩ := pb a (by omega) h2
          exact ⟨j, by omega, by push_cast at j2 ⊢; omega, j3⟩
      · intro j k a j1 j2 k1 k2 hj hk
        by_cases hji : j = i
        · by_cases hki : k = i
          · rw [hji, hki]
          · subst hji
            have x := pin_i a hj
            have y := pa k a (by omega) (by push_cast at k2 ⊢; omega) hk
            omega
        · by_cases hki : k = i
          · subst hki
            have x := pin_i a hk
            have y := pa j a (by omega) (by push_cast at j2 ⊢; omega) hj
            omega
          · exact pc j k a (by omega) (by push_cast at j2 ⊢; omega) (by omega)
              (by push_cast at k2 ⊢; omega) hj hk

theorem not_is_index_of_leaf_only (T : BTree) (h : T.root_ ≤ 1) (b : Int) : ¬ T.IsIndex b := by
  intro hb
  induction hb with
  | root hr => omega
  | son b c _ _ _ ih => exact ih

theorem leaf_only_index_wf (T : BTree) (h : T.root_ ≤ 1) : T.IndexWF :=
  fun b hb => absurd hb (not_is_index_of_leaf_only T h b)

theorem deep_is_index (b : Int) (h : deep_tree.IsIndex b) : b = 7 ∨ b = 5 ∨ b = 6 := by
  induction h with
  | root _ => left; rfl
  | son b c _ hl hc ih =>
    rcases ih with rfl | rfl | rfl
    · right
      have : c ∈ ([5, 6] : List Int) := hc
      simpa using this
    · exact absurd hl (by decide)
    · exact absurd hl (by decide)

theorem deep_index_wf : deep_tree.IndexWF := by
  intro b hb
  rcases deep_is_index b hb with rfl | rfl | rfl
  · refine ⟨by decide, by decide, by decide, fun _ c hc => ?_⟩
    have : c ∈ ([5, 6] : List Int) := hc
    simp at this
    rcases this with rfl | rfl <;> decide
  · exact ⟨by decide, by decide, by decide, fun hl => absurd hl (by decide)⟩
  · exact ⟨by decide, by decide, by decide, fun hl => absurd hl (by decide)⟩

theorem deep_trees_wf (i : Int) : (deep_index.trees_ i).IndexWF := by
  show (if i = 0 then deep_tree else ex_tree).IndexWF
  split_ifs
  · exact deep_index_wf
  · exact leaf_only_index_wf _ (by decide)

theorem update_left_buffer_io (T : BTree) (mem : Mem) (pio : Int) (rptr lptr : PageBuffer)
    (a : Advance) (h : update_left_buffer T mem pio rptr lptr = some a) :
    a.page_io_ = pio + ((a.mem.next : Int) - mem.next) ∧
    (lptr.index_pos_ > 0 → a.page_io_ = pio ∧ a.buf.leaf_node_ = lptr.leaf_node_) ∧
    (¬ lptr.index_pos_ > 0 → a.buf.leaf_node_ ≠ none → a.page_io_ = pio + 1) ∧
    (¬ lptr.index_pos_ > 0 → a.buf.leaf_node_ = none → a.page_io_ = pio) := by
  unfold update_left_buffer at h
  split at h
  · simp at h
  · rename_i old hold
    by_cases hp : lptr.index_pos_ > 0
    · rw [if_pos hp] at h
      simp only [Option.some.injEq] at h
      subst h
      exact ⟨by simp, fun _ => ⟨rfl, rfl⟩, fun c => absurd hp c, fun c => absurd hp c⟩
    · rw [if_neg hp] at h
      simp only [Option.some.injEq] at h
      subst h
      unfold get_left_sibling
      cases hs : old.node.left_sibling_ with
      | none =>
        refine ⟨?_, fun c => absurd c hp, fun _ c => absurd rfl c, fun _ _ => rfl⟩
        split_ifs <;> simp [Mem.delete]
      | some c =>
        refine ⟨?_, fun c => absurd c hp, fun _ _ => rfl, fun _ c => by simp at c⟩
        split_ifs <;> simp [Mem.delete, Mem.new_leaf]

theorem update_right_buffer_io (T : BTree) (mem : Mem) (pio : Int) (lptr rptr : PageBuffer)
    (a : Advance) (old : LeafPtr) (ho : rptr.leaf_node_ = some old)
    (h : update_right_buffer T mem pio lptr rptr = some a) :
    a.page_io_ = pio + ((a.mem.next : Int) - mem.next) ∧
    (rptr.index_pos_ < old.node.get_num_keys - 1 →
      a.page_io_ = pio ∧ a.buf.leaf_node_ = rptr.leaf_node_) ∧
    (¬ rptr.index_pos_ < old.node.get_num_keys - 1 → a.buf.leaf_node_ ≠ none →
      a.page_io_ = pio + 1) ∧
    (¬ rptr.index_pos_ < old.node.get_num_keys - 1 → a.buf.leaf_node_ = none →
      a.page_io_ = pio) := by
  unfold update_right_buffer at h
  rw [ho] at h
  dsimp only at h
  by_cases hp : rptr.index_pos_ < old.node.get_num_keys - 1
  · rw [if_pos hp] at h
    simp only [Option.some.injEq] at h
    subst h
    exact ⟨by simp, fun _ => ⟨rfl, ho.symm⟩, fun c => absurd hp c, fun c => absurd hp c⟩
  · rw [if_neg hp] at h
    simp only [Option.some.injEq] at h
    subst h
    unfold get_right_sibling
    cases hs : old.node.right_sibling_ with
    | none =>
      refine ⟨?_, fun c => absurd c hp, fun _ c => absurd rfl c, fun _ _ => rfl⟩
      split_ifs <;> simp [Mem.delete]
    | some c =>
      refine ⟨?_, fun c => absurd c hp, fun _ _ => rfl, fun _ c => by simp at c⟩
      split_ifs <;> simp [Mem.delete, Mem.new_leaf]

/-- C14: after `init_search_params`, `page_io_` is the number of tree nodes
loaded by the preamble, summed over the projections: per tree the index nodes
from the root down to level 1 (the level of the root; none in a leaf-only
tree), one leaf, and one more leaf exactly when the right cursor starts in the
right sibling; a leaf shared by both cursors counts once. Afterwards a cursor
advance adds one per leaf it loads: nothing within a leaf, exactly one for a
move to a sibling. -/
theorem init_page_io (Q : Index) (query : Int → ℚ) (fuel : Nat) (old s : State)
    (hwf : ∀ i, 0 ≤ i → i < Q.m_ → (Q.trees_ i).IndexWF)
    (h : init_search_params Q query fuel old = .ok s) :
    s.page_io_ = ((List.range Q.m_.toNat).map (fun (k : Nat) =>
      loads (Q.trees_ k) (s.lptr_ k) (s.rptr_ k))).sum ∧
    s.page_io_ = ((List.range Q.m_.toNat).map (fun (k : Nat) =>
      index_levels (Q.trees_ k))).sum + ((s.mem.next : Int) - old.mem.next) ∧
    (∀ (T : BTree) (mem : Mem) (pio : Int) (rptr lptr : PageBuffer) (a : Advance),
      update_left_buffer T mem pio rptr lptr = some a →
      a.page_io_ = pio + ((a.mem.next : Int) - mem.next) ∧
      (lptr.index_pos_ > 0 → a.page_io_ = pio ∧ a.buf.leaf_node_ = lptr.leaf_node_) ∧
      (¬ lptr.index_pos_ > 0 → a.buf.leaf_node_ ≠ none → a.page_io_ = pio + 1) ∧
      (¬ lptr.index_pos_ > 0 → a.buf.leaf_node_ = none → a.page_io_ = pio)) ∧
    (∀ (T : BTree) (mem : Mem) (pio : Int) (lptr rptr : PageBuffer) (a : Advance)
      (node : LeafPtr), rptr.leaf_node_ = some node →
      update_right_buffer T mem pio lptr rptr = some a →
      a.page_io_ = pio + ((a.mem.next : Int) - mem.next) ∧
      (rptr.index_pos_ < node.node.get_num_keys - 1 →
        a.page_io_ = pio ∧ a.buf.leaf_node_ = rptr.leaf_node_) ∧
      (¬ rptr.index_pos_ < node.node.get_num_keys - 1 → a.buf.leaf_node_ ≠ none →
        a.page_io_ = pio + 1) ∧
      (¬ rptr.index_pos_ < node.node.get_num_keys - 1 → a.buf.leaf_node_ = none →
        a.page_io_ = pio)) := by
  unfold init_search_params at h
  obtain ⟨_, _, _, _, sm, lv, _⟩ := init_trees_spec Q query fuel _ 0 _ s h
    (fun j h1 h2 => hwf j h1 (by omega))
  simp only [zero_add] at sm lv
  refine ⟨by simpa using sm, by simpa using lv, ?_, ?_⟩
  · intro T mem pio rptr lptr a ha
    exact update_left_buffer_io T mem pio rptr lptr a ha
  · intro T mem pio lptr rptr a node hn ha
    exact update_right_buffer_io T mem pio lptr rptr a node hn ha

theorem init_page_io_witness :
    (deep_init 3).page_io_ = 5 ∧
    (deep_init 3).page_io_ = ((List.range deep_index.m_.toNat).map (fun (k : Nat) =>
      loads (deep_index.trees_ k) ((deep_init 3).lptr_ k) ((deep_init 3).rptr_ k))).sum :=
  ⟨by decide!,
   (init_page_io deep_index (fun _ => 3) 2 ex_old (deep_init 3) (fun i _ _ => deep_trees_wf i)
    (start_state_ok _ ex_old (by decide!))).1⟩

theorem init_search_params_at (Q : Index) (query : Int → ℚ) (fuel : Nat) (old s : State)
    (hwf : ∀ i, 0 ≤ i → i < Q.m_ → (Q.trees_ i).IndexWF)
    (h : init_search_params Q query fuel old = .ok s) (i : Int) (h0 : 0 ≤ i) (h1 : i < Q.m_) :
    ∃ pio mem r,
      init_tree (Q.trees_ i) (calc_hash_value Q i query) fuel pio mem = .ok r ∧
      s.lptr_ i = r.lptr ∧ s.rptr_ i = r.rptr ∧ s.q_val_ i = calc_hash_value Q i query := by
  unfold init_search_params at h
  obtain ⟨_, p, _⟩ := init_trees_spec Q query fuel _ 0 _ s h (fun j h1 h2 => hwf j h1 (by omega))
  obtain ⟨pio, mem, r, q1, q2, q3, q4, _⟩ := p i h0 (by omega)
  exact ⟨pio, mem, r, q1, q2, q3, q4⟩

/-- C11 (amended): if the projected query value is smaller than every key of
tree `i`, then in a multi-level tree `init_search_params` leaves the left
cursor exhausted and puts the right cursor on key-slot 0, entry 0 of the
leftmost leaf; in a leaf-only tree it puts the left cursor on key-slot 0 of
the leaf (live on a well-formed leaf) and the right cursor on key-slot 1, or
leaves the right cursor exhausted if the leaf has a single key-slot. -/
theorem init_smallest_key (Q : Index) (query : Int → ℚ) (fuel : Nat) (old s : State)
    (i : Int) (hwf : ∀ j, 0 ≤ j → j < Q.m_ → (Q.trees_ j).IndexWF)
    (h : init_search_params Q query fuel old = .ok s) (h0 : 0 ≤ i) (h1 : i < Q.m_) :
    ((Q.trees_ i).root_ > 1 →
      (∀ b, (Q.trees_ i).IsIndex b → ∀ k ∈ ((Q.trees_ i).index_node b).key_, s.q_val_ i < k) →
      Exhausted (s.lptr_ i) ∧ s.lptr_ i = PageBuffer.null ∧
      ∃ blk p, leftmost (Q.trees_ i) fuel (Q.trees_ i).root_ = some blk ∧
        p.node = (Q.trees_ i).leaf_node blk ∧ (s.rptr_ i).leaf_node_ = some p ∧
        (s.rptr_ i).index_pos_ = 0 ∧ (s.rptr_ i).leaf_pos_ = 0 ∧
        s.rptr_ i = init_right_first_slot p) ∧
    ((Q.trees_ i).root_ ≤ 1 →
      (∀ k ∈ ((Q.trees_ i).leaf_node (Q.trees_ i).root_).key_, s.q_val_ i < k) →
      ∃ p, p.node = (Q.trees_ i).leaf_node (Q.trees_ i).root_ ∧
        (s.lptr_ i).leaf_node_ = some p ∧ (s.lptr_ i).index_pos_ = 0 ∧
        (p.node.WF → 1 ≤ (s.lptr_ i).size_) ∧
        (0 < p.node.get_num_keys - 1 →
          (s.rptr_ i).leaf_node_ = some p ∧ (s.rptr_ i).index_pos_ = 1) ∧
        (¬ 0 < p.node.get_num_keys - 1 → s.rptr_ i = PageBuffer.null)) := by
  have find_position_none : ∀ (keys : List ℚ) (q : ℚ) (h : ∀ k ∈ keys, q < k),
      find_position_by_key keys q = -1 := by
    intro keys q h
    rcases (find_position_spec keys q).1 with h1 | ⟨k, h1, h2⟩
    · exact h1
    · have := h k (arr_get_mem _ _ _ h1)
      exact absurd h2 (not_le.mpr this)
  have descend_leftmost : ∀ (T : BTree) (q : ℚ) (hwf : T.IndexWF) (hsmall : ∀ b, T.IsIndex b → ∀ k ∈
      (T.index_node b).key_, q < k) (fuel : Nat),
      ∀ (b : Int) (lescape : Bool) (pio : Int) (res : Int × BIndexNode × Bool × Int),
        T.IsIndex b → (lescape = true ∨ b = T.root_) →
        descend T q fuel b (T.index_node b) lescape pio = .ok res →
        leftmost T fuel b = (T.index_node res.1).get_son 0 := by
    intro T q hwf hsmall fuel
    induction fuel with
    | zero =>
      intro b lescape pio res hb _ h
      simp [descend] at h
    | succ fuel ih =>
      intro b lescape pio res hb hlr h
      obtain ⟨w1, w2, w3, w4⟩ := hwf b hb
      by_cases hlev : (T.index_node b).get_level > 1
      · have hf : (T.index_node b).find_position_by_key q = -1 :=
          find_position_none _ _ (hsmall b hb)
        obtain ⟨c, hc, hcm⟩ := index_get_son T hwf b hb 0 (le_refl _) (index_key_pos T hwf b hb)
        rw [descend_escape T q fuel b _ lescape pio c hlev hf hlr hc] at h
        have := ih c true (pio + 1) res (.son b c hb hlev hcm) (Or.inl rfl) h
        rw [← this]
        simp only [leftmost, hc, if_pos hlev]
      · rw [descend_base T q fuel b _ lescape pio hlev] at h
        simp only [Except.ok.injEq] at h
        subst h
        simp only [leftmost, if_neg hlev]
        cases (T.index_node b).get_son 0 <;> rfl
  obtain ⟨pio, mem, r, hr, hl, hrp, hq⟩ := init_search_params_at Q query fuel old s hwf h i h0 h1
  have hwi := hwf i h0 h1
  rw [hq]
  constructor
  · intro hroot hsmall
    rcases init_tree_spec _ _ fuel pio mem r hwi hr with
      ⟨_, b1, l1, blk, hd, hb1, _, h4⟩ | ⟨hle, _⟩
    · have hf : ((Q.trees_ i).index_node b1).find_position_by_key (calc_hash_value Q i query)
          = -1 := find_position_none _ _ (hsmall b1 hb1)
      rcases h4 with ⟨_, hson, hres⟩ | ⟨c, _⟩
      · have hlm := descend_leftmost _ _ hwi hsmall fuel _ _ _ _ (.root hroot) (Or.inr rfl) hd
        simp only at hlm
        rw [hl, hrp, hres]
        refine ⟨⟨rfl, rfl⟩, rfl, blk, ⟨mem.next, (Q.trees_ i).leaf_node blk⟩, ?_, rfl, rfl, rfl,
          rfl, rfl⟩
        rw [hlm, hson]
      · rw [hf] at c; omega
    · omega
  · intro hroot hsmall
    rcases init_tree_spec _ _ fuel pio mem r hwi hr with ⟨hgt, _⟩ | ⟨_, hfl⟩
    · omega
    · obtain ⟨fl, fr⟩ := hfl
      have hf : ((Q.trees_ i).leaf_node (Q.trees_ i).root_).find_position_by_key
          (calc_hash_value Q i query) = -1 := find_position_none _ _ hsmall
      obtain ⟨pos, hpos, hinit⟩ :=
        init_left_buffer_eq (mem.new_leaf (Q.trees_ i) (Q.trees_ i).root_).1
          (calc_hash_value Q i query)
      have e1 : (mem.new_leaf (Q.trees_ i) (Q.trees_ i).root_).1.node =
          (Q.trees_ i).leaf_node (Q.trees_ i).root_ := rfl
      rw [e1, hf] at hpos
      simp only [show ((-1 : Int) < 0) from by norm_num, if_true] at hpos
      subst hpos
      rw [hinit] at fl fr
      simp only at fl fr
      refine ⟨(mem.new_leaf (Q.trees_ i) (Q.trees_ i).root_).1, rfl, by rw [hl, fl],
        by rw [hl, fl], ?_, ?_, ?_⟩
      · intro hw
        rw [hl, fl]
        have hw1 : ((Q.trees_ i).leaf_node (Q.trees_ i).root_).WF := hw
        obtain ⟨w1, w2, w3, w4⟩ := hw1
        show 1 ≤ (if (0 : Int) = _ then _ else _)
        rw [e1]
        split_ifs
        · simp only [zero_mul, sub_zero]; exact w2
        · exact w1
      · intro hlt
        rw [e1] at hlt
        rcases fr with ⟨_, f2, _⟩ | ⟨c, _⟩ | ⟨c, _⟩
        · rw [hrp, f2]; exact ⟨rfl, rfl⟩
        · exact absurd hlt c
        · exact absurd hlt c
      · intro hlt
        rw [e1] at hlt
        rcases fr with ⟨c, _⟩ | ⟨_, c, _⟩ | ⟨_, _, f2, _⟩
        · exact absurd c hlt
        · simp at c
        · rw [hrp, f2]

theorem init_smallest_key_witness :
    Exhausted ((deep_init (-1)).lptr_ 0) ∧ ((deep_init (-1)).rptr_ 0).index_pos_ = 0 ∧
    ((deep_init (-1)).lptr_ 1).index_pos_ = 0 ∧ ((deep_init (-1)).rptr_ 1).index_pos_ = 1 := by
  have hq0 : (deep_init (-1)).q_val_ 0 = -1 := by decide!
  have hq1 : (deep_init (-1)).q_val_ 1 = -1 := by decide!
  have hok : init_search_params deep_index (fun _ => -1) 2 ex_old = .ok (deep_init (-1)) :=
    start_state_ok _ ex_old (by decide!)
  have a := (init_smallest_key deep_index (fun _ => -1) 2 ex_old (deep_init (-1)) 0
    (fun j _ _ => deep_trees_wf j) hok (by decide) (by decide)).1 (by decide) (by
      intro b hb k hk
      rw [hq0]
      rcases deep_is_index b hb with rfl | rfl | rfl
      · have : k ∈ ([0, 4] : List ℚ) := hk
        simp at this
        rcases this with rfl | rfl <;> norm_num
      · have : k ∈ ([0, 2] : List ℚ) := hk
        simp at this
        rcases this with rfl | rfl <;> norm_num
      · have : k ∈ ([4, 6] : List ℚ) := hk
        simp at this
        rcases this with rfl | rfl <;> norm_num)
  have b := (init_smallest_key deep_index (fun _ => -1) 2 ex_old (deep_init (-1)) 1
    (fun j _ _ => deep_trees_wf j) hok (by decide) (by decide)).2 (by decide) (by
      intro k hk
      rw [hq1]
      have : k ∈ ([0, 1, 2] : List ℚ) := hk
      simp at this
      rcases this with rfl | rfl | rfl <;> norm_num)
  obtain ⟨a1, _, blk, p, _, _, _, a2, _⟩ := a
  obtain ⟨p1, hp1, _, b1, _, b2, _⟩ := b
  exact ⟨a1, a2, b1, (b2 (by rw [hp1]; decide)).2⟩

/-- C11 as stated fails for a leaf-only tree: on `ex_index` with the query
point -1, which is smaller than all keys 0, 1, 2, `init_search_params` leaves
the left cursor live on key-slot 0 (`size_ == 1`), not exhausted. -/
theorem smallest_key_counterexample : ¬ SmallestKey ex_index (fun _ => -1) 1 ex_old := by
  intro h
  have hq0 : low_init.q_val_ 0 = -1 := by decide!
  have h1 := h low_init 0 (start_state_ok _ ex_old (by decide!)) (by decide) (by decide)
    (by
      intro b k hk
      rw [hq0]
      have : k ∈ ([0, 1, 2] : List ℚ) := hk
      simp at this
      rcases this with rfl | rfl | rfl <;> norm_num)
    (by
      intro b k hk
      have : k ∈ ([] : List ℚ) := hk
      simp at this)
  have h2 := h1.1.1
  revert h2
  decide!

theorem arr_get_bounds {α : Type} (xs : List α) (i : Int) (x : α) (h : arr_get xs i = some x) :
    0 ≤ i ∧ i < xs.length := by
  unfold arr_get at h
  split_ifs at h with h0
  have := (List.getElem?_eq_some.mp h).1
  exact ⟨h0, by omega⟩

/-- The first key of an index node is the first key of the first leaf below
it. -/
theorem routed_first_key (T : BTree) (first last : Int → Int) (hwf : T.IndexWF)
    (hr : T.Routed first last) (n : Nat) :
    ∀ b, T.IsIndex b → (T.index_node b).get_level ≤ n → ∀ k,
      arr_get (T.index_node b).key_ 0 = some k → (T.leaf_node (first b)).get_key 0 = some k := by
  induction n with
  | zero =>
    intro b hb hl
    have := (hwf b hb).1
    simp at hl; omega
  | succ n ih =>
    intro b hb hl k hk
    obtain ⟨w1, w2, w3, w4⟩ := hwf b hb
    obtain ⟨r1, r2, r3, r4⟩ := hr b hb
    obtain ⟨c, hc, hcm⟩ := index_get_son T hwf b hb 0 (le_refl _) (index_key_pos T hwf b hb)
    have h1 := r1 0 k c hk hc
    rw [r2 c hc]
    unfold child_first
    by_cases hlev : (T.index_node b).get_level > 1
    · rw [if_pos hlev] at h1 ⊢
      exact ih c (.son b c hb hlev hcm) (by rw [w4 hlev c hcm]; push_cast at hl; omega) k h1
    · rw [if_neg hlev] at h1 ⊢
      exact h1

/-- C12: with index keys equal to the first key of their child, leaves linked
in key order and `find_position_by_key` returning the largest slot whose key is
`≤ q`, for every projection `i` whose projected query value is at least the
smallest key of its tree, `init_search_params` leaves the left cursor live on
a key-slot with `get_key(index_pos_) ≤ q_val_[i]`, and the right cursor, if
live, on the immediately following key-slot (the next slot of the same leaf,
or slot 0 of the right sibling when the left cursor is on the last slot) with
`q_val_[i] < get_key(index_pos_)`. -/
theorem init_cursor_slots (Q : Index) (query : Int → ℚ) (fuel : Nat) (old s : State) (i : Int)
    (first last : Int → Int) (hwf : ∀ j, 0 ≤ j → j < Q.m_ → (Q.trees_ j).IndexWF)
    (hw : (Q.trees_ i).WF) (hr : (Q.trees_ i).Routed first last)
    (hlast : ((Q.trees_ i).leaf_node (Routed_last (Q.trees_ i) last)).right_sibling_ = none)
    (h : init_search_params Q query fuel old = .ok s) (h0 : 0 ≤ i) (h1 : i < Q.m_)
    (hmin : ∃ k, ((Q.trees_ i).leaf_node (Routed_first (Q.trees_ i) first)).get_key 0 = some k ∧
      k ≤ s.q_val_ i) :
    ∃ p k, (s.lptr_ i).leaf_node_ = some p ∧ (s.lptr_ i).size_ ≠ -1 ∧
      p.node.get_key (s.lptr_ i).index_pos_ = some k ∧ k ≤ s.q_val_ i ∧
      ((s.rptr_ i).size_ ≠ -1 → ∃ p1 k1, (s.rptr_ i).leaf_node_ = some p1 ∧
        p1.node.get_key (s.rptr_ i).index_pos_ = some k1 ∧ s.q_val_ i < k1 ∧
        ((p1 = p ∧ (s.rptr_ i).index_pos_ = (s.lptr_ i).index_pos_ + 1) ∨
         ((s.lptr_ i).index_pos_ = p.node.get_num_keys - 1 ∧
            ∃ c, p.node.right_sibling_ = some c ∧ p1.node = (Q.trees_ i).leaf_node c ∧
              (s.rptr_ i).index_pos_ = 0))) := by
  have find_position_some : ∀ (keys : List ℚ) (q k : ℚ) (h : arr_get keys 0 = some k) (hk : k ≤ q),
      0 ≤ find_position_by_key keys q := by
    intro keys q k h hk
    by_contra hn
    have := (find_position_spec keys q).2 0 k (by omega) h
    exact absurd hk (not_le.mpr this)
  -- One routing step: the child that `find_position_by_key` selects starts with a key `≤ q`,
  -- and the leaf after the last leaf below that child starts with a key `> q`.
  have routed_step : ∀ (T : BTree) (first last : Int → Int) (q : ℚ) (hwf : T.IndexWF) (hr : T.Routed
      first last) (b : Int) (hb : T.IsIndex b) (k0 : ℚ) (hk0 : arr_get (T.index_node b).key_ 0 =
      some k0) (hle : k0 ≤ q) (hu : UpperBound T q (last b)),
      ∃ c k, 0 ≤ (T.index_node b).find_position_by_key q ∧
        (T.index_node b).get_son ((T.index_node b).find_position_by_key q) = some c ∧
        c ∈ (T.index_node b).son_ ∧
        arr_get (T.index_node b).key_ ((T.index_node b).find_position_by_key q) = some k ∧
        k ≤ q ∧ UpperBound T q (child_last last (T.index_node b) c) := by
    intro T first last q hwf hr b hb k0 hk0 hle hu
    obtain ⟨w1, w2, w3, w4⟩ := hwf b hb
    obtain ⟨r1, r2, r3, r4⟩ := hr b hb
    have hbd := find_position_bounds (T.index_node b).key_ q
    have hf0 : 0 ≤ (T.index_node b).find_position_by_key q := find_position_some _ _ _ hk0 hle
    have hsp := find_position_spec (T.index_node b).key_ q
    obtain ⟨c, hc, hcm⟩ := index_get_son T hwf b hb _ hf0 hbd.2
    have hk : ∃ k, arr_get (T.index_node b).key_ ((T.index_node b).find_position_by_key q) = some k
        ∧ k ≤ q := by
      rcases hsp.1 with h | h
      · unfold BIndexNode.find_position_by_key at hf0; omega
      · exact h
    obtain ⟨k, hk1, hk2⟩ := hk
    refine ⟨c, k, hf0, hc, hcm, hk1, hk2, ?_⟩
    by_cases hnext : (T.index_node b).find_position_by_key q + 1 < (T.index_node b).key_.length
    · obtain ⟨d, hd, hdm⟩ := index_get_son T hwf b hb _ (by omega : (0 : Int) ≤ _ + 1) hnext
      obtain ⟨k2, hk3⟩ := arr_get_some (T.index_node b).key_ _ (by omega : (0 : Int) ≤ _ + 1) hnext
      have hgt : q < k2 := hsp.2 _ k2 (by
        unfold BIndexNode.find_position_by_key; omega) hk3
      have hlink := r4 _ c d hc hd
      have h1 := r1 _ k2 d hk3 hd
      intro e he
      rw [hlink] at he
      simp only [Option.some.injEq] at he
      subst he
      refine ⟨k2, ?_, hgt⟩
      unfold child_first
      by_cases hlev : (T.index_node b).get_level > 1
      · rw [if_pos hlev] at h1 ⊢
        exact routed_first_key T first last hwf hr _ d (.son b d hb hlev hdm) (le_of_eq
          (Int.toNat_of_nonneg (by rw [w4 hlev d hdm]; omega)).symm) k2 h1
      · rw [if_neg hlev] at h1 ⊢
        exact h1
    · have e : (T.index_node b).find_position_by_key q = (T.index_node b).son_.length - 1 := by
        have := hbd.2
        unfold BIndexNode.find_position_by_key at hnext ⊢
        rw [← w3]; omega
      rw [e] at hc
      rw [← r3 c hc]
      exact hu
  -- The descent along the routing keys keeps `lescape` off and ends at a level-1 node that
  -- starts with a key `≤ q` and whose last leaf is followed by a leaf that starts with a key `>
  -- q`.
  have descend_routed : ∀ (T : BTree) (first last : Int → Int) (q : ℚ) (hwf : T.IndexWF) (hr :
      T.Routed first last) (fuel : Nat),
      ∀ (b : Int) (pio : Int) (res : Int × BIndexNode × Bool × Int), T.IsIndex b →
        (∃ k0, arr_get (T.index_node b).key_ 0 = some k0 ∧ k0 ≤ q) →
        UpperBound T q (last b) →
        descend T q fuel b (T.index_node b) false pio = .ok res →
        res.2.2.1 = false ∧ T.IsIndex res.1 ∧
        (∃ k0, arr_get (T.index_node res.1).key_ 0 = some k0 ∧ k0 ≤ q) ∧
        UpperBound T q (last res.1) := by
    intro T first last q hwf hr fuel
    induction fuel with
    | zero =>
      intro b pio res _ _ _ h
      simp [descend] at h
    | succ fuel ih =>
      intro b pio res hb hk hu h
      obtain ⟨k0, hk0, hle⟩ := hk
      by_cases hlev : (T.index_node b).get_level > 1
      · obtain ⟨c, k, hf0, hc, hcm, hk1, hk2, hu2⟩ :=
          routed_step T first last q hwf hr b hb k0 hk0 hle hu
        have hf : (T.index_node b).find_position_by_key q ≠ -1 := by omega
        rw [descend_follow T q fuel b _ false pio c hlev hf hc] at h
        have h1 := (hr b hb).1 _ k c hk1 hc
        rw [if_pos hlev] at h1
        unfold child_last at hu2
        rw [if_pos hlev] at hu2
        exact ih c (pio + 1) res (.son b c hb hlev hcm) ⟨k, h1, hk2⟩ hu2 h
      · rw [descend_base T q fuel b _ false pio hlev] at h
        simp only [Except.ok.injEq] at h
        subst h
        exact ⟨rfl, hb, ⟨k0, hk0, hle⟩, hu⟩
  -- The cursors built from a leaf that starts with a key `≤ q` and is followed by a leaf that
  -- starts with a key `> q`.
  have from_leaf_slots : ∀ (T : BTree) (q : ℚ) (mem : Mem) (blk : Int) (io : Int) (sib : Bool) (r :
      TreeInit) (hw : T.WF) (h : FromLeaf T q mem blk io sib r) (k0 : ℚ) (hk0 : (T.leaf_node
      blk).get_key 0 = some k0) (hle : k0 ≤ q) (hu : UpperBound T q blk),
      ∃ p k, r.lptr.leaf_node_ = some p ∧ p.node = T.leaf_node blk ∧ r.lptr.size_ ≠ -1 ∧
        p.node.get_key r.lptr.index_pos_ = some k ∧ k ≤ q ∧
        (r.rptr.size_ ≠ -1 → ∃ p1 k1, r.rptr.leaf_node_ = some p1 ∧
          p1.node.get_key r.rptr.index_pos_ = some k1 ∧ q < k1 ∧
          ((p1 = p ∧ r.rptr.index_pos_ = r.lptr.index_pos_ + 1) ∨
           (r.lptr.index_pos_ = p.node.get_num_keys - 1 ∧ ∃ c, p.node.right_sibling_ = some c ∧
              p1.node = T.leaf_node c ∧ r.rptr.index_pos_ = 0))) := by
    intro T q mem blk io sib r hw h k0 hk0 hle hu
    obtain ⟨fl, fr⟩ := h
    have hsp := find_position_spec (T.leaf_node blk).key_ q
    have hbd := find_position_bounds (T.leaf_node blk).key_ q
    have hf0 : 0 ≤ find_position_by_key (T.leaf_node blk).key_ q :=
      find_position_some _ _ _ hk0 hle
    obtain ⟨pos, hpos, hinit⟩ := init_left_buffer_eq (mem.new_leaf T blk).1 q
    have e1 : (mem.new_leaf T blk).1.node = T.leaf_node blk := rfl
    rw [e1] at hpos hinit
    unfold BLeafNode.find_position_by_key at hpos
    rw [if_neg (by omega)] at hpos
    subst hpos
    rw [hinit] at fl fr
    simp only at fl fr
    have hk : ∃ k, (T.leaf_node blk).get_key (find_position_by_key (T.leaf_node blk).key_ q)
        = some k ∧ k ≤ q := by
      rcases hsp.1 with h | h
      · omega
      · exact h
    obtain ⟨k, hk1, hk2⟩ := hk
    have hsz : r.lptr.size_ ≠ -1 := by
      obtain ⟨w1, w2, w3, w4⟩ := hw blk
      rw [fl]
      show (if _ then _ else _) ≠ (-1 : Int)
      split_ifs with c
      · rw [c]; intro hn
        have h9 : (T.leaf_node blk).get_num_entries -
            ((T.leaf_node blk).get_num_keys - 1) * (T.leaf_node blk).get_increment ≥ 1 := by
          linarith [w3]
        rw [hn] at h9
        exact absurd h9 (by norm_num)
      · intro hn; linarith
    refine ⟨(mem.new_leaf T blk).1, k, by rw [fl], rfl, hsz, by rw [fl]; exact hk1, hk2, ?_⟩
    intro hlive
    rcases fr with ⟨f1, f2, _⟩ | ⟨f1, _, c, f2, f3, _⟩ | ⟨_, _, f2, _⟩
    · obtain ⟨k1, hk3⟩ := arr_get_some (T.leaf_node blk).key_
        (find_position_by_key (T.leaf_node blk).key_ q + 1) (by omega) (by
          unfold BLeafNode.get_num_keys at f1; omega)
      have hgt := hsp.2 _ k1 (by omega) hk3
      refine ⟨(mem.new_leaf T blk).1, k1, by rw [f2]; rfl, by rw [f2]; exact hk3, hgt,
        Or.inl ⟨rfl, by rw [f2, fl]; rfl⟩⟩
    · obtain ⟨k1, hk3, hgt⟩ := hu c f2
      refine ⟨⟨mem.next + 1, T.leaf_node c⟩, k1, by rw [f3]; rfl, by rw [f3]; exact hk3, hgt,
        Or.inr ⟨?_, c, f2, rfl, by rw [f3]; rfl⟩⟩
      rw [fl]
      show find_position_by_key (T.leaf_node blk).key_ q = (T.leaf_node blk).get_num_keys - 1
      unfold BLeafNode.get_num_keys at f1 ⊢
      omega
    · rw [f2] at hlive
      exact absurd rfl hlive
  -- The cursors of one tree after the loop body of `init_search_params`, for a projected query
  -- value not below the smallest key.
  have init_tree_slots : ∀ (T : BTree) (first last : Int → Int) (q : ℚ) (fuel : Nat) (pio : Int)
      (mem : Mem) (r : TreeInit) (hwf : T.IndexWF) (hw : T.WF) (hr : T.Routed first last) (hlast :
      (T.leaf_node (Routed_last T last)).right_sibling_ = none) (hmin : ∃ k, (T.leaf_node
      (Routed_first T first)).get_key 0 = some k ∧ k ≤ q) (h : init_tree T q fuel pio mem = .ok
      r),
      ∃ p k, r.lptr.leaf_node_ = some p ∧ r.lptr.size_ ≠ -1 ∧
        p.node.get_key r.lptr.index_pos_ = some k ∧ k ≤ q ∧
        (r.rptr.size_ ≠ -1 → ∃ p1 k1, r.rptr.leaf_node_ = some p1 ∧
          p1.node.get_key r.rptr.index_pos_ = some k1 ∧ q < k1 ∧
          ((p1 = p ∧ r.rptr.index_pos_ = r.lptr.index_pos_ + 1) ∨
           (r.lptr.index_pos_ = p.node.get_num_keys - 1 ∧ ∃ c, p.node.right_sibling_ = some c ∧
              p1.node = T.leaf_node c ∧ r.rptr.index_pos_ = 0))) := by
    intro T first last q fuel pio mem r hwf hw hr hlast hmin h
    obtain ⟨k0, hk0, hle⟩ := hmin
    rcases init_tree_spec T q fuel pio mem r hwf h with
      ⟨hroot, b1, l1, blk, hd, hb1, hl1, h4⟩ | ⟨hroot, hfl⟩
    · unfold Routed_first at hk0
      unfold Routed_last at hlast
      rw [if_pos hroot] at hk0 hlast
      have hrt : T.IsIndex T.root_ := .root hroot
      obtain ⟨kr, hkr⟩ := arr_get_some (T.index_node T.root_).key_ 0 (le_refl _)
        (index_key_pos T hwf _ hrt)
      have hfk := routed_first_key T first last hwf hr _ T.root_ hrt
        (le_of_eq (Int.toNat_of_nonneg (by have := (hwf _ hrt).1; omega)).symm) kr hkr
      rw [hk0] at hfk
      simp only [Option.some.injEq] at hfk
      subst hfk
      have hu0 : UpperBound T q (last T.root_) := by
        intro d hd; rw [hlast] at hd; simp at hd
      obtain ⟨e1, _, hk1, hu1⟩ := descend_routed T first last q hwf hr fuel T.root_ (pio + 1) _
        hrt ⟨k0, hkr, hle⟩ hu0 hd
      simp only at e1 hk1 hu1
      obtain ⟨k1, hk2, hle1⟩ := hk1
      obtain ⟨c, k, hf0, hc, hcm, hk3, hk4, hu2⟩ :=
        routed_step T first last q hwf hr b1 hb1 k1 hk2 hle1 hu1
      rcases h4 with ⟨hesc, _⟩ | ⟨_, _, hson, hfl⟩
      · rcases hesc with hesc | hesc
        · omega
        · rw [e1] at hesc; simp at hesc
      · rw [hc] at hson
        simp only [Option.some.injEq] at hson
        subst hson
        have h1 := (hr b1 hb1).1 _ k c hk3 hc
        have hnl : ¬ (T.index_node b1).get_level > 1 := by omega
        rw [if_neg hnl] at h1
        unfold child_last at hu2
        rw [if_neg hnl] at hu2
        obtain ⟨p, k', a1, _, a2, a3, a4, a5⟩ :=
          from_leaf_slots T q mem c _ true r hw hfl k h1 hk4 hu2
        exact ⟨p, k', a1, a2, a3, a4, a5⟩
    · unfold Routed_first at hk0
      unfold Routed_last at hlast
      rw [if_neg (not_lt.mpr hroot)] at hk0 hlast
      have hu : UpperBound T q T.root_ := by
        intro d hd; rw [hlast] at hd; simp at hd
      obtain ⟨p, k', a1, _, a2, a3, a4, a5⟩ :=
        from_leaf_slots T q mem T.root_ _ false r hw hfl k0 hk0 hle hu
      exact ⟨p, k', a1, a2, a3, a4, a5⟩
  obtain ⟨pio, mem, r, hr1, hl, hrp, hq⟩ := init_search_params_at Q query fuel old s hwf h i h0 h1
  rw [hq] at hmin ⊢
  rw [hl, hrp]
  exact init_tree_slots (Q.trees_ i) first last _ fuel pio mem r (hwf i h0 h1) hw hr hlast hmin hr1

theorem arr_get_pair {α : Type} (a b : α) (j : Int) (x : α) (h : arr_get [a, b] j = some x) :
    (j = 0 ∧ x = a) ∨ (j = 1 ∧ x = b) := by
  have hb := arr_get_bounds _ _ _ h
  simp only [List.length_cons, List.length_nil] at hb
  have hj : j = 0 ∨ j = 1 := by omega
  rcases hj with rfl | rfl
  · left; simp [arr_get] at h; exact ⟨rfl, h.symm⟩
  · right; simp [arr_get] at h; exact ⟨rfl, h.symm⟩

theorem deep_tree_wf : deep_tree.WF := by
  intro b
  show (deep_leaf b).WF
  unfold deep_leaf
  split_ifs <;>
    (unfold BLeafNode.WF BLeafNode.get_increment BLeafNode.get_num_entries
      BLeafNode.get_num_keys; decide)

theorem deep_routed : deep_tree.Routed deep_first deep_last := by
  intro b hb
  rcases deep_is_index b hb with rfl | rfl | rfl
  · refine ⟨?_, ?_, ?_, ?_⟩
    · intro j k c hk hc
      have hk1 : arr_get ([0, 4] : List ℚ) j = some k := hk
      have hc1 : arr_get ([5, 6] : List Int) j = some c := hc
      rcases arr_get_pair _ _ _ _ hk1 with ⟨rfl, rfl⟩ | ⟨rfl, rfl⟩ <;>
        rcases arr_get_pair _ _ _ _ hc1 with ⟨h1, rfl⟩ | ⟨h1, rfl⟩ <;>
        first | (exact absurd h1 (by decide)) | decide!
    · intro c hc
      have hc1 : arr_get ([5, 6] : List Int) 0 = some c := hc
      rcases arr_get_pair _ _ _ _ hc1 with ⟨_, rfl⟩ | ⟨h1, rfl⟩
      · decide
      · exact absurd h1 (by decide)
    · intro c hc
      have hc1 : arr_get ([5, 6] : List Int) 1 = some c := hc
      rcases arr_get_pair _ _ _ _ hc1 with ⟨h1, rfl⟩ | ⟨_, rfl⟩
      · exact absurd h1 (by decide)
      · decide
    · intro j c d hc hd
      have hc1 : arr_get ([5, 6] : List Int) j = some c := hc
      have hd1 : arr_get ([5, 6] : List Int) (j + 1) = some d := hd
      rcases arr_get_pair _ _ _ _ hc1 with ⟨rfl, rfl⟩ | ⟨rfl, rfl⟩ <;>
        rcases arr_get_pair _ _ _ _ hd1 with ⟨h1, rfl⟩ | ⟨h1, rfl⟩ <;>
        first | (exact absurd h1 (by decide)) | decide
  · refine ⟨?_, ?_, ?_, ?_⟩
    · intro j k c hk hc
      have hk1 : arr_get ([0, 2] : List ℚ) j = some k := hk
      have hc1 : arr_get ([1, 2] : List Int) j = some c := hc
      rcases arr_get_pair _ _ _ _ hk1 with ⟨rfl, rfl⟩ | ⟨rfl, rfl⟩ <;>
        rcases arr_get_pair _ _ _ _ hc1 with ⟨h1, rfl⟩ | ⟨h1, rfl⟩ <;>
        first | (exact absurd h1 (by decide)) | decide!
    · intro c hc
      have hc1 : arr_get ([1, 2] : List Int) 0 = some c := hc
      rcases arr_get_pair _ _ _ _ hc1 with ⟨_, rfl⟩ | ⟨h1, rfl⟩
      · decide
      · exact absurd h1 (by decide)
    · intro c hc
      have hc1 : arr_get ([1, 2] : List Int) 1 = some c := hc
      rcases arr_get_pair _ _ _ _ hc1 with ⟨h1, rfl⟩ | ⟨_, rfl⟩
      · exact absurd h1 (by decide)
      · decide
    · intro j c d hc hd
      have hc1 : arr_get ([1, 2] : List Int) j = some c := hc
      have hd1 : arr_get ([1, 2] : List Int) (j + 1) = some d := hd
      rcases arr_get_pair _ _ _ _ hc1 with ⟨rfl, rfl⟩ | ⟨rfl, rfl⟩ <;>
        rcases arr_get_pair _ _ _ _ hd1 with ⟨h1, rfl⟩ | ⟨h1, rfl⟩ <;>
        first | (exact absurd h1 (by decide)) | decide
  · refine ⟨?_, ?_, ?_, ?_⟩
    · intro j k c hk hc
      have hk1 : arr_get ([4, 6] : List ℚ) j = some k := hk
      have hc1 : arr_get ([3, 4] : List Int) j = some c := hc
      rcases arr_get_pair _ _ _ _ hk1 with ⟨rfl, rfl⟩ | ⟨rfl, rfl⟩ <;>
        rcases arr_get_pair _ _ _ _ hc1 with ⟨h1, rfl⟩ | ⟨h1, rfl⟩ <;>
        first | (exact absurd h1 (by decide)) | decide!
    · intro c hc
      have hc1 : arr_get ([3, 4] : List Int) 0 = some c := hc
      rcases arr_get_pair _ _ _ _ hc1 with ⟨_, rfl⟩ | ⟨h1, rfl⟩
      · decide
      · exact absurd h1 (by decide)
    · intro c hc
      have hc1 : arr_get ([3, 4] : List Int) 1 = some c := hc
      rcases arr_get_pair _ _ _ _ hc1 with ⟨h1, rfl⟩ | ⟨_, rfl⟩
      · exact absurd h1 (by decide)
      · decide
    · intro j c d hc hd
      have hc1 : arr_get ([3, 4] : List Int) j = some c := hc
      have hd1 : arr_get ([3, 4] : List Int) (j + 1) = some d := hd
      rcases arr_get_pair _ _ _ _ hc1 with ⟨rfl, rfl⟩ | ⟨rfl, rfl⟩ <;>
        rcases arr_get_pair _ _ _ _ hd1 with ⟨h1, rfl⟩ | ⟨h1, rfl⟩ <;>
        first | (exact absurd h1 (by decide)) | decide

theorem init_cursor_slots_witness :
    ∃ p k, ((deep_init 3).lptr_ 0).leaf_node_ = some p ∧ ((deep_init 3).lptr_ 0).size_ ≠ -1 ∧
      p.node.get_key ((deep_init 3).lptr_ 0).index_pos_ = some k ∧ k ≤ (deep_init 3).q_val_ 0 ∧
      (((deep_init 3).rptr_ 0).size_ ≠ -1 → ∃ p1 k1,
        ((deep_init 3).rptr_ 0).leaf_node_ = some p1 ∧
        p1.node.get_key ((deep_init 3).rptr_ 0).index_pos_ = some k1 ∧
        (deep_init 3).q_val_ 0 < k1 ∧
        ((p1 = p ∧ ((deep_init 3).rptr_ 0).index_pos_ = ((deep_init 3).lptr_ 0).index_pos_ + 1) ∨
         (((deep_init 3).lptr_ 0).index_pos_ = p.node.get_num_keys - 1 ∧
            ∃ c, p.node.right_sibling_ = some c ∧ p1.node = (deep_index.trees_ 0).leaf_node c ∧
              ((deep_init 3).rptr_ 0).index_pos_ = 0))) :=
  init_cursor_slots deep_index (fun _ => 3) 2 ex_old (deep_init 3) 0 deep_first deep_last
    (fun j _ _ => deep_trees_wf j) deep_tree_wf deep_routed (by decide)
    (start_state_ok _ ex_old (by decide!)) (by decide) (by decide)
    ⟨0, by decide!, by decide!⟩

theorem step_pc_range (Q : Index) (E : Env) (top_k : Int) (s : State) (h : PcRange Q s.pc) :
    PcRange Q (step Q E top_k s).pc := by
  unfold step
  split
  · trivial
  · split_ifs
    · show (0 : Int) ≤ 0; omega
    · trivial
  · rename_i i hpc
    rw [hpc] at h
    have h0 : 0 ≤ i := h
    split_ifs with c1 c2
    · show 0 ≤ i + 1; omega
    · split
      · split_ifs
        · exact ⟨h0, c1⟩
        · exact ⟨h0, c1⟩
        · exact ⟨h0, c1⟩
      · trivial
    · trivial
  · rename_i i j start hpc
    rw [hpc] at h
    have h0 : 0 ≤ i ∧ i < Q.m_ := h
    split_ifs
    · split
      · trivial
      · split
        · trivial
        · rcases collide_pc Q E top_k s _ (.scan_left i (j - 1) start) (.advance_left i)
            with e | e | e <;> rw [e]
          · trivial
          · exact h0
          · exact h0
    · exact h0
  · rename_i i hpc
    rw [hpc] at h
    have h0 : 0 ≤ i ∧ i < Q.m_ := h
    split
    · trivial
    · exact h0
  · rename_i i j e hpc
    rw [hpc] at h
    have h0 : 0 ≤ i ∧ i < Q.m_ := h
    split_ifs
    · split
      · trivial
      · split
        · trivial
        · rcases collide_pc Q E top_k s _ (.scan_right i (j + 1) e) (.advance_right i)
            with e | e | e <;> rw [e]
          · trivial
          · exact h0
          · exact h0
    · exact h0
  · rename_i i hpc
    rw [hpc] at h
    have h0 : 0 ≤ i ∧ i < Q.m_ := h
    split
    · trivial
    · exact h0
  · rename_i i hpc
    rw [hpc] at h
    have h0 : 0 ≤ i ∧ i < Q.m_ := h
    split_ifs
    · trivial
    · show 0 ≤ i + 1; omega
  · split_ifs <;> trivial
  · split_ifs
    · trivial
    · trivial
    · split <;> trivial
  · rename_i hpc; rw [hpc]; trivial
  · rename_i hpc; rw [hpc]; trivial

/-- How one step changes the allocation state and the cursors: not at all, by
one cursor advance, or by `delete_tree_ptr` on the way out. -/
theorem step_mem_cases (Q : Index) (E : Env) (top_k : Int) (s : State) :
    ((step Q E top_k s).mem = s.mem ∧ (step Q E top_k s).lptr_ = s.lptr_ ∧
      (step Q E top_k s).rptr_ = s.rptr_ ∧
      ((step Q E top_k s).pc = .returned → s.pc = .returned)) ∨
    (∃ i a, s.pc = .advance_left i ∧
      update_left_buffer (Q.trees_ i) s.mem s.page_io_ (s.rptr_ i) (s.lptr_ i) = some a ∧
      (step Q E top_k s).lptr_ = Function.update s.lptr_ i a.buf ∧
      (step Q E top_k s).rptr_ = s.rptr_ ∧ (step Q E top_k s).mem = a.mem ∧
      (step Q E top_k s).pc = .body_end i) ∨
    (∃ i a, s.pc = .advance_right i ∧
      update_right_buffer (Q.trees_ i) s.mem s.page_io_ (s.lptr_ i) (s.rptr_ i) = some a ∧
      (step Q E top_k s).rptr_ = Function.update s.rptr_ i a.buf ∧
      (step Q E top_k s).lptr_ = s.lptr_ ∧ (step Q E top_k s).mem = a.mem ∧
      (step Q E top_k s).pc = .body_end i) ∨
    (s.pc = .stop_test ∧ (step Q E top_k s).pc = .returned ∧
      (step Q E top_k s).mem = (delete_tree_ptr Q s).mem) := by
  by_cases hst : s.pc = .stop_test
  · unfold step
    rw [hst]
    simp only
    split_ifs
    · right; right; right; exact ⟨trivial, rfl, rfl⟩
    · right; right; right; exact ⟨trivial, rfl, rfl⟩
    · left
      split
      · exact ⟨rfl, rfl, rfl, fun h => by simp at h⟩
      · exact ⟨rfl, rfl, rfl, fun h => by simp at h⟩
  · by_cases hret : s.pc = .returned
    · left
      have : step Q E top_k s = s := by unfold step; rw [hret]
      rw [this]
      exact ⟨rfl, rfl, rfl, fun _ => hret⟩
    · have hnr := step_pc_ne_returned Q E top_k s hret hst
      unfold step at hnr ⊢
      split
      · left; exact ⟨rfl, rfl, rfl, fun h => absurd h (by simp)⟩
      · left; split_ifs <;> exact ⟨rfl, rfl, rfl, fun h => absurd h (by simp)⟩
      · left
        split_ifs
        · exact ⟨rfl, rfl, rfl, fun h => absurd h (by simp)⟩
        · split
          · split_ifs <;> exact ⟨rfl, rfl, rfl, fun h => absurd h (by simp)⟩
          · exact ⟨rfl, rfl, rfl, fun h => absurd h (by simp)⟩
        · exact ⟨rfl, rfl, rfl, fun h => absurd h (by simp)⟩
      · left
        rename_i i j start hpc
        split_ifs
        · split
          · exact ⟨rfl, rfl, rfl, fun h => absurd h (by simp)⟩
          · split
            · exact ⟨rfl, rfl, rfl, fun h => absurd h (by simp)⟩
            · have hf := collide_frame Q E top_k s ‹_› (.scan_left i (j - 1) start)
                (.advance_left i)
              refine ⟨hf.2.2.1, hf.1, hf.2.1, fun h => ?_⟩
              rcases collide_pc Q E top_k s ‹_› (.scan_left i (j - 1) start) (.advance_left i)
                with e | e | e <;> rw [e] at h <;> simp at h
        · exact ⟨rfl, rfl, rfl, fun h => absurd h (by simp)⟩
      · rename_i i hpc
        split
        · left; exact ⟨rfl, rfl, rfl, fun h => absurd h (by simp)⟩
        · rename_i a ha
          right; left
          exact ⟨i, a, hpc, ha, rfl, rfl, rfl, rfl⟩
      · left
        rename_i i j e hpc
        split_ifs
        · split
          · exact ⟨rfl, rfl, rfl, fun h => absurd h (by simp)⟩
          · split
            · exact ⟨rfl, rfl, rfl, fun h => absurd h (by simp)⟩
            · have hf := collide_frame Q E top_k s ‹_› (.scan_right i (j + 1) e)
                (.advance_right i)
              refine ⟨hf.2.2.1, hf.1, hf.2.1, fun h => ?_⟩
              rcases collide_pc Q E top_k s ‹_› (.scan_right i (j + 1) e) (.advance_right i)
                with e | e | e <;> rw [e] at h <;> simp at h
        · exact ⟨rfl, rfl, rfl, fun h => absurd h (by simp)⟩
      · rename_i i hpc
        split
        · left; exact ⟨rfl, rfl, rfl, fun h => absurd h (by simp)⟩
        · rename_i a ha
          right; right; left
          exact ⟨i, a, hpc, ha, rfl, rfl, rfl, rfl⟩
      · left; split_ifs <;> exact ⟨rfl, rfl, rfl, fun h => absurd h (by simp)⟩
      · left; split_ifs <;> exact ⟨rfl, rfl, rfl, fun h => absurd h (by simp)⟩
      · rename_i hpc; exact absurd hpc hst
      · rename_i hpc; exact absurd hpc hret
      · left; exact ⟨rfl, rfl, rfl, fun h => absurd h hret⟩

theorem update_left_buffer_mem (T : BTree) (mem : Mem) (pio : Int) (rptr lptr : PageBuffer)
    (a : Advance) (h : update_left_buffer T mem pio rptr lptr = some a) :
    ∃ old, lptr.leaf_node_ = some old ∧
      ((lptr.index_pos_ > 0 ∧ a.buf.ptr = some old.addr ∧ a.mem = mem) ∨
       (¬ lptr.index_pos_ > 0 ∧
        ((a.buf.ptr = some mem.next ∧ a.mem.next = mem.next + 1) ∨
         (a.buf.ptr = none ∧ a.mem.next = mem.next)) ∧
        a.mem.freed = if rptr.ptr ≠ some old.addr then mem.freed ++ [old.addr]
          else mem.freed)) := by
  unfold update_left_buffer at h
  split at h
  · simp at h
  · rename_i old hold
    refine ⟨old, hold, ?_⟩
    by_cases hp : lptr.index_pos_ > 0
    · rw [if_pos hp] at h
      simp only [Option.some.injEq] at h
      subst h
      left
      exact ⟨hp, by simp [PageBuffer.ptr, hold], rfl⟩
    · rw [if_neg hp] at h
      simp only [Option.some.injEq] at h
      subst h
      right
      refine ⟨hp, ?_, ?_⟩
      · unfold get_left_sibling
        cases hs : old.node.left_sibling_ with
        | none => right; split_ifs <;> simp [Mem.delete, PageBuffer.ptr, PageBuffer.null]
        | some c => left; split_ifs <;> simp [Mem.delete, Mem.new_leaf, PageBuffer.ptr]
      · unfold get_left_sibling
        cases hs : old.node.left_sibling_ with
        | none => split_ifs <;> simp [Mem.delete]
        | some c => split_ifs <;> simp [Mem.delete, Mem.new_leaf]

theorem update_right_buffer_mem (T : BTree) (mem : Mem) (pio : Int) (lptr rptr : PageBuffer)
    (a : Advance) (h : update_right_buffer T mem pio lptr rptr = some a) :
    ∃ old, rptr.leaf_node_ = some old ∧
      ((rptr.index_pos_ < old.node.get_num_keys - 1 ∧ a.buf.ptr = some old.addr ∧ a.mem = mem) ∨
       (¬ rptr.index_pos_ < old.node.get_num_keys - 1 ∧
        ((a.buf.ptr = some mem.next ∧ a.mem.next = mem.next + 1) ∨
         (a.buf.ptr = none ∧ a.mem.next = mem.next)) ∧
        a.mem.freed = if lptr.ptr ≠ some old.addr then mem.freed ++ [old.addr]
          else mem.freed)) := by
  unfold update_right_buffer at h
  split at h
  · simp at h
  · rename_i old hold
    refine ⟨old, hold, ?_⟩
    by_cases hp : rptr.index_pos_ < old.node.get_num_keys - 1
    · rw [if_pos hp] at h
      simp only [Option.some.injEq] at h
      subst h
      left
      exact ⟨hp, by simp [PageBuffer.ptr, hold], rfl⟩
    · rw [if_neg hp] at h
      simp only [Option.some.injEq] at h
      subst h
      right
      refine ⟨hp, ?_, ?_⟩
      · unfold get_right_sibling
        cases hs : old.node.right_sibling_ with
        | none => right; split_ifs <;> simp [Mem.delete, PageBuffer.ptr, PageBuffer.null]
        | some c => left; split_ifs <;> simp [Mem.delete, Mem.new_leaf, PageBuffer.ptr]
      · unfold get_right_sibling
        cases hs : old.node.right_sibling_ with
        | none => split_ifs <;> simp [Mem.delete]
        | some c => split_ifs <;> simp [Mem.delete, Mem.new_leaf]

/-- A cursor advance of projection `i` keeps the ownership invariant: `old` is
the object the advanced cursor pinned, `newp` what it pins afterwards and
`twin` what the other cursor of the projection pins. -/
theorem advance_mem_inv (Q : Index) (lo : Nat) (s t : State) (i : Int) (h0 : 0 ≤ i)
    (h1 : i < Q.m_) (old : Nat) (newp twin : Option Nat) (hinv : MemInv Q lo s)
    (hpi : ∀ x, Pins s i x ↔ (x = old ∨ twin = some x))
    (hpt : ∀ x, Pins t i x ↔ (newp = some x ∨ twin = some x))
    (hpj : ∀ j x, j ≠ i → (Pins t j x ↔ Pins s j x))
    (hmem : (newp = some old ∧ t.mem = s.mem) ∨
      (((newp = some s.mem.next ∧ t.mem.next = s.mem.next + 1) ∨
        (newp = none ∧ t.mem.next = s.mem.next)) ∧
       t.mem.freed = if twin ≠ some old then s.mem.freed ++ [old] else s.mem.freed)) :
    MemInv Q lo t := by
  obtain ⟨i1, i2, i3, i4⟩ := hinv
  have hold := i2 i old h0 h1 ((hpi old).mpr (Or.inl rfl))
  rcases hmem with ⟨hn, hm⟩ | ⟨hn, hf⟩
  · have hp : ∀ j x, Pins t j x ↔ Pins s j x := by
      intro j x
      by_cases hj : j = i
      · subst hj
        rw [hpt, hpi, hn]
        simp only [Option.some.injEq]
        constructor
        · rintro (h | h)
          · exact Or.inl h.symm
          · exact Or.inr h
        · rintro (h | h)
          · exact Or.inl h.symm
          · exact Or.inr h
      · exact hpj j x hj
    refine ⟨by rw [hm]; exact i1, ?_, ?_, ?_⟩
    · intro j a j0 j1 hp1
      rw [hm]; exact i2 j a j0 j1 ((hp j a).mp hp1)
    · intro a a0 a1
      rw [hm] at a1 ⊢
      rcases i3 a a0 a1 with ⟨j, j0, j1, hp1⟩ | h
      · exact Or.inl ⟨j, j0, j1, (hp j a).mpr hp1⟩
      · exact Or.inr h
    · intro j k a j0 j1 k0 k1 hj hk
      exact i4 j k a j0 j1 k0 k1 ((hp j a).mp hj) ((hp k a).mp hk)
  · have hnext : s.mem.next ≤ t.mem.next := by rcases hn with ⟨_, h⟩ | ⟨_, h⟩ <;> omega
    have hcount : ∀ a, a ≠ old → t.mem.freed.count a = s.mem.freed.count a := by
      intro a ha
      rw [hf]
      split_ifs
      · rw [List.count_append]
        simp [List.count_cons, Ne.symm ha]
      · rfl
    have hfresh : s.mem.freed.count s.mem.next = 0 := by
      rw [List.count_eq_zero]
      intro hm
      exact absurd (i1 _ hm) (lt_irrefl _)
    refine ⟨?_, ?_, ?_, ?_⟩
    · intro a ha
      rw [hf] at ha
      split_ifs at ha
      · rw [List.mem_append] at ha
        rcases ha with ha | ha
        · have := i1 a ha; omega
        · simp at ha; subst ha; omega
      · have := i1 a ha; omega
    · intro j a j0 j1 hp1
      by_cases hj : j = i
      · subst hj
        rcases (hpt a).mp hp1 with h | h
        · rcases hn with ⟨hn1, hn2⟩ | ⟨hn1, _⟩
          · rw [hn1] at h
            simp only [Option.some.injEq] at h
            subst h
            refine ⟨by omega, by omega, ?_⟩
            rw [hcount _ (by omega)]
            exact hfresh
          · rw [hn1] at h; simp at h
        · have hps := i2 j a j0 j1 ((hpi a).mpr (Or.inr h))
          refine ⟨hps.1, by omega, ?_⟩
          rw [hf]
          split_ifs with c
          · have hne : a ≠ old := by
              intro e; subst e; exact c h
            rw [List.count_append]
            simp [List.count_cons, Ne.symm hne, hps.2.2]
          · exact hps.2.2
      · have hps := i2 j a j0 j1 ((hpj j a hj).mp hp1)
        have hne : a ≠ old := by
          intro e
          subst e
          exact hj (i4 j i a j0 j1 h0 h1 ((hpj j a hj).mp hp1) ((hpi a).mpr (Or.inl rfl)))
        exact ⟨hps.1, by omega, by rw [hcount a hne]; exact hps.2.2⟩
    · intro a a0 a1
      by_cases hlt : a < s.mem.next
      · rcases i3 a a0 hlt with ⟨j, j0, j1, hp1⟩ | h
        · by_cases hj : j = i
          · subst hj
            rcases (hpi a).mp hp1 with h | h
            · subst h
              by_cases c : twin = some a
              · exact Or.inl ⟨j, j0, j1, (hpt a).mpr (Or.inr c)⟩
              · right
                rw [hf, if_pos c, List.count_append, hold.2.2]
                simp
            · exact Or.inl ⟨j, j0, j1, (hpt a).mpr (Or.inr h)⟩
          · exact Or.inl ⟨j, j0, j1, (hpj j a hj).mpr hp1⟩
        · right
          have hne : a ≠ old := by
            intro e; subst e; rw [hold.2.2] at h; exact absurd h (by norm_num)
          rw [hcount a hne]; exact h
      · rcases hn with ⟨hn1, hn2⟩ | ⟨_, hn2⟩
        · have e : a = s.mem.next := by omega
          subst e
          exact Or.inl ⟨i, h0, h1, (hpt _).mpr (Or.inl hn1)⟩
        · omega
    · intro j k a j0 j1 k0 k1 hj hk
      have key : ∀ j, 0 ≤ j → j < Q.m_ → Pins t j a → a < s.mem.next → Pins s j a := by
        intro j j0 j1 hp1 hlt
        by_cases hji : j = i
        · subst hji
          rcases (hpt a).mp hp1 with h | h
          · rcases hn with ⟨hn1, _⟩ | ⟨hn1, _⟩
            · rw [hn1] at h; simp at h; omega
            · rw [hn1] at h; simp at h
          · exact (hpi a).mpr (Or.inr h)
        · exact (hpj j a hji).mp hp1
      have fresh : ∀ j, 0 ≤ j → j < Q.m_ → Pins t j a → ¬ a < s.mem.next → j = i := by
        intro j j0 j1 hp1 hlt
        by_contra hji
        have := i2 j a j0 j1 ((hpj j a hji).mp hp1)
        omega
      by_cases hlt : a < s.mem.next
      · exact i4 j k a j0 j1 k0 k1 (key j j0 j1 hj hlt) (key k k0 k1 hk hlt)
      · rw [fresh j j0 j1 hj hlt, fresh k k0 k1 hk hlt]

theorem memInv_congr (Q : Index) (lo : Nat) (s t : State) (h1 : t.mem = s.mem)
    (h2 : t.lptr_ = s.lptr_) (h3 : t.rptr_ = s.rptr_) (h : MemInv Q lo s) : MemInv Q lo t := by
  have hp : ∀ j a, Pins t j a ↔ Pins s j a := by
    intro j a; unfold Pins; rw [h2, h3]
  obtain ⟨i1, i2, i3, i4⟩ := h
  refine ⟨by rw [h1]; exact i1, ?_, ?_, ?_⟩
  · intro j a j0 j1 hp1
    rw [h1]; exact i2 j a j0 j1 ((hp j a).mp hp1)
  · intro a a0 a1
    rw [h1] at a1 ⊢
    rcases i3 a a0 a1 with ⟨j, j0, j1, hp1⟩ | h
    · exact Or.inl ⟨j, j0, j1, (hp j a).mpr hp1⟩
    · exact Or.inr h
  · intro j k a j0 j1 k0 k1 hj hk
    exact i4 j k a j0 j1 k0 k1 ((hp j a).mp hj) ((hp k a).mp hk)

theorem delete_tree_ptr_at_freed (s : State) (i : Int) :
    (delete_tree_ptr_at s i).mem.next = s.mem.next ∧
    (delete_tree_ptr_at s i).mem.freed = s.mem.freed ++
      ((if (s.lptr_ i).ptr ≠ (s.rptr_ i).ptr then (s.lptr_ i).ptr.toList else []) ++
        (s.rptr_ i).ptr.toList) ∧
    (∀ j, j ≠ i → (delete_tree_ptr_at s i).lptr_ j = s.lptr_ j ∧
      (delete_tree_ptr_at s i).rptr_ j = s.rptr_ j) := by
  unfold delete_tree_ptr_at PageBuffer.ptr
  cases hl : (s.lptr_ i).leaf_node_ with
  | none =>
    cases hr : (s.rptr_ i).leaf_node_ with
    | none => simp [hr]
    | some q =>
      simp only [hr]
      refine ⟨rfl, by simp [Mem.delete], fun j hj => ?_⟩
      simp [Function.update_noteq hj]
  | some p =>
    cases hr : (s.rptr_ i).leaf_node_ with
    | none =>
      simp only [Option.map_some', Option.map_none', ne_eq, reduceCtorEq, not_false_eq_true,
        if_true, Function.update_same, hr]
      refine ⟨rfl, by simp [Mem.delete], fun j hj => ?_⟩
      simp [Function.update_noteq hj]
    | some q =>
      by_cases he : p.addr = q.addr
      · simp only [Option.map_some', he, ne_eq, not_true_eq_false, if_false, hr]
        refine ⟨rfl, by simp [Mem.delete], fun j hj => ?_⟩
        simp [Function.update_noteq hj]
      · have hne : ¬ (some p.addr = some q.addr) := by simpa using he
        simp only [Option.map_some', ne_eq, hne, not_false_eq_true, if_true, hr]
        refine ⟨rfl, by simp [Mem.delete], fun j hj => ?_⟩
        simp [Function.update_noteq hj]

theorem count_pinned (p q : Option Nat) (a : Nat) :
    ((p = some a ∨ q = some a) →
      ((if p ≠ q then p.toList else []) ++ q.toList).count a = 1) ∧
    (¬ (p = some a ∨ q = some a) →
      ((if p ≠ q then p.toList else []) ++ q.toList).count a = 0) := by
  cases p with
  | none =>
    cases q with
    | none => simp
    | some y =>
      constructor
      · intro h; simp at h; subst h; simp
      · intro h; simp at h; simp [List.count_cons, Ne.symm h]
  | some x =>
    cases q with
    | none =>
      constructor
      · intro h; simp at h; subst h; simp
      · intro h; simp at h; simp [List.count_cons, Ne.symm h]
    | some y =>
      by_cases he : x = y
      · subst he
        constructor
        · intro h; simp at h; subst h; simp
        · intro h; simp at h; simp [List.count_cons, Ne.symm h]
      · constructor
        · intro h
          simp at h
          rcases h with h | h
          · subst h; simp [he, List.count_cons, Ne.symm he]
          · subst h; simp [he, List.count_cons]
        · intro h
          simp at h
          simp [he, List.count_cons, Ne.symm h.1, Ne.symm h.2]

/-- What the body of the loop of `delete_tree_ptr` deletes: every object a
cursor of projection `i` pins, once, also when both cursors pin the same
object; nothing else. -/
theorem delete_tree_ptr_at_mem (s : State) (i : Int) :
    (delete_tree_ptr_at s i).mem.next = s.mem.next ∧
    (∀ a, Pins s i a →
      (delete_tree_ptr_at s i).mem.freed.count a = s.mem.freed.count a + 1) ∧
    (∀ a, ¬ Pins s i a →
      (delete_tree_ptr_at s i).mem.freed.count a = s.mem.freed.count a) ∧
    (∀ j, j ≠ i → (delete_tree_ptr_at s i).lptr_ j = s.lptr_ j ∧
      (delete_tree_ptr_at s i).rptr_ j = s.rptr_ j) := by
  obtain ⟨h1, h2, h3⟩ := delete_tree_ptr_at_freed s i
  refine ⟨h1, ?_, ?_, h3⟩
  · intro a ha
    rw [h2, List.count_append, (count_pinned _ _ a).1 ha]
  · intro a ha
    rw [h2, List.count_append, (count_pinned _ _ a).2 ha]
    rfl

theorem delete_tree_ptr_eq (Q : Index) (s : State) :
    delete_tree_ptr Q s =
      ((List.range Q.m_.toNat).map (fun (n : Nat) => (n : Int))).foldl
        (fun s i => delete_tree_ptr_at s i) s := by
  unfold delete_tree_ptr
  congr 1
  simp only [Functor.map, bind, pure]
  generalize List.range Q.m_.toNat = l
  induction l with
  | nil => rfl
  | cons a l ih => simp only [List.flatMap_cons, ih, List.map_cons]; rfl

theorem delete_fold_mem (l : List Int) (hnd : l.Nodup) :
    ∀ s : State,
      (∀ j ∈ l, ∀ k ∈ l, ∀ a, Pins s j a → Pins s k a → j = k) →
      (l.foldl (fun s i => delete_tree_ptr_at s i) s).mem.next = s.mem.next ∧
      ∀ a,
        ((∃ j ∈ l, Pins s j a) →
          (l.foldl (fun s i => delete_tree_ptr_at s i) s).mem.freed.count a =
            s.mem.freed.count a + 1) ∧
        ((¬ ∃ j ∈ l, Pins s j a) →
          (l.foldl (fun s i => delete_tree_ptr_at s i) s).mem.freed.count a =
            s.mem.freed.count a) := by
  induction l with
  | nil =>
    intro s _
    refine ⟨rfl, fun a => ⟨?_, fun _ => rfl⟩⟩
    rintro ⟨j, hj, _⟩
    simp at hj
  | cons i l ih =>
    intro s hdis
    rw [List.nodup_cons] at hnd
    obtain ⟨d1, d2, d3, d4⟩ := delete_tree_ptr_at_mem s i
    have hp : ∀ j ∈ l, ∀ a, Pins (delete_tree_ptr_at s i) j a ↔ Pins s j a := by
      intro j hj a
      have hne : j ≠ i := by
        intro e
        subst e
        exact hnd.1 hj
      unfold Pins
      rw [(d4 _ hne).1, (d4 _ hne).2]
    have ih1 := ih hnd.2 (delete_tree_ptr_at s i) (by
      intro j hj k hk a h1 h2
      exact hdis j (List.mem_cons_of_mem _ hj) k (List.mem_cons_of_mem _ hk) a
        ((hp j hj a).mp h1) ((hp k hk a).mp h2))
    simp only [List.foldl_cons]
    refine ⟨by rw [ih1.1, d1], fun a => ⟨?_, ?_⟩⟩
    · rintro ⟨j, hj, hpj⟩
      by_cases hi : Pins s i a
      · have hno : ¬ ∃ k ∈ l, Pins (delete_tree_ptr_at s i) k a := by
          rintro ⟨k, hk, hpk⟩
          have := hdis k (List.mem_cons_of_mem _ hk) i (List.mem_cons_self _ _) a
            ((hp k hk a).mp hpk) hi
          subst this
          exact hnd.1 hk
        rw [((ih1.2 a).2 hno), d2 a hi]
      · have hjl : j ∈ l := by
          rcases List.mem_cons.mp hj with e | e
          · subst e; exact absurd hpj hi
          · exact e
        rw [((ih1.2 a).1 ⟨j, hjl, (hp j hjl a).mpr hpj⟩), d3 a hi]
    · intro hno
      have hi : ¬ Pins s i a := fun h => hno ⟨i, List.mem_cons_self _ _, h⟩
      have hno2 : ¬ ∃ k ∈ l, Pins (delete_tree_ptr_at s i) k a := by
        rintro ⟨k, hk, hpk⟩
        exact hno ⟨k, List.mem_cons_of_mem _ hk, (hp k hk a).mp hpk⟩
      rw [((ih1.2 a).2 hno2), d3 a hi]

/-- `delete_tree_ptr` releases every leaf object that is still pinned. -/
theorem delete_tree_ptr_released (Q : Index) (lo : Nat) (s : State) (h : MemInv Q lo s) :
    ∀ a, lo ≤ a → a < (delete_tree_ptr Q s).mem.next →
      (delete_tree_ptr Q s).mem.freed.count a = 1 := by
  obtain ⟨i1, i2, i3, i4⟩ := h
  have hmem : ∀ j, j ∈ (List.range Q.m_.toNat).map (fun (n : Nat) => (n : Int)) ↔
      0 ≤ j ∧ j < Q.m_ := by
    intro j
    rw [List.mem_map]
    constructor
    · rintro ⟨n, hn, rfl⟩
      rw [List.mem_range] at hn
      omega
    · rintro ⟨j0, j1⟩
      exact ⟨j.toNat, by rw [List.mem_range]; omega, Int.toNat_of_nonneg j0⟩
  have hf := delete_fold_mem ((List.range Q.m_.toNat).map (fun (n : Nat) => (n : Int)))
    ((List.nodup_range _).map Nat.cast_injective) s (by
    intro j hj k hk a h1 h2
    rw [hmem] at hj hk
    exact i4 j k a hj.1 hj.2 hk.1 hk.2 h1 h2)
  rw [delete_tree_ptr_eq]
  intro a a0 a1
  rw [hf.1] at a1
  rcases i3 a a0 a1 with ⟨j, j0, j1, hp⟩ | hc
  · rw [(hf.2 a).1 ⟨j, (hmem j).mpr ⟨j0, j1⟩, hp⟩, (i2 j a j0 j1 hp).2.2]
  · have hno : ¬ ∃ k ∈ (List.range Q.m_.toNat).map (fun (n : Nat) => (n : Int)), Pins s k a := by
      rintro ⟨k, hk, hp⟩
      rw [hmem] at hk
      have := (i2 k a hk.1 hk.2 hp).2.2
      omega
    rw [(hf.2 a).2 hno, hc]

theorem step_owner_inv (Q : Index) (E : Env) (top_k : Int) (lo : Nat) (s : State)
    (h : OwnerInv Q lo s) : OwnerInv Q lo (step Q E top_k s) := by
  rcases step_mem_cases Q E top_k s with ⟨m1, m2, m3, m4⟩ | ⟨i, a, hpc, ha, m1, m2, m3, m4⟩ |
    ⟨i, a, hpc, ha, m1, m2, m3, m4⟩ | ⟨hpc, m1, m2⟩
  · constructor
    · intro hn
      have hs : s.pc ≠ .returned := by
        intro hr
        have : step Q E top_k s = s := by unfold step; rw [hr]
        rw [this] at hn
        exact hn hr
      obtain ⟨h1, h2⟩ := h.1 hs
      exact ⟨memInv_congr Q lo s _ m1 m2 m3 h1, step_pc_range Q E top_k s h2⟩
    · intro hr
      have := h.2 (m4 hr)
      unfold Released at this ⊢
      rw [m1]; exact this
  · have hs : s.pc ≠ .returned := by rw [hpc]; simp
    obtain ⟨h1, h2⟩ := h.1 hs
    have hrange : 0 ≤ i ∧ i < Q.m_ := by rw [hpc] at h2; exact h2
    constructor
    · intro _
      refine ⟨?_, step_pc_range Q E top_k s h2⟩
      obtain ⟨old, ho, hcase⟩ := update_left_buffer_mem _ _ _ _ _ _ ha
      refine advance_mem_inv Q lo s _ i hrange.1 hrange.2 old.addr a.buf.ptr (s.rptr_ i).ptr h1
        ?_ ?_ ?_ ?_
      · intro x
        unfold Pins
        have : (s.lptr_ i).ptr = some old.addr := by simp [PageBuffer.ptr, ho]
        rw [this]
        simp only [Option.some.injEq]
        constructor
        · rintro (h | h)
          · exact Or.inl h.symm
          · exact Or.inr h
        · rintro (h | h)
          · exact Or.inl h.symm
          · exact Or.inr h
      · intro x
        unfold Pins
        rw [m1, m2, Function.update_same]
      · intro j x hj
        unfold Pins
        rw [m1, m2, Function.update_noteq hj]
      · rw [m3]
        rcases hcase with ⟨_, c1, c2⟩ | ⟨_, c1, c2⟩
        · exact Or.inl ⟨c1, c2⟩
        · exact Or.inr ⟨c1, c2⟩
    · intro hr; rw [m4] at hr; simp at hr
  · have hs : s.pc ≠ .returned := by rw [hpc]; simp
    obtain ⟨h1, h2⟩ := h.1 hs
    have hrange : 0 ≤ i ∧ i < Q.m_ := by rw [hpc] at h2; exact h2
    constructor
    · intro _
      refine ⟨?_, step_pc_range Q E top_k s h2⟩
      obtain ⟨old, ho, hcase⟩ := update_right_buffer_mem _ _ _ _ _ _ ha
      refine advance_mem_inv Q lo s _ i hrange.1 hrange.2 old.addr a.buf.ptr (s.lptr_ i).ptr h1
        ?_ ?_ ?_ ?_
      · intro x
        unfold Pins
        have : (s.rptr_ i).ptr = some old.addr := by simp [PageBuffer.ptr, ho]
        rw [this]
        simp only [Option.some.injEq]
        constructor
        · rintro (h | h)
          · exact Or.inr h
          · exact Or.inl h.symm
        · rintro (h | h)
          · exact Or.inr h.symm
          · exact Or.inl h
      · intro x
        unfold Pins
        rw [m1, m2, Function.update_same]
        exact or_comm
      · intro j x hj
        unfold Pins
        rw [m1, m2, Function.update_noteq hj]
      · rw [m3]
        rcases hcase with ⟨_, c1, c2⟩ | ⟨_, c1, c2⟩
        · exact Or.inl ⟨c1, c2⟩
        · exact Or.inr ⟨c1, c2⟩
    · intro hr; rw [m4] at hr; simp at hr
  · have hs : s.pc ≠ .returned := by rw [hpc]; simp
    obtain ⟨h1, _⟩ := h.1 hs
    constructor
    · intro hn; exact absurd m1 hn
    · intro _
      unfold Released
      rw [m2]
      exact delete_tree_ptr_released Q lo s h1

/-- C13: with the leaf objects and their deletion as explicit state, every
leaf object allocated during a call of `knn` is released at most once; while
the call runs it is released if and only if no cursor pins it any more, and at
return it has been released exactly once. `update_left_buffer` and
`update_right_buffer` release the leaf they leave for a sibling if and only if
the twin cursor does not point at it, and the body of `delete_tree_ptr`
releases what the cursors of a projection pin exactly once, also when both pin
the same leaf. -/
theorem knn_release_once (Q : Index) (E : Env) (top_k : Int) (query : Int → ℚ)
    (list : MinK_List) (fuel : Nat) (old s : State)
    (hwf : ∀ j, 0 ≤ j → j < Q.m_ → (Q.trees_ j).IndexWF)
    (hold : ∀ a ∈ old.mem.freed, a < old.mem.next)
    (h : Reachable Q E top_k query list fuel old s) :
    (∀ a, old.mem.next ≤ a → a < s.mem.next → s.mem.freed.count a ≤ 1) ∧
    (s.pc ≠ .returned → ∀ a, old.mem.next ≤ a → a < s.mem.next →
      (s.mem.freed.count a = 0 ↔ ∃ j, 0 ≤ j ∧ j < Q.m_ ∧ Pins s j a)) ∧
    (s.pc = .returned → ∀ a, old.mem.next ≤ a → a < s.mem.next → s.mem.freed.count a = 1) ∧
    (∀ (T : BTree) (mem : Mem) (pio : Int) (rptr lptr : PageBuffer) (a : Advance),
      update_left_buffer T mem pio rptr lptr = some a →
      ∃ node, lptr.leaf_node_ = some node ∧
        (lptr.index_pos_ > 0 → a.mem.freed = mem.freed) ∧
        (¬ lptr.index_pos_ > 0 → a.mem.freed =
          if rptr.ptr ≠ some node.addr then mem.freed ++ [node.addr] else mem.freed)) ∧
    (∀ (T : BTree) (mem : Mem) (pio : Int) (lptr rptr : PageBuffer) (a : Advance),
      update_right_buffer T mem pio lptr rptr = some a →
      ∃ node, rptr.leaf_node_ = some node ∧
        (rptr.index_pos_ < node.node.get_num_keys - 1 → a.mem.freed = mem.freed) ∧
        (¬ rptr.index_pos_ < node.node.get_num_keys - 1 → a.mem.freed =
          if lptr.ptr ≠ some node.addr then mem.freed ++ [node.addr] else mem.freed)) ∧
    (∀ (t : State) (i : Int) (a : Nat),
      (Pins t i a →
        (delete_tree_ptr_at t i).mem.freed.count a = t.mem.freed.count a + 1) ∧
      (¬ Pins t i a → (delete_tree_ptr_at t i).mem.freed.count a = t.mem.freed.count a)) := by
  have knn_start_owner : ∀ (Q : Index) (E : Env) (query : Int → ℚ) (list : MinK_List) (fuel : Nat)
      (old s0 : State) (hwf : ∀ j, 0 ≤ j → j < Q.m_ → (Q.trees_ j).IndexWF) (hold : ∀ a ∈
      old.mem.freed, a < old.mem.next) (h : knn_start Q E query list fuel old = .ok s0),
      OwnerInv Q old.mem.next s0 := by
    intro Q E query list fuel old s0 hwf hold h
    unfold knn_start at h
    split at h
    · exact absurd h (by simp)
    · rename_i s hs
      split at h
      · exact absurd h (by simp)
      · simp only [Except.ok.injEq] at h
        subst h
        unfold init_search_params at hs
        obtain ⟨_, _, m1, m2, _, _, pa, pb, pc⟩ := init_trees_spec Q query fuel _ 0 _ s hs
          (fun j h1 h2 => hwf j h1 (by omega))
        simp only at m1 m2 pa pb
        have hcount : ∀ a, old.mem.next ≤ a → s.mem.freed.count a = 0 := by
          intro a ha
          rw [m1, List.count_eq_zero]
          intro hm
          have := hold a hm
          omega
        constructor
        · intro _
          refine ⟨⟨?_, ?_, ?_, ?_⟩, trivial⟩
          · intro a ha
            show a < s.mem.next
            have : a ∈ s.mem.freed := ha
            rw [m1] at this
            have := hold a this
            omega
          · intro j a j0 j1 hp
            have := pa j a j0 (by omega) hp
            exact ⟨this.1, this.2, hcount a this.1⟩
          · intro a a0 a1
            obtain ⟨j, j0, j1, hp⟩ := pb a a0 a1
            exact Or.inl ⟨j, j0, by omega, hp⟩
          · intro j k a j0 j1 k0 k1 hj hk
            exact pc j k a j0 (by omega) k0 (by omega) hj hk
        · intro hr
          simp at hr
  have reachable_owner_inv : ∀ {Q : Index} {E : Env} {top_k : Int} {query : Int → ℚ} {list :
      MinK_List} {fuel : Nat} {old s : State} (hwf : ∀ j, 0 ≤ j → j < Q.m_ → (Q.trees_ j).IndexWF)
      (hold : ∀ a ∈ old.mem.freed, a < old.mem.next) (h : Reachable Q E top_k query list fuel old
      s),
      OwnerInv Q old.mem.next s := by
    intro Q E top_k query list fuel old s hwf hold h
    exact
      reachable_induct (OwnerInv Q old.mem.next)
        (fun s0 h0 => knn_start_owner Q E query list fuel old s0 hwf hold h0)
        (fun s hs => step_owner_inv Q E top_k old.mem.next s hs) h
  have hinv := reachable_owner_inv hwf hold h
  refine ⟨?_, ?_, ?_, ?_, ?_, ?_⟩
  · intro a a0 a1
    by_cases hr : s.pc = .returned
    · rw [hinv.2 hr a a0 a1]
    · obtain ⟨⟨_, i2, i3, _⟩, _⟩ := hinv.1 hr
      rcases i3 a a0 a1 with ⟨j, j0, j1, hp⟩ | hc
      · rw [(i2 j a j0 j1 hp).2.2]; omega
      · rw [hc]
  · intro hr a a0 a1
    obtain ⟨⟨_, i2, i3, _⟩, _⟩ := hinv.1 hr
    constructor
    · intro hc
      rcases i3 a a0 a1 with hp | h1
      · exact hp
      · omega
    · rintro ⟨j, j0, j1, hp⟩
      exact (i2 j a j0 j1 hp).2.2
  · intro hr a a0 a1
    exact hinv.2 hr a a0 a1
  · intro T mem pio rptr lptr a ha
    obtain ⟨node, hn, hc⟩ := update_left_buffer_mem T mem pio rptr lptr a ha
    refine ⟨node, hn, ?_, ?_⟩
    · intro hp
      rcases hc with ⟨_, _, c⟩ | ⟨c, _⟩
      · rw [c]
      · exact absurd hp c
    · intro hp
      rcases hc with ⟨c, _⟩ | ⟨_, _, c⟩
      · exact absurd c hp
      · exact c
  · intro T mem pio lptr rptr a ha
    obtain ⟨node, hn, hc⟩ := update_right_buffer_mem T mem pio lptr rptr a ha
    refine ⟨node, hn, ?_, ?_⟩
    · intro hp
      rcases hc with ⟨_, _, c⟩ | ⟨c, _⟩
      · rw [c]
      · exact absurd hp c
    · intro hp
      rcases hc with ⟨c, _⟩ | ⟨_, _, c⟩
      · exact absurd c hp
      · exact c
  · intro t i a
    obtain ⟨_, d2, d3, _⟩ := delete_tree_ptr_at_mem t i
    exact ⟨d2 a, d3 a⟩

theorem two_tree_is_index (b : Int) (h : two_tree.IsIndex b) : b = 3 := by
  induction h with
  | root _ => rfl
  | son b c _ hl _ ih => subst ih; exact absurd hl (by decide)

theorem two_tree_index_wf : two_tree.IndexWF := by
  intro b hb
  have := two_tree_is_index b hb
  subst this
  exact ⟨by decide, by decide, by decide, fun hl => absurd hl (by decide)⟩

theorem knn_release_once_witness :
    (two_state3 29).pc = .returned ∧ (two_state3 29).mem.next = 2 ∧
    (∀ a, 0 ≤ a → a < 2 → (two_state3 29).mem.freed.count a = 1) ∧
    (two_state3 7).mem.freed.count 0 = 0 := by
  have hwf : ∀ j, 0 ≤ j → j < two_index.m_ → (two_index.trees_ j).IndexWF :=
    fun _ _ _ => two_tree_index_wf
  have hold : ∀ a ∈ ex_old.mem.freed, a < ex_old.mem.next := by
    intro a ha
    have : a ∈ ([] : List Nat) := ha
    simp at this
  have h29 := knn_release_once two_index two_env 3 (fun _ => 2) ⟨3, []⟩ 1 ex_old (two_state3 29)
    hwf hold (two_reachable3 29)
  have hpc : (two_state3 29).pc = .returned := by decide!
  have hnext : (two_state3 29).mem.next = 2 := by decide!
  refine ⟨hpc, hnext, ?_, by decide!⟩
  intro a a0 a1
  exact h29.2.2.1 hpc a (Nat.zero_le _) (by rw [hnext]; exact a1)

theorem new_cauchy_prob_strictMono : StrictMono new_cauchy_prob := by
  intro x y h
  unfold new_cauchy_prob
  have := Real.arctan_strictMono h
  have hpi := Real.pi_pos
  apply div_lt_div_of_pos_right _ hpi
  linarith

set_option maxHeartbeats 4000000 in
/-- The analysis behind the widths of `calc_params`: `w0`, `w1`, `w2` are
positive with `w2 <= w1`; and for `1 < c1 <= c2` each of `w0`, `w1`, `w2` and
the interpolated width for `0 < p <= 2` has a half that does not decrease and
a quotient by `2 c` that does not increase in `c` (monotone secant slopes of
the exponential function). -/
theorem width_analysis :
    (∀ c : ℝ, 1 < c →
      0 < (c - 1) / Real.log (Real.sqrt c) ∧ 0 < 2 * Real.sqrt c ∧
      0 < Real.sqrt ((8 * c * c * Real.log c) / (c * c - 1)) ∧
      Real.sqrt ((8 * c * c * Real.log c) / (c * c - 1)) ≤ 2 * Real.sqrt c) ∧
    (∀ c1 c2 : ℝ, 1 < c1 → c1 ≤ c2 →
      (c1 - 1) / Real.log (Real.sqrt c1) / 2 ≤ (c2 - 1) / Real.log (Real.sqrt c2) / 2 ∧
      (c2 - 1) / Real.log (Real.sqrt c2) / (2 * c2) ≤
        (c1 - 1) / Real.log (Real.sqrt c1) / (2 * c1)) ∧
    (∀ c1 c2 : ℝ, 1 < c1 → c1 ≤ c2 →
      2 * Real.sqrt c1 / 2 ≤ 2 * Real.sqrt c2 / 2 ∧
      2 * Real.sqrt c2 / (2 * c2) ≤ 2 * Real.sqrt c1 / (2 * c1)) ∧
    (∀ c1 c2 : ℝ, 1 < c1 → c1 ≤ c2 →
      Real.sqrt ((8 * c1 * c1 * Real.log c1) / (c1 * c1 - 1)) / 2 ≤
        Real.sqrt ((8 * c2 * c2 * Real.log c2) / (c2 * c2 - 1)) / 2 ∧
      Real.sqrt ((8 * c2 * c2 * Real.log c2) / (c2 * c2 - 1)) / (2 * c2) ≤
        Real.sqrt ((8 * c1 * c1 * Real.log c1) / (c1 * c1 - 1)) / (2 * c1)) ∧
    (∀ p c1 c2 : ℝ, 1 < c1 → c1 ≤ c2 → 0 < p → p ≤ 2 →
      ((Real.sqrt ((8 * c1 * c1 * Real.log c1) / (c1 * c1 - 1)) - 2 * Real.sqrt c1) * p +
          (2 * (2 * Real.sqrt c1) -
            Real.sqrt ((8 * c1 * c1 * Real.log c1) / (c1 * c1 - 1)))) / 2 ≤
        ((Real.sqrt ((8 * c2 * c2 * Real.log c2) / (c2 * c2 - 1)) - 2 * Real.sqrt c2) * p +
          (2 * (2 * Real.sqrt c2) -
            Real.sqrt ((8 * c2 * c2 * Real.log c2) / (c2 * c2 - 1)))) / 2 ∧
      ((Real.sqrt ((8 * c2 * c2 * Real.log c2) / (c2 * c2 - 1)) - 2 * Real.sqrt c2) * p +
          (2 * (2 * Real.sqrt c2) -
            Real.sqrt ((8 * c2 * c2 * Real.log c2) / (c2 * c2 - 1)))) / (2 * c2) ≤
        ((Real.sqrt ((8 * c1 * c1 * Real.log c1) / (c1 * c1 - 1)) - 2 * Real.sqrt c1) * p +
          (2 * (2 * Real.sqrt c1) -
            Real.sqrt ((8 * c1 * c1 * Real.log c1) / (c1 * c1 - 1)))) / (2 * c1)) := by
  have log_le_sinh_form : ∀ (c : ℝ) (hc : 1 < c),
      2 * c * Real.log c ≤ c * c - 1 := by
    intro c hc
    have hc0 : 0 < c := by linarith
    have h := (Real.self_le_sinh_iff (x := Real.log c)).mpr (le_of_lt (Real.log_pos hc))
    rw [Real.sinh_eq, Real.exp_neg, Real.exp_log hc0] at h
    have h2 : c * Real.log c ≤ c * ((c - c⁻¹) / 2) := mul_le_mul_of_nonneg_left h (le_of_lt hc0)
    have h3 : c * ((c - c⁻¹) / 2) = (c * c - 1) / 2 := by
      field_simp
      ring
    rw [h3] at h2
    linarith
  have width_facts : ∀ (c : ℝ) (hc : 1 < c),
      0 < (c - 1) / Real.log (Real.sqrt c) ∧ 0 < 2 * Real.sqrt c ∧
      0 < Real.sqrt ((8 * c * c * Real.log c) / (c * c - 1)) ∧
      Real.sqrt ((8 * c * c * Real.log c) / (c * c - 1)) ≤ 2 * Real.sqrt c := by
    intro c hc
    have hc0 : 0 < c := by linarith
    have hs : 1 < Real.sqrt c := by
      rw [Real.lt_sqrt (by norm_num)]; simpa using hc
    have hl : 0 < Real.log c := Real.log_pos hc
    have hcc : 0 < c * c - 1 := by nlinarith
    have hx : 0 < (8 * c * c * Real.log c) / (c * c - 1) := by positivity
    refine ⟨div_pos (by linarith) (Real.log_pos hs), by positivity, Real.sqrt_pos.mpr hx, ?_⟩
    have e : 2 * Real.sqrt c = Real.sqrt (4 * c) := by
      rw [show (4 : ℝ) * c = 2 ^ 2 * c by norm_num, Real.sqrt_mul (by norm_num),
        Real.sqrt_sq (by norm_num)]
    rw [e]
    apply Real.sqrt_le_sqrt
    rw [div_le_iff₀ hcc]
    have := log_le_sinh_form c hc
    nlinarith
  have secant_exp : ∀ (x y : ℝ) (hx : x ≠ 0) (hy : y ≠ 0) (hxy : x ≤ y),
      (Real.exp x - 1) / x ≤ (Real.exp y - 1) / y := by
    intro x y hx hy hxy
    have h := convexOn_exp.secant_mono (Set.mem_univ (0 : ℝ)) (Set.mem_univ x) (Set.mem_univ y)
      hx hy hxy
    simpa using h
  have levy_width_mono : ∀ (c1 c2 : ℝ) (h1 : 1 < c1) (h12 : c1 ≤ c2),
      (c1 - 1) / Real.log c1 ≤ (c2 - 1) / Real.log c2 ∧
      (1 - c2⁻¹) / Real.log c2 ≤ (1 - c1⁻¹) / Real.log c1 := by
    intro c1 c2 h1 h12
    have hc1 : 0 < c1 := by linarith
    have hc2 : 0 < c2 := by linarith
    have hl1 : 0 < Real.log c1 := Real.log_pos h1
    have hl2 : 0 < Real.log c2 := Real.log_pos (by linarith)
    have hl12 : Real.log c1 ≤ Real.log c2 := Real.log_le_log hc1 h12
    constructor
    · have := secant_exp _ _ (ne_of_gt hl1) (ne_of_gt hl2) hl12
      rwa [Real.exp_log hc1, Real.exp_log hc2] at this
    · have := secant_exp (-Real.log c2) (-Real.log c1) (by linarith) (by linarith) (by linarith)
      rw [Real.exp_neg, Real.exp_neg, Real.exp_log hc1, Real.exp_log hc2] at this
      have e1 : (c2⁻¹ - 1) / -Real.log c2 = (1 - c2⁻¹) / Real.log c2 := by
        rw [div_neg, ← neg_div]; ring_nf
      have e2 : (c1⁻¹ - 1) / -Real.log c1 = (1 - c1⁻¹) / Real.log c1 := by
        rw [div_neg, ← neg_div]; ring_nf
      rwa [e1, e2] at this
  have gauss_width_mono : ∀ (c1 c2 : ℝ) (h1 : 1 < c1) (h12 : c1 ≤ c2),
      2 * c1 * c1 * Real.log c1 / (c1 * c1 - 1) ≤ 2 * c2 * c2 * Real.log c2 / (c2 * c2 - 1) ∧
      2 * Real.log c2 / (c2 * c2 - 1) ≤ 2 * Real.log c1 / (c1 * c1 - 1) := by
    intro c1 c2 h1 h12
    have hc1 : 0 < c1 := by linarith
    have hc2 : 0 < c2 := by linarith
    have hl1 : 0 < Real.log c1 := Real.log_pos h1
    have hl2 : 0 < Real.log c2 := Real.log_pos (by linarith)
    have hq1 : 1 < c1 * c1 := by nlinarith
    have hq2 : 1 < c2 * c2 := by nlinarith
    have hq12 : c1 * c1 ≤ c2 * c2 := by nlinarith
    have hm := levy_width_mono (c1 * c1) (c2 * c2) hq1 hq12
    have e1 : Real.log (c1 * c1) = 2 * Real.log c1 := by
      rw [Real.log_mul (ne_of_gt hc1) (ne_of_gt hc1)]; ring
    have e2 : Real.log (c2 * c2) = 2 * Real.log c2 := by
      rw [Real.log_mul (ne_of_gt hc2) (ne_of_gt hc2)]; ring
    rw [e1, e2] at hm
    obtain ⟨m1, m2⟩ := hm
    have hd1 : 0 < c1 * c1 - 1 := by linarith
    have hd2 : 0 < c2 * c2 - 1 := by linarith
    constructor
    · -- reciprocal of m2
      have a1 : 0 < (1 - (c1 * c1)⁻¹) / (2 * Real.log c1) := by
        apply div_pos _ (by positivity)
        have : (c1 * c1)⁻¹ < 1 := inv_lt_one_of_one_lt₀ hq1
        linarith
      have a2 : 0 < (1 - (c2 * c2)⁻¹) / (2 * Real.log c2) := by
        apply div_pos _ (by positivity)
        have : (c2 * c2)⁻¹ < 1 := inv_lt_one_of_one_lt₀ hq2
        linarith
      have e3 : 2 * c1 * c1 * Real.log c1 / (c1 * c1 - 1) =
          ((1 - (c1 * c1)⁻¹) / (2 * Real.log c1))⁻¹ := by
        field_simp
        ring
      have e4 : 2 * c2 * c2 * Real.log c2 / (c2 * c2 - 1) =
          ((1 - (c2 * c2)⁻¹) / (2 * Real.log c2))⁻¹ := by
        field_simp
        ring
      rw [e3, e4]
      exact inv_anti₀ a2 m2
    · have a1 : 0 < (c1 * c1 - 1) / (2 * Real.log c1) := by positivity
      have e3 : 2 * Real.log c1 / (c1 * c1 - 1) = ((c1 * c1 - 1) / (2 * Real.log c1))⁻¹ := by
        rw [inv_div]
      have e4 : 2 * Real.log c2 / (c2 * c2 - 1) = ((c2 * c2 - 1) / (2 * Real.log c2))⁻¹ := by
        rw [inv_div]
      rw [e3, e4]
      exact inv_anti₀ a1 m1
  have gauss_width_eq : ∀ (c : ℝ) (hc : 1 < c),
      Real.sqrt ((8 * c * c * Real.log c) / (c * c - 1)) =
      2 * Real.sqrt (2 * c * c * Real.log c / (c * c - 1)) ∧
      Real.sqrt (2 * c * c * Real.log c / (c * c - 1)) / c =
      Real.sqrt (2 * Real.log c / (c * c - 1)) ∧
      1 ≤ Real.sqrt (2 * c * c * Real.log c / (c * c - 1)) ∧
      Real.sqrt (2 * c * c * Real.log c / (c * c - 1)) ≤ Real.sqrt c ∧
      2 * c * c * Real.log c / (c * c - 1) = 2 * Real.log c + 2 * Real.log c / (c * c - 1) := by
    intro c hc
    have hc0 : 0 < c := by linarith
    have hl : 0 < Real.log c := Real.log_pos hc
    have hd : 0 < c * c - 1 := by nlinarith
    refine ⟨?_, ?_, ?_, ?_, ?_⟩
    · have e : (8 * c * c * Real.log c) / (c * c - 1) =
          2 ^ 2 * (2 * c * c * Real.log c / (c * c - 1)) := by ring
      rw [e, Real.sqrt_mul (by norm_num), Real.sqrt_sq (by norm_num)]
    · have e : 2 * Real.log c / (c * c - 1) = (2 * c * c * Real.log c / (c * c - 1)) / c ^ 2 := by
        field_simp
        ring
      rw [e, Real.sqrt_div (by positivity) (c ^ 2), Real.sqrt_sq (le_of_lt hc0)]
    · rw [Real.one_le_sqrt, le_div_iff₀ hd]
      have h := Real.one_sub_inv_le_log_of_pos (show (0 : ℝ) < c * c by positivity)
      rw [Real.log_mul (ne_of_gt hc0) (ne_of_gt hc0)] at h
      have h2 : (c * c) * (1 - (c * c)⁻¹) ≤ (c * c) * (Real.log c + Real.log c) :=
        mul_le_mul_of_nonneg_left h (by positivity)
      have h3 : (c * c) * (1 - (c * c)⁻¹) = c * c - 1 := by
        field_simp
      rw [h3] at h2
      linarith
    · apply Real.sqrt_le_sqrt
      rw [div_le_iff₀ hd]
      have := log_le_sinh_form c hc
      nlinarith
    · field_simp
      ring
  have log_sub_le_sqrt : ∀ (c1 c2 : ℝ) (h1 : 1 < c1) (h12 : c1 ≤ c2),
      Real.log c2 - Real.log c1 ≤ 2 * (Real.sqrt c2 - Real.sqrt c1) := by
    intro c1 c2 h1 h12
    have hc1 : 0 < c1 := by linarith
    have hc2 : 0 < c2 := by linarith
    have hs1 : 1 ≤ Real.sqrt c1 := by
      rw [Real.one_le_sqrt]; linarith
    have hs12 : Real.sqrt c1 ≤ Real.sqrt c2 := Real.sqrt_le_sqrt h12
    have hs1p : 0 < Real.sqrt c1 := by linarith
    have hs2p : 0 < Real.sqrt c2 := by linarith
    have h := Real.log_le_sub_one_of_pos (div_pos hs2p hs1p)
    rw [Real.log_div (ne_of_gt hs2p) (ne_of_gt hs1p), Real.log_sqrt (le_of_lt hc2),
      Real.log_sqrt (le_of_lt hc1)] at h
    have h2 : Real.sqrt c2 / Real.sqrt c1 - 1 ≤ Real.sqrt c2 - Real.sqrt c1 := by
      rw [div_sub_one (ne_of_gt hs1p), div_le_iff₀ hs1p]
      nlinarith
    linarith
  have alg_inv_sqrt : ∀ (s c : ℝ) (hs : 0 < s) (hq : s * s = c),
      2 * s / (2 * c) = 1 / s := by
    intro s c hs hq
    subst hq
    field_simp
    ring
  have alg_mix_up : ∀ (B1 B2 l1 l2 r1 r2 s1 s2 : ℝ) (hB1 : 1 ≤ B1) (hB12 : B1 ≤ B2) (hsq1 : B1 * B1 = 2 * l1 + r1) (hsq2 : B2 * B2 = 2 * l2 + r2) (hr : r2 ≤ r1) (hls : l2 - l1 ≤ 2 * (s2 - s1)),
      (2 * (2 * s1) - 2 * B1) / 2 ≤ (2 * (2 * s2) - 2 * B2) / 2 := by
    intro B1 B2 l1 l2 r1 r2 s1 s2 hB1 hB12 hsq1 hsq2 hr hls
    have h1 : (B2 - B1) * 2 ≤ (B2 - B1) * (B2 + B1) :=
      mul_le_mul_of_nonneg_left (by linarith) (by linarith)
    have h2 : (B2 - B1) * (B2 + B1) = B2 * B2 - B1 * B1 := by ring
    linarith
  have alg_mix_down : ∀ (B1 B2 s1 s2 : ℝ) (hs1 : 1 ≤ s1) (hs12 : s1 ≤ s2) (hB12 : B1 ≤ B2) (hB1 : B1 ≤ s1),
      (2 * (2 * s2) - 2 * B2) / (2 * (s2 * s2)) ≤ (2 * (2 * s1) - 2 * B1) / (2 * (s1 * s1)) := by
    intro B1 B2 s1 s2 hs1 hs12 hB12 hB1
    have hs2 : 1 ≤ s2 := by linarith
    have p1 : 0 < 2 * (s1 * s1) := by positivity
    have p2 : 0 < 2 * (s2 * s2) := by positivity
    rw [div_le_div_iff p2 p1]
    have k1 : B1 * (s1 + s2) ≤ 2 * s1 * s2 := by nlinarith
    have k2 : 0 ≤ (s2 - s1) * (2 * s1 * s2 - B1 * (s1 + s2)) :=
      mul_nonneg (by linarith) (by linarith)
    have k3 : 0 ≤ (B2 - B1) * (s1 * s1) := mul_nonneg (by linarith) (by positivity)
    nlinarith
  have width_mono_levy : ∀ (c1 c2 : ℝ) (h1 : 1 < c1) (h12 : c1 ≤ c2),
      (c1 - 1) / Real.log (Real.sqrt c1) / 2 ≤ (c2 - 1) / Real.log (Real.sqrt c2) / 2 ∧
      (c2 - 1) / Real.log (Real.sqrt c2) / (2 * c2) ≤
      (c1 - 1) / Real.log (Real.sqrt c1) / (2 * c1) := by
    intro c1 c2 h1 h12
    have hc1 : 0 < c1 := by linarith
    have hc2 : 0 < c2 := by linarith
    have hl1 : 0 < Real.log c1 := Real.log_pos h1
    have hl2 : 0 < Real.log c2 := Real.log_pos (by linarith)
    obtain ⟨v1, v2⟩ := levy_width_mono c1 c2 h1 h12
    rw [Real.log_sqrt (le_of_lt hc1), Real.log_sqrt (le_of_lt hc2)]
    have e1 : (c1 - 1) / (Real.log c1 / 2) / 2 = (c1 - 1) / Real.log c1 := by
      field_simp
      ring
    have e2 : (c2 - 1) / (Real.log c2 / 2) / 2 = (c2 - 1) / Real.log c2 := by
      field_simp
      ring
    have e3 : (c1 - 1) / (Real.log c1 / 2) / (2 * c1) = (1 - c1⁻¹) / Real.log c1 := by
      field_simp
      ring
    have e4 : (c2 - 1) / (Real.log c2 / 2) / (2 * c2) = (1 - c2⁻¹) / Real.log c2 := by
      field_simp
      ring
    rw [e1, e2, e3, e4]
    exact ⟨v1, v2⟩
  have width_mono_cauchy : ∀ (c1 c2 : ℝ) (h1 : 1 < c1) (h12 : c1 ≤ c2),
      2 * Real.sqrt c1 / 2 ≤ 2 * Real.sqrt c2 / 2 ∧
      2 * Real.sqrt c2 / (2 * c2) ≤ 2 * Real.sqrt c1 / (2 * c1) := by
    intro c1 c2 h1 h12
    have hc1 : 0 < c1 := by linarith
    have hc2 : 0 < c2 := by linarith
    have hs1 : 0 < Real.sqrt c1 := Real.sqrt_pos.mpr hc1
    have hs2 : 0 < Real.sqrt c2 := Real.sqrt_pos.mpr hc2
    have hs12 : Real.sqrt c1 ≤ Real.sqrt c2 := Real.sqrt_le_sqrt h12
    refine ⟨by linarith, ?_⟩
    rw [alg_inv_sqrt _ c1 hs1 (Real.mul_self_sqrt (le_of_lt hc1)),
      alg_inv_sqrt _ c2 hs2 (Real.mul_self_sqrt (le_of_lt hc2))]
    exact one_div_le_one_div_of_le hs1 hs12
  have width_mono_gauss : ∀ (c1 c2 : ℝ) (h1 : 1 < c1) (h12 : c1 ≤ c2),
      Real.sqrt ((8 * c1 * c1 * Real.log c1) / (c1 * c1 - 1)) / 2 ≤
      Real.sqrt ((8 * c2 * c2 * Real.log c2) / (c2 * c2 - 1)) / 2 ∧
      Real.sqrt ((8 * c2 * c2 * Real.log c2) / (c2 * c2 - 1)) / (2 * c2) ≤
      Real.sqrt ((8 * c1 * c1 * Real.log c1) / (c1 * c1 - 1)) / (2 * c1) := by
    intro c1 c2 h1 h12
    have h2 : 1 < c2 := by linarith
    have hc1 : 0 < c1 := by linarith
    have hc2 : 0 < c2 := by linarith
    obtain ⟨g1, g2⟩ := gauss_width_mono c1 c2 h1 h12
    obtain ⟨a1, a2, _, _, _⟩ := gauss_width_eq c1 h1
    obtain ⟨b1, b2, _, _, _⟩ := gauss_width_eq c2 h2
    have hB12 := Real.sqrt_le_sqrt g1
    rw [a1, b1]
    refine ⟨by linarith, ?_⟩
    have e1 : 2 * Real.sqrt (2 * c1 * c1 * Real.log c1 / (c1 * c1 - 1)) / (2 * c1) =
        Real.sqrt (2 * c1 * c1 * Real.log c1 / (c1 * c1 - 1)) / c1 := by
      rw [mul_div_mul_left _ _ (by norm_num : (2 : ℝ) ≠ 0)]
    have e2 : 2 * Real.sqrt (2 * c2 * c2 * Real.log c2 / (c2 * c2 - 1)) / (2 * c2) =
        Real.sqrt (2 * c2 * c2 * Real.log c2 / (c2 * c2 - 1)) / c2 := by
      rw [mul_div_mul_left _ _ (by norm_num : (2 : ℝ) ≠ 0)]
    rw [e1, e2, a2, b2]
    exact Real.sqrt_le_sqrt g2
  have width_mono_mix : ∀ (c1 c2 : ℝ) (h1 : 1 < c1) (h12 : c1 ≤ c2),
      (2 * (2 * Real.sqrt c1) - Real.sqrt ((8 * c1 * c1 * Real.log c1) / (c1 * c1 - 1))) / 2 ≤
      (2 * (2 * Real.sqrt c2) -
      Real.sqrt ((8 * c2 * c2 * Real.log c2) / (c2 * c2 - 1))) / 2 ∧
      (2 * (2 * Real.sqrt c2) - Real.sqrt ((8 * c2 * c2 * Real.log c2) / (c2 * c2 - 1))) /
      (2 * c2) ≤
      (2 * (2 * Real.sqrt c1) - Real.sqrt ((8 * c1 * c1 * Real.log c1) / (c1 * c1 - 1))) /
      (2 * c1) := by
    intro c1 c2 h1 h12
    have h2 : 1 < c2 := by linarith
    have hc1 : 0 < c1 := by linarith
    have hc2 : 0 < c2 := by linarith
    obtain ⟨g1, g2⟩ := gauss_width_mono c1 c2 h1 h12
    obtain ⟨a1, _, a3, a4, a5⟩ := gauss_width_eq c1 h1
    obtain ⟨b1, _, _, _, b5⟩ := gauss_width_eq c2 h2
    have hB12 := Real.sqrt_le_sqrt g1
    have hs1 : 1 ≤ Real.sqrt c1 := by rw [Real.one_le_sqrt]; linarith
    have hs12 : Real.sqrt c1 ≤ Real.sqrt c2 := Real.sqrt_le_sqrt h12
    have hq1 : Real.sqrt c1 * Real.sqrt c1 = c1 := Real.mul_self_sqrt (le_of_lt hc1)
    have hq2 : Real.sqrt c2 * Real.sqrt c2 = c2 := Real.mul_self_sqrt (le_of_lt hc2)
    have hsq1 := Real.mul_self_sqrt (Real.sqrt_nonneg
      (2 * c1 * c1 * Real.log c1 / (c1 * c1 - 1)) |> fun _ =>
        (show (0 : ℝ) ≤ 2 * c1 * c1 * Real.log c1 / (c1 * c1 - 1) by
          have : 0 < c1 * c1 - 1 := by nlinarith
          have := Real.log_pos h1
          positivity))
    have hsq2 := Real.mul_self_sqrt (Real.sqrt_nonneg
      (2 * c2 * c2 * Real.log c2 / (c2 * c2 - 1)) |> fun _ =>
        (show (0 : ℝ) ≤ 2 * c2 * c2 * Real.log c2 / (c2 * c2 - 1) by
          have : 0 < c2 * c2 - 1 := by nlinarith
          have := Real.log_pos h2
          positivity))
    have hls := log_sub_le_sqrt c1 c2 h1 h12
    rw [a1, b1]
    constructor
    · exact alg_mix_up _ _ (Real.log c1) (Real.log c2) _ _ _ _ a3 hB12
        (by rw [hsq1]; exact a5) (by rw [hsq2]; exact b5) g2 hls
    · have key := alg_mix_down _ _ _ _ hs1 hs12 hB12 a4
      rw [hq1, hq2] at key
      exact key
  have alg_combo : ∀ (x1 x2 y1 y2 d1 d2 s t : ℝ) (hs : 0 ≤ s) (ht : 0 ≤ t) (hx : x1 / d1 ≤ x2 / d2) (hy : y1 / d1 ≤ y2 / d2),
      (s * x1 + t * y1) / d1 ≤ (s * x2 + t * y2) / d2 := by
    intro x1 x2 y1 y2 d1 d2 s t hs ht hx hy
    have e1 : (s * x1 + t * y1) / d1 = s * (x1 / d1) + t * (y1 / d1) := by ring
    have e2 : (s * x2 + t * y2) / d2 = s * (x2 / d2) + t * (y2 / d2) := by ring
    rw [e1, e2]
    exact add_le_add (mul_le_mul_of_nonneg_left hx hs) (mul_le_mul_of_nonneg_left hy ht)
  have width_mono_interp : ∀ (p c1 c2 : ℝ) (h1 : 1 < c1) (h12 : c1 ≤ c2) (hp0 : 0 < p) (hp2 : p ≤ 2),
      ((Real.sqrt ((8 * c1 * c1 * Real.log c1) / (c1 * c1 - 1)) - 2 * Real.sqrt c1) * p +
      (2 * (2 * Real.sqrt c1) -
      Real.sqrt ((8 * c1 * c1 * Real.log c1) / (c1 * c1 - 1)))) / 2 ≤
      ((Real.sqrt ((8 * c2 * c2 * Real.log c2) / (c2 * c2 - 1)) - 2 * Real.sqrt c2) * p +
      (2 * (2 * Real.sqrt c2) -
      Real.sqrt ((8 * c2 * c2 * Real.log c2) / (c2 * c2 - 1)))) / 2 ∧
      ((Real.sqrt ((8 * c2 * c2 * Real.log c2) / (c2 * c2 - 1)) - 2 * Real.sqrt c2) * p +
      (2 * (2 * Real.sqrt c2) -
      Real.sqrt ((8 * c2 * c2 * Real.log c2) / (c2 * c2 - 1)))) / (2 * c2) ≤
      ((Real.sqrt ((8 * c1 * c1 * Real.log c1) / (c1 * c1 - 1)) - 2 * Real.sqrt c1) * p +
      (2 * (2 * Real.sqrt c1) -
      Real.sqrt ((8 * c1 * c1 * Real.log c1) / (c1 * c1 - 1)))) / (2 * c1) := by
    intro p c1 c2 h1 h12 hp0 hp2
    obtain ⟨a1, a2⟩ := width_mono_cauchy c1 c2 h1 h12
    obtain ⟨g1, g2⟩ := width_mono_gauss c1 c2 h1 h12
    obtain ⟨m1, m2⟩ := width_mono_mix c1 c2 h1 h12
    generalize Real.sqrt ((8 * c1 * c1 * Real.log c1) / (c1 * c1 - 1)) = G1 at *
    generalize Real.sqrt ((8 * c2 * c2 * Real.log c2) / (c2 * c2 - 1)) = G2 at *
    generalize Real.sqrt c1 = A1 at *
    generalize Real.sqrt c2 = A2 at *
    by_cases hp1 : p < 1
    · have e1 : (G1 - 2 * A1) * p + (2 * (2 * A1) - G1) =
          p * (2 * A1) + (1 - p) * (2 * (2 * A1) - G1) := by ring
      have e2 : (G2 - 2 * A2) * p + (2 * (2 * A2) - G2) =
          p * (2 * A2) + (1 - p) * (2 * (2 * A2) - G2) := by ring
      rw [e1, e2]
      exact ⟨alg_combo _ _ _ _ _ _ _ _ (le_of_lt hp0) (by linarith) a1 m1,
        alg_combo _ _ _ _ _ _ _ _ (le_of_lt hp0) (by linarith) a2 m2⟩
    · rw [not_lt] at hp1
      have e1 : (G1 - 2 * A1) * p + (2 * (2 * A1) - G1) =
          (2 - p) * (2 * A1) + (p - 1) * G1 := by ring
      have e2 : (G2 - 2 * A2) * p + (2 * (2 * A2) - G2) =
          (2 - p) * (2 * A2) + (p - 1) * G2 := by ring
      rw [e1, e2]
      exact ⟨alg_combo _ _ _ _ _ _ _ _ (by linarith) (by linarith) a1 g1,
        alg_combo _ _ _ _ _ _ _ _ (by linarith) (by linarith) a2 g2⟩
  exact ⟨width_facts, width_mono_levy, width_mono_cauchy, width_mono_gauss, width_mono_interp⟩

/-- The width `calc_params` picks is positive, and `p1_`, `p2_` are one
strictly increasing probability function at `w_ / 2` and at `w_ / (2 c)`. -/
theorem calc_width_spec (K : Kernel) (hK : K.Increasing) (FLOATZERO p_ zeta_ c : ℝ)
    (hc : 1 < c) (hp2 : p_ ≤ 2) :
    0 < (calc_width K FLOATZERO p_ zeta_ c).1 ∧
    ∃ F : ℝ → ℝ, StrictMonoOn F (Set.Ioi 0) ∧
      (calc_width K FLOATZERO p_ zeta_ c).2.1 = F ((calc_width K FLOATZERO p_ zeta_ c).1 / 2) ∧
      (calc_width K FLOATZERO p_ zeta_ c).2.2 =
        F ((calc_width K FLOATZERO p_ zeta_ c).1 / (2 * c)) := by
  obtain ⟨f0, f1, f2, f3⟩ := width_analysis.1 c hc
  obtain ⟨k0, k2, ks⟩ := hK
  unfold calc_width
  simp only
  split_ifs with c0 c1 c2 c3 c4 c5
  · exact ⟨f0, K.new_levy_prob, k0, rfl, rfl⟩
  · exact ⟨f1, new_cauchy_prob, new_cauchy_prob_strictMono.strictMonoOn _, rfl, rfl⟩
  · exact ⟨f2, K.new_gaussian_prob, k2, rfl, rfl⟩
  · refine ⟨by norm_num, K.stable_cdf p_ zeta_, ks _ _, ?_, ?_⟩ <;>
      simp [new_stable_prob]
  · refine ⟨by norm_num, K.stable_cdf p_ zeta_, ks _ _, ?_, ?_⟩ <;>
      simp [new_stable_prob]
  · refine ⟨by norm_num, K.stable_cdf p_ zeta_, ks _ _, ?_, ?_⟩ <;>
      simp [new_stable_prob]
  · refine ⟨?_, K.stable_cdf p_ zeta_, ks _ _, ?_, ?_⟩
    · by_cases hp1 : p_ < 1
      · nlinarith
      · rw [not_lt] at hp1
        nlinarith
    · simp [new_stable_prob]
    · simp [new_stable_prob]

/-- C20: for every approximation ratio `c > 1` (and `p <= 2`) the width `w_`
of `calc_params` is positive and the collision probabilities satisfy `p1_ >
p2_`: they are the values of one probability function, strictly increasing on
the positive reals, at `w_ / 2` and at `w_ / (2 c)` (for `p = 1` the function
`2 * atan(x) / pi`); so `p1_ - p2_ > 0` and the divisor `para3 = 2 * (p1_ -
p2_)^2` of `m_` is not zero. -/
theorem calc_params_prob_gap (K : Kernel) (FLOATZERO : ℝ) (CANDIDATES n_pts_ : Int)
    (p_ zeta_ c : ℝ) (hK : K.Increasing) (hc : 1 < c) (hp2 : p_ ≤ 2) :
    0 < (calc_params K FLOATZERO CANDIDATES n_pts_ p_ zeta_ c).w_ ∧
    (∃ F : ℝ → ℝ, StrictMonoOn F (Set.Ioi 0) ∧
      (calc_params K FLOATZERO CANDIDATES n_pts_ p_ zeta_ c).p1_ =
        F ((calc_params K FLOATZERO CANDIDATES n_pts_ p_ zeta_ c).w_ / 2) ∧
      (calc_params K FLOATZERO CANDIDATES n_pts_ p_ zeta_ c).p2_ =
        F ((calc_params K FLOATZERO CANDIDATES n_pts_ p_ zeta_ c).w_ / (2 * c))) ∧
    (¬ |p_ - 1 / 2| < FLOATZERO → |p_ - 1| < FLOATZERO →
      (calc_params K FLOATZERO CANDIDATES n_pts_ p_ zeta_ c).p1_ =
        2 * Real.arctan ((calc_params K FLOATZERO CANDIDATES n_pts_ p_ zeta_ c).w_ / 2) /
          Real.pi ∧
      (calc_params K FLOATZERO CANDIDATES n_pts_ p_ zeta_ c).p2_ =
        2 * Real.arctan ((calc_params K FLOATZERO CANDIDATES n_pts_ p_ zeta_ c).w_ / (2 * c)) /
          Real.pi) ∧
    (calc_params K FLOATZERO CANDIDATES n_pts_ p_ zeta_ c).p2_ <
      (calc_params K FLOATZERO CANDIDATES n_pts_ p_ zeta_ c).p1_ ∧
    0 < (calc_params K FLOATZERO CANDIDATES n_pts_ p_ zeta_ c).p1_ -
      (calc_params K FLOATZERO CANDIDATES n_pts_ p_ zeta_ c).p2_ ∧
    2 * ((calc_params K FLOATZERO CANDIDATES n_pts_ p_ zeta_ c).p1_ -
        (calc_params K FLOATZERO CANDIDATES n_pts_ p_ zeta_ c).p2_) *
      ((calc_params K FLOATZERO CANDIDATES n_pts_ p_ zeta_ c).p1_ -
        (calc_params K FLOATZERO CANDIDATES n_pts_ p_ zeta_ c).p2_) ≠ 0 := by
  obtain ⟨hw, F, hF, e1, e2⟩ := calc_width_spec K hK FLOATZERO p_ zeta_ c hc hp2
  have hlt : (calc_width K FLOATZERO p_ zeta_ c).2.2 < (calc_width K FLOATZERO p_ zeta_ c).2.1 := by
    rw [e1, e2]
    have hc0 : 0 < c := by linarith
    apply hF
    · exact Set.mem_Ioi.mpr (div_pos hw (by positivity))
    · exact Set.mem_Ioi.mpr (div_pos hw (by norm_num))
    · apply div_lt_div_of_pos_left hw (by norm_num)
      linarith
  have hpos : 0 < (calc_width K FLOATZERO p_ zeta_ c).2.1 -
      (calc_width K FLOATZERO p_ zeta_ c).2.2 := by linarith
  refine ⟨hw, ⟨F, hF, e1, e2⟩, ?_, hlt, hpos, ?_⟩
  · intro h0 h1
    show (calc_width K FLOATZERO p_ zeta_ c).2.1 = _ ∧ (calc_width K FLOATZERO p_ zeta_ c).2.2 = _
    show _ = 2 * Real.arctan ((calc_width K FLOATZERO p_ zeta_ c).1 / 2) / Real.pi ∧
      _ = 2 * Real.arctan ((calc_width K FLOATZERO p_ zeta_ c).1 / (2 * c)) / Real.pi
    unfold calc_width
    simp only [if_neg h0, if_pos h1]
    exact ⟨rfl, rfl⟩
  · exact ne_of_gt (by positivity)

theorem par_kernel_increasing : par_kernel.Increasing := by
  have h : StrictMonoOn (fun x : ℝ => x / (1 + x)) (Set.Ioi 0) := by
    intro a ha b hb hab
    have ha0 : (0 : ℝ) < a := ha
    have hb0 : (0 : ℝ) < b := hb
    show a / (1 + a) < b / (1 + b)
    rw [div_lt_iff₀ (by linarith), div_mul_eq_mul_div, lt_div_iff₀ (by linarith)]
    nlinarith
  exact ⟨h, h, fun _ _ => h⟩

theorem calc_params_prob_gap_witness :
    0 < (calc_params par_kernel (1 / 1000000) 100 1000 1 0 4).w_ ∧
    (calc_params par_kernel (1 / 1000000) 100 1000 1 0 4).p2_ <
      (calc_params par_kernel (1 / 1000000) 100 1000 1 0 4).p1_ :=
  let h := calc_params_prob_gap par_kernel (1 / 1000000) 100 1000 1 0 4 par_kernel_increasing
    (by norm_num) (by norm_num)
  ⟨h.1, h.2.2.2.1⟩

/-- C19: `calc_params` sets `delta_ = 1 / e`, `beta_ = CANDIDATES / n`, takes
`w_`, `p1_`, `p2_` from the branch on `p` and computes
`m_ = ceil((sqrt(ln(2 / beta_)) + sqrt(ln(1 / delta_)))^2 / (2 * (p1_ - p2_)^2))`;
for fixed `n`, `p` in `(0, 2]` and `zeta`, with probability functions that
increase strictly on the positive reals, `m_` is non-increasing in the
approximation ratio: `1 < c1 <= c2` gives `m_(c2) <= m_(c1)`. -/
theorem calc_params_m_antitone (K : Kernel) (FLOATZERO : ℝ) (CANDIDATES n_pts_ : Int)
    (p_ zeta_ c1 c2 : ℝ) (hK : K.Increasing) (h1 : 1 < c1) (h12 : c1 ≤ c2) (hp0 : 0 < p_)
    (hp2 : p_ ≤ 2) :
    (∀ c : ℝ,
      (calc_params K FLOATZERO CANDIDATES n_pts_ p_ zeta_ c).delta_ = 1 / Real.exp 1 ∧
      (calc_params K FLOATZERO CANDIDATES n_pts_ p_ zeta_ c).beta_ =
        (CANDIDATES : ℝ) / (n_pts_ : ℝ) ∧
      ((calc_params K FLOATZERO CANDIDATES n_pts_ p_ zeta_ c).w_,
        (calc_params K FLOATZERO CANDIDATES n_pts_ p_ zeta_ c).p1_,
        (calc_params K FLOATZERO CANDIDATES n_pts_ p_ zeta_ c).p2_) =
          calc_width K FLOATZERO p_ zeta_ c ∧
      (calc_params K FLOATZERO CANDIDATES n_pts_ p_ zeta_ c).m_ =
        ⌈(Real.sqrt (Real.log
              (2 / (calc_params K FLOATZERO CANDIDATES n_pts_ p_ zeta_ c).beta_)) +
            Real.sqrt (Real.log
              (1 / (calc_params K FLOATZERO CANDIDATES n_pts_ p_ zeta_ c).delta_))) ^ 2 /
          (2 * ((calc_params K FLOATZERO CANDIDATES n_pts_ p_ zeta_ c).p1_ -
            (calc_params K FLOATZERO CANDIDATES n_pts_ p_ zeta_ c).p2_) ^ 2)⌉) ∧
    (calc_params K FLOATZERO CANDIDATES n_pts_ p_ zeta_ c2).m_ ≤
      (calc_params K FLOATZERO CANDIDATES n_pts_ p_ zeta_ c1).m_ := by
  -- Growing `c` does not lower `p1_` and does not raise `p2_`.
  have calc_width_mono : ∀ (K : Kernel) (hK : K.Increasing) (FLOATZERO p_ zeta_ c1 c2 : ℝ) (h1 : 1 <
      c1) (h12 : c1 ≤ c2) (hp0 : 0 < p_) (hp2 : p_ ≤ 2),
      (calc_width K FLOATZERO p_ zeta_ c1).2.1 ≤ (calc_width K FLOATZERO p_ zeta_ c2).2.1 ∧
      (calc_width K FLOATZERO p_ zeta_ c2).2.2 ≤ (calc_width K FLOATZERO p_ zeta_ c1).2.2 := by
    intro K hK FLOATZERO p_ zeta_ c1 c2 h1 h12 hp0 hp2
    have h2 : 1 < c2 := by linarith
    have hc1 : 0 < c1 := by linarith
    have hc2 : 0 < c2 := by linarith
    have hw1 := (calc_width_spec K hK FLOATZERO p_ zeta_ c1 h1 hp2).1
    have hw2 := (calc_width_spec K hK FLOATZERO p_ zeta_ c2 h2 hp2).1
    obtain ⟨k0, k2, ks⟩ := hK
    have kc := new_cauchy_prob_strictMono.monotone
    have mono : ∀ F : ℝ → ℝ, StrictMonoOn F (Set.Ioi 0) → ∀ x y : ℝ, 0 < x → x ≤ y → F x ≤ F y :=
      fun F hF x y hx hxy => hF.monotoneOn (Set.mem_Ioi.mpr hx)
        (Set.mem_Ioi.mpr (lt_of_lt_of_le hx hxy)) hxy
    have tab : ∀ w : ℝ, 0 < w → K.stable_cdf p_ zeta_ (w / (2 * c2 * 1)) ≤
        K.stable_cdf p_ zeta_ (w / (2 * c1 * 1)) := by
      intro w hw
      apply mono _ (ks _ _) _ _ (by positivity)
      apply div_le_div_of_nonneg_left (le_of_lt hw) (by positivity)
      linarith
    unfold calc_width at hw1 hw2 ⊢
    simp only at hw1 hw2 ⊢
    split_ifs at hw1 hw2 ⊢ with b0 b1 b2 b3 b4 b5
    · obtain ⟨v1, v2⟩ := width_analysis.2.1 c1 c2 h1 h12
      exact ⟨mono _ k0 _ _ (by positivity) v1, mono _ k0 _ _ (by positivity) v2⟩
    · obtain ⟨v1, v2⟩ := width_analysis.2.2.1 c1 c2 h1 h12
      exact ⟨kc v1, kc v2⟩
    · obtain ⟨v1, v2⟩ := width_analysis.2.2.2.1 c1 c2 h1 h12
      exact ⟨mono _ k2 _ _ (by positivity) v1, mono _ k2 _ _ (by positivity) v2⟩
    · exact ⟨le_refl _, tab _ (by norm_num)⟩
    · exact ⟨le_refl _, tab _ (by norm_num)⟩
    · exact ⟨le_refl _, tab _ (by norm_num)⟩
    · obtain ⟨v1, v2⟩ := width_analysis.2.2.2.2 p_ c1 c2 h1 h12 hp0 hp2
      simp only [new_stable_prob, mul_one]
      exact ⟨mono _ (ks _ _) _ _ (by positivity) v1, mono _ (ks _ _) _ _ (by positivity) v2⟩
  constructor
  · intro c
    refine ⟨rfl, rfl, rfl, ?_⟩
    simp only [calc_params]
    congr 1
    ring
  · obtain ⟨_, F, hF, e1, e2⟩ := calc_width_spec K hK FLOATZERO p_ zeta_ c1 h1 hp2
    obtain ⟨hw, _⟩ := calc_width_spec K hK FLOATZERO p_ zeta_ c1 h1 hp2
    have hc1 : 0 < c1 := by linarith
    have hgap : (calc_width K FLOATZERO p_ zeta_ c1).2.2 <
        (calc_width K FLOATZERO p_ zeta_ c1).2.1 := by
      rw [e1, e2]
      apply hF (Set.mem_Ioi.mpr (div_pos hw (by positivity)))
        (Set.mem_Ioi.mpr (div_pos hw (by norm_num)))
      apply div_lt_div_of_pos_left hw (by norm_num)
      linarith
    obtain ⟨u1, u2⟩ := calc_width_mono K hK FLOATZERO p_ zeta_ c1 c2 h1 h12 hp0 hp2
    simp only [calc_params]
    generalize (calc_width K FLOATZERO p_ zeta_ c1).2.1 = x1 at *
    generalize (calc_width K FLOATZERO p_ zeta_ c1).2.2 = y1 at *
    generalize (calc_width K FLOATZERO p_ zeta_ c2).2.1 = x2 at *
    generalize (calc_width K FLOATZERO p_ zeta_ c2).2.2 = y2 at *
    apply Int.ceil_mono
    have g1 : 0 < x1 - y1 := by linarith
    have g12 : x1 - y1 ≤ x2 - y2 := by linarith
    apply div_le_div_of_nonneg_left (mul_self_nonneg _) (by positivity)
    have := mul_le_mul g12 g12 (le_of_lt g1) (by linarith)
    linarith

theorem calc_params_m_antitone_witness :
    (1 : ℝ) < 4 ∧ (4 : ℝ) ≤ 9 ∧
    (calc_params par_kernel (1 / 1000000) 100 1000 1 0 9).m_ ≤
      (calc_params par_kernel (1 / 1000000) 100 1000 1 0 4).m_ :=
  ⟨by norm_num, by norm_num,
    (calc_params_m_antitone par_kernel (1 / 1000000) 100 1000 1 0 4 9 par_kernel_increasing
      (by norm_num) (by norm_num) (by norm_num) (by norm_num)).2⟩

/-- C21: `calc_params` selects the bucket width by `p`. In the order of the
tests of the source: `w0 = (c-1)/ln(sqrt c)` when `|p - 0.5| < FLOATZERO`,
`w1 = 2 sqrt c` when `|p - 1| < FLOATZERO`, `w2 = sqrt(8 c^2 ln c/(c^2-1))`
when `|p - 2| < FLOATZERO`, the constants 2.503, 3.151, 3.465 when `p` is
within `FLOATZERO` of 0.8, 1.2, 1.5, and otherwise
`w = (w2 - w1) * p + (2 * w1 - w2)`. With `0 < FLOATZERO <= 1/5` the values
`p = 0.5, 1, 2, 0.8, 1.2, 1.5` select their own branch; the formula of the
last branch is the line through `(1, w1)` and `(2, w2)`: it is `w1` at
`p = 1`, `w2` at `p = 2`, and for `1 < p < 2` the width chosen there lies
between `w1` and `w2`. -/
theorem calc_params_width (K : Kernel) (FLOATZERO : ℝ) (CANDIDATES n_pts_ : Int)
    (zeta_ c : ℝ) (h0 : 0 < FLOATZERO) (h1 : FLOATZERO ≤ 1 / 5) :
    (∀ p_ : ℝ,
      (|p_ - 1 / 2| < FLOATZERO →
        (calc_params K FLOATZERO CANDIDATES n_pts_ p_ zeta_ c).w_ =
          (c - 1) / Real.log (Real.sqrt c)) ∧
      (¬ |p_ - 1 / 2| < FLOATZERO → |p_ - 1| < FLOATZERO →
        (calc_params K FLOATZERO CANDIDATES n_pts_ p_ zeta_ c).w_ = 2 * Real.sqrt c) ∧
      (¬ |p_ - 1 / 2| < FLOATZERO → ¬ |p_ - 1| < FLOATZERO → |p_ - 2| < FLOATZERO →
        (calc_params K FLOATZERO CANDIDATES n_pts_ p_ zeta_ c).w_ =
          Real.sqrt ((8 * c * c * Real.log c) / (c * c - 1))) ∧
      (¬ |p_ - 1 / 2| < FLOATZERO → ¬ |p_ - 1| < FLOATZERO → ¬ |p_ - 2| < FLOATZERO →
        (|p_ - 8 / 10| < FLOATZERO →
          (calc_params K FLOATZERO CANDIDATES n_pts_ p_ zeta_ c).w_ = 2503 / 1000) ∧
        (¬ |p_ - 8 / 10| < FLOATZERO → |p_ - 12 / 10| < FLOATZERO →
          (calc_params K FLOATZERO CANDIDATES n_pts_ p_ zeta_ c).w_ = 3151 / 1000) ∧
        (¬ |p_ - 8 / 10| < FLOATZERO → ¬ |p_ - 12 / 10| < FLOATZERO →
          |p_ - 15 / 10| < FLOATZERO →
          (calc_params K FLOATZERO CANDIDATES n_pts_ p_ zeta_ c).w_ = 3465 / 1000) ∧
        (¬ |p_ - 8 / 10| < FLOATZERO → ¬ |p_ - 12 / 10| < FLOATZERO →
          ¬ |p_ - 15 / 10| < FLOATZERO →
          (calc_params K FLOATZERO CANDIDATES n_pts_ p_ zeta_ c).w_ =
            (Real.sqrt ((8 * c * c * Real.log c) / (c * c - 1)) - 2 * Real.sqrt c) * p_ +
              (2 * (2 * Real.sqrt c) -
                Real.sqrt ((8 * c * c * Real.log c) / (c * c - 1)))))) ∧
    (calc_params K FLOATZERO CANDIDATES n_pts_ (1 / 2) zeta_ c).w_ =
      (c - 1) / Real.log (Real.sqrt c) ∧
    (calc_params K FLOATZERO CANDIDATES n_pts_ 1 zeta_ c).w_ = 2 * Real.sqrt c ∧
    (calc_params K FLOATZERO CANDIDATES n_pts_ 2 zeta_ c).w_ =
      Real.sqrt ((8 * c * c * Real.log c) / (c * c - 1)) ∧
    (calc_params K FLOATZERO CANDIDATES n_pts_ (8 / 10) zeta_ c).w_ = 2503 / 1000 ∧
    (calc_params K FLOATZERO CANDIDATES n_pts_ (12 / 10) zeta_ c).w_ = 3151 / 1000 ∧
    (calc_params K FLOATZERO CANDIDATES n_pts_ (15 / 10) zeta_ c).w_ = 3465 / 1000 ∧
    (Real.sqrt ((8 * c * c * Real.log c) / (c * c - 1)) - 2 * Real.sqrt c) * 1 +
        (2 * (2 * Real.sqrt c) - Real.sqrt ((8 * c * c * Real.log c) / (c * c - 1))) =
      (calc_params K FLOATZERO CANDIDATES n_pts_ 1 zeta_ c).w_ ∧
    (Real.sqrt ((8 * c * c * Real.log c) / (c * c - 1)) - 2 * Real.sqrt c) * 2 +
        (2 * (2 * Real.sqrt c) - Real.sqrt ((8 * c * c * Real.log c) / (c * c - 1))) =
      (calc_params K FLOATZERO CANDIDATES n_pts_ 2 zeta_ c).w_ ∧
    (∀ p_ : ℝ, 1 < p_ → p_ < 2 →
      ¬ |p_ - 1| < FLOATZERO → ¬ |p_ - 2| < FLOATZERO → ¬ |p_ - 12 / 10| < FLOATZERO →
      ¬ |p_ - 15 / 10| < FLOATZERO →
      (calc_params K FLOATZERO CANDIDATES n_pts_ p_ zeta_ c).w_ =
        (calc_params K FLOATZERO CANDIDATES n_pts_ 1 zeta_ c).w_ +
          (p_ - 1) * ((calc_params K FLOATZERO CANDIDATES n_pts_ 2 zeta_ c).w_ -
            (calc_params K FLOATZERO CANDIDATES n_pts_ 1 zeta_ c).w_) ∧
      min (calc_params K FLOATZERO CANDIDATES n_pts_ 1 zeta_ c).w_
          (calc_params K FLOATZERO CANDIDATES n_pts_ 2 zeta_ c).w_ ≤
        (calc_params K FLOATZERO CANDIDATES n_pts_ p_ zeta_ c).w_ ∧
      (calc_params K FLOATZERO CANDIDATES n_pts_ p_ zeta_ c).w_ ≤
        max (calc_params K FLOATZERO CANDIDATES n_pts_ 1 zeta_ c).w_
          (calc_params K FLOATZERO CANDIDATES n_pts_ 2 zeta_ c).w_) := by
  have sel : ∀ p_ : ℝ, (calc_params K FLOATZERO CANDIDATES n_pts_ p_ zeta_ c).w_ =
      (calc_width K FLOATZERO p_ zeta_ c).1 := fun _ => rfl
  have a0 : |(1 / 2 : ℝ) - 1 / 2| < FLOATZERO := by simpa using h0
  have a1 : |(1 : ℝ) - 1| < FLOATZERO := by simpa using h0
  have a2 : |(2 : ℝ) - 2| < FLOATZERO := by simpa using h0
  have a3 : |(8 / 10 : ℝ) - 8 / 10| < FLOATZERO := by simpa using h0
  have a4 : |(12 / 10 : ℝ) - 12 / 10| < FLOATZERO := by simpa using h0
  have a5 : |(15 / 10 : ℝ) - 15 / 10| < FLOATZERO := by simpa using h0
  have far : ∀ x y : ℝ, 1 / 5 ≤ |x - y| → ¬ |x - y| < FLOATZERO :=
    fun x y h => not_lt.mpr (le_trans h1 h)
  have w1 : (calc_params K FLOATZERO CANDIDATES n_pts_ 1 zeta_ c).w_ = 2 * Real.sqrt c := by
    rw [sel]
    unfold calc_width
    simp only
    rw [if_neg (far _ _ (by norm_num [abs_of_nonneg])), if_pos a1]
  have w2 : (calc_params K FLOATZERO CANDIDATES n_pts_ 2 zeta_ c).w_ =
      Real.sqrt ((8 * c * c * Real.log c) / (c * c - 1)) := by
    rw [sel]
    unfold calc_width
    simp only
    rw [if_neg (far _ _ (by norm_num [abs_of_nonneg])),
      if_neg (far _ _ (by norm_num [abs_of_nonneg])), if_pos a2]
  refine ⟨?_, ?_, w1, w2, ?_, ?_, ?_, ?_, ?_, ?_⟩
  · intro p_
    simp only [sel]
    unfold calc_width
    simp only
    refine ⟨fun b0 => by rw [if_pos b0], fun b0 b1 => by rw [if_neg b0, if_pos b1],
      fun b0 b1 b2 => by rw [if_neg b0, if_neg b1, if_pos b2], fun b0 b1 b2 => ?_⟩
    rw [if_neg b0, if_neg b1, if_neg b2]
    refine ⟨fun b3 => by rw [if_pos b3], fun b3 b4 => by rw [if_neg b3, if_pos b4],
      fun b3 b4 b5 => by rw [if_neg b3, if_neg b4, if_pos b5],
      fun b3 b4 b5 => by rw [if_neg b3, if_neg b4, if_neg b5]⟩
  · rw [sel]
    unfold calc_width
    simp only
    rw [if_pos a0]
  · rw [sel]
    unfold calc_width
    simp only
    rw [if_neg (far _ _ (by norm_num [abs_of_nonneg])),
      if_neg (far _ _ (by norm_num [abs_of_nonpos])),
      if_neg (far _ _ (by norm_num [abs_of_nonpos])), if_pos a3]
  · rw [sel]
    unfold calc_width
    simp only
    rw [if_neg (far _ _ (by norm_num [abs_of_nonneg])),
      if_neg (far _ _ (by norm_num [abs_of_nonneg])),
      if_neg (far _ _ (by norm_num [abs_of_nonpos])),
      if_neg (far _ _ (by norm_num [abs_of_nonneg])), if_pos a4]
  · rw [sel]
    unfold calc_width
    simp only
    rw [if_neg (far _ _ (by norm_num [abs_of_nonneg])),
      if_neg (far _ _ (by norm_num [abs_of_nonneg])),
      if_neg (far _ _ (by norm_num [abs_of_nonpos])),
      if_neg (far _ _ (by norm_num [abs_of_nonneg])),
      if_neg (far _ _ (by norm_num [abs_of_nonneg])), if_pos a5]
  · rw [w1]
    ring
  · rw [w2]
    ring
  · intro p_ hp1 hp2 b1 b2 b4 b5
    have b0 : ¬ |p_ - 1 / 2| < FLOATZERO :=
      far _ _ (by rw [abs_of_nonneg (by linarith)]; linarith)
    have b3 : ¬ |p_ - 8 / 10| < FLOATZERO :=
      far _ _ (by rw [abs_of_nonneg (by linarith)]; linarith)
    have e : (calc_params K FLOATZERO CANDIDATES n_pts_ p_ zeta_ c).w_ =
        (Real.sqrt ((8 * c * c * Real.log c) / (c * c - 1)) - 2 * Real.sqrt c) * p_ +
          (2 * (2 * Real.sqrt c) - Real.sqrt ((8 * c * c * Real.log c) / (c * c - 1))) := by
      rw [sel]
      unfold calc_width
      simp only
      rw [if_neg b0, if_neg b1, if_neg b2, if_neg b3, if_neg b4, if_neg b5]
    rw [e, w1, w2]
    generalize Real.sqrt ((8 * c * c * Real.log c) / (c * c - 1)) = G
    generalize Real.sqrt c = A
    refine ⟨by ring, ?_, ?_⟩
    · rcases le_total (2 * A) G with h | h
      · rw [min_eq_left h]
        nlinarith
      · rw [min_eq_right h]
        nlinarith
    · rcases le_total (2 * A) G with h | h
      · rw [max_eq_right h]
        nlinarith
      · rw [max_eq_left h]
        nlinarith

theorem calc_params_width_witness :
    (calc_params par_kernel (1 / 1000000) 100 1000 (8 / 10) 0 4).w_ = 2503 / 1000 ∧
    (calc_params par_kernel (1 / 1000000) 100 1000 1 0 4).w_ = 2 * Real.sqrt 4 :=
  let h := calc_params_width par_kernel (1 / 1000000) 100 1000 0 4 (by norm_num) (by norm_num)
  ⟨h.2.2.2.2.1, h.2.2.1⟩

theorem comp_cases (a b : HashValue) :
    (HashValueQsortComp a b = -1 ∧ LexLt a b) ∨ (HashValueQsortComp a b = 1 ∧ LexLt b a) ∨
    (HashValueQsortComp a b = 0 ∧ a = b) := by
  obtain ⟨ai, ap⟩ := a
  obtain ⟨bi, bp⟩ := b
  unfold HashValueQsortComp LexLt
  simp only
  rcases lt_trichotomy ap bp with h | h | h
  · left
    exact ⟨if_pos h, Or.inl h⟩
  · subst h
    rw [if_neg (lt_irrefl _), if_neg (lt_irrefl _)]
    rcases lt_trichotomy ai bi with g | g | g
    · left
      exact ⟨if_pos g, Or.inr ⟨rfl, g⟩⟩
    · subst g
      right; right
      exact ⟨by rw [if_neg (lt_irrefl _), if_neg (lt_irrefl _)], rfl⟩
    · right; left
      exact ⟨by rw [if_neg (not_lt.mpr (le_of_lt g)), if_pos g], Or.inr ⟨rfl, g⟩⟩
  · right; left
    exact ⟨by rw [if_neg (not_lt.mpr (le_of_lt h)), if_pos h], Or.inl h⟩

theorem lexLt_asymm (a b : HashValue) (h : LexLt a b) : ¬ LexLt b a := by
  unfold LexLt at *
  rintro (g | ⟨g1, g2⟩)
  · rcases h with h | ⟨h1, _⟩
    · exact lt_asymm h g
    · rw [h1] at g
      exact lt_irrefl _ g
  · rcases h with h | ⟨_, h2⟩
    · rw [g1] at h
      exact lt_irrefl _ h
    · exact lt_asymm h2 g2

theorem lexLt_irrefl (a : HashValue) : ¬ LexLt a a := fun h => lexLt_asymm a a h h

theorem lexLt_trans (a b c : HashValue) (h : LexLt a b) (g : LexLt b c) : LexLt a c := by
  unfold LexLt at *
  rcases h with h | ⟨h1, h2⟩
  · rcases g with g | ⟨g1, _⟩
    · exact Or.inl (lt_trans h g)
    · exact Or.inl (g1 ▸ h)
  · rcases g with g | ⟨g1, g2⟩
    · exact Or.inl (h1 ▸ g)
    · exact Or.inr ⟨h1.trans g1, lt_trans h2 g2⟩

theorem comp_eq_neg_one (a b : HashValue) : HashValueQsortComp a b = -1 ↔ LexLt a b := by
  rcases comp_cases a b with ⟨h, g⟩ | ⟨h, g⟩ | ⟨h, g⟩
  · exact ⟨fun _ => g, fun _ => h⟩
  · exact ⟨fun e => by rw [h] at e; exact absurd e (by decide),
      fun e => absurd g (lexLt_asymm _ _ e)⟩
  · exact ⟨fun e => by rw [h] at e; exact absurd e (by decide),
      fun e => absurd (g ▸ e) (lexLt_irrefl _)⟩

theorem comp_eq_one (a b : HashValue) : HashValueQsortComp a b = 1 ↔ LexLt b a := by
  rcases comp_cases a b with ⟨h, g⟩ | ⟨h, g⟩ | ⟨h, g⟩
  · exact ⟨fun e => by rw [h] at e; exact absurd e (by decide),
      fun e => absurd g (lexLt_asymm _ _ e)⟩
  · exact ⟨fun _ => g, fun _ => h⟩
  · exact ⟨fun e => by rw [h] at e; exact absurd e (by decide),
      fun e => absurd (g ▸ e) (lexLt_irrefl _)⟩

theorem comp_eq_zero (a b : HashValue) : HashValueQsortComp a b = 0 ↔ a = b := by
  rcases comp_cases a b with ⟨h, g⟩ | ⟨h, g⟩ | ⟨h, g⟩
  · exact ⟨fun e => by rw [h] at e; exact absurd e (by decide),
      fun e => absurd (e ▸ g) (lexLt_irrefl _)⟩
  · exact ⟨fun e => by rw [h] at e; exact absurd e (by decide),
      fun e => absurd (e ▸ g) (lexLt_irrefl _)⟩
  · exact ⟨fun _ => g, fun _ => h⟩

theorem comp_le_zero (a b : HashValue) : HashValueQsortComp a b ≤ 0 ↔ LexLt a b ∨ a = b := by
  rcases comp_cases a b with ⟨h, g⟩ | ⟨h, g⟩ | ⟨h, g⟩
  · exact ⟨fun _ => Or.inl g, fun _ => by rw [h]; decide⟩
  · refine ⟨fun e => by rw [h] at e; exact absurd e (by decide), ?_⟩
    rintro (e | e)
    · exact absurd g (lexLt_asymm _ _ e)
    · exact absurd (e ▸ g) (lexLt_irrefl _)
  · exact ⟨fun _ => Or.inr g, fun _ => by rw [h]⟩

theorem hashtable_nodup (Q : Index) (data : Int → Int → ℚ) (i : Int) :
    (hashtable Q data i).Nodup := by
  unfold hashtable
  refine (List.nodup_range _).map ?_
  intro a b h
  have := congrArg HashValue.id_ h
  simpa using this

theorem mem_hashtable (Q : Index) (data : Int → Int → ℚ) (i : Int) (e : HashValue) :
    e ∈ hashtable Q data i ↔
      ∃ j : Int, 0 ≤ j ∧ j < Q.n_pts_ ∧ e = ⟨j, calc_hash_value Q i (data j)⟩ := by
  unfold hashtable
  rw [List.mem_map]
  constructor
  · rintro ⟨j, hj, rfl⟩
    rw [List.mem_range] at hj
    exact ⟨(j : Int), by omega, by omega, rfl⟩
  · rintro ⟨j, h0, h1, rfl⟩
    refine ⟨j.toNat, ?_, ?_⟩
    · rw [List.mem_range]
      omega
    · rw [Int.toNat_of_nonneg h0]

/-- C22: `HashValueQsortComp` is the three-way lexicographic comparison on
`(proj_, id_)`: it returns `-1` iff the first pair is smaller, `1` iff it is
greater and `0` iff both fields are equal; `comp(a, b) = -comp(b, a)`, and the
comparison is transitive. So the array `QALSH::bulkload` sorts with it and
hands to tree `i` is a permutation of `(a_i . x_j, j)`, `0 <= j < n`, in
strictly ascending `(key, id)` order, and it is the only such arrangement,
whatever sorting algorithm `qsort` runs. -/
theorem hash_value_comp_lex :
    (∀ a b : HashValue,
      (HashValueQsortComp a b = -1 ↔
        a.proj_ < b.proj_ ∨ (a.proj_ = b.proj_ ∧ a.id_ < b.id_)) ∧
      (HashValueQsortComp a b = 1 ↔
        b.proj_ < a.proj_ ∨ (b.proj_ = a.proj_ ∧ b.id_ < a.id_)) ∧
      (HashValueQsortComp a b = 0 ↔ a.proj_ = b.proj_ ∧ a.id_ = b.id_) ∧
      HashValueQsortComp a b = - HashValueQsortComp b a) ∧
    (∀ a b c : HashValue, HashValueQsortComp a b = -1 → HashValueQsortComp b c = -1 →
      HashValueQsortComp a c = -1) ∧
    (∀ a b c : HashValue, HashValueQsortComp a b ≤ 0 → HashValueQsortComp b c ≤ 0 →
      HashValueQsortComp a c ≤ 0) ∧
    (∀ (Q : Index) (data : Int → Int → ℚ) (i : Int),
      (bulkload_table Q data i).Perm (hashtable Q data i) ∧
      (bulkload_table Q data i).length = Q.n_pts_.toNat ∧
      (∀ e : HashValue, e ∈ bulkload_table Q data i ↔
        ∃ j : Int, 0 ≤ j ∧ j < Q.n_pts_ ∧ e = ⟨j, calc_hash_value Q i (data j)⟩) ∧
      (bulkload_table Q data i).Sorted (fun a b => HashValueQsortComp a b = -1) ∧
      (bulkload_table Q data i).Sorted LexLt ∧
      (∀ out : List HashValue, out.Perm (hashtable Q data i) →
        out.Sorted (fun a b => HashValueQsortComp a b ≤ 0) → out = bulkload_table Q data i)) := by
  have tr : ∀ a b c : HashValue, HashValueQsortComp a b ≤ 0 → HashValueQsortComp b c ≤ 0 →
      HashValueQsortComp a c ≤ 0 := by
    intro a b c h g
    rw [comp_le_zero] at *
    rcases h with h | h
    · rcases g with g | g
      · exact Or.inl (lexLt_trans _ _ _ h g)
      · exact Or.inl (g ▸ h)
    · exact h ▸ g
  have tot : ∀ a b : HashValue, HashValueQsortComp a b ≤ 0 ∨ HashValueQsortComp b a ≤ 0 := by
    intro a b
    rcases comp_cases a b with ⟨h, _⟩ | ⟨_, g⟩ | ⟨h, _⟩
    · exact Or.inl (by rw [h]; decide)
    · exact Or.inr ((comp_le_zero _ _).mpr (Or.inl g))
    · exact Or.inl (by rw [h])
  have anti : ∀ a b : HashValue, HashValueQsortComp a b ≤ 0 → HashValueQsortComp b a ≤ 0 →
      a = b := by
    intro a b h g
    rw [comp_le_zero] at *
    rcases h with h | h
    · rcases g with g | g
      · exact absurd g (lexLt_asymm _ _ h)
      · exact g.symm
    · exact h
  refine ⟨?_, ?_, tr, ?_⟩
  · intro a b
    refine ⟨comp_eq_neg_one a b, comp_eq_one a b, ?_, ?_⟩
    · rw [comp_eq_zero]
      constructor
      · rintro rfl
        exact ⟨rfl, rfl⟩
      · obtain ⟨ai, ap⟩ := a
        obtain ⟨bi, bp⟩ := b
        rintro ⟨h, g⟩
        simp only at h g
        rw [h, g]
    · rcases comp_cases a b with ⟨h, g⟩ | ⟨h, g⟩ | ⟨h, g⟩
      · rw [h, (comp_eq_one b a).mpr g]
      · rw [h, (comp_eq_neg_one b a).mpr g]
        rfl
      · rw [h, (comp_eq_zero b a).mpr g.symm]
        rfl
  · intro a b c h g
    rw [comp_eq_neg_one] at *
    exact lexLt_trans _ _ _ h g
  · intro Q data i
    haveI : IsTotal HashValue (fun a b => HashValueQsortComp a b ≤ 0) := ⟨tot⟩
    haveI : IsTrans HashValue (fun a b => HashValueQsortComp a b ≤ 0) := ⟨tr⟩
    haveI : IsAntisymm HashValue (fun a b => HashValueQsortComp a b ≤ 0) := ⟨anti⟩
    have hperm : (bulkload_table Q data i).Perm (hashtable Q data i) :=
      List.perm_insertionSort _ _
    have hsort : (bulkload_table Q data i).Sorted (fun a b => HashValueQsortComp a b ≤ 0) :=
      List.sorted_insertionSort _ _
    have hnd : (bulkload_table Q data i).Nodup := hperm.nodup_iff.mpr (hashtable_nodup Q data i)
    have hlt : (bulkload_table Q data i).Sorted LexLt := by
      have := List.Pairwise.and hsort hnd
      refine this.imp ?_
      rintro a b ⟨h, g⟩
      rcases (comp_le_zero a b).mp h with h | h
      · exact h
      · exact absurd h g
    refine ⟨hperm, ?_, ?_, ?_, hlt, ?_⟩
    · rw [hperm.length_eq]
      simp [hashtable]
    · intro e
      rw [hperm.mem_iff, mem_hashtable]
    · exact hlt.imp (fun {a b} h => (comp_eq_neg_one a b).mpr h)
    · intro out hp hs
      exact List.eq_of_perm_of_sorted (hp.trans hperm.symm) hs hsort

theorem ratio_loop_none (ith_key R : Int → ℚ) (count : Nat) (j : Int) :
    ratio_loop ith_key R count j none = none := by
  induction count generalizing j with
  | zero => rfl
  | succ n ih =>
    unfold ratio_loop
    exact ih _

theorem ratio_loop_some (ith_key R : Int → ℚ) (count : Nat) (j : Int) (r : ℚ)
    (h : ∀ t : Nat, t < count → R (j + t) ≠ 0) :
    ratio_loop ith_key R count j (some r) =
      some (r + ((List.range count).map (fun (t : Nat) => ith_key (j + t) / R (j + t))).sum) := by
  induction count generalizing j r with
  | zero => simp [ratio_loop]
  | succ n ih =>
    unfold ratio_loop
    have h0 : R j ≠ 0 := by simpa using h 0 (Nat.succ_pos _)
    simp only [fdiv, if_neg h0]
    rw [ih (j + 1) _ (fun t ht => by
      have := h (t + 1) (Nat.succ_lt_succ ht)
      rw [show j + ((t + 1 : Nat) : Int) = j + 1 + (t : Int) by push_cast; ring] at this
      exact this)]
    rw [List.range_succ_eq_map, List.map_cons, List.sum_cons, List.map_map]
    have e : (fun (t : Nat) => ith_key (j + 1 + t) / R (j + 1 + t)) =
        (fun (t : Nat) => ith_key (j + t) / R (j + t)) ∘ Nat.succ := by
      funext t
      simp only [Function.comp, Nat.cast_succ]
      rw [show j + 1 + (t : Int) = j + ((t : Int) + 1) by ring]
    rw [e]
    simp only [Nat.cast_zero, add_zero, add_assoc]

theorem ratio_loop_zero (ith_key R : Int → ℚ) (count : Nat) (j : Int) (ratio : Option ℚ)
    (h : ∃ t : Nat, t < count ∧ R (j + t) = 0) :
    ratio_loop ith_key R count j ratio = none := by
  induction count generalizing j ratio with
  | zero =>
    obtain ⟨t, ht, _⟩ := h
    exact absurd ht (Nat.not_lt_zero _)
  | succ n ih =>
    obtain ⟨t, ht, hz⟩ := h
    unfold ratio_loop
    cases t with
    | zero =>
      have h0 : R j = 0 := by simpa using hz
      have e : fdiv (ith_key j) (R j) = none := by simp [fdiv, h0]
      rw [e]
      cases ratio <;> exact ratio_loop_none _ _ _ _
    | succ t =>
      apply ih
      refine ⟨t, Nat.lt_of_succ_lt_succ ht, ?_⟩
      rw [show j + 1 + (t : Int) = j + ((t + 1 : Nat) : Int) by push_cast; ring]
      exact hz

/-- C29, as the code has it: one query adds `(sum over j < top_k of
ith_key(j) / R[i][j]) / top_k` to the overall ratio, and the division is not
guarded. While every ground-truth distance of the ranks `0 .. top_k - 1` is
non-zero the value is that mean, and it is 1 when every reported distance
equals the true one; as soon as one ground-truth distance is 0 (a query that
equals a data point) the sum is no number any more, whatever the reported
distance. -/
theorem query_ratio_unguarded (top_k : Int) (ith_key R : Int → ℚ) (hk : 0 < top_k) :
    ((∀ j : Int, 0 ≤ j → j < top_k → R j ≠ 0) →
      query_ratio top_k ith_key R =
        some (((List.range top_k.toNat).map
          (fun (t : Nat) => ith_key (t : Int) / R (t : Int))).sum / top_k)) ∧
    ((∀ j : Int, 0 ≤ j → j < top_k → R j ≠ 0 ∧ ith_key j = R j) →
      query_ratio top_k ith_key R = some 1) ∧
    ((∃ j : Int, 0 ≤ j ∧ j < top_k ∧ R j = 0) → query_ratio top_k ith_key R = none) := by
  have hk0 : (top_k : ℚ) ≠ 0 := by
    have : (0 : ℚ) < top_k := by exact_mod_cast hk
    exact ne_of_gt this
  have main : (∀ j : Int, 0 ≤ j → j < top_k → R j ≠ 0) →
      query_ratio top_k ith_key R =
        some (((List.range top_k.toNat).map
          (fun (t : Nat) => ith_key (t : Int) / R (t : Int))).sum / top_k) := by
    intro h
    unfold query_ratio
    rw [ratio_loop_some ith_key R _ 0 0 (fun t ht => h _ (by omega) (by omega))]
    simp only [fdiv, if_neg hk0, zero_add]
  refine ⟨main, ?_, ?_⟩
  · intro h
    rw [main (fun j h0 h1 => (h j h0 h1).1)]
    have e : (List.range top_k.toNat).map (fun (t : Nat) => ith_key (t : Int) / R (t : Int)) =
        (List.range top_k.toNat).map (fun _ => (1 : ℚ)) := by
      apply List.map_congr_left
      intro t ht
      rw [List.mem_range] at ht
      obtain ⟨a, b⟩ := h (t : Int) (by omega) (by omega)
      rw [b, div_self a]
    rw [e, List.map_const', List.sum_replicate, List.length_range, nsmul_eq_mul, mul_one]
    have c : ((top_k.toNat : ℕ) : ℚ) = (top_k : ℚ) := by
      have : ((top_k.toNat : ℕ) : Int) = top_k := Int.toNat_of_nonneg (le_of_lt hk)
      exact_mod_cast this
    rw [c, div_self hk0]
  · rintro ⟨j, h0, h1, hz⟩
    unfold query_ratio
    rw [ratio_loop_zero ith_key R _ 0 _ ⟨j.toNat, by omega, by
      rw [zero_add, Int.toNat_of_nonneg h0]; exact hz⟩]

theorem query_ratio_unguarded_witness :
    (0 : Int) < 2 ∧ query_ratio 2 (fun _ => 3) (fun _ => 3) = some 1 :=
  ⟨by decide, (query_ratio_unguarded 2 (fun _ => 3) (fun _ => 3) (by decide)).2.1
    (fun _ _ _ => ⟨by norm_num, rfl⟩)⟩

/-- With ground-truth distance 0 and reported distance 0 at rank 0 the ratio
sum is not `0 + 1` and the ratio of the query is not 1. -/
theorem ratio_guard_counterexample :
    ratio_loop (fun _ => 0) (fun _ => 0) 1 0 (some 0) ≠ some (0 + 1) ∧
    query_ratio 1 (fun _ => 0) (fun _ => 0) ≠ some 1 := by
  constructor <;> simp [query_ratio, ratio_loop, fdiv]

theorem digit_char_spec (d : Nat) (h : d < 10) :
    is_digit (digit_char d) = true ∧ (digit_char d).toNat - 48 = d ∧
    is_space (digit_char d) = false ∧ digit_char d ≠ '-' ∧ digit_char d ≠ '+' ∧
    digit_char d ≠ '.' := by
  unfold digit_char
  interval_cases d <;> decide

theorem take_while_append {α : Type} (p : α → Bool) (xs ys : List α)
    (hx : ∀ x ∈ xs, p x = true) (hy : ∀ y, ys.head? = some y → p y = false) :
    (xs ++ ys).takeWhile p = xs ∧ (xs ++ ys).dropWhile p = ys := by
  induction xs with
  | nil =>
    cases ys with
    | nil => exact ⟨rfl, rfl⟩
    | cons y ys =>
      have := hy y rfl
      simp [List.takeWhile, List.dropWhile, this]
  | cons x xs ih =>
    have hx0 := hx x (List.mem_cons_self _ _)
    obtain ⟨a, b⟩ := ih (fun z hz => hx z (List.mem_cons_of_mem _ hz))
    rw [List.cons_append, List.takeWhile_cons, List.dropWhile_cons, hx0]
    simp only [if_true]
    exact ⟨by rw [a], b⟩

theorem digits_val_map (ds : List Nat) (h : ∀ d ∈ ds, d < 10) (a : Nat) :
    (ds.map digit_char).foldl (fun a c => 10 * a + (c.toNat - 48)) a =
      ds.foldl (fun a d => 10 * a + d) a := by
  induction ds generalizing a with
  | nil => rfl
  | cons d ds ih =>
    simp only [List.map_cons, List.foldl_cons]
    rw [(digit_char_spec d (h d (List.mem_cons_self _ _))).2.1]
    exact ih (fun e he => h e (List.mem_cons_of_mem _ he)) _

theorem foldl_digits (ds : List Nat) :
    ds.reverse.foldl (fun a d => 10 * a + d) 0 = Nat.ofDigits 10 ds := by
  induction ds with
  | nil => rfl
  | cons d ds ih =>
    rw [List.reverse_cons, List.foldl_append, ih, Nat.ofDigits_cons]
    simp only [List.foldl_cons, List.foldl_nil]
    ring

theorem put_nat_spec (n : Nat) :
    digits_val (put_nat n) = n ∧ (∀ c ∈ put_nat n, is_digit c = true) ∧ put_nat n ≠ [] := by
  unfold put_nat
  by_cases h0 : n = 0
  · subst h0
    simp only [if_true]
    refine ⟨by decide, ?_, by simp⟩
    intro c hc
    rw [List.mem_singleton] at hc
    subst hc
    decide
  · rw [if_neg h0]
    have hlt : ∀ d ∈ (Nat.digits 10 n).reverse, d < 10 := fun d hd =>
      Nat.digits_lt_base (by norm_num) (List.mem_reverse.mp hd)
    refine ⟨?_, ?_, ?_⟩
    · unfold digits_val
      rw [digits_val_map _ hlt, foldl_digits, Nat.ofDigits_digits]
    · intro c hc
      rw [List.mem_map] at hc
      obtain ⟨d, hd, rfl⟩ := hc
      exact (digit_char_spec d (hlt d hd)).1
    · intro h
      rw [List.map_eq_nil_iff, List.reverse_eq_nil_iff] at h
      exact h0 (Nat.digits_eq_nil_iff_eq_zero.mp h)

theorem is_digit_spec (c : Char) (h : is_digit c = true) :
    is_space c = false ∧ c ≠ '-' ∧ c ≠ '+' ∧ c ≠ '.' := by
  refine ⟨?_, ?_, ?_, ?_⟩
  · cases hs : is_space c with
    | false => rfl
    | true =>
      unfold is_space at hs
      simp only [Bool.or_eq_true, decide_eq_true_eq] at hs
      rcases hs with ((((hs | hs) | hs) | hs) | hs) | hs <;>
        (subst hs; exact absurd h (by decide))
  · rintro rfl
    exact absurd h (by decide)
  · rintro rfl
    exact absurd h (by decide)
  · rintro rfl
    exact absurd h (by decide)

theorem scan_sign_other (c : Char) (t : List Char) (h1 : c ≠ '-') (h2 : c ≠ '+') :
    scan_sign (c :: t) = (false, c :: t) := by
  unfold scan_sign
  split
  · rename_i r e
    exact absurd (List.cons.inj e).1 h1
  · rename_i r e
    exact absurd (List.cons.inj e).1 h2
  · rfl

theorem skip_ws_cons (c : Char) (t : List Char) (h : is_space c = false) :
    skip_ws (c :: t) = c :: t := by
  unfold skip_ws
  rw [List.dropWhile_cons, h]
  rfl

theorem skip_ws_space (c : Char) (t : List Char) (h : is_space c = true) :
    skip_ws (c :: t) = skip_ws t := by
  unfold skip_ws
  rw [List.dropWhile_cons, h]
  rfl

/-- The head of a numeral is a digit. -/
theorem put_nat_head (n : Nat) : ∃ c cs, put_nat n = c :: cs ∧ is_digit c = true := by
  obtain ⟨_, h2, h3⟩ := put_nat_spec n
  cases e : put_nat n with
  | nil => exact absurd e h3
  | cons c cs => exact ⟨c, cs, rfl, h2 c (by rw [e]; exact List.mem_cons_self _ _)⟩

theorem store_int_id (v : Int) (h : IsInt32 v) : store_int v = v := by
  obtain ⟨h1, h2⟩ := h
  unfold store_int
  rw [min_eq_left (by omega), max_eq_right (by omega)]
  omega

/-- Reading back with `%d` what `%d` wrote. -/
theorem conv_int_put (i : Int) (rest : List Char) (hi32 : IsInt32 i)
    (h : ∀ y, rest.head? = some y → is_digit y = false) :
    conv_int (put_int i ++ rest) = (some i, rest) := by
  obtain ⟨hv, hd, hn⟩ := put_nat_spec i.natAbs
  obtain ⟨c, cs, hc, hcd⟩ := put_nat_head i.natAbs
  obtain ⟨tk, dr⟩ := take_while_append is_digit (put_nat i.natAbs) rest hd h
  unfold conv_int put_int
  by_cases hi : i < 0
  · rw [if_pos hi, List.cons_append, skip_ws_cons _ _ (by decide)]
    have e : scan_sign ('-' :: (put_nat i.natAbs ++ rest)) = (true, put_nat i.natAbs ++ rest) :=
      rfl
    rw [e]
    simp only [tk, dr, if_neg hn, hv, if_true]
    rw [show -((i.natAbs : ℕ) : Int) = i by omega, store_int_id i hi32]
  · rw [if_neg hi]
    have e : scan_sign (skip_ws (put_nat i.natAbs ++ rest)) =
        (false, put_nat i.natAbs ++ rest) := by
      rw [hc, List.cons_append, skip_ws_cons _ _ (is_digit_spec c hcd).1,
        scan_sign_other _ _ (is_digit_spec c hcd).2.1 (is_digit_spec c hcd).2.2.1]
    rw [e]
    simp only [tk, dr, if_neg hn, hv, Bool.false_eq_true, if_false]
    rw [show ((i.natAbs : ℕ) : Int) = i by omega, store_int_id i hi32]

theorem frac6_spec (k : Nat) (h : k < 1000000) :
    digits_val (frac6 k) = k ∧ (∀ c ∈ frac6 k, is_digit c = true) ∧ (frac6 k).length = 6 := by
  have hl : ∀ d ∈ [k / 100000 % 10, k / 10000 % 10, k / 1000 % 10, k / 100 % 10, k / 10 % 10,
      k % 10], d < 10 := by
    intro d hd
    simp only [List.mem_cons, List.mem_singleton, List.not_mem_nil, or_false] at hd
    omega
  refine ⟨?_, ?_, by simp [frac6]⟩
  · unfold digits_val frac6
    rw [digits_val_map _ hl]
    simp only [List.foldl_cons, List.foldl_nil]
    omega
  · intro c hc
    unfold frac6 at hc
    rw [List.mem_map] at hc
    obtain ⟨d, hd, rfl⟩ := hc
    exact (digit_char_spec d (hl d hd)).1

theorem round6_eq (x : ℚ) : round6 x = (round_even (x * 1000000)).toNat := rfl

theorem fl32_sixteen : fl32 16 = 16 := by
  decide!

/-- What a finite float becomes on the way through `%f` and back. -/
theorem float_reload (x : CFloat) (h : x.IsFloat32) :
    to_float x.round = some x.reload ∧ put_float x.reload = put_float x ∧
    (16 ≤ x.mag → x.reload = x) := by
  have round6_cast : ∀ (r : Nat),
      round6 ((r : ℚ) / 1000000) = r := by
    intro r
    unfold round6
    have e : (r : ℚ) / 1000000 * 1000000 = ((r : Int) : ℚ) := by
      rw [div_mul_cancel₀ _ (by norm_num : (1000000 : ℚ) ≠ 0)]
      simp
    simp only [e, Int.floor_intCast, sub_self]
    norm_num
  have round_even_err : ∀ (y : ℚ),
      |((round_even y : Int) : ℚ) - y| ≤ 1 / 2 := by
    intro y
    unfold round_even
    have h1 := Int.floor_le y
    have h2 := Int.lt_floor_add_one y
    simp only
    rw [abs_le]
    split_ifs with a b c
    · constructor <;> linarith
    · push_cast; constructor <;> linarith
    · constructor <;> linarith
    · push_cast; constructor <;> linarith
  have round_even_near : ∀ (y : ℚ) (M : Int) (h : |y - M| < 1 / 2),
      round_even y = M := by
    intro y M h
    rw [abs_lt] at h
    unfold round_even
    simp only
    by_cases c : (M : ℚ) ≤ y
    · have hf : ⌊y⌋ = M := by rw [Int.floor_eq_iff]; constructor <;> linarith
      rw [hf, if_pos (by linarith)]
    · have hf : ⌊y⌋ = M - 1 := by rw [Int.floor_eq_iff]; push_cast; constructor <;> linarith
      rw [hf]
      push_cast
      rw [if_neg (by linarith), if_pos (by linarith)]
      ring
  have round6_near : ∀ (x : ℚ) (k : Nat) (h : |x * 1000000 - k| < 1 / 2),
      round6 x = k := by
    intro x k h
    rw [round6_eq, round_even_near _ (k : Int) (by push_cast; exact h)]
    simp
  have round6_err : ∀ (x : ℚ) (h0 : 0 ≤ x),
      |(round6 x : ℚ) - x * 1000000| ≤ 1 / 2 := by
    intro x h0
    have h := round_even_err (x * 1000000)
    have hn : 0 ≤ round_even (x * 1000000) := by
      rw [abs_le] at h
      have : (-1 : ℚ) < (round_even (x * 1000000) : ℚ) := by nlinarith
      have : (-1 : Int) < round_even (x * 1000000) := by exact_mod_cast this
      omega
    rw [round6_eq]
    have e : (((round_even (x * 1000000)).toNat : ℕ) : ℚ) = (round_even (x * 1000000) : ℚ) := by
      have := Int.toNat_of_nonneg hn
      exact_mod_cast congrArg (fun z : Int => (z : ℚ)) this
    rw [e]
    exact h
  have fl32_err_small : ∀ (d : ℚ) (h0 : 0 ≤ d) (h : d < 16),
      |fl32 d - d| ≤ 1 / 2097152 := by
    intro d h0 h
    unfold fl32
    simp only
    have he3 : max (Int.log 2 d) (-126) ≤ 3 := by
      apply max_le _ (by norm_num)
      rcases eq_or_lt_of_le h0 with h00 | hpos
      · rw [← h00, Int.log_zero_right]; norm_num
      · have : Int.log 2 d < 4 :=
          (Int.lt_zpow_iff_log_lt (by norm_num) hpos).1 (by norm_num; exact h)
        omega
    generalize max (Int.log 2 d) (-126) = e at he3
    have hq0 : (0 : ℚ) < 2 ^ (e - 23) := zpow_pos (by norm_num) _
    have hq1 : (2 : ℚ) ^ (e - 23) ≤ 1 / 1048576 := by
      have h1 : (2 : ℚ) ^ (e - 23) ≤ 2 ^ (-20 : ℤ) := zpow_le_zpow_right₀ (by norm_num) (by omega)
      have h2 : (2 : ℚ) ^ (-20 : ℤ) = 1 / 1048576 := by norm_num
      rw [h2] at h1
      exact h1
    generalize (2 : ℚ) ^ (e - 23) = q at hq0 hq1
    have herr := round_even_err (d / q)
    have e1 : (round_even (d / q) : ℚ) * q - d = ((round_even (d / q) : ℚ) - d / q) * q := by
      field_simp
    rw [e1, abs_mul, abs_of_pos hq0]
    calc |(round_even (d / q) : ℚ) - d / q| * q ≤ 1 / 2 * q :=
          mul_le_mul_of_nonneg_right herr hq0.le
      _ ≤ 1 / 2097152 := by linarith
  -- A numeral with six decimals below 16 is recovered from the float.
  have round6_fl32_small : ∀ (k : Nat) (h : (k : ℚ) / 1000000 < 16),
      round6 (fl32 ((k : ℚ) / 1000000)) = k := by
    intro k h
    have h1 := fl32_err_small ((k : ℚ) / 1000000) (by positivity) h
    apply round6_near
    rw [abs_le] at h1
    rw [abs_lt]
    constructor <;> linarith [h1.1, h1.2]
  -- A float of magnitude 16 or more is the float nearest to its numeral with six decimals.
  have fl32_round6_large : ∀ (x : ℚ) (hx : fl32 x = x) (h16 : 16 ≤ x),
      fl32 ((round6 x : ℚ) / 1000000) = x := by
    intro x hx h16
    have hpos : 0 < x := by linarith
    have he4 : 4 ≤ Int.log 2 x :=
      (Int.zpow_le_iff_le_log (by norm_num) hpos).1 (by norm_num; exact h16)
    have hlo : (2 : ℚ) ^ (Int.log 2 x) ≤ x := by
      simpa using Int.zpow_log_le_self (by norm_num : 1 < 2) hpos
    have hhi : x < (2 : ℚ) ^ (Int.log 2 x + 1) := by
      simpa using Int.lt_zpow_succ_log_self (by norm_num : 1 < 2) x
    have hmax : max (Int.log 2 x) (-126) = Int.log 2 x := max_eq_left (by omega)
    unfold fl32 at hx
    simp only [hmax] at hx
    generalize hM : round_even (x / 2 ^ (Int.log 2 x - 23)) = M at hx
    clear hM
    generalize Int.log 2 x = e at he4 hlo hhi hmax hx
    have hq0 : (0 : ℚ) < 2 ^ (e - 23) := zpow_pos (by norm_num) _
    have hq2 : 1 / 524288 ≤ (2 : ℚ) ^ (e - 23) := by
      have h1 : (2 : ℚ) ^ (-19 : ℤ) ≤ 2 ^ (e - 23) := zpow_le_zpow_right₀ (by norm_num) (by omega)
      have h2 : (2 : ℚ) ^ (-19 : ℤ) = 1 / 524288 := by norm_num
      rw [h2] at h1
      exact h1
    have h24 : (2 : ℚ) ^ (e + 1) = 16777216 * 2 ^ (e - 23) := by
      rw [show e + 1 = 24 + (e - 23) by ring, zpow_add₀ (by norm_num)]
      norm_num
    have h23 : (2 : ℚ) ^ e = 8388608 * 2 ^ (e - 23) := by
      conv_lhs => rw [show e = 23 + (e - 23) by ring, zpow_add₀ (by norm_num)]
      norm_num
    obtain ⟨n, rfl⟩ := Int.eq_ofNat_of_zero_le (show 0 ≤ e by omega)
    have hK : (2 : ℚ) ^ ((n : ℕ) : ℤ) = ((2 ^ n : ℕ) : ℚ) := by
      rw [zpow_natCast]; push_cast; rfl
    have hlog : ∀ d : ℚ, (2 : ℚ) ^ ((n : ℕ) : ℤ) ≤ d → d < (2 : ℚ) ^ (((n : ℕ) : ℤ) + 1) →
        max (Int.log 2 d) (-126) = ((n : ℕ) : ℤ) := by
      intro d h1 h2
      have hd0 : 0 < d := lt_of_lt_of_le (zpow_pos (by norm_num) _) h1
      have a1 : ((n : ℕ) : ℤ) ≤ Int.log 2 d :=
        (Int.zpow_le_iff_le_log (by norm_num) hd0).1 (by simpa using h1)
      have a2 : Int.log 2 d < ((n : ℕ) : ℤ) + 1 :=
        (Int.lt_zpow_iff_log_lt (by norm_num) hd0).1 (by simpa using h2)
      rw [max_eq_left (by omega)]
      omega
    generalize hqd : (2 : ℚ) ^ (((n : ℕ) : ℤ) - 23) = q at *
    have herr := round6_err x hpos.le
    rw [abs_le] at herr
    -- the integer bounds of the mantissa
    have hMlt : M < 16777216 := by
      have : (M : ℚ) * q < 16777216 * q := by rw [hx, ← h24]; exact hhi
      have : (M : ℚ) < 16777216 := lt_of_mul_lt_mul_right this hq0.le
      exact_mod_cast this
    have hxle : x ≤ 16777216 * q - q := by
      have : (M : ℚ) ≤ 16777215 := by exact_mod_cast (show M ≤ 16777215 by omega)
      rw [← hx]
      nlinarith
    -- the rounded numeral stays in the binade
    have hdlo : (2 : ℚ) ^ ((n : ℕ) : ℤ) ≤ (round6 x : ℚ) / 1000000 := by
      rw [hK, le_div_iff₀ (by norm_num)]
      have h1 : ((2 ^ n : ℕ) : ℚ) * 1000000 - 1 < (round6 x : ℚ) := by
        rw [← hK]; linarith
      have h2 : 2 ^ n * 1000000 < round6 x + 1 := by
        have : ((2 ^ n * 1000000 : ℕ) : ℚ) < ((round6 x + 1 : ℕ) : ℚ) := by
          push_cast; push_cast at h1; linarith
        exact_mod_cast this
      have : 2 ^ n * 1000000 ≤ round6 x := by omega
      exact_mod_cast this
    have hdhi : (round6 x : ℚ) / 1000000 < (2 : ℚ) ^ (((n : ℕ) : ℤ) + 1) := by
      rw [h24, div_lt_iff₀ (by norm_num)]
      nlinarith
    unfold fl32
    simp only
    rw [hlog _ hdlo hdhi, hqd]
    have hnear : round_even ((round6 x : ℚ) / 1000000 / q) = M := by
      apply round_even_near
      have e1 : (round6 x : ℚ) / 1000000 / q - M = ((round6 x : ℚ) - x * 1000000) / (1000000 * q) := by
        rw [← hx]; field_simp; ring
      rw [e1, abs_div, abs_of_pos (show (0 : ℚ) < 1000000 * q by positivity),
        div_lt_iff₀ (by positivity)]
      have : |(round6 x : ℚ) - x * 1000000| ≤ 1 / 2 := abs_le.2 herr
      nlinarith
    rw [hnear, hx]
  -- Writing a float with `%f` and reading the numeral back as a float: the numeral is
  -- recovered, and so is the float when its magnitude is 16 or more.
  have fl32_round6 : ∀ (x : ℚ) (h0 : 0 ≤ x) (hx : fl32 x = x) (hmax : x ≤ FLT_MAX),
      round6 (fl32 ((round6 x : ℚ) / 1000000)) = round6 x ∧
      fl32 ((round6 x : ℚ) / 1000000) ≤ FLT_MAX ∧
      (16 ≤ x → fl32 ((round6 x : ℚ) / 1000000) = x) := by
    intro x h0 hx hmax
    have hF : (17 : ℚ) ≤ FLT_MAX := by unfold FLT_MAX; norm_num
    refine ⟨?_, ?_, fl32_round6_large x hx⟩
    · by_cases hd : (round6 x : ℚ) / 1000000 < 16
      · exact round6_fl32_small _ hd
      · by_cases h16 : 16 ≤ x
        · rw [fl32_round6_large x hx h16]
        · have herr := round6_err x h0
          rw [abs_le] at herr
          rw [not_lt, le_div_iff₀ (by norm_num)] at hd
          rw [not_le] at h16
          have h1 : (16000000 : ℚ) ≤ (round6 x : ℚ) := by linarith
          have h2 : (round6 x : ℚ) < 16000001 := by linarith
          have h3 : round6 x = 16000000 := by
            have a : 16000000 ≤ round6 x := by exact_mod_cast h1
            have b : round6 x < 16000001 := by exact_mod_cast h2
            omega
          rw [h3]
          have : ((16000000 : ℕ) : ℚ) / 1000000 = 16 := by norm_num
          rw [this, fl32_sixteen]
          have := round6_cast 16000000
          rw [← this]
          congr 1
          norm_num
    · by_cases hd : (round6 x : ℚ) / 1000000 < 16
      · have := fl32_err_small _ (by positivity) hd
        rw [abs_le] at this
        linarith [this.2]
      · by_cases h16 : 16 ≤ x
        · rw [fl32_round6_large x hx h16]; exact hmax
        · have herr := round6_err x h0
          rw [abs_le] at herr
          rw [not_lt, le_div_iff₀ (by norm_num)] at hd
          rw [not_le] at h16
          have h1 : (16000000 : ℚ) ≤ (round6 x : ℚ) := by linarith
          have h2 : (round6 x : ℚ) < 16000001 := by linarith
          have h3 : round6 x = 16000000 := by
            have a : 16000000 ≤ round6 x := by exact_mod_cast h1
            have b : round6 x < 16000001 := by exact_mod_cast h2
            omega
          rw [h3]
          have : ((16000000 : ℕ) : ℚ) / 1000000 = 16 := by norm_num
          rw [this, fl32_sixteen]
          linarith
  obtain ⟨h0, h1, h2⟩ := h
  obtain ⟨a, b, c⟩ := fl32_round6 x.mag h0 h1 h2
  refine ⟨?_, ?_, fun h16 => ?_⟩
  · unfold to_float CFloat.round CFloat.reload
    simp only
    rw [if_pos b]
  · unfold put_float CFloat.reload
    simp only [a]
  · unfold CFloat.reload
    rw [c h16]

/-- Reading back with `%f` what `%f` wrote: the float nearest to the value
rounded to six decimals. -/
theorem conv_float_put (x : CFloat) (rest : List Char)
    (h : ∀ y, rest.head? = some y → is_digit y = false)
    (hx : to_float x.round = some x.reload) :
    conv_float (put_float x ++ rest) = (some x.reload, rest) := by
  -- The numeral that `%f` wrote, scanned: the value rounded to six decimals.
  have scan_numeral_put : ∀ (x : CFloat) (rest : List Char) (h : ∀ y, rest.head? = some y → is_digit
      y = false),
      scan_numeral (put_float x ++ rest) = (some x.round, rest) := by
    intro x rest h
    obtain ⟨hv, hd, hn⟩ := put_nat_spec (round6 x.mag / 1000000)
    obtain ⟨c, cs, hc, hcd⟩ := put_nat_head (round6 x.mag / 1000000)
    obtain ⟨fv, fd, fl⟩ := frac6_spec (round6 x.mag % 1000000) (Nat.mod_lt _ (by norm_num))
    obtain ⟨tk, dr⟩ := take_while_append is_digit (put_nat (round6 x.mag / 1000000))
      ('.' :: (frac6 (round6 x.mag % 1000000) ++ rest)) hd
      (fun y hy => by
        simp only [List.head?_cons, Option.some.injEq] at hy
        subst hy
        decide)
    obtain ⟨tk2, dr2⟩ := take_while_append is_digit (frac6 (round6 x.mag % 1000000)) rest fd h
    have e : scan_sign (skip_ws (put_float x ++ rest)) =
        (x.neg, put_nat (round6 x.mag / 1000000) ++
          '.' :: (frac6 (round6 x.mag % 1000000) ++ rest)) := by
      unfold put_float
      cases hx : x.neg with
      | true =>
        simp only [if_true, List.cons_append, List.nil_append, List.append_assoc]
        rw [skip_ws_cons _ _ (by decide)]
        rfl
      | false =>
        simp only [Bool.false_eq_true, if_false, List.cons_append, List.nil_append,
          List.append_assoc]
        rw [hc, List.cons_append, skip_ws_cons _ _ (is_digit_spec c hcd).1,
          scan_sign_other _ _ (is_digit_spec c hcd).2.1 (is_digit_spec c hcd).2.2.1]
    unfold scan_numeral
    simp only [e, tk, dr, tk2, dr2, hn, false_and, if_false, hv, fv, fl]
    congr 2
    unfold CFloat.round
    congr 1
    have key : ((round6 x.mag / 1000000 : ℕ) : ℚ) * 1000000 + ((round6 x.mag % 1000000 : ℕ) : ℚ) =
        (round6 x.mag : ℚ) := by
      have := Nat.div_add_mod (round6 x.mag) 1000000
      have h2 : ((1000000 * (round6 x.mag / 1000000) + round6 x.mag % 1000000 : ℕ) : ℚ) =
          (round6 x.mag : ℚ) := by rw [this]
      push_cast at h2
      linarith
    rw [← key]
    norm_num
    ring
  have e : scan_numeral (put_float x ++ rest) = (some x.round, rest) :=
    scan_numeral_put x rest h
  unfold conv_float
  rw [e]
  simp only [Option.some_bind, hx]

theorem match_lit_append (l rest : List Char) : match_lit l (l ++ rest) = (true, rest) := by
  induction l with
  | nil => rfl
  | cons c cs ih =>
    rw [List.cons_append]
    unfold match_lit
    rw [if_pos rfl]
    exact ih

theorem skip_ws_idem (t : List Char) : skip_ws (skip_ws t) = skip_ws t := by
  unfold skip_ws
  induction t with
  | nil => rfl
  | cons c t ih =>
    rw [List.dropWhile_cons]
    cases h : is_space c with
    | true => simpa using ih
    | false =>
      simp only [Bool.false_eq_true, if_false]
      rw [List.dropWhile_cons, h]
      rfl

theorem conv_skips (t : List Char) :
    conv_int (skip_ws t) = conv_int t ∧ conv_float (skip_ws t) = conv_float t ∧
    conv_int (' ' :: t) = conv_int t ∧ conv_float (' ' :: t) = conv_float t := by
  have a : ∀ t, conv_int (skip_ws t) = conv_int t := by
    intro t
    unfold conv_int
    rw [skip_ws_idem]
  have b : ∀ t, conv_float (skip_ws t) = conv_float t := by
    intro t
    unfold conv_float scan_numeral
    rw [skip_ws_idem]
  refine ⟨a t, b t, ?_, ?_⟩
  · rw [← a (' ' :: t), skip_ws_space _ _ (by decide), a]
  · rw [← b (' ' :: t), skip_ws_space _ _ (by decide), b]

/-- Reading back a line `<name> = %d`. -/
theorem fscanf_d_put (name : String) (var v : Int) (rest : List Char) (hv : IsInt32 v)
    (h : skip_ws rest = rest) :
    fscanf_d name var (fprintf_d name v ++ rest) = (v, rest) := by
  unfold fscanf_d fprintf_d
  simp only [List.append_assoc, List.cons_append, List.nil_append]
  rw [match_lit_append]
  simp only [Bool.not_true, Bool.false_eq_true, if_false]
  rw [skip_ws_space _ _ (by decide), skip_ws_cons _ _ (by decide)]
  have e : match_lit ['='] ('=' :: ' ' :: (put_int v ++ '\n' :: rest)) =
      (true, ' ' :: (put_int v ++ '\n' :: rest)) := rfl
  rw [e]
  simp only [Bool.not_true, Bool.false_eq_true, if_false]
  rw [(conv_skips _).1, (conv_skips _).2.2.1, conv_int_put v _ hv (fun y hy => by
    simp only [List.head?_cons, Option.some.injEq] at hy
    subst hy
    decide)]
  simp only
  rw [skip_ws_space _ _ (by decide), h]

theorem nows_fprintf_d (name : String) (v : Int) (rest : List Char) (c : Char) (cs : List Char)
    (h : name.toList = c :: cs) (hc : is_space c = false) :
    skip_ws (fprintf_d name v ++ rest) = fprintf_d name v ++ rest := by
  unfold fprintf_d
  rw [h, List.cons_append, List.cons_append]
  exact skip_ws_cons _ _ hc

theorem nows_fprintf_f (name : String) (x : CFloat) (rest : List Char) (c : Char)
    (cs : List Char) (h : name.toList = c :: cs) (hc : is_space c = false) :
    skip_ws (fprintf_f name x ++ rest) = fprintf_f name x ++ rest := by
  unfold fprintf_f
  rw [h, List.cons_append, List.cons_append]
  exact skip_ws_cons _ _ hc

theorem head_row_tail (a : Int → CFloat) (k : Nat) (count : Int) (rest : List Char)
    (h : ∀ y, rest.head? = some y → is_digit y = false) :
    ∀ y, (row_tail a k count ++ rest).head? = some y → is_digit y = false := by
  cases k with
  | zero => exact h
  | succ k =>
    intro y hy
    unfold row_tail at hy
    simp only [List.cons_append, List.head?_cons, Option.some.injEq] at hy
    subst hy
    decide

/-- What `read_params` makes of a file that starts with the header lines of
the state `S`. -/
theorem read_params_header (S S0 : ParaState) (fs : FileSys) (fresh : Int → CFloat)
    (rest : List Char) (hrest : skip_ws rest = rest) (ht : S.Typed)
    (hn : 0 ≤ S.n_pts_) (hd : 0 ≤ S.dim_) (hm : 0 ≤ S.m_) (hmd : S.m_ * S.dim_ < 2147483648)
    (hf : fs.file (S0.index_path_ ++ "para") = some (para_header S rest)) :
    read_params S0 fs fresh =
      (.returned 0, ⟨S.n_pts_, S.dim_, S.B_, S.appr_ratio_.reload, S.w_.reload, S.p1_.reload,
        S.p2_.reload, S.p_.reload, S.alpha_.reload, S.beta_.reload, S.delta_.reload,
        S.zeta_.reload, S.m_, S.l_, (read_rows S.dim_ S.m_.toNat fresh 0 rest).1,
        S0.index_path_⟩) := by
  -- Reading back a line `<name> = %f`.
  have fscanf_f_put : ∀ (name : String) (var x : CFloat) (rest : List Char) (hx : x.IsFloat32) (h :
      skip_ws rest = rest),
      fscanf_f name var (fprintf_f name x ++ rest) = (x.reload, rest) := by
    intro name var x rest hx h
    unfold fscanf_f fprintf_f
    simp only [List.append_assoc, List.cons_append, List.nil_append]
    rw [match_lit_append]
    simp only [Bool.not_true, Bool.false_eq_true, if_false]
    rw [skip_ws_space _ _ (by decide), skip_ws_cons _ _ (by decide)]
    have e : match_lit ['='] ('=' :: ' ' :: (put_float x ++ '\n' :: rest)) =
        (true, ' ' :: (put_float x ++ '\n' :: rest)) := rfl
    rw [e]
    simp only [Bool.not_true, Bool.false_eq_true, if_false]
    rw [(conv_skips _).2.1, (conv_skips _).2.2.2, conv_float_put x _ (fun y hy => by
      simp only [List.head?_cons, Option.some.injEq] at hy
      subst hy
      decide) (float_reload x hx).1]
    simp only
    rw [skip_ws_space _ _ (by decide), h]
  -- What the header reads of `read_params` make of a text that starts with the header lines of
  -- the state `S`.
  have read_header_put : ∀ (S S0 : ParaState) (rest : List Char) (hrest : skip_ws rest = rest) (ht :
      S.Typed),
      read_header S0 (para_header S rest) =
        (⟨S.n_pts_, S.dim_, S.B_, S.appr_ratio_.reload, S.w_.reload, S.p1_.reload, S.p2_.reload,
          S.p_.reload, S.alpha_.reload, S.beta_.reload, S.delta_.reload, S.zeta_.reload, S.m_,
          S.l_, S0.a_array_, S0.index_path_⟩, rest) := by
    intro S S0 rest hrest ht
    obtain ⟨i1, i2, i3, i4, i5, f1, f2, f3, f4, f5, f6, f7, f8, f9, _⟩ := ht
    unfold read_header para_header
    rw [fscanf_d_put _ _ _ _ i1 (nows_fprintf_d _ _ _ 'd' [] rfl (by decide))]
    simp only
    rw [fscanf_d_put _ _ _ _ i2 (nows_fprintf_d _ _ _ 'B' [] rfl (by decide))]
    simp only
    rw [fscanf_d_put _ _ _ _ i3 (nows_fprintf_f _ _ _ 'r' ['a', 't', 'i', 'o'] rfl (by decide))]
    simp only
    rw [fscanf_f_put _ _ _ _ f1 (nows_fprintf_f _ _ _ 'w' [] rfl (by decide))]
    simp only
    rw [fscanf_f_put _ _ _ _ f2 (nows_fprintf_f _ _ _ 'p' ['1'] rfl (by decide))]
    simp only
    rw [fscanf_f_put _ _ _ _ f3 (nows_fprintf_f _ _ _ 'p' ['2'] rfl (by decide))]
    simp only
    rw [fscanf_f_put _ _ _ _ f4 (nows_fprintf_f _ _ _ 'p' [] rfl (by decide))]
    simp only
    rw [fscanf_f_put _ _ _ _ f5 (nows_fprintf_f _ _ _ 'a' ['l', 'p', 'h', 'a'] rfl (by decide))]
    simp only
    rw [fscanf_f_put _ _ _ _ f6 (nows_fprintf_f _ _ _ 'b' ['e', 't', 'a'] rfl (by decide))]
    simp only
    rw [fscanf_f_put _ _ _ _ f7 (nows_fprintf_f _ _ _ 'd' ['e', 'l', 't', 'a'] rfl (by decide))]
    simp only
    rw [fscanf_f_put _ _ _ _ f8 (nows_fprintf_f _ _ _ 'z' ['e', 't', 'a'] rfl (by decide))]
    simp only
    rw [fscanf_f_put _ _ _ _ f9 (nows_fprintf_d _ _ _ 'm' [] rfl (by decide))]
    simp only
    rw [fscanf_d_put _ _ _ _ i4 (nows_fprintf_d _ _ _ 'l' [] rfl (by decide))]
    simp only
    rw [fscanf_d_put _ _ _ _ i5 hrest]
  have h0 : 0 ≤ S.m_ * S.dim_ := mul_nonneg hm hd
  unfold read_params
  rw [hf]
  simp only [read_header_put S S0 rest hrest ht]
  rw [if_neg (by rw [not_not]; exact ⟨by omega, hmd⟩), if_neg (by omega), if_neg (by omega)]

theorem row_tail_congr (a b : Int → CFloat) (k : Nat) (count : Int)
    (h : ∀ j, count ≤ j → j < count + k → put_float (b j) = put_float (a j)) :
    row_tail b k count = row_tail a k count := by
  induction k generalizing count with
  | zero => rfl
  | succ k ih =>
    unfold row_tail
    rw [h count (le_refl _) (by push_cast; omega),
      ih (count + 1) (fun j h1 h2 => h j (by omega) (by push_cast; omega))]

theorem write_params_new (S : ParaState) (fs : FileSys)
    (hnew : fs.file (S.index_path_ ++ "para") = none)
    (hc : fs.can_create (S.index_path_ ++ "para") = true) :
    write_params S fs = (.returned 0,
      { fs with file := Function.update fs.file (S.index_path_ ++ "para") (some (para_text S)) }) := by
  unfold write_params
  simp only [hnew, hc, Bool.not_true, Bool.false_eq_true, if_false]

/-- Build then load, in full. -/
theorem reload_spec (S S0 : ParaState) (fs : FileSys) (fresh : Int → CFloat)
    (ht : S.Typed) (hn : 0 ≤ S.n_pts_) (hd : 1 ≤ S.dim_) (hm : 0 ≤ S.m_)
    (hmd : S.m_ * S.dim_ < 2147483648)
    (hnew : fs.file (S.index_path_ ++ "para") = none)
    (hc : fs.can_create (S.index_path_ ++ "para") = true)
    (hp : S0.index_path_ = S.index_path_) :
    write_params S fs = (.returned 0,
      { fs with file := Function.update fs.file (S.index_path_ ++ "para") (some (para_text S)) }) ∧
    read_params S0 (write_params S fs).2 fresh =
      (.returned 0, ⟨S.n_pts_, S.dim_, S.B_, S.appr_ratio_.reload, S.w_.reload, S.p1_.reload,
        S.p2_.reload, S.p_.reload, S.alpha_.reload, S.beta_.reload, S.delta_.reload,
        S.zeta_.reload, S.m_, S.l_, stored fresh S.a_array_ 0 (S.m_.toNat * S.dim_),
        S0.index_path_⟩) := by
  have nows_put_float : ∀ (x : CFloat) (r : List Char),
      skip_ws (put_float x ++ r) = put_float x ++ r := by
    intro x r
    obtain ⟨c, cs, hc, hcd⟩ := put_nat_head (round6 x.mag / 1000000)
    unfold put_float
    cases hx : x.neg with
    | true =>
      simp only [if_true, List.cons_append, List.nil_append, List.append_assoc]
      exact skip_ws_cons _ _ (by decide)
    | false =>
      simp only [Bool.false_eq_true, if_false, List.cons_append, List.nil_append,
        List.append_assoc]
      rw [hc, List.cons_append]
      exact skip_ws_cons _ _ (is_digit_spec c hcd).1
  have nows_rows : ∀ (a : Int → CFloat) (dim_ : Int) (i : Nat) (count : Int),
      skip_ws (rows a dim_ i count) = rows a dim_ i count := by
    intro a dim_ i count
    cases i with
    | zero => rfl
    | succ i =>
      unfold rows
      exact nows_put_float _ _
  have stored_update : ∀ (a0 a : Int → CFloat) (lo hi : Int) (h : lo ≤ hi),
      Function.update (stored a0 a lo hi) hi (a hi).reload = stored a0 a lo (hi + 1) := by
    intro a0 a lo hi h
    funext i
    unfold stored
    by_cases e : i = hi
    · subst e
      rw [Function.update_same, if_pos ⟨h, by omega⟩]
    · rw [Function.update_noteq e]
      by_cases c : lo ≤ i ∧ i < hi
      · rw [if_pos c, if_pos ⟨c.1, by omega⟩]
      · rw [if_neg c, if_neg (by omega)]
  -- Reading back the elements of a row after its first one.
  have read_row_tail : ∀ (a : Int → CFloat) (k : Nat) (a0 : Int → CFloat) (lo count : Int) (rest :
      List Char) (hlo : lo ≤ count) (ha : ∀ j, count ≤ j → j < count + k → (a j).IsFloat32) (h : ∀
      y, rest.head? = some y → is_digit y = false),
      read_row k (stored a0 a lo count) count (row_tail a k count ++ rest) =
        (stored a0 a lo (count + k), count + k, rest) := by
    intro a k a0 lo count rest hlo ha h
    induction k generalizing count with
    | zero => simp [read_row, row_tail]
    | succ k ih =>
      unfold read_row row_tail
      rw [List.cons_append, List.append_assoc, (conv_skips _).2.2.2,
        conv_float_put _ _ (head_row_tail a k (count + 1) rest h)
          (float_reload _ (ha count (le_refl _) (by push_cast; omega))).1]
      simp only
      rw [stored_update a0 a lo count hlo, ih (count + 1) (by omega)
        (fun j h1 h2 => ha j (by omega) (by push_cast; omega))]
      push_cast
      rw [show count + 1 + (k : Int) = count + ((k : Int) + 1) by ring]
  -- Reading back one row.
  have read_row_put : ∀ (a : Int → CFloat) (dim_ : Int) (hd : 1 ≤ dim_) (a0 : Int → CFloat) (lo
      count : Int) (rest : List Char) (hlo : lo ≤ count) (ha : ∀ j, count ≤ j → j < count + dim_ →
      (a j).IsFloat32) (h : ∀ y, rest.head? = some y → is_digit y = false),
      read_row dim_.toNat (stored a0 a lo count) count
          (put_float (a count) ++ (row_tail a (dim_ - 1).toNat (count + 1) ++ rest)) =
        (stored a0 a lo (count + dim_), count + dim_, rest) := by
    intro a dim_ hd a0 lo count rest hlo ha h
    have e : dim_.toNat = (dim_ - 1).toNat + 1 := by omega
    rw [e]
    unfold read_row
    rw [conv_float_put _ _ (head_row_tail a _ (count + 1) rest h)
      (float_reload _ (ha count (le_refl _) (by omega))).1]
    simp only
    rw [stored_update a0 a lo count hlo, read_row_tail a _ a0 lo (count + 1) rest (by omega)
      (fun j h1 h2 => ha j (by omega) (by omega)) h]
    have c : count + 1 + (((dim_ - 1).toNat : ℕ) : Int) = count + dim_ := by omega
    rw [c]
  -- Reading back the rows of `a_array_`.
  have read_rows_put : ∀ (a : Int → CFloat) (dim_ : Int) (hd : 1 ≤ dim_) (i : Nat) (a0 : Int →
      CFloat) (lo count : Int) (hlo : lo ≤ count) (ha : ∀ j, count ≤ j → j < count + i * dim_ → (a
      j).IsFloat32),
      read_rows dim_ i (stored a0 a lo count) count (rows a dim_ i count) =
        (stored a0 a lo (count + i * dim_), count + i * dim_, []) := by
    intro a dim_ hd i a0 lo count hlo ha
    induction i generalizing count with
    | zero => simp [read_rows, rows]
    | succ i ih =>
      have hi : (0 : Int) ≤ (i : Int) * dim_ := mul_nonneg (Int.natCast_nonneg _) (by omega)
      have e : (((i + 1 : ℕ) : Int)) * dim_ = dim_ + (i : Int) * dim_ := by push_cast; ring
      unfold read_rows rows
      rw [read_row_put a dim_ hd a0 lo count _ hlo
        (fun j h1 h2 => ha j h1 (by rw [e]; omega)) (fun y hy => by
        simp only [List.head?_cons, Option.some.injEq] at hy
        subst hy
        decide)]
      simp only
      rw [skip_ws_space _ _ (by decide), nows_rows]
      have c : count + 1 + (((dim_ - 1).toNat : ℕ) : Int) = count + dim_ := by omega
      rw [c, ih (count + dim_) (by omega) (fun j h1 h2 => ha j (by omega) (by rw [e]; omega))]
      push_cast
      rw [show count + dim_ + (i : Int) * dim_ = count + ((i : Int) + 1) * dim_ by ring]
  have stored_empty : ∀ (a0 a : Int → CFloat) (lo : Int),
      stored a0 a lo lo = a0 := by
    intro a0 a lo
    funext i
    unfold stored
    rw [if_neg (by omega)]
  -- What `read_params` makes of a file that `write_params` wrote for the state `S`.
  have read_params_text : ∀ (S S0 : ParaState) (fs : FileSys) (fresh : Int → CFloat) (ht : S.Typed)
      (hn : 0 ≤ S.n_pts_) (hd : 1 ≤ S.dim_) (hm : 0 ≤ S.m_) (hmd : S.m_ * S.dim_ < 2147483648) (hf
      : fs.file (S0.index_path_ ++ "para") = some (para_text S)),
      read_params S0 fs fresh =
        (.returned 0, ⟨S.n_pts_, S.dim_, S.B_, S.appr_ratio_.reload, S.w_.reload, S.p1_.reload,
          S.p2_.reload, S.p_.reload, S.alpha_.reload, S.beta_.reload, S.delta_.reload,
          S.zeta_.reload, S.m_, S.l_, stored fresh S.a_array_ 0 (S.m_.toNat * S.dim_),
          S0.index_path_⟩) := by
    intro S S0 fs fresh ht hn hd hm hmd hf
    rw [read_params_header S S0 fs fresh _ (nows_rows _ _ _ _) ht hn (by omega) hm hmd hf]
    have e := read_rows_put S.a_array_ S.dim_ hd S.m_.toNat fresh 0 0 (le_refl _)
      (fun j h1 h2 => ht.2.2.2.2.2.2.2.2.2.2.2.2.2.2 j h1 (by
        rw [Int.toNat_of_nonneg hm] at h2; omega))
    rw [stored_empty, zero_add] at e
    rw [e]
  have w := write_params_new S fs hnew hc
  refine ⟨w, ?_⟩
  apply read_params_text S S0 _ fresh ht hn hd hm hmd
  rw [w, hp]
  simp only [Function.update_same]

/-- C23, as the code has it: for a parameter state whose members hold values
of their C types, with `n_pts_ >= 0`, `m_ >= 0`, `dim_ >= 1` and `m_ * dim_`
an `int`, written by `write_params` where no para file exists yet,
`read_params` returns 0 and reconstructs `n`, `d`, `B`, `m`, `l` exactly and
`ratio`, `w`, `p1`, `p2`, `p`, `alpha`, `beta`, `delta`, `zeta` and every
element of `a_array` as the float nearest to the written value rounded to six
decimals (`%f`); this is the written float itself when its magnitude is 16 or
more, and in general it prints as the written float does. The fields are read
in the order they were written, and writing the reloaded state again gives the
same text, byte for byte. -/
theorem para_roundtrip (S S0 : ParaState) (fs : FileSys) (fresh : Int → CFloat)
    (ht : S.Typed) (hn : 0 ≤ S.n_pts_) (hd : 1 ≤ S.dim_) (hm : 0 ≤ S.m_)
    (hmd : S.m_ * S.dim_ < 2147483648)
    (hnew : fs.file (S.index_path_ ++ "para") = none)
    (hc : fs.can_create (S.index_path_ ++ "para") = true)
    (hp : S0.index_path_ = S.index_path_) :
    (write_params S fs).1 = .returned 0 ∧
    (write_params S fs).2.file (S.index_path_ ++ "para") = some (para_text S) ∧
    (read_params S0 (write_params S fs).2 fresh).1 = .returned 0 ∧
    (reload S S0 fs fresh).n_pts_ = S.n_pts_ ∧
    (reload S S0 fs fresh).dim_ = S.dim_ ∧
    (reload S S0 fs fresh).B_ = S.B_ ∧
    (reload S S0 fs fresh).m_ = S.m_ ∧
    (reload S S0 fs fresh).l_ = S.l_ ∧
    (reload S S0 fs fresh).appr_ratio_ = S.appr_ratio_.reload ∧
    (reload S S0 fs fresh).w_ = S.w_.reload ∧
    (reload S S0 fs fresh).p1_ = S.p1_.reload ∧
    (reload S S0 fs fresh).p2_ = S.p2_.reload ∧
    (reload S S0 fs fresh).p_ = S.p_.reload ∧
    (reload S S0 fs fresh).alpha_ = S.alpha_.reload ∧
    (reload S S0 fs fresh).beta_ = S.beta_.reload ∧
    (reload S S0 fs fresh).delta_ = S.delta_.reload ∧
    (reload S S0 fs fresh).zeta_ = S.zeta_.reload ∧
    (∀ k : Int, 0 ≤ k → k < S.m_ * S.dim_ →
      (reload S S0 fs fresh).a_array_ k = (S.a_array_ k).reload) ∧
    (∀ x : CFloat, x.IsFloat32 →
      x.reload = ⟨x.neg, fl32 ((round6 x.mag : ℚ) / 1000000)⟩ ∧
      put_float x.reload = put_float x ∧ (16 ≤ x.mag → x.reload = x)) ∧
    para_text (reload S S0 fs fresh) = para_text S ∧
    (∀ fs2 : FileSys, fs2.file (S.index_path_ ++ "para") = none →
      fs2.can_create (S.index_path_ ++ "para") = true →
      (write_params (reload S S0 fs fresh) fs2).1 = .returned 0 ∧
      (write_params (reload S S0 fs fresh) fs2).2.file (S.index_path_ ++ "para") =
        (write_params S fs).2.file (S.index_path_ ++ "para")) := by
  have rows_congr : ∀ (a b : Int → CFloat) (dim_ : Int) (hd : 1 ≤ dim_) (i : Nat) (count : Int) (h :
      ∀ j, count ≤ j → j < count + i * dim_ → put_float (b j) = put_float (a j)),
      rows b dim_ i count = rows a dim_ i count := by
    intro a b dim_ hd i count h
    induction i generalizing count with
    | zero => rfl
    | succ i ih =>
      have c : count + 1 + (((dim_ - 1).toNat : ℕ) : Int) = count + dim_ := by omega
      have hi : (0 : Int) ≤ (i : Int) * dim_ := mul_nonneg (Int.natCast_nonneg _) (by omega)
      have e : (((i + 1 : ℕ) : Int)) * dim_ = dim_ + (i : Int) * dim_ := by push_cast; ring
      unfold rows
      rw [h count (le_refl _) (by rw [e]; omega),
        row_tail_congr a b _ (count + 1) (fun j h1 h2 => h j (by omega) (by rw [e]; omega)),
        c, ih (count + dim_) (fun j h1 h2 => h j (by omega) (by rw [e]; omega))]
  have para_text_reload : ∀ (S S0 : ParaState) (fresh : Int → CFloat) (ht : S.Typed) (hd : 1 ≤
      S.dim_) (hm : 0 ≤ S.m_),
      para_text ⟨S.n_pts_, S.dim_, S.B_, S.appr_ratio_.reload, S.w_.reload, S.p1_.reload,
          S.p2_.reload, S.p_.reload, S.alpha_.reload, S.beta_.reload, S.delta_.reload,
          S.zeta_.reload, S.m_, S.l_, stored fresh S.a_array_ 0 (S.m_.toNat * S.dim_),
          S0.index_path_⟩ =
        para_text S := by
    intro S S0 fresh ht hd hm
    obtain ⟨_, _, _, _, _, f1, f2, f3, f4, f5, f6, f7, f8, f9, fa⟩ := ht
    unfold para_text para_header fprintf_f
    simp only [(float_reload _ f1).2.1, (float_reload _ f2).2.1, (float_reload _ f3).2.1,
      (float_reload _ f4).2.1, (float_reload _ f5).2.1, (float_reload _ f6).2.1,
      (float_reload _ f7).2.1, (float_reload _ f8).2.1, (float_reload _ f9).2.1]
    rw [rows_congr S.a_array_ _ S.dim_ hd S.m_.toNat 0 (fun j h1 h2 => by
      unfold stored
      rw [if_pos ⟨h1, by simpa using h2⟩]
      exact (float_reload _ (fa j h1 (by
        rw [Int.toNat_of_nonneg hm] at h2; omega))).2.1)]
  obtain ⟨w, r⟩ := reload_spec S S0 fs fresh ht hn hd hm hmd hnew hc hp
  have hfile : (write_params S fs).2.file (S.index_path_ ++ "para") = some (para_text S) := by
    rw [w]
    simp only [Function.update_same]
  have htext : para_text (reload S S0 fs fresh) = para_text S := by
    unfold reload
    rw [r]
    exact para_text_reload S S0 fresh ht hd hm
  have hpath : (reload S S0 fs fresh).index_path_ = S.index_path_ := by
    unfold reload
    rw [r]
    exact hp
  have hre : ∀ fs2 : FileSys, fs2.file (S.index_path_ ++ "para") = none →
      fs2.can_create (S.index_path_ ++ "para") = true →
      (write_params (reload S S0 fs fresh) fs2).1 = .returned 0 ∧
      (write_params (reload S S0 fs fresh) fs2).2.file (S.index_path_ ++ "para") =
        (write_params S fs).2.file (S.index_path_ ++ "para") := by
    intro fs2 g1 g2
    rw [write_params_new (reload S S0 fs fresh) fs2 (by rw [hpath]; exact g1)
      (by rw [hpath]; exact g2), hfile]
    rw [hpath, htext]
    simp only [Function.update_same, and_self]
  refine ⟨by rw [w], hfile, by rw [r], ?_, ?_, ?_, ?_, ?_, ?_, ?_, ?_, ?_, ?_, ?_, ?_, ?_, ?_, ?_,
    fun x hx => ⟨rfl, (float_reload x hx).2⟩, htext, hre⟩
  all_goals unfold reload
  all_goals rw [r]
  all_goals try rfl
  intro k h0 h1
  simp only
  unfold stored
  rw [if_pos ⟨h0, by rw [Int.toNat_of_nonneg hm]; exact h1⟩]

/-- The float nearest to `x`, given the binade of `x`. -/
theorem fl32_eval (x : ℚ) (e : Int) (h1 : (2 : ℚ) ^ e ≤ x) (h2 : x < (2 : ℚ) ^ (e + 1)) :
    fl32 x = (round_even (x / 2 ^ (max e (-126) - 23)) : ℚ) * 2 ^ (max e (-126) - 23) := by
  have hx : 0 < x := lt_of_lt_of_le (by positivity) h1
  have a1 : e ≤ Int.log 2 x :=
    (Int.zpow_le_iff_le_log (by norm_num) hx).1 (by simpa using h1)
  have a2 : Int.log 2 x < e + 1 :=
    (Int.lt_zpow_iff_log_lt (by norm_num) hx).1 (by simpa using h2)
  have a3 : Int.log 2 x = e := by omega
  unfold fl32
  rw [a3]

theorem cx_para_typed : cx_para.Typed := by
  have hw : cx_para.w_.IsFloat32 := by
    refine ⟨by decide!, ?_, by decide!⟩
    show fl32 (1 / 256) = 1 / 256
    rw [fl32_eval (1 / 256) (-8) (by norm_num) (by norm_num)]
    decide!
  have h : cx_para.p1_.IsFloat32 ∧ cx_para.p2_.IsFloat32 ∧ cx_para.p_.IsFloat32 ∧
      cx_para.alpha_.IsFloat32 ∧ cx_para.beta_.IsFloat32 ∧ cx_para.delta_.IsFloat32 ∧
      cx_para.zeta_.IsFloat32 ∧ (⟨true, 3 / 2⟩ : CFloat).IsFloat32 ∧
      cx_para.appr_ratio_.IsFloat32 := by decide!
  exact ⟨by decide, by decide, by decide, by decide, by decide, h.2.2.2.2.2.2.2.2, hw, h.1,
    h.2.1, h.2.2.1, h.2.2.2.1, h.2.2.2.2.1, h.2.2.2.2.2.1, h.2.2.2.2.2.2.1,
    fun _ _ _ => h.2.2.2.2.2.2.2.1⟩

theorem para_roundtrip_witness :
    (write_params cx_para cx_fs).1 = .returned 0 ∧
    (read_params cx_new (write_params cx_para cx_fs).2 (fun _ => ⟨false, 0⟩)).1 = .returned 0 ∧
    (reload cx_para cx_new cx_fs (fun _ => ⟨false, 0⟩)).m_ = cx_para.m_ ∧
    (reload cx_para cx_new cx_fs (fun _ => ⟨false, 0⟩)).p1_ = cx_para.p1_ ∧
    cx_point8.reload = cx_point8 ∧
    para_text (reload cx_para cx_new cx_fs (fun _ => ⟨false, 0⟩)) = para_text cx_para :=
  let h := para_roundtrip cx_para cx_new cx_fs (fun _ => ⟨false, 0⟩) cx_para_typed (by decide)
    (by decide) (by decide) (by decide) rfl rfl rfl
  ⟨h.1, h.2.2.1, h.2.2.2.2.2.2.1,
    h.2.2.2.2.2.2.2.2.2.2.1.trans (by decide!), by decide!,
    h.2.2.2.2.2.2.2.2.2.2.2.2.2.2.2.2.2.2.2.1⟩

/-- The width `1/256 = 0.00390625` is written as `0.003906`, so the width that
a fresh object reloads, the float nearest to `0.003906`, differs from the
written one. -/
theorem para_value_counterexample :
    (write_params cx_para cx_fs).1 = .returned 0 ∧
    (read_params cx_new (write_params cx_para cx_fs).2 (fun _ => ⟨false, 0⟩)).1 =
      .returned 0 ∧
    (read_params cx_new (write_params cx_para cx_fs).2 (fun _ => ⟨false, 0⟩)).2.w_ =
      ⟨false, 8388071 / 2147483648⟩ ∧
    (read_params cx_new (write_params cx_para cx_fs).2 (fun _ => ⟨false, 0⟩)).2.w_ ≠
      cx_para.w_ := by
  obtain ⟨w, r⟩ := reload_spec cx_para cx_new cx_fs (fun _ => ⟨false, 0⟩) cx_para_typed
    (by decide) (by decide) (by decide) (by decide) rfl rfl rfl
  rw [r]
  have e : cx_para.w_.reload = ⟨false, 8388071 / 2147483648⟩ := by
    show (⟨false, fl32 ((round6 (1 / 256) : ℚ) / 1000000)⟩ : CFloat) = _
    rw [show ((round6 (1 / 256) : ℚ) / 1000000) = 3906 / 1000000 by decide!,
      fl32_eval (3906 / 1000000) (-9) (by norm_num) (by norm_num)]
    decide!
  refine ⟨by rw [w], rfl, e, ?_⟩
  show cx_para.w_.reload ≠ cx_para.w_
  rw [e]
  decide!

/-- C24: `write_params` refuses to overwrite an existing index. If the file
`<index_path>para` can be opened for reading the call ends in `exit(1)` and the
file system, the content of that file included, is unchanged (the file is not
opened for writing). Only when no such file exists is the file created, with
the parameter text, and 0 returned; when it cannot be created nothing changes
and 1 is returned. No other file is touched in any case. -/
theorem write_params_no_overwrite (S : ParaState) (fs : FileSys) :
    (∀ old : List Char, fs.file (S.index_path_ ++ "para") = some old →
      write_params S fs = (.exited 1, fs) ∧
      (write_params S fs).2.file (S.index_path_ ++ "para") = some old) ∧
    (fs.file (S.index_path_ ++ "para") = none →
      fs.can_create (S.index_path_ ++ "para") = true →
      (write_params S fs).1 = .returned 0 ∧
      (write_params S fs).2.file (S.index_path_ ++ "para") = some (para_text S)) ∧
    (fs.file (S.index_path_ ++ "para") = none →
      fs.can_create (S.index_path_ ++ "para") = false →
      write_params S fs = (.returned 1, fs)) ∧
    ((write_params S fs).2.file (S.index_path_ ++ "para") ≠
        fs.file (S.index_path_ ++ "para") →
      fs.file (S.index_path_ ++ "para") = none) ∧
    (∀ name : String, name ≠ S.index_path_ ++ "para" →
      (write_params S fs).2.file name = fs.file name) ∧
    (write_params S fs).2.can_create = fs.can_create := by
  have write_params_exists : ∀ (S : ParaState) (fs : FileSys) (t : List Char) (h : fs.file
      (S.index_path_ ++ "para") = some t),
      write_params S fs = (.exited 1, fs) := by
    intro S fs t h
    unfold write_params
    simp only [h]
  have write_params_nocreate : ∀ (S : ParaState) (fs : FileSys) (hnew : fs.file (S.index_path_ ++
      "para") = none) (hc : fs.can_create (S.index_path_ ++ "para") = false),
      write_params S fs = (.returned 1, fs) := by
    intro S fs hnew hc
    unfold write_params
    simp only [hnew, hc, Bool.not_false, if_true]
  cases h : fs.file (S.index_path_ ++ "para") with
  | some t =>
    have e := write_params_exists S fs t h
    rw [e]
    exact ⟨fun old ho => ⟨rfl, by rw [← ho, h]⟩, fun g => absurd g (by simp),
      fun g => absurd g (by simp), fun g => absurd h g, fun _ _ => rfl, rfl⟩
  | none =>
    cases c : fs.can_create (S.index_path_ ++ "para") with
    | true =>
      have e := write_params_new S fs h c
      rw [e]
      refine ⟨fun old ho => absurd ho (by simp), fun _ _ => ⟨rfl, ?_⟩,
        fun _ g => absurd g (by simp), fun _ => rfl, fun name hn => ?_, rfl⟩
      · simp only [Function.update_same]
      · simp only [Function.update_noteq hn]
    | false =>
      have e := write_params_nocreate S fs h c
      rw [e]
      exact ⟨fun old ho => absurd ho (by simp), fun _ g => absurd g (by simp),
        fun _ _ => rfl, fun g => absurd h g, fun _ _ => rfl, rfl⟩

/-- How `load` ends, from how `read_params` ends. -/
theorem load_status (S : ParaState) (path : String) (fs : FileSys) (fresh : Int → CFloat) :
    (∀ status, (read_params { S with index_path_ := path } fs fresh).1 = .returned status →
      status ≠ 0 → (load S path fs fresh).1 = .returned 1) ∧
    ((read_params { S with index_path_ := path } fs fresh).1 = .returned 0 →
      (load S path fs fresh).1 = .returned 0) ∧
    ((read_params { S with index_path_ := path } fs fresh).1 = .thrown →
      (load S path fs fresh).1 = .thrown) := by
  unfold load
  refine ⟨fun status h hne => ?_, fun h => ?_, fun h => ?_⟩
  · simp only [h, ne_eq, hne, not_false_eq_true, if_true]
  · simp only [h, ne_eq, not_true_eq_false, if_false]
  · simp only [h]

/-- C25 at a failing input and in general: where the index folder is missing
`write_params` and with it `bulkload` return 1, and `build` hands no status to
its caller; `build` never returns a defined status at all, on failure or on
success. `bulkload` returns 1 exactly when `write_params` or the bulk-loading of
a tree fails, and `load` returns 1 exactly when `read_params` returns a status
other than 0, and 0 when it returns 0 (it returns nothing when `read_params`
throws). -/
theorem build_status_undefined :
    (bulkload cx_para cx_fs_nodir (fun _ => 0)).1 = .returned 1 ∧
    (build cx_para cx_fs_nodir (fun _ => 0)).1 = none ∧
    (bulkload cx_para cx_fs (fun _ => 0)).1 = .returned 0 ∧
    (build cx_para cx_fs (fun _ => 0)).1 = none ∧
    (bulkload cx_para cx_fs (fun _ => 1)).1 = .returned 1 ∧
    (build cx_para cx_fs (fun _ => 1)).1 = none ∧
    (∀ (S : ParaState) (fs : FileSys) (tree_status : Int → Int) (status : Int),
      (build S fs tree_status).1 ≠ some (.returned status)) ∧
    (∀ (S : ParaState) (path : String) (fs : FileSys) (fresh : Int → CFloat),
      (∀ status, (read_params { S with index_path_ := path } fs fresh).1 = .returned status →
        status ≠ 0 → (load S path fs fresh).1 = .returned 1) ∧
      ((read_params { S with index_path_ := path } fs fresh).1 = .returned 0 →
        (load S path fs fresh).1 = .returned 0) ∧
      ((read_params { S with index_path_ := path } fs fresh).1 = .thrown →
        (load S path fs fresh).1 = .thrown)) := by
  refine ⟨rfl, rfl, rfl, rfl, rfl, rfl, ?_, ?_⟩
  · intro S fs ts status
    unfold build
    cases h : (bulkload S fs ts).1 <;> simp [h]
  · exact load_status

theorem stalled_of_frozen (Q : Index) (E : Env) (top_k : Int) (s t : State)
    (h : Stalled Q E top_k s) (f : Frozen s t) (hpc : PcLoop t.pc) : Stalled Q E top_k t := by
  obtain ⟨f1, f2, f3, f4, f5, f6, f7⟩ := f
  obtain ⟨h1, h2, h3, h4, h5, _⟩ := h
  unfold Stalled
  rw [f1, f2, f3, f4, f5, f6, f7]
  exact ⟨h1, h2, h3, h4, h5, hpc⟩

theorem stalled_step (Q : Index) (E : Env) (top_k : Int) (s : State)
    (h : Stalled Q E top_k s) :
    Stalled Q E top_k (step Q E top_k s) ∧ Frozen s (step Q E top_k s) := by
  obtain ⟨h1, h2, h3, h4, h5, h6⟩ := h
  have hs : Stalled Q E top_k s := ⟨h1, h2, h3, h4, h5, h6⟩
  have key : Frozen s (step Q E top_k s) ∧ PcLoop (step Q E top_k s).pc := by
    unfold step
    cases hpc : s.pc with
    | round => simp only [Frozen, PcLoop, and_self]
    | while_test =>
      by_cases c : s.num_flag < Q.m_
      · simp only [c, if_true, Frozen, PcLoop, and_self, le_refl]
      · simp only [c, if_false, Frozen, PcLoop, and_self]
    | for_test i =>
      rw [hpc] at h6
      have h6i : 0 ≤ i := h6
      by_cases c : i < Q.m_
      · obtain ⟨ld, rd, e1, e2, n1, n2⟩ := h1 i h6 c
        by_cases g : (!s.flag_ i) = true
        · simp only [c, if_true, g, Frozen, PcLoop, and_self, true_and]
          omega
        · simp only [c, if_true, g, e1, e2, n1, n2, if_false, Frozen, PcLoop, and_self,
            true_and, Bool.false_eq_true]
          exact h6i
      · simp only [c, if_false, Frozen, PcLoop, and_self]
    | scan_left i j start => rw [hpc] at h6; exact absurd h6 (by simp [PcLoop])
    | advance_left i => rw [hpc] at h6; exact absurd h6 (by simp [PcLoop])
    | scan_right i j e => rw [hpc] at h6; exact absurd h6 (by simp [PcLoop])
    | advance_right i => rw [hpc] at h6; exact absurd h6 (by simp [PcLoop])
    | body_end i =>
      rw [hpc] at h6
      have h6i : 0 ≤ i := h6
      by_cases c : s.num_flag ≥ Q.m_ ∨ s.dist_io_ ≥ candidates E top_k
      · simp only [c, if_true, Frozen, PcLoop, and_self]
      · simp only [c, if_false, Frozen, PcLoop, and_self, true_and]
        omega
    | for_exit =>
      by_cases c : s.num_flag ≥ Q.m_ ∨ s.dist_io_ ≥ candidates E top_k
      · simp only [c, if_true, Frozen, PcLoop, and_self]
      · simp only [c, if_false, Frozen, PcLoop, and_self]
    | stop_test =>
      simp only [h2, h3, if_false, h4, Frozen, PcLoop, and_self, true_and, and_true]
      exact h5.symm
    | returned => rw [hpc] at h6; exact absurd h6 (by simp [PcLoop])
    | fault => rw [hpc] at h6; exact absurd h6 (by simp [PcLoop])
  exact ⟨stalled_of_frozen Q E top_k s _ hs key.1 key.2, key.1⟩

/-- From a stalled state `knn` neither returns nor faults, and the radius,
the cursors and the number of evaluated objects stay what they are. -/
theorem stalled_run (Q : Index) (E : Env) (top_k : Int) (n : Nat) (s : State)
    (h : Stalled Q E top_k s) :
    Stalled Q E top_k (run Q E top_k n s) ∧ (run Q E top_k n s).pc ≠ .returned ∧
    (run Q E top_k n s).pc ≠ .fault ∧ Frozen s (run Q E top_k n s) := by
  induction n generalizing s with
  | zero =>
    have e : run Q E top_k 0 s = s := rfl
    rw [e]
    refine ⟨h, ?_, ?_, rfl, rfl, rfl, rfl, rfl, rfl, rfl⟩
    · intro e
      have := h.2.2.2.2.2
      rw [e] at this
      exact this
    · intro e
      have := h.2.2.2.2.2
      rw [e] at this
      exact this
  | succ n ih =>
    obtain ⟨hs, hf⟩ := stalled_step Q E top_k s h
    obtain ⟨a, b, c, d⟩ := ih (step Q E top_k s) hs
    refine ⟨a, b, c, ?_⟩
    show Frozen s (run Q E top_k n (step Q E top_k s))
    obtain ⟨d1, d2, d3, d4, d5, d6, d7⟩ := d
    obtain ⟨f1, f2, f3, f4, f5, f6, f7⟩ := hf
    exact ⟨d1.trans f1, d2.trans f2, d3.trans f3, d4.trans f4, d5.trans f5, d6.trans f6,
      d7.trans f7⟩

/-- C27 fails on the code: `solo_index` holds one point (`n = 1`, every tree a
single leaf with the one entry of id 0) and `k = 1`, but for the query 0 the
call `knn` never returns. Both cursors are at projected distance 2, exactly the
bucket width `w_ * radius / 2` of radius 1; no round counts a collision, no
stop condition holds and `update_radius` returns 1 again, for ever: no object
is evaluated and the result list stays empty. -/
theorem knn_single_point_stalls :
    solo_index.n_pts_ = 1 ∧
    (∀ i : Int, (solo_index.trees_ i).root_ = 1 ∧
      ((solo_index.trees_ i).leaf_node 1).id_ = [0]) ∧
    knn_start solo_index solo_env (fun _ => 0) ⟨1, []⟩ 1 ex_old = .ok (solo_state 0) ∧
    (solo_state 0).pc = .round ∧ (solo_state 0).radius = 1 ∧ (solo_state 0).bucket = 2 ∧
    calc_dist ((solo_state 0).q_val_ 0) ((solo_state 0).lptr_ 0) = some 2 ∧
    calc_dist ((solo_state 0).q_val_ 1) ((solo_state 0).lptr_ 1) = some 2 ∧
    ∀ n : Nat, (solo_state n).pc ≠ .returned ∧ (solo_state n).pc ≠ .fault ∧
      result (solo_state n) = none ∧ (solo_state n).radius = 1 ∧
      (solo_state n).dist_io_ = 0 := by
  have h0 : Stalled solo_index solo_env 1 (solo_state 0) := by
    have hpc : (solo_state 0).pc = .round := by decide!
    refine ⟨?_, by decide!, by decide!, by decide!, by decide!, by rw [hpc]; trivial⟩
    intro i i0 i1
    have hm : solo_index.m_ = 2 := rfl
    rw [hm] at i1
    have hi : i = 0 ∨ i = 1 := by omega
    rcases hi with rfl | rfl
    · exact ⟨2, solo_env.MAXREAL, by decide!, by decide!, by decide!, by decide!⟩
    · exact ⟨2, solo_env.MAXREAL, by decide!, by decide!, by decide!, by decide!⟩
  refine ⟨rfl, fun _ => ⟨rfl, rfl⟩, start_state_ok _ ex_old (by decide!), by decide!, by decide!,
    by decide!, by decide!, by decide!, ?_⟩
  intro n
  obtain ⟨_, b, c, d⟩ := stalled_run solo_index solo_env 1 n (solo_state 0) h0
  have e : run solo_index solo_env 1 n (solo_state 0) = solo_state n := rfl
  rw [e] at b c d
  refine ⟨b, c, ?_, ?_, ?_⟩
  · unfold result
    rw [if_neg b]
  · rw [d.2.2.2.2.1]
    decide!
  · rw [d.2.2.2.2.2.2]
    decide!

theorem cpp_start_state_ok (r : Except InitFault CppState) (d : CppState)
    (h : cpp_started r = true) : r = .ok (cpp_start_state r d) := by
  cases r with
  | error e => simp [cpp_started] at h
  | ok s => rfl

theorem count_update_outside (f : Int → Bool) (id : Int) (n : Nat) (h : (n : Int) ≤ id) :
    (List.range n).countP (fun (i : Nat) => Function.update f id true (i : Int)) =
      (List.range n).countP (fun (i : Nat) => f (i : Int)) := by
  apply List.countP_congr
  intro i hi
  rw [List.mem_range] at hi
  rw [Function.update_noteq (by omega)]

theorem count_update (f : Int → Bool) (id : Int) (n : Nat) (h0 : 0 ≤ id) (h1 : id < n)
    (hf : f id = false) :
    (List.range n).countP (fun (i : Nat) => Function.update f id true (i : Int)) =
      (List.range n).countP (fun (i : Nat) => f (i : Int)) + 1 := by
  induction n with
  | zero => exact absurd h1 (by simp; omega)
  | succ n ih =>
    rw [List.range_succ, List.countP_append, List.countP_append]
    by_cases e : id = (n : Int)
    · rw [count_update_outside f id n (by omega)]
      simp only [List.countP_cons, List.countP_nil, zero_add]
      rw [← e, Function.update_same, hf]
      simp
    · rw [ih (by push_cast at h1; omega)]
      simp only [List.countP_cons, List.countP_nil, zero_add]
      rw [Function.update_noteq (fun h => e h.symm)]
      omega

theorem cpp_checked_count_le (Q : Index) (s : CppState) :
    cpp_checked_count Q s ≤ Q.n_pts_.toNat := by
  unfold cpp_checked_count
  exact le_trans (List.countP_le_length _) (by rw [List.length_range])

theorem few_collide (Q : Index) (E : Env) (top_k : Int) (s : CppState) (id : Int)
    (next brk : CppPC) (hn : (Q.n_pts_.toNat : Int) < top_k) (h : FewInv Q s)
    (hnext : next ≠ .returned) (hbrk : brk ≠ .returned) :
    FewInv Q (cpp_collide Q E top_k s id next brk) := by
  obtain ⟨h1, h2, h3⟩ := h
  unfold cpp_collide
  by_cases hid : 0 ≤ id ∧ id < Q.n_pts_
  · rw [if_neg (not_not.mpr hid)]
    simp only
    by_cases c : Function.update s.freq id (s.freq id + 1) id > Q.l_ ∧ (!s.checked id) = true
    · rw [if_pos c]
      cases hu : update_result s.rslt ⟨id, E.lp_dist id⟩ top_k with
      | none => exact ⟨h1, h2, by simp⟩
      | some r =>
        simp only
        have hc : s.checked id = false := by simpa using c.2
        have hcount : (List.range Q.n_pts_.toNat).countP
            (fun (i : Nat) => Function.update s.checked id true (i : Int)) =
            cpp_checked_count Q s + 1 :=
          count_update s.checked id _ hid.1 (by omega) hc
        have hle := cpp_checked_count_le Q s
        have hlt : ¬ (s.dist_io_ + 1 ≥ cpp_candidates top_k) := by
          unfold cpp_candidates
          have : cpp_checked_count Q s + 1 ≤ Q.n_pts_.toNat := by
            have := List.countP_le_length
              (fun (i : Nat) => Function.update s.checked id true (i : Int))
              (l := List.range Q.n_pts_.toNat)
            rw [hcount, List.length_range] at this
            exact this
          omega
        rw [if_neg hlt]
        refine ⟨?_, h2, hnext⟩
        unfold cpp_checked_count
        simp only
        rw [hcount, h1]
        push_cast
        rfl
    · rw [if_neg c]
      exact ⟨h1, h2, hnext⟩
  · rw [if_pos hid]
    exact ⟨h1, h2, by simp⟩

theorem few_step (Q : Index) (E : Env) (top_k : Int) (s : CppState)
    (hn : (Q.n_pts_.toNat : Int) < top_k) (h : FewInv Q s) :
    FewInv Q (cpp_step Q E top_k s) := by
  obtain ⟨h1, h2, h3⟩ := h
  have hs : FewInv Q s := ⟨h1, h2, h3⟩
  have hle := cpp_checked_count_le Q s
  unfold cpp_step
  cases hpc : s.pc with
  | outer_test =>
    simp only [h2, if_true]
    exact ⟨h1, rfl, by simp⟩
  | for_test i =>
    simp only
    split_ifs
    · exact ⟨h1, h2, by simp⟩
    · split
      · split_ifs
        · exact ⟨h1, h2, by simp⟩
        · exact ⟨h1, h2, by simp⟩
        · exact ⟨h1, h2, by simp⟩
      · exact ⟨h1, h2, by simp⟩
    · exact ⟨h1, h2, by simp⟩
  | scan_left i j start =>
    simp only
    split_ifs
    · split
      · exact ⟨h1, h2, by simp⟩
      · split
        · exact ⟨h1, h2, by simp⟩
        · exact few_collide Q E top_k s _ _ _ hn hs (by simp) (by simp)
    · exact ⟨h1, h2, by simp⟩
  | advance_left i =>
    simp only
    split
    · exact ⟨h1, h2, by simp⟩
    · exact ⟨h1, h2, by simp⟩
  | scan_right i j e =>
    simp only
    split_ifs
    · split
      · exact ⟨h1, h2, by simp⟩
      · split
        · exact ⟨h1, h2, by simp⟩
        · exact few_collide Q E top_k s _ _ _ hn hs (by simp) (by simp)
    · exact ⟨h1, h2, by simp⟩
  | advance_right i =>
    simp only
    split
    · exact ⟨h1, h2, by simp⟩
    · exact ⟨h1, h2, by simp⟩
  | body_end i =>
    simp only
    split_ifs
    · exact ⟨h1, h2, by simp⟩
    · exact ⟨h1, h2, by simp⟩
  | for_exit =>
    simp only
    split_ifs
    · exact ⟨h1, h2, by simp⟩
    · exact ⟨h1, h2, by simp⟩
  | stop_test =>
    simp only
    have c : ¬ (s.knn_dist < Q.appr_ratio_ * s.radius ∧ s.dist_io_ ≥ top_k) := by
      rintro ⟨_, g⟩
      omega
    rw [if_neg c]
    split
    · exact ⟨h1, h2, by simp⟩
    · exact ⟨h1, h2, by simp⟩
  | returned => exact absurd hpc h3
  | fault =>
    simp only
    exact ⟨h1, h2, by rw [hpc]; simp⟩

theorem few_run (Q : Index) (E : Env) (top_k : Int) (n : Nat) (s : CppState)
    (hn : (Q.n_pts_.toNat : Int) < top_k) (h : FewInv Q s) :
    FewInv Q (cpp_run Q E top_k n s) := by
  induction n generalizing s with
  | zero => exact h
  | succ n ih => exact ih _ (few_step Q E top_k s hn h)

theorem init_buffer_frame (Q : Index) (query : Int → ℚ) (fuel : Nat) (count : Nat) (i : Int)
    (s t : CppState) (h : init_buffer Q query fuel count i s = .ok t) :
    t.checked = s.checked ∧ t.dist_io_ = s.dist_io_ ∧ t.again = s.again ∧ t.pc = s.pc ∧
    t.rslt = s.rslt := by
  induction count generalizing i s t with
  | zero =>
    unfold init_buffer at h
    cases h
    exact ⟨rfl, rfl, rfl, rfl, rfl⟩
  | succ count ih =>
    unfold init_buffer at h
    simp only at h
    split at h
    · cases h
    · have g := ih _ _ _ h
      exact g

theorem cpp_knn_start_inv (Q : Index) (E : Env) (query : Int → ℚ) (top_k : Int)
    (rslt : List ResultItem) (fuel : Nat) (mem : Mem) (s0 : CppState)
    (h : cpp_knn_start Q E query top_k rslt fuel mem = .ok s0) : FewInv Q s0 := by
  unfold cpp_knn_start at h
  split_ifs at h
  simp only at h
  split at h
  · cases h
  · rename_i s hs
    obtain ⟨f1, f2, f3, f4, _⟩ := init_buffer_frame Q query fuel _ _ _ _ hs
    split at h
    · cases h
    · cases h
      refine ⟨?_, f3, ?_⟩
      · unfold cpp_checked_count
        simp only [f1, f2]
        simp
      · simp only [f4]
        simp

/-- C28 fails on the code, for every data set with fewer objects than
`top_k`: `knn` of qalsh.cpp can leave `while (again)` only after `dist_io_ >=
99 + top_k` or `dist_io_ >= top_k`, and `dist_io_` counts checked objects, of
which there are at most `n_pts_ < top_k`. So once the preamble has handed over,
`again` stays set and `knn` never returns. -/
theorem knn_few_points_hangs (Q : Index) (E : Env) (query : Int → ℚ) (top_k : Int)
    (rslt : List ResultItem) (fuel : Nat) (mem : Mem) (s0 : CppState)
    (hstart : cpp_knn_start Q E query top_k rslt fuel mem = .ok s0)
    (hn : (Q.n_pts_.toNat : Int) < top_k) (n : Nat) :
    (cpp_run Q E top_k n s0).pc ≠ .returned ∧ (cpp_run Q E top_k n s0).again = true ∧
    (cpp_run Q E top_k n s0).dist_io_ ≤ Q.n_pts_.toNat ∧
    (cpp_run Q E top_k n s0).dist_io_ < top_k := by
  obtain ⟨h1, h2, h3⟩ := few_run Q E top_k n s0 hn
    (cpp_knn_start_inv Q E query top_k rslt fuel mem s0 hstart)
  have hle := cpp_checked_count_le Q (cpp_run Q E top_k n s0)
  exact ⟨h3, h2, by omega, by omega⟩

theorem few_started : few_start = .ok (few_state 0) :=
  cpp_start_state_ok few_start few_default (by decide!)

/-- The failing input of C28: on `few_index` (50 distinct points) with
`top_k = 100` and a result array of 100 entries the preamble hands over to the
main loop, and `knn` of qalsh.cpp never returns. -/
theorem knn_few_points_hangs_witness :
    few_index.n_pts_ = 50 ∧ few_start = .ok (few_state 0) ∧
    ((few_index.n_pts_.toNat : Int) < 100) ∧
    (∀ n : Nat, (few_state n).pc ≠ .returned ∧ (few_state n).again = true ∧
      (few_state n).dist_io_ < 100) :=
  ⟨rfl, few_started, by decide, fun n =>
    let h := knn_few_points_hangs few_index few_env (fun _ => 1 / 3) 100
      (List.replicate 100 ⟨0, 0⟩) 1 ⟨0, []⟩ (few_state 0) few_started (by decide) n
    ⟨h.1, h.2.1, h.2.2.2⟩⟩

/-- C37: the two variants select the same direction. For a projection `i`
whose flag is set, with the same cursors, projected query value and bucket
width in both variants, every live cursor at a projected distance below
`MAXREAL` and a bucket width of at most `MAXREAL`, the step of qalsh.cc from
`for_test i` and the step of qalsh.cpp from `for_test i` choose the same one
of left scan, right scan and flag-off. -/
theorem knn_direction_agrees (Q : Index) (E : Env) (top_k : Int) (s : State) (t : CppState)
    (i : Int) (him : i < Q.m_) (hs : s.pc = .for_test i) (ht : t.pc = .for_test i)
    (hfs : s.flag_ i = true) (hft : t.flag i = true) (hq : t.q_val i = s.q_val_ i)
    (hl : t.lptr i = s.lptr_ i) (hr : t.rptr i = s.rptr_ i) (hb : t.bucket_width = s.bucket)
    (hbM : s.bucket ≤ E.MAXREAL)
    (hll : (s.lptr_ i).size_ ≠ -1 →
      ∃ d, calc_dist (s.q_val_ i) (s.lptr_ i) = some d ∧ d < E.MAXREAL)
    (hrl : (s.rptr_ i).size_ ≠ -1 →
      ∃ d, calc_dist (s.q_val_ i) (s.rptr_ i) = some d ∧ d < E.MAXREAL) :
    ∃ d, (step Q E top_k s).pc.choice = some d ∧ (cpp_step Q E top_k t).pc.choice = some d := by
  have hnn : ∀ q b d, calc_dist q b = some d → 0 ≤ d := by
    intro q b d h
    unfold calc_dist at h
    split at h
    · cases h
    · split at h
      · cases h
      · injection h with h
        rw [← h]; unfold fabs; split_ifs <;> linarith
  unfold step cpp_step
  rw [hs, ht]
  simp only [him, if_true, hfs, hft, Bool.not_true, Bool.false_eq_true, if_false]
  unfold side_dist cpp_side_dist calc_proj_dist
  rw [hq, hl, hr, hb]
  by_cases h1 : (s.lptr_ i).size_ ≠ -1 <;> by_cases h2 : (s.rptr_ i).size_ ≠ -1
  · obtain ⟨x, hx, hxM⟩ := hll h1
    obtain ⟨y, hy, hyM⟩ := hrl h2
    have hx0 := hnn _ _ _ hx
    have hy0 := hnn _ _ _ hy
    simp only [h1, h2, if_true, hx, hy, ne_eq, not_false_eq_true]
    by_cases c1 : x < s.bucket ∧ x ≤ y
    · have : x ≥ 0 ∧ x < s.bucket ∧ ((y ≥ 0 ∧ x ≤ y) ∨ y < 0) := ⟨hx0, c1.1, Or.inl ⟨hy0, c1.2⟩⟩
      rw [if_pos c1, if_pos this]; exact ⟨.left, rfl, rfl⟩
    · have n1 : ¬ (x ≥ 0 ∧ x < s.bucket ∧ ((y ≥ 0 ∧ x ≤ y) ∨ y < 0)) := by
        rintro ⟨_, a, ⟨_, b⟩ | b⟩
        · exact c1 ⟨a, b⟩
        · linarith
      rw [if_neg c1, if_neg n1]
      by_cases c2 : y < s.bucket ∧ x > y
      · have : y ≥ 0 ∧ y < s.bucket ∧ ((x ≥ 0 ∧ x > y) ∨ x < 0) := ⟨hy0, c2.1, Or.inl ⟨hx0, c2.2⟩⟩
        rw [if_pos c2, if_pos this]; exact ⟨.right, rfl, rfl⟩
      · have n2 : ¬ (y ≥ 0 ∧ y < s.bucket ∧ ((x ≥ 0 ∧ x > y) ∨ x < 0)) := by
          rintro ⟨_, a, ⟨_, b⟩ | b⟩
          · exact c2 ⟨a, b⟩
          · linarith
        rw [if_neg c2, if_neg n2]; exact ⟨.flag_off, rfl, rfl⟩
  · obtain ⟨x, hx, hxM⟩ := hll h1
    have hx0 := hnn _ _ _ hx
    simp only [h1, h2, if_true, if_false, hx, ne_eq, not_false_eq_true]
    by_cases c1 : x < s.bucket
    · have a : x < s.bucket ∧ x ≤ E.MAXREAL := ⟨c1, le_of_lt hxM⟩
      have b : x ≥ 0 ∧ x < s.bucket ∧ (((-1 : ℚ) ≥ 0 ∧ x ≤ -1) ∨ (-1 : ℚ) < 0) :=
        ⟨hx0, c1, Or.inr (by norm_num)⟩
      rw [if_pos a, if_pos b]; exact ⟨.left, rfl, rfl⟩
    · have a : ¬ (x < s.bucket ∧ x ≤ E.MAXREAL) := fun h => c1 h.1
      have b : ¬ (x ≥ 0 ∧ x < s.bucket ∧ (((-1 : ℚ) ≥ 0 ∧ x ≤ -1) ∨ (-1 : ℚ) < 0)) :=
        fun h => c1 h.2.1
      have a2 : ¬ (E.MAXREAL < s.bucket ∧ x > E.MAXREAL) := fun h => by linarith [h.1]
      have b2 : ¬ ((-1 : ℚ) ≥ 0 ∧ (-1 : ℚ) < s.bucket ∧ ((x ≥ 0 ∧ x > -1) ∨ x < 0)) :=
        fun h => by linarith [h.1]
      rw [if_neg a, if_neg b, if_neg a2, if_neg b2]; exact ⟨.flag_off, rfl, rfl⟩
  · obtain ⟨y, hy, hyM⟩ := hrl h2
    have hy0 := hnn _ _ _ hy
    simp only [h1, h2, if_true, if_false, hy, ne_eq, not_false_eq_true]
    have a : ¬ (E.MAXREAL < s.bucket ∧ E.MAXREAL ≤ y) := fun h => by linarith [h.1]
    have b : ¬ ((-1 : ℚ) ≥ 0 ∧ (-1 : ℚ) < s.bucket ∧ ((y ≥ 0 ∧ (-1 : ℚ) ≤ y) ∨ y < 0)) :=
      fun h => by linarith [h.1]
    rw [if_neg a, if_neg b]
    by_cases c2 : y < s.bucket
    · have a2 : y < s.bucket ∧ E.MAXREAL > y := ⟨c2, hyM⟩
      have b2 : y ≥ 0 ∧ y < s.bucket ∧ (((-1 : ℚ) ≥ 0 ∧ (-1 : ℚ) > y) ∨ (-1 : ℚ) < 0) :=
        ⟨hy0, c2, Or.inr (by norm_num)⟩
      rw [if_pos a2, if_pos b2]; exact ⟨.right, rfl, rfl⟩
    · have a2 : ¬ (y < s.bucket ∧ E.MAXREAL > y) := fun h => c2 h.1
      have b2 : ¬ (y ≥ 0 ∧ y < s.bucket ∧ (((-1 : ℚ) ≥ 0 ∧ (-1 : ℚ) > y) ∨ (-1 : ℚ) < 0)) :=
        fun h => c2 h.2.1
      rw [if_neg a2, if_neg b2]; exact ⟨.flag_off, rfl, rfl⟩
  · simp only [h1, h2, if_false]
    have a : ¬ (E.MAXREAL < s.bucket ∧ E.MAXREAL ≤ E.MAXREAL) := fun h => by linarith [h.1]
    have b : ¬ ((-1 : ℚ) ≥ 0 ∧ (-1 : ℚ) < s.bucket ∧ (((-1 : ℚ) ≥ 0 ∧ (-1 : ℚ) ≤ -1) ∨ (-1 : ℚ) < 0)) :=
      fun h => by linarith [h.1]
    have a2 : ¬ (E.MAXREAL < s.bucket ∧ E.MAXREAL > E.MAXREAL) := fun h => by linarith [h.1]
    have b2 : ¬ ((-1 : ℚ) ≥ 0 ∧ (-1 : ℚ) < s.bucket ∧ (((-1 : ℚ) ≥ 0 ∧ (-1 : ℚ) > -1) ∨ (-1 : ℚ) < 0)) :=
      fun h => by linarith [h.1]
    rw [if_neg a, if_neg b, if_neg a2, if_neg b2]; exact ⟨.flag_off, rfl, rfl⟩

theorem knn_direction_agrees_witness :
    ∃ d, (step ex_index ex_env 1 (ex_state 2)).pc.choice = some d ∧
      (cpp_step ex_index ex_env 1 ex_cpp).pc.choice = some d :=
  knn_direction_agrees ex_index ex_env 1 (ex_state 2) ex_cpp 0 (by decide) (by decide!) rfl
    (by decide!) (by decide!) rfl rfl rfl rfl (by decide!)
    (fun _ => ⟨0, by decide!, by decide!⟩) (fun _ => ⟨1, by decide!, by decide!⟩)

theorem arr_get_cast {α : Type} (xs : List α) (n : Nat) : arr_get xs (n : Int) = xs[n]? := by
  unfold arr_get
  rw [if_pos (by omega), Int.toNat_ofNat]

theorem shift_get (rslt : List ResultItem) (count n : Nat) (hc : count ≤ n)
    (hn : n < rslt.length) (t : Nat) :
    (update_result_shift rslt count (n : Int))[t]? =
      if n - count < t ∧ t ≤ n then rslt[t - 1]? else rslt[t]? := by
  induction count generalizing rslt n with
  | zero =>
    have : ¬ (n - 0 < t ∧ t ≤ n) := by omega
    rw [if_neg this]; rfl
  | succ count ih =>
    have h1 : ((n : Int) - 1) = ((n - 1 : Nat) : Int) := by omega
    obtain ⟨r, hr⟩ : ∃ r, rslt[n - 1]? = some r :=
      ⟨_, List.getElem?_eq_getElem (by omega : n - 1 < rslt.length)⟩
    unfold update_result_shift
    rw [h1, arr_get_cast, hr]
    dsimp only
    rw [Int.toNat_ofNat, ih _ _ (by omega) (by rw [List.length_set]; omega)]
    simp only [List.getElem?_set]
    by_cases c1 : n - 1 - count < t ∧ t ≤ n - 1
    · rw [if_pos c1, if_neg (by omega : ¬ n = t - 1), if_pos (by omega)]
    · rw [if_neg c1]
      by_cases c2 : n = t
      · subst c2
        rw [if_pos rfl, if_pos hn, if_pos (by omega)]
        exact hr.symm
      · rw [if_neg c2, if_neg (by omega)]

theorem shift_length (rslt : List ResultItem) (count : Nat) (i : Int) :
    (update_result_shift rslt count i).length = rslt.length := by
  induction count generalizing rslt i with
  | zero => rfl
  | succ count ih =>
    unfold update_result_shift
    split
    · rfl
    · rw [ih, List.length_set]

/-- What `update_result` computes, entry by entry: `pos` and `b` are the
position and the flag `alreadyIn` that the first loop leaves behind. -/
theorem update_result_eq (rslt : List ResultItem) (item : ResultItem) (k : Nat) (hk : 1 ≤ k)
    (hlen : k ≤ rslt.length) :
    ∃ (pos : Nat) (b : Bool) (out : List ResultItem) (last : ResultItem),
      update_result rslt item (k : Int) = some (out, last.dist_) ∧ out[k - 1]? = some last ∧
      out.length = rslt.length ∧ pos ≤ k ∧
      (∀ t, t < pos → ∃ r, rslt[t]? = some r ∧ r.id_ ≠ item.id_ ∧ r.dist_ ≤ item.dist_) ∧
      (b = true → ∃ r, rslt[pos]? = some r ∧ r.id_ = item.id_ ∧ pos < k) ∧
      (b = false → pos < k → ∃ r, rslt[pos]? = some r ∧ r.id_ ≠ item.id_ ∧ item.dist_ < r.dist_) ∧
      (¬ (b = false ∧ pos < k) → out = rslt) ∧
      (b = false → pos < k → ∀ t, out[t]? =
        if t = pos then some item else if pos < t ∧ t ≤ k - 1 then rslt[t - 1]? else rslt[t]?) := by
  -- The first loop of `update_result` on the entries from `i` on: it stops at the first entry
  -- that has the id of the item or a larger distance.
  have scan_spec : ∀ (rslt : List ResultItem) (item : ResultItem) (count i : Nat) (h : i + count ≤
      rslt.length),
      ∃ (pos : Nat) (b : Bool), update_result_scan rslt item count (i : Int) = some ((pos : Int), b) ∧
        i ≤ pos ∧ pos ≤ i + count ∧
        (∀ t, i ≤ t → t < pos → ∃ r, rslt[t]? = some r ∧ r.id_ ≠ item.id_ ∧ r.dist_ ≤ item.dist_) ∧
        (b = true → ∃ r, rslt[pos]? = some r ∧ r.id_ = item.id_ ∧ pos < i + count) ∧
        (b = false → pos < i + count →
          ∃ r, rslt[pos]? = some r ∧ r.id_ ≠ item.id_ ∧ item.dist_ < r.dist_) := by
    intro rslt item count i h
    induction count generalizing i with
    | zero =>
      exact ⟨i, false, rfl, le_refl _, le_refl _, fun t h1 h2 => by omega, (fun h => by cases h),
        fun _ h => by omega⟩
    | succ count ih =>
      obtain ⟨r, hr⟩ : ∃ r, rslt[i]? = some r :=
        ⟨_, List.getElem?_eq_getElem (by omega : i < rslt.length)⟩
      unfold update_result_scan
      rw [arr_get_cast, hr]
      dsimp only
      by_cases c1 : item.id_ = r.id_
      · rw [if_pos c1]
        exact ⟨i, true, rfl, le_refl _, by omega, fun t h1 h2 => by omega,
          fun _ => ⟨_, hr, c1.symm, by omega⟩, (fun h => by cases h)⟩
      · rw [if_neg c1]
        by_cases c2 : compfloats item.dist_ r.dist_ = -1
        · rw [if_pos c2]
          refine ⟨i, false, rfl, le_refl _, by omega, fun t h1 h2 => by omega, (fun h => by cases h),
            fun _ _ => ⟨_, hr, fun e => c1 e.symm, ?_⟩⟩
          unfold compfloats at c2
          by_contra hlt
          rw [if_neg hlt] at c2
          split_ifs at c2
        · rw [if_neg c2]
          obtain ⟨pos, b, e, p1, p2, p3, p4, p5⟩ := ih (i + 1) (by omega)
          have e2 : ((i : Int) + 1) = ((i + 1 : Nat) : Int) := by omega
          rw [e2, e]
          refine ⟨pos, b, rfl, by omega, by omega, ?_, ?_, ?_⟩
          · intro t h1 h2
            by_cases ht : t = i
            · subst ht
              refine ⟨_, hr, fun e => c1 e.symm, ?_⟩
              unfold compfloats at c2
              by_contra hlt
              rw [if_pos (not_le.mp hlt)] at c2
              exact c2 rfl
            · exact p3 t (by omega) h2
          · intro hb
            obtain ⟨r, a1, a2, a3⟩ := p4 hb
            exact ⟨r, a1, a2, by omega⟩
          · intro hb hp
            exact p5 hb (by omega)
  obtain ⟨pos, b, e, _, p2, p3, p4, p5⟩ := scan_spec rslt item k 0 (by omega)
  have e0 : ((0 : Nat) : Int) = 0 := rfl
  rw [e0] at e
  have hnot : ¬ ((rslt.length : Int) < (k : Int)) := by omega
  unfold update_result
  rw [if_neg hnot, Int.toNat_ofNat, e]
  dsimp only
  have hk1 : ((k : Int) - 1) = ((k - 1 : Nat) : Int) := by omega
  rw [hk1]
  by_cases c : b = false ∧ pos < k
  · have c' : (!b) = true ∧ (pos : Int) < (k : Int) := ⟨by rw [c.1]; rfl, by omega⟩
    rw [if_pos c']
    have hs : (((k - 1 : Nat) : Int) - (pos : Int)).toNat = k - 1 - pos := by omega
    have hget : ∀ t, ((update_result_shift rslt (((k - 1 : Nat) : Int) - (pos : Int)).toNat
        ((k - 1 : Nat) : Int)).set (pos : Int).toNat item)[t]? =
        if t = pos then some item else if pos < t ∧ t ≤ k - 1 then rslt[t - 1]? else rslt[t]? := by
      intro t
      rw [hs, Int.toNat_ofNat, List.getElem?_set, shift_length,
        shift_get _ _ _ (by omega) (by omega)]
      split_ifs <;> first | rfl | (exfalso; omega)
    obtain ⟨last, hl⟩ : ∃ last, ((update_result_shift rslt (((k - 1 : Nat) : Int) - (pos : Int)).toNat
        ((k - 1 : Nat) : Int)).set (pos : Int).toNat item)[k - 1]? = some last :=
      ⟨_, List.getElem?_eq_getElem (by rw [List.length_set, shift_length]; omega)⟩
    rw [arr_get_cast, hl]
    exact ⟨pos, b, _, last, rfl, hl, by rw [List.length_set, shift_length], by omega,
      fun t ht => p3 t (by omega) ht, fun hb => by simpa using p4 hb,
      fun hb hp => p5 hb (by omega), fun h => absurd c h, fun _ _ => hget⟩
  · have c' : ¬ ((!b) = true ∧ (pos : Int) < (k : Int)) := by
      intro h
      apply c
      refine ⟨?_, by omega⟩
      cases b
      · rfl
      · exact absurd h.1 (by decide)
    rw [if_neg c']
    obtain ⟨last, hl⟩ : ∃ last, rslt[k - 1]? = some last :=
      ⟨_, List.getElem?_eq_getElem (by omega)⟩
    rw [arr_get_cast, hl]
    exact ⟨pos, b, _, last, rfl, hl, rfl, by omega,
      fun t ht => p3 t (by omega) ht, fun hb => by simpa using p4 hb,
      fun hb hp => p5 hb (by omega), fun _ => rfl, fun hb hp => absurd ⟨hb, hp⟩ c⟩

theorem insert_by_dist_eq (item : ResultItem) (a : List ResultItem) (p : Nat) (hp : p ≤ a.length)
    (h1 : ∀ t, t < p → ∃ r, a[t]? = some r ∧ r.dist_ ≤ item.dist_)
    (h2 : p < a.length → ∃ r, a[p]? = some r ∧ item.dist_ < r.dist_) :
    insert_by_dist item a = a.take p ++ item :: a.drop p := by
  induction a generalizing p with
  | nil =>
    have : p = 0 := by simpa using hp
    subst this; rfl
  | cons r rs ih =>
    cases p with
    | zero =>
      obtain ⟨r', e, hlt⟩ := h2 (by simp)
      simp only [List.getElem?_cons_zero, Option.some.injEq] at e
      subst e
      simp [insert_by_dist, hlt]
    | succ p =>
      obtain ⟨r', e, hle⟩ := h1 0 (by omega)
      simp only [List.getElem?_cons_zero, Option.some.injEq] at e
      subst e
      have : ¬ item.dist_ < r.dist_ := not_lt.mpr hle
      simp only [insert_by_dist, this, if_false, List.take_succ_cons, List.drop_succ_cons,
        List.cons_append, List.cons.injEq, true_and]
      apply ih p (by simpa using hp)
      · intro t ht
        have := h1 (t + 1) (by omega)
        simpa using this
      · intro hlt
        have := h2 (by simpa using hlt)
        simpa using this

theorem insert_by_dist_perm (item : ResultItem) (a : List ResultItem) :
    (insert_by_dist item a).Perm (item :: a) := by
  induction a with
  | nil => exact List.Perm.refl _
  | cons r rs ih =>
    unfold insert_by_dist
    split_ifs
    · exact List.Perm.refl _
    · exact ((List.Perm.cons r ih).trans (List.Perm.swap item r rs))

theorem insert_by_dist_sorted (item : ResultItem) (a : List ResultItem)
    (h : a.Pairwise (fun x y => x.dist_ ≤ y.dist_)) :
    (insert_by_dist item a).Pairwise (fun x y => x.dist_ ≤ y.dist_) := by
  induction a with
  | nil => simp [insert_by_dist]
  | cons r rs ih =>
    unfold insert_by_dist
    rw [List.pairwise_cons] at h
    split_ifs with c
    · refine List.pairwise_cons.2 ⟨?_, List.pairwise_cons.2 h⟩
      intro x hx
      rcases List.mem_cons.1 hx with rfl | hx
      · exact le_of_lt c
      · exact le_trans (le_of_lt c) (h.1 x hx)
    · refine List.pairwise_cons.2 ⟨?_, ih h.2⟩
      intro x hx
      rcases List.mem_cons.1 ((insert_by_dist_perm item rs).subset hx) with rfl | hx
      · exact not_lt.mp c
      · exact h.1 x hx

theorem update_results_sentinels (S : ResultItem) (k : Nat) (hk : 1 ≤ k) (items : List ResultItem)
    (rslt : List ResultItem) (j : Nat) (hlen : k ≤ rslt.length)
    (h : ∀ t, j ≤ t → t < k → rslt[t]? = some S) :
    ∃ out, update_results (k : Int) rslt items = some out ∧
      ∀ t, j + items.length ≤ t → t < k → out[t]? = some S := by
  induction items generalizing rslt j with
  | nil => exact ⟨rslt, rfl, fun t h1 h2 => h t (by simpa using h1) h2⟩
  | cons item items ih =>
    obtain ⟨pos, b, out, last, e, _, hlen', hpk, p3, _, p5, hsame, hget⟩ :=
      update_result_eq rslt item k hk hlen
    have hstep : ∀ t, j + 1 ≤ t → t < k → out[t]? = some S := by
      intro t h1 h2
      by_cases c : b = false ∧ pos < k
      · have hpj : pos ≤ j := by
          by_contra hpj
          obtain ⟨r, hr, _, hle⟩ := p3 j (by omega)
          obtain ⟨r', hr', _, hlt⟩ := p5 c.1 c.2
          rw [h j (le_refl _) (by omega)] at hr
          rw [h pos (by omega) c.2] at hr'
          injection hr with hr
          injection hr' with hr'
          subst hr; subst hr'
          exact absurd hlt (not_lt.mpr hle)
        rw [hget c.1 c.2 t, if_neg (by omega), if_pos (by omega)]
        exact h (t - 1) (by omega) (by omega)
      · rw [hsame c]; exact h t (by omega) h2
    obtain ⟨out', e', h'⟩ := ih out (j + 1) (by omega) hstep
    refine ⟨out', ?_, ?_⟩
    · unfold update_results
      rw [e]; exact e'
    · intro t h1 h2
      exact h' t (by simp only [List.length_cons] at h1; omega) h2

/-- C35: `QALSH::update_result` of qalsh.cpp is insert-with-eviction on the
first `top_k` entries of `rslt`. If these are sorted by distance and none has
the id of `item`, the call returns, the entries are sorted afterwards, and the
array is the one the sorted list of the specification yields (`insert_evict`:
the item goes after the entries of equal distance); the entries kept are the
`top_k` smallest of the old ones and the item, the one left over (`evicted`)
being the old last entry if the item is closer than it, and the item itself
otherwise, in which case the array is unchanged; the value returned is the
distance of the new last entry. After `j < top_k` calls on a freshly
initialised array the entries `j, ..., top_k - 1` are still `(-1, MAXREAL)`. -/
theorem update_result_insert_evict (top_k : Int) (hk : 1 ≤ top_k) :
    (∀ (rslt : List ResultItem) (item : ResultItem), top_k ≤ rslt.length →
      (rslt.take top_k.toNat).Pairwise (fun x y => x.dist_ ≤ y.dist_) →
      (∀ r ∈ rslt.take top_k.toNat, r.id_ ≠ item.id_) →
      ∃ out last evicted oldlast,
        update_result rslt item top_k = some (out, last.dist_) ∧
        arr_get out (top_k - 1) = some last ∧ arr_get rslt (top_k - 1) = some oldlast ∧
        out = insert_evict rslt item top_k.toNat ∧
        (out.take top_k.toNat).Pairwise (fun x y => x.dist_ ≤ y.dist_) ∧
        (item :: rslt.take top_k.toNat).Perm (out.take top_k.toNat ++ [evicted]) ∧
        (∀ x ∈ out.take top_k.toNat, x.dist_ ≤ evicted.dist_) ∧
        (item.dist_ < oldlast.dist_ → evicted = oldlast) ∧
        (¬ item.dist_ < oldlast.dist_ → evicted = item ∧ out = rslt)) ∧
    (∀ (MAXREAL : ℚ) (items tail : List ResultItem), (items.length : Int) < top_k →
      ∃ out, update_results top_k (List.replicate top_k.toNat ⟨-1, MAXREAL⟩ ++ tail) items =
          some out ∧
        ∀ t : Nat, items.length ≤ t → (t : Int) < top_k → out[t]? = some ⟨-1, MAXREAL⟩) := by
  have insert_evict_spec : ∀ (rslt : List ResultItem) (item : ResultItem) (k : Nat) (hk : 1 ≤ k)
      (hlen : k ≤ rslt.length) (hsorted : (rslt.take k).Pairwise (fun x y => x.dist_ ≤ y.dist_))
      (hnew : ∀ r ∈ rslt.take k, r.id_ ≠ item.id_),
      ∃ out last evicted oldlast,
        update_result rslt item (k : Int) = some (out, last.dist_) ∧
        out[k - 1]? = some last ∧ rslt[k - 1]? = some oldlast ∧
        out = insert_evict rslt item k ∧
        (out.take k).Pairwise (fun x y => x.dist_ ≤ y.dist_) ∧
        (item :: rslt.take k).Perm (out.take k ++ [evicted]) ∧
        (∀ x ∈ out.take k, x.dist_ ≤ evicted.dist_) ∧
        (item.dist_ < oldlast.dist_ → evicted = oldlast) ∧
        (¬ item.dist_ < oldlast.dist_ → evicted = item ∧ out = rslt) := by
    intro rslt item k hk hlen hsorted hnew
    obtain ⟨pos, b, out, last, e, hl, hlen', hpk, p3, p4, p5, hsame, hget⟩ :=
      update_result_eq rslt item k hk hlen
    have hmem : ∀ t r, t < k → rslt[t]? = some r → r ∈ rslt.take k := by
      intro t r ht hr
      have : (rslt.take k)[t]? = some r := by rw [List.getElem?_take, if_pos ht, hr]
      obtain ⟨h', rfl⟩ := List.getElem?_eq_some.1 this
      exact List.getElem_mem _
    have hb : b = false := by
      cases b
      · rfl
      · obtain ⟨r, hr, hid, hp⟩ := p4 rfl
        exact absurd hid (hnew r (hmem pos r hp hr))
    obtain ⟨oldlast, hol⟩ : ∃ r, rslt[k - 1]? = some r :=
      ⟨_, List.getElem?_eq_getElem (by omega)⟩
    have hak : (rslt.take k).length = k := by rw [List.length_take]; omega
    have hins : insert_by_dist item (rslt.take k) =
        (rslt.take k).take pos ++ item :: (rslt.take k).drop pos := by
      apply insert_by_dist_eq item _ pos (by omega)
      · intro t ht
        obtain ⟨r, hr, _, hle⟩ := p3 t ht
        exact ⟨r, by rw [List.getElem?_take, if_pos (by omega), hr], hle⟩
      · intro hlt
        obtain ⟨r, hr, _, hle⟩ := p5 hb (by omega)
        exact ⟨r, by rw [List.getElem?_take, if_pos (by omega), hr], hle⟩
    have hsort := insert_by_dist_sorted item _ hsorted
    have hperm := insert_by_dist_perm item (rslt.take k)
    have hpair : ∀ i j x y, i < j → j < k → rslt[i]? = some x → rslt[j]? = some y →
        x.dist_ ≤ y.dist_ := by
      intro i j x y hij hj hx hy
      have h1 : (rslt.take k)[i]? = some x := by rw [List.getElem?_take, if_pos (by omega), hx]
      have h2 : (rslt.take k)[j]? = some y := by rw [List.getElem?_take, if_pos (by omega), hy]
      obtain ⟨hi', rfl⟩ := List.getElem?_eq_some.1 h1
      obtain ⟨hj', rfl⟩ := List.getElem?_eq_some.1 h2
      exact (List.pairwise_iff_getElem.1 hsorted) _ _ hi' hj' hij
    by_cases c : pos < k
    · -- the item is inserted at `pos`, the old last entry is evicted
      have hout : out = insert_evict rslt item k := by
        apply List.ext_getElem?
        intro t
        rw [hget hb c t]
        unfold insert_evict
        rw [hins]
        have e1 : min pos (min k rslt.length) = pos := by omega
        have e2 : min k rslt.length = k := by omega
        have e4 : min pos k = pos := by omega
        have e5 : min k (pos + (k - pos + 1)) = k := by omega
        simp only [List.getElem?_append, List.getElem?_take, List.getElem?_drop, List.getElem?_cons,
          List.length_take, List.length_append, List.length_cons, List.length_drop, e1, e2, e4, e5]
        split_ifs <;> first | rfl | (exfalso; omega) | (congr 1; omega)
      obtain ⟨r, hr, _, hlt⟩ := p5 hb c
      have hlt' : item.dist_ < oldlast.dist_ := by
        by_cases hpk' : pos = k - 1
        · rw [hpk', hol] at hr
          injection hr with hr
          rw [hr]; exact hlt
        · exact lt_of_lt_of_le hlt (hpair pos (k - 1) r oldlast (by omega) (by omega) hr hol)
      have hsplit : insert_by_dist item (rslt.take k) = out.take k ++ [oldlast] := by
        have h1 : out.take k = (insert_by_dist item (rslt.take k)).take k := by
          rw [hout]; unfold insert_evict
          rw [List.take_append_of_le_length (by rw [List.length_take, (hperm.length_eq)]; simp [hak])]
          rw [List.take_take, min_self]
        have h2 : (insert_by_dist item (rslt.take k)).drop k = [oldlast] := by
          apply List.ext_getElem?
          intro t
          rw [hins]
          simp only [List.getElem?_drop, List.getElem?_append, List.getElem?_take,
            List.getElem?_cons, List.length_take]
          have e1 : min pos (min k rslt.length) = pos := by omega
          simp only [e1]
          have a1 : ¬ k + t < pos := by omega
          have a2 : ¬ k + t - pos = 0 := by omega
          simp only [a1, a2, if_false]
          cases t with
          | zero =>
            have a3 : pos + (k - pos - 1) = k - 1 := by omega
            have a4 : k - 1 < k := by omega
            simp [a3, a4, hol]
          | succ t =>
            have a3 : ¬ pos + (k + (t + 1) - pos - 1) < k := by omega
            simp [a3]
        rw [h1, ← h2, List.take_append_drop]
      refine ⟨out, last, oldlast, oldlast, e, hl, hol, hout, ?_, ?_, ?_, fun _ => rfl,
        fun h => absurd hlt' h⟩
      · rw [hsplit] at hsort
        exact (List.pairwise_append.1 hsort).1
      · rw [← hsplit]; exact hperm.symm
      · rw [hsplit] at hsort
        intro x hx
        exact (List.pairwise_append.1 hsort).2.2 x hx oldlast (List.mem_singleton_self _)
    · -- the item is not inserted
      have hpos : pos = k := by omega
      have hout : out = rslt := hsame (fun h => c h.2)
      have hins' : insert_by_dist item (rslt.take k) = rslt.take k ++ [item] := by
        rw [hins, hpos, List.take_of_length_le (by omega), List.drop_of_length_le (by omega)]
      obtain ⟨r, hr, _, hle⟩ := p3 (k - 1) (by omega)
      rw [hol] at hr
      injection hr with hr
      subst hr
      refine ⟨out, last, item, oldlast, e, hl, hol, ?_, ?_, ?_, ?_, fun h => absurd h (not_lt.mpr hle),
        fun _ => ⟨rfl, hout⟩⟩
      · rw [hout]; unfold insert_evict
        rw [hins', List.take_append_of_le_length (by omega), List.take_of_length_le (by omega),
          List.take_append_drop]
      · rw [hout]; exact hsorted
      · rw [hout, ← hins']; exact hperm.symm
      · rw [hout]
        rw [hins'] at hsort
        intro x hx
        exact (List.pairwise_append.1 hsort).2.2 x hx item (List.mem_singleton_self _)
  obtain ⟨k, rfl⟩ := Int.eq_ofNat_of_zero_le (by omega : 0 ≤ top_k)
  have hk' : 1 ≤ k := by omega
  have hk1 : ((k : Int) - 1) = ((k - 1 : Nat) : Int) := by omega
  simp only [Int.toNat_ofNat]
  constructor
  · intro rslt item hlen hsorted hnew
    obtain ⟨out, last, evicted, oldlast, h⟩ :=
      insert_evict_spec rslt item k hk' (by omega) hsorted hnew
    refine ⟨out, last, evicted, oldlast, ?_⟩
    rw [hk1, arr_get_cast, arr_get_cast]
    exact h
  · intro MAXREAL items tail hj
    obtain ⟨out, e, h⟩ := update_results_sentinels ⟨-1, MAXREAL⟩ k hk' items
      (List.replicate k ⟨-1, MAXREAL⟩ ++ tail) 0 (by simp)
      (fun t _ ht => by
        rw [List.getElem?_append_left (by simpa using ht), List.getElem?_replicate, if_pos ht])
    exact ⟨out, e, fun t h1 h2 => h t (by omega) (by omega)⟩

theorem update_result_insert_evict_witness :
    ∃ out last evicted oldlast,
      update_result [⟨4, 1⟩, ⟨7, 3⟩, ⟨-1, 1000⟩] ⟨5, 3⟩ 3 = some (out, last.dist_) ∧
      arr_get out (3 - 1) = some last ∧
      arr_get [(⟨4, 1⟩ : ResultItem), ⟨7, 3⟩, ⟨-1, 1000⟩] (3 - 1) = some oldlast ∧
      out = insert_evict [⟨4, 1⟩, ⟨7, 3⟩, ⟨-1, 1000⟩] ⟨5, 3⟩ (3 : Int).toNat ∧
      (out.take (3 : Int).toNat).Pairwise (fun x y => x.dist_ ≤ y.dist_) ∧
      ((⟨5, 3⟩ : ResultItem) :: List.take (3 : Int).toNat [⟨4, 1⟩, ⟨7, 3⟩, ⟨-1, 1000⟩]).Perm
        (out.take (3 : Int).toNat ++ [evicted]) ∧
      (∀ x ∈ out.take (3 : Int).toNat, x.dist_ ≤ evicted.dist_) ∧
      ((⟨5, 3⟩ : ResultItem).dist_ < oldlast.dist_ → evicted = oldlast) ∧
      (¬ (⟨5, 3⟩ : ResultItem).dist_ < oldlast.dist_ →
        evicted = ⟨5, 3⟩ ∧ out = [⟨4, 1⟩, ⟨7, 3⟩, ⟨-1, 1000⟩]) :=
  (update_result_insert_evict 3 (by decide)).1 [⟨4, 1⟩, ⟨7, 3⟩, ⟨-1, 1000⟩] ⟨5, 3⟩ (by decide)
    (by decide!) (by decide)

/-- C36: `QALSH::update_result` stores the id 2 twice: the array holds the
ids 1, 2, 3 at the distances 5, 7, 9 and the item has the id 2 and the
distance 3; the first loop stops at entry 0, whose distance is larger, before
it reaches the entry with the id of the item. -/
theorem update_result_stores_id_twice :
    update_result [⟨1, 5⟩, ⟨2, 7⟩, ⟨3, 9⟩] ⟨2, 3⟩ 3 = some ([⟨2, 3⟩, ⟨1, 5⟩, ⟨2, 7⟩], 7) := by
  decide!

theorem count_rel_step (Q : Index) (E : Env) (top_k : Int) (hk : 1 ≤ top_k) (s : State)
    (t : CppState) (id : Int) (hid : 0 ≤ id ∧ id < Q.n_pts_) (h : CountRel Q top_k s t)
    (ps : PC) (pt : CppPC) :
    CountRel Q top_k (collide Q E top_k s id ps ps) (cpp_collide Q E top_k t id pt pt) ∧
    inserted (collide Q E top_k s id ps ps).trace = inserted s.trace ++
      (if (cpp_collide Q E top_k t id pt pt).dist_io_ = t.dist_io_ + 1 then [id] else []) := by
  obtain ⟨h1, h2, h3⟩ := h
  obtain ⟨a1, a2, a3⟩ := h1 id hid.1 hid.2
  obtain ⟨k, rfl⟩ := Int.eq_ofNat_of_zero_le (by omega : 0 ≤ top_k)
  obtain ⟨_, _, out, last, eu, _, hlen', _⟩ :=
    update_result_eq t.rslt ⟨id, E.lp_dist id⟩ k (by omega) (by omega)
  rcases collide_cases Q E (k : Int) s id ps ps with ⟨hn, _⟩ | ⟨_, hc, e⟩ | ⟨_, hc, hf, e⟩ |
    ⟨_, hc, hf, e⟩
  · exact absurd hid hn
  · -- checked: qalsh.cc skips the id, qalsh.cpp counts it
    have hlt : Q.l_ < s.freq_ id := a2.1 hc
    have ht : cpp_collide Q E (k : Int) t id pt pt =
        { t with freq := Function.update t.freq id (t.freq id + 1),
                 scanned_id := t.scanned_id + 1, pc := pt } := by
      unfold cpp_collide
      rw [if_neg (not_not.mpr hid)]
      dsimp only
      rw [if_neg (by rw [a1, hc]; simp)]
    rw [e, ht]
    refine ⟨⟨?_, h2, h3⟩, ?_⟩
    · intro j hj0 hjn
      obtain ⟨b1, b2, b3⟩ := h1 j hj0 hjn
      refine ⟨b1, b2, ?_⟩
      dsimp only
      by_cases hj : j = id
      · subst hj
        rw [Function.update_same]
        rw [b3] at hlt ⊢
        have : Q.l_ + 1 ≤ t.freq j := by
          rcases le_total (t.freq j) (Q.l_ + 1) with c | c
          · rw [min_eq_left c] at hlt; omega
          · exact c
        rw [min_eq_right this, min_eq_right (by omega)]
      · rw [Function.update_noteq hj]; exact b3
    · dsimp only
      rw [if_neg (by omega)]; simp
  · -- not checked, not yet frequent: both count the id
    have hs : s.freq_ id = t.freq id := by
      rw [a3]; apply min_eq_left
      by_contra hgt
      rw [a3, min_eq_right (by omega)] at hf
      omega
    have ht : cpp_collide Q E (k : Int) t id pt pt =
        { t with freq := Function.update t.freq id (t.freq id + 1),
                 scanned_id := t.scanned_id + 1, pc := pt } := by
      unfold cpp_collide
      rw [if_neg (not_not.mpr hid)]
      dsimp only
      rw [if_neg (by rw [Function.update_same]; intro h; omega)]
    rw [e, ht]
    refine ⟨⟨?_, h2, h3⟩, ?_⟩
    · intro j hj0 hjn
      obtain ⟨b1, b2, b3⟩ := h1 j hj0 hjn
      dsimp only
      by_cases hj : j = id
      · subst hj
        rw [Function.update_same, Function.update_same]
        refine ⟨b1, ?_, ?_⟩
        · rw [hc]; constructor
          · intro h; cases h
          · intro h; omega
        · rw [min_eq_left (by omega)]; omega
      · rw [Function.update_noteq hj, Function.update_noteq hj]; exact ⟨b1, b2, b3⟩
    · dsimp only
      rw [if_neg (by omega)]; simp
  · -- not checked, frequent now: both evaluate the object
    have hs0 : s.freq_ id ≤ Q.l_ := by
      by_contra hgt
      have := a2.2 (by omega)
      rw [hc] at this; cases this
    have hs : s.freq_ id = t.freq id := by
      rw [a3]; apply min_eq_left
      by_contra hgt
      rw [a3, min_eq_right (by omega)] at hs0
      omega
    have ht : cpp_collide Q E (k : Int) t id pt pt =
        { t with freq := Function.update t.freq id (t.freq id + 1),
                 scanned_id := t.scanned_id + 1,
                 checked := Function.update t.checked id true, rslt := out,
                 knn_dist := last.dist_, dist_io_ := t.dist_io_ + 1,
                 again := if t.dist_io_ + 1 ≥ cpp_candidates (k : Int) then false else t.again,
                 flag_num := if t.dist_io_ + 1 ≥ cpp_candidates (k : Int) then t.flag_num + Q.m_
                   else t.flag_num,
                 pc := pt } := by
      unfold cpp_collide
      rw [if_neg (not_not.mpr hid)]
      dsimp only
      rw [if_pos ⟨by rw [Function.update_same]; omega, by rw [a1, hc]; rfl⟩, eu]
      dsimp only
      split_ifs <;> rfl
    rw [e, ht]
    refine ⟨⟨?_, ?_, ?_⟩, ?_⟩
    · intro j hj0 hjn
      obtain ⟨b1, b2, b3⟩ := h1 j hj0 hjn
      simp only [evaluate]
      by_cases hj : j = id
      · subst hj
        simp only [Function.update_same]
        refine ⟨?_, ?_, ?_⟩
        · simp
        · constructor <;> intro _ <;> first | omega | simp
        · rw [min_eq_right (by omega)]; omega
      · simp only [Function.update_noteq hj]; exact ⟨b1, b2, b3⟩
    · simp only [evaluate]; omega
    · dsimp only; omega
    · simp [evaluate, inserted, List.filterMap_append, Call.inserted_id]

theorem count_rel_fold (Q : Index) (E : Env) (top_k : Int) (hk : 1 ≤ top_k) (ids : List Int)
    (hids : ∀ id ∈ ids, 0 ≤ id ∧ id < Q.n_pts_) (s : State) (t : CppState)
    (h : CountRel Q top_k s t) :
    CountRel Q top_k (count_ids Q E top_k s ids) (cpp_count_ids Q E top_k t ids) ∧
    inserted (count_ids Q E top_k s ids).trace =
      inserted s.trace ++ cpp_evaluated Q E top_k t ids := by
  induction ids generalizing s t with
  | nil => exact ⟨h, by simp [count_ids, cpp_evaluated]⟩
  | cons id ids ih =>
    obtain ⟨r1, r2⟩ := count_rel_step Q E top_k hk s t id (hids id (List.mem_cons_self _ _)) h
      s.pc t.pc
    obtain ⟨i1, i2⟩ := ih (fun j hj => hids j (List.mem_cons_of_mem _ hj)) _ _ r1
    refine ⟨i1, ?_⟩
    unfold count_ids at i2 ⊢
    rw [List.foldl_cons, i2, r2, List.append_assoc]
    rfl

/-- C38: the collision-counting steps of qalsh.cc and of qalsh.cpp are
equivalent for candidate selection. From freshly reset arrays `freq` and
`checked` and with `l_ ≥ 0`, after the same sequence of emitted ids both
variants satisfy `checked[id] ↔ freq[id] > l_`, they have the same checked
objects and the same `dist_io_`, the ids qalsh.cpp evaluates are, in order,
those qalsh.cc passes to `insert`, and the frequency of qalsh.cc is the one of
qalsh.cpp frozen at `l_ + 1`. -/
theorem collide_equiv (Q : Index) (E : Env) (top_k : Int) (s : State) (t : CppState)
    (ids : List Int) (hk : 1 ≤ top_k) (hl : 0 ≤ Q.l_) (hlen : top_k ≤ t.rslt.length)
    (hids : ∀ id ∈ ids, 0 ≤ id ∧ id < Q.n_pts_)
    (hfresh : ∀ id, 0 ≤ id → id < Q.n_pts_ →
      s.freq_ id = 0 ∧ s.checked_ id = false ∧ t.freq id = 0 ∧ t.checked id = false)
    (hd : t.dist_io_ = s.dist_io_) :
    (∀ id, 0 ≤ id → id < Q.n_pts_ →
      ((count_ids Q E top_k s ids).checked_ id = true ↔
        Q.l_ < (count_ids Q E top_k s ids).freq_ id) ∧
      ((cpp_count_ids Q E top_k t ids).checked id = true ↔
        Q.l_ < (cpp_count_ids Q E top_k t ids).freq id) ∧
      (cpp_count_ids Q E top_k t ids).checked id = (count_ids Q E top_k s ids).checked_ id ∧
      (count_ids Q E top_k s ids).freq_ id =
        min ((cpp_count_ids Q E top_k t ids).freq id) (Q.l_ + 1)) ∧
    (cpp_count_ids Q E top_k t ids).dist_io_ = (count_ids Q E top_k s ids).dist_io_ ∧
    inserted (count_ids Q E top_k s ids).trace =
      inserted s.trace ++ cpp_evaluated Q E top_k t ids := by
  have h0 : CountRel Q top_k s t := by
    refine ⟨fun id h1 h2 => ?_, hd, hlen⟩
    obtain ⟨a, b, c, d⟩ := hfresh id h1 h2
    rw [a, b, c, d]
    exact ⟨rfl, ⟨(fun h => by cases h), (fun h => by omega)⟩, by rw [min_eq_left (by omega)]⟩
  obtain ⟨⟨r1, r2, _⟩, r3⟩ := count_rel_fold Q E top_k hk ids hids s t h0
  refine ⟨fun id h1 h2 => ?_, r2, r3⟩
  obtain ⟨a, b, c⟩ := r1 id h1 h2
  refine ⟨b, ?_, a, c⟩
  rw [a, b, c]
  constructor
  · intro h
    rcases le_total ((cpp_count_ids Q E top_k t ids).freq id) (Q.l_ + 1) with c | c
    · rw [min_eq_left c] at h; exact h
    · omega
  · intro h
    rcases le_total ((cpp_count_ids Q E top_k t ids).freq id) (Q.l_ + 1) with c | c
    · rw [min_eq_left c]; exact h
    · rw [min_eq_right c]; omega

theorem collide_equiv_witness :
    (cpp_count_ids ex_index ex_env 1 ex_fresh_cpp [1, 2, 1, 1, 0]).dist_io_ =
      (count_ids ex_index ex_env 1 ex_fresh [1, 2, 1, 1, 0]).dist_io_ ∧
    inserted (count_ids ex_index ex_env 1 ex_fresh [1, 2, 1, 1, 0]).trace =
      inserted ex_fresh.trace ++ cpp_evaluated ex_index ex_env 1 ex_fresh_cpp [1, 2, 1, 1, 0] :=
  (collide_equiv ex_index ex_env 1 ex_fresh ex_fresh_cpp [1, 2, 1, 1, 0] (by decide) (by decide)
    (by decide) (by decide) (fun _ _ _ => ⟨rfl, rfl, rfl, rfl⟩) rfl).2

/-- C39: the two formulas of `l_`, over the reals. For collision
probabilities `p1_ > p2_ ≥ 0` and `para1 > 0`, `para2 > 0` the value of
qalsh.cpp is `ceil(alpha_ * M)` for the un-rounded `M = (para1 + para2)^2 /
para3`; it is at most the value `ceil(alpha_ * ceil(M))` of qalsh.cc, and for
`alpha_ < 1` the two differ by at most 1. Both variants compute the same
`alpha_` and `m_`, and `calc_ml` is what `calc_params` of qalsh.cc computes. -/
theorem calc_params_l_relation (beta_ delta_ p1_ p2_ : ℝ) (hp : p2_ < p1_)
    (hq : 0 ≤ p2_)
    (h1 : 0 < Real.sqrt (Real.log (2 / beta_))) (h2 : 0 < Real.sqrt (Real.log (1 / delta_))) :
    (cpp_calc_ml beta_ delta_ p1_ p2_).2.2 =
      ⌈(calc_ml beta_ delta_ p1_ p2_).1 *
        ((Real.sqrt (Real.log (2 / beta_)) + Real.sqrt (Real.log (1 / delta_))) ^ 2 /
          (2 * (p1_ - p2_) * (p1_ - p2_)))⌉ ∧
    (calc_ml beta_ delta_ p1_ p2_).2.2 =
      ⌈(calc_ml beta_ delta_ p1_ p2_).1 *
        ((⌈(Real.sqrt (Real.log (2 / beta_)) + Real.sqrt (Real.log (1 / delta_))) ^ 2 /
          (2 * (p1_ - p2_) * (p1_ - p2_))⌉ : Int) : ℝ)⌉ ∧
    (cpp_calc_ml beta_ delta_ p1_ p2_).1 = (calc_ml beta_ delta_ p1_ p2_).1 ∧
    (cpp_calc_ml beta_ delta_ p1_ p2_).2.1 = (calc_ml beta_ delta_ p1_ p2_).2.1 ∧
    (cpp_calc_ml beta_ delta_ p1_ p2_).2.2 ≤ (calc_ml beta_ delta_ p1_ p2_).2.2 ∧
    ((calc_ml beta_ delta_ p1_ p2_).1 < 1 →
      (calc_ml beta_ delta_ p1_ p2_).2.2 ≤ (cpp_calc_ml beta_ delta_ p1_ p2_).2.2 + 1) ∧
    ∀ (K : Kernel) (FLOATZERO : ℝ) (CANDIDATES n_pts_ : Int) (p_ zeta_ appr_ratio_ : ℝ),
      ((calc_params K FLOATZERO CANDIDATES n_pts_ p_ zeta_ appr_ratio_).alpha_,
        (calc_params K FLOATZERO CANDIDATES n_pts_ p_ zeta_ appr_ratio_).m_,
        (calc_params K FLOATZERO CANDIDATES n_pts_ p_ zeta_ appr_ratio_).l_) =
      calc_ml ((CANDIDATES : ℝ) / (n_pts_ : ℝ)) (1 / Real.exp 1)
        (calc_params K FLOATZERO CANDIDATES n_pts_ p_ zeta_ appr_ratio_).p1_
        (calc_params K FLOATZERO CANDIDATES n_pts_ p_ zeta_ appr_ratio_).p2_ := by
  have ha : 0 ≤ (calc_ml beta_ delta_ p1_ p2_).1 := by
    have he : 0 < Real.sqrt (Real.log (2 / beta_)) / Real.sqrt (Real.log (1 / delta_)) :=
      div_pos h1 h2
    exact div_nonneg (add_nonneg (mul_nonneg he.le (by linarith)) hq) (by linarith)
  have key : ∀ (a b p q : ℝ), 0 < a → 0 < b → q < p →
      (p * a + q * b) * (a + b) / (2 * (p - q) * (p - q)) =
        (a / b * p + q) / (1 + a / b) * ((a + b) ^ 2 / (2 * (p - q) * (p - q))) := by
    intro a b p q ha hb hq
    have h3 : (2 * (p - q) * (p - q)) ≠ 0 := by
      have : 0 < p - q := by linarith
      positivity
    have h4 : (1 + a / b) ≠ 0 := by positivity
    field_simp
    ring
  have hM := Int.le_ceil ((Real.sqrt (Real.log (2 / beta_)) + Real.sqrt (Real.log (1 / delta_))) ^ 2 /
          (2 * (p1_ - p2_) * (p1_ - p2_)))
  have hM1 := Int.ceil_lt_add_one ((Real.sqrt (Real.log (2 / beta_)) + Real.sqrt (Real.log (1 / delta_))) ^ 2 /
          (2 * (p1_ - p2_) * (p1_ - p2_)))
  have e1 : (cpp_calc_ml beta_ delta_ p1_ p2_).2.2 =
      ⌈(calc_ml beta_ delta_ p1_ p2_).1 *
        ((Real.sqrt (Real.log (2 / beta_)) + Real.sqrt (Real.log (1 / delta_))) ^ 2 /
          (2 * (p1_ - p2_) * (p1_ - p2_)))⌉ := by
    simp only [cpp_calc_ml, calc_ml]
    rw [key _ _ _ _ h1 h2 hp]
  have e2 : (calc_ml beta_ delta_ p1_ p2_).2.2 =
      ⌈(calc_ml beta_ delta_ p1_ p2_).1 *
        ((⌈(Real.sqrt (Real.log (2 / beta_)) + Real.sqrt (Real.log (1 / delta_))) ^ 2 /
          (2 * (p1_ - p2_) * (p1_ - p2_))⌉ : Int) : ℝ)⌉ := by
    simp only [calc_ml, sq]
  refine ⟨e1, e2, rfl, rfl, ?_, ?_, fun _ _ _ _ _ _ _ => rfl⟩
  · rw [e1, e2]
    exact Int.ceil_le_ceil (mul_le_mul_of_nonneg_left hM ha)
  · intro hlt
    rw [e1, e2, ← Int.ceil_add_one]
    apply Int.ceil_le_ceil
    nlinarith

theorem calc_params_l_relation_witness :
    (cpp_calc_ml (2 / Real.exp 1) (1 / Real.exp 1) (1 / 2) (1 / 4)).2.2 ≤
      (calc_ml (2 / Real.exp 1) (1 / Real.exp 1) (1 / 2) (1 / 4)).2.2 := by
  have h1 : Real.sqrt (Real.log (2 / (2 / Real.exp 1))) = 1 := by
    rw [show (2 : ℝ) / (2 / Real.exp 1) = Real.exp 1 by field_simp, Real.log_exp, Real.sqrt_one]
  have h2 : Real.sqrt (Real.log (1 / (1 / Real.exp 1))) = 1 := by
    rw [show (1 : ℝ) / (1 / Real.exp 1) = Real.exp 1 by field_simp, Real.log_exp, Real.sqrt_one]
  exact (calc_params_l_relation (2 / Real.exp 1) (1 / Real.exp 1) (1 / 2) (1 / 4) (by norm_num)
    (by norm_num) (by rw [h1]; norm_num) (by rw [h2]; norm_num)).2.2.2.2.1

/-- The sign of the probabilities matters for the order of the two values of
`l_`: for `para1 = para2 = 1`, `p1_ = -1` and `p2_ = -3` (no probabilities) the
value of qalsh.cpp is `-1` and that of qalsh.cc is `-2`. -/
theorem calc_l_sign_matters :
    (-3 : ℝ) < -1 ∧ 0 < Real.sqrt (Real.log (2 / (2 / Real.exp 1))) ∧
    0 < Real.sqrt (Real.log (1 / (1 / Real.exp 1))) ∧
    (cpp_calc_ml (2 / Real.exp 1) (1 / Real.exp 1) (-1) (-3)).2.2 = -1 ∧
    (calc_ml (2 / Real.exp 1) (1 / Real.exp 1) (-1) (-3)).2.2 = -2 ∧
    ¬ ((cpp_calc_ml (2 / Real.exp 1) (1 / Real.exp 1) (-1) (-3)).2.2 ≤
      (calc_ml (2 / Real.exp 1) (1 / Real.exp 1) (-1) (-3)).2.2) := by
  have h1 : Real.sqrt (Real.log (2 / (2 / Real.exp 1))) = 1 := by
    rw [show (2 : ℝ) / (2 / Real.exp 1) = Real.exp 1 by field_simp, Real.log_exp, Real.sqrt_one]
  have h2 : Real.sqrt (Real.log (1 / (1 / Real.exp 1))) = 1 := by
    rw [show (1 : ℝ) / (1 / Real.exp 1) = Real.exp 1 by field_simp, Real.log_exp, Real.sqrt_one]
  have a : (cpp_calc_ml (2 / Real.exp 1) (1 / Real.exp 1) (-1) (-3)).2.2 = -1 := by
    simp only [cpp_calc_ml, h1, h2]
    rw [Int.ceil_eq_iff]; norm_num
  have b : (calc_ml (2 / Real.exp 1) (1 / Real.exp 1) (-1) (-3)).2.2 = -2 := by
    simp only [calc_ml, h1, h2]
    have : (⌈((1 : ℝ) + 1) * (1 + 1) / (2 * (-1 - -3) * (-1 - -3))⌉ : Int) = 1 := by
      rw [Int.ceil_eq_iff]; norm_num
    rw [this, Int.ceil_eq_iff]; norm_num
  refine ⟨by norm_num, by rw [h1]; norm_num, by rw [h2]; norm_num, a, b, ?_⟩
  rw [a, b]; decide

/-- C34: `dist_io_` never exceeds the number of data points, as every id is
evaluated at most once. Hence on an index with `n_pts_ < top_k` (and
`CANDIDATES ≥ 1`) no reachable state of `knn` satisfies termination condition
1 or termination condition 2, and `knn` never reaches its return. -/
theorem knn_dist_io_bound (Q : Index) (E : Env) (top_k : Int) (query : Int → ℚ)
    (list : MinK_List) (fuel : Nat) (old s : State)
    (h : Reachable Q E top_k query list fuel old s) :
    s.dist_io_ ≤ (Q.n_pts_.toNat : Int) ∧ (0 ≤ Q.n_pts_ → s.dist_io_ ≤ Q.n_pts_) ∧
    s.dist_io_ = (checked_count Q s : Int) ∧
    ((Q.n_pts_.toNat : Int) < top_k → 1 ≤ E.CANDIDATES →
      ¬ (s.knn_dist < Q.appr_ratio_ * s.radius ∧ s.dist_io_ ≥ top_k) ∧
      ¬ (s.dist_io_ ≥ candidates E top_k) ∧ ¬ stop_condition Q E top_k s ∧
      s.pc ≠ .returned) := by
  have hi := reachable_eval_inv h
  have hr : ReturnInv Q E top_k s :=
    reachable_induct (ReturnInv Q E top_k)
      (fun s0 h0 hpc => by
        rw [(knn_start_spec Q E query list fuel old s0 h0).2.1] at hpc
        exact absurd hpc (by simp))
      (step_return_inv Q E top_k) h
  have hc : s.dist_io_ = (checked_count Q s : Int) := by
    rw [checked_count_eq Q E s hi, inserted_length]
    exact hi.inserts.symm
  have hle : checked_count Q s ≤ Q.n_pts_.toNat := by
    unfold checked_count
    exact le_trans (List.countP_le_length _) (by rw [List.length_range])
  have hb : s.dist_io_ ≤ (Q.n_pts_.toNat : Int) := by rw [hc]; exact_mod_cast hle
  refine ⟨hb, fun h0 => by omega, hc, fun hn hC => ?_⟩
  have n1 : ¬ (s.knn_dist < Q.appr_ratio_ * s.radius ∧ s.dist_io_ ≥ top_k) :=
    fun c => by have := c.2; omega
  have n2 : ¬ (s.dist_io_ ≥ candidates E top_k) := by unfold candidates; omega
  have n3 : ¬ stop_condition Q E top_k s := by
    unfold stop_condition
    rintro (c | c)
    · exact n1 c
    · exact n2 c
  exact ⟨n1, n2, n3, fun hpc => n3 (hr hpc)⟩

theorem knn_dist_io_bound_witness :
    (ex_state5 60).dist_io_ ≤ 3 ∧ ¬ stop_condition ex_index ex_env2 5 (ex_state5 60) ∧
    (ex_state5 60).pc ≠ .returned :=
  have h := knn_dist_io_bound ex_index ex_env2 5 ex_query ⟨5, []⟩ 1 ex_old (ex_state5 60)
    ⟨_, 60, start_state_ok _ ex_old (by decide!), rfl⟩
  ⟨h.1, (h.2.2.2 (by decide) (by decide)).2.2.1, (h.2.2.2 (by decide) (by decide)).2.2.2⟩

/-- The end of key-slot `pos` of a well-formed leaf. -/
theorem slot_min (n : BLeafNode) (hw : n.WF) (pos : Int) (h0 : 0 ≤ pos)
    (h1 : pos < n.get_num_keys) :
    min ((pos + 1) * n.get_increment) n.get_num_entries =
      if pos = n.get_num_keys - 1 then n.get_num_entries else (pos + 1) * n.get_increment := by
  obtain ⟨w1, w2, w3, w4⟩ := hw
  split_ifs with h
  · apply min_eq_right
    rw [h]
    have : n.get_num_keys - 1 + 1 = n.get_num_keys := by ring
    rw [this]; exact w4
  · apply min_eq_left
    have : (pos + 1) * n.get_increment ≤ (n.get_num_keys - 1) * n.get_increment :=
      Int.mul_le_mul_of_nonneg_right (by omega) (by omega)
    omega

theorem init_left_buffer_slot (leaf : LeafPtr) (q : ℚ) (hw : leaf.node.WF) :
    LeftSlot (init_left_buffer leaf q).2 ∧ (init_left_buffer leaf q).2.leaf_node_ = some leaf ∧
    (init_left_buffer leaf q).2.index_pos_ = (init_left_buffer leaf q).1 ∧
    (init_left_buffer leaf q).2.leaf_pos_ + 1 =
      min (((init_left_buffer leaf q).1 + 1) * leaf.node.get_increment)
        leaf.node.get_num_entries := by
  have hk := leaf_wf_num_keys_pos hw
  have hb1 := find_position_bounds leaf.node.key_ q
  obtain ⟨pos, f1, f2⟩ := init_left_buffer_eq leaf q
  have hp0 : 0 ≤ pos ∧ pos < leaf.node.get_num_keys := by
    rw [f1]
    unfold BLeafNode.find_position_by_key BLeafNode.get_num_keys at *
    split_ifs <;> omega
  have hm := slot_min leaf.node hw pos hp0.1 hp0.2
  rw [f2]
  have key : (if pos = leaf.node.get_num_keys - 1 then leaf.node.get_num_entries - 1
        else pos * leaf.node.get_increment + leaf.node.get_increment - 1) -
      (if pos = leaf.node.get_num_keys - 1 then
        leaf.node.get_num_entries - pos * leaf.node.get_increment
        else leaf.node.get_increment) + 1 = pos * leaf.node.get_increment ∧
      (if pos = leaf.node.get_num_keys - 1 then leaf.node.get_num_entries - 1
        else pos * leaf.node.get_increment + leaf.node.get_increment - 1) + 1 =
      min ((pos + 1) * leaf.node.get_increment) leaf.node.get_num_entries := by
    rw [hm]
    split_ifs
    · constructor <;> ring
    · constructor <;> ring
  refine ⟨fun p hp => ?_, rfl, rfl, key.2⟩
  simp only [Option.some.injEq] at hp
  subst hp
  exact key

theorem init_right_same_leaf_slot (leaf : LeafPtr) (pos : Int) (hw : leaf.node.WF)
    (h0 : 0 ≤ pos) (h1 : pos < leaf.node.get_num_keys - 1) :
    RightSlot (init_right_same_leaf leaf pos) := by
  have hm := slot_min leaf.node hw (pos + 1) (by omega) (by omega)
  intro p hp
  unfold init_right_same_leaf at hp ⊢
  simp only [Option.some.injEq] at hp
  subst hp
  dsimp only
  rw [hm]
  refine ⟨rfl, ?_⟩
  split_ifs <;> ring

theorem init_right_first_slot_slot (leaf : LeafPtr) :
    RightSlot (init_right_first_slot leaf) := by
  intro p hp
  unfold init_right_first_slot at hp ⊢
  simp only [Option.some.injEq] at hp
  subst hp
  dsimp only
  refine ⟨by ring, ?_⟩
  split_ifs with c
  · rw [min_eq_right (by omega)]; ring
  · rw [min_eq_left (by omega)]; ring

theorem update_left_buffer_slot (T : BTree) (mem : Mem) (page_io_ : Int)
    (rptr lptr : PageBuffer) (a : Advance) (hw : T.WF) (hc : CursorOK T lptr)
    (hs : LeftSlot lptr) (h : update_left_buffer T mem page_io_ rptr lptr = some a) :
    LeftSlot a.buf ∧ NullShape a.buf ∧
    ∀ old, lptr.leaf_node_ = some old →
      (a.buf.leaf_node_ = some old ∧ a.buf.leaf_pos_ = lptr.leaf_pos_ - lptr.size_) ∨
      (∃ b, old.node.left_sibling_ = some b ∧
        a.buf.leaf_node_ = some ⟨mem.next, T.leaf_node b⟩) ∨
      a.buf.leaf_node_ = none := by
  unfold update_left_buffer at h
  split at h
  · simp at h
  · rename_i old hold
    obtain ⟨⟨blk, hb⟩, c1, c2, c3⟩ := hc old hold
    have hwo : old.node.WF := by rw [hb]; exact hw _
    obtain ⟨s1, s2⟩ := hs old hold
    by_cases hp : lptr.index_pos_ > 0
    · rw [if_pos hp] at h
      simp only [Option.some.injEq] at h
      subst h
      have hm := slot_min old.node hwo (lptr.index_pos_ - 1) (by omega) (by omega)
      rw [if_neg (by omega)] at hm
      refine ⟨fun p hp2 => ?_, fun hn => ?_, fun o ho => ?_⟩
      · simp only [hold, Option.some.injEq] at hp2
        subst hp2
        dsimp only
        rw [hm]
        constructor <;> ring
      · simp only [hold] at hn
        cases hn
      · rw [hold] at ho
        injection ho with ho
        subst ho
        left
        refine ⟨hold, ?_⟩
        dsimp only
        linarith
    · rw [if_neg hp] at h
      simp only [Option.some.injEq] at h
      subst h
      dsimp only
      unfold get_left_sibling
      cases hsib : old.node.left_sibling_ with
      | none =>
        refine ⟨fun p hp2 => ?_, fun _ => ⟨rfl, rfl⟩, fun o ho => Or.inr (Or.inr rfl)⟩
        simp [PageBuffer.null] at hp2
      | some b =>
        have hwl : (T.leaf_node b).WF := hw _
        have hk := leaf_wf_num_keys_pos hwl
        have hm := slot_min (T.leaf_node b) hwl ((T.leaf_node b).get_num_keys - 1) (by omega)
          (by omega)
        rw [if_pos rfl] at hm
        refine ⟨fun p hp2 => ?_, fun hn => ?_, fun o ho => ?_⟩
        · simp only [Mem.new_leaf, Option.some.injEq] at hp2
          subst hp2
          simp only [Mem.new_leaf]
          rw [hm]
          constructor <;> ring
        · simp [Mem.new_leaf] at hn
        · rw [hold] at ho
          injection ho with ho
          subst ho
          right; left
          exact ⟨b, hsib, rfl⟩

theorem update_right_buffer_slot (T : BTree) (mem : Mem) (page_io_ : Int)
    (lptr rptr : PageBuffer) (a : Advance) (hw : T.WF) (hc : CursorOK T rptr)
    (hs : RightSlot rptr) (h : update_right_buffer T mem page_io_ lptr rptr = some a) :
    RightSlot a.buf ∧ NullShape a.buf ∧
    ∀ old, rptr.leaf_node_ = some old →
      (a.buf.leaf_node_ = some old ∧ a.buf.leaf_pos_ = rptr.leaf_pos_ + rptr.size_) ∨
      (∃ b, old.node.right_sibling_ = some b ∧
        a.buf.leaf_node_ = some ⟨mem.next, T.leaf_node b⟩ ∧ a.buf.leaf_pos_ = 0) ∨
      a.buf.leaf_node_ = none := by
  unfold update_right_buffer at h
  split at h
  · simp at h
  · rename_i old hold
    obtain ⟨⟨blk, hb⟩, c1, c2, c3⟩ := hc old hold
    have hwo : old.node.WF := by rw [hb]; exact hw _
    obtain ⟨s1, s2⟩ := hs old hold
    by_cases hp : rptr.index_pos_ < old.node.get_num_keys - 1
    · rw [if_pos hp] at h
      simp only [Option.some.injEq] at h
      subst h
      have hm := slot_min old.node hwo (rptr.index_pos_ + 1) (by omega) (by omega)
      have hm0 := slot_min old.node hwo rptr.index_pos_ (by omega) (by omega)
      rw [if_neg (by omega)] at hm0
      refine ⟨fun p hp2 => ?_, fun hn => ?_, fun o ho => ?_⟩
      · simp only [hold, Option.some.injEq] at hp2
        subst hp2
        dsimp only
        rw [hm]
        refine ⟨rfl, ?_⟩
        split_ifs <;> ring
      · simp only [hold] at hn
        cases hn
      · rw [hold] at ho
        injection ho with ho
        subst ho
        left
        refine ⟨hold, ?_⟩
        dsimp only
        rw [s2, hm0]
    · rw [if_neg hp] at h
      simp only [Option.some.injEq] at h
      subst h
      dsimp only
      unfold get_right_sibling
      cases hsib : old.node.right_sibling_ with
      | none =>
        refine ⟨fun p hp2 => ?_, fun _ => ⟨rfl, rfl⟩, fun o ho => Or.inr (Or.inr rfl)⟩
        simp [PageBuffer.null] at hp2
      | some b =>
        refine ⟨?_, fun hn => ?_, fun o ho => ?_⟩
        · exact init_right_first_slot_slot ⟨mem.next, T.leaf_node b⟩
        · simp [Mem.new_leaf] at hn
        · rw [hold] at ho
          injection ho with ho
          subst ho
          right; left
          exact ⟨b, hsib, rfl, rfl⟩

theorem init_tree_pair (T : BTree) (q : ℚ) (fuel : Nat) (page_io_ : Int) (mem : Mem)
    (r : TreeInit) (hw : T.WF) (h : init_tree T q fuel page_io_ mem = .ok r) :
    InitPair T r.lptr r.rptr := by
  have hnull : NullShape PageBuffer.null := fun _ => ⟨rfl, rfl⟩
  have hlnull : LeftSlot PageBuffer.null := fun p hp => by simp [PageBuffer.null] at hp
  have hrnull : RightSlot PageBuffer.null := fun p hp => by simp [PageBuffer.null] at hp
  -- the cursors built from the leaf in `block`
  have from_leaf : ∀ (block : Int) (io : Int),
      (if (init_left_buffer (mem.new_leaf T block).1 q).1 <
          (mem.new_leaf T block).1.node.get_num_keys - 1 then
        Except.ok
          { lptr := (init_left_buffer (mem.new_leaf T block).1 q).2,
            rptr := init_right_same_leaf (mem.new_leaf T block).1
              (init_left_buffer (mem.new_leaf T block).1 q).1,
            page_io_ := io + 1, mem := (mem.new_leaf T block).2 }
      else
        match (get_right_sibling T (mem.new_leaf T block).2 (mem.new_leaf T block).1.node).1 with
        | some leaf =>
          Except.ok
            { lptr := (init_left_buffer (mem.new_leaf T block).1 q).2,
              rptr := init_right_first_slot leaf, page_io_ := io + 1 + 1,
              mem := (get_right_sibling T (mem.new_leaf T block).2
                (mem.new_leaf T block).1.node).2 }
        | none =>
          Except.ok
            { lptr := (init_left_buffer (mem.new_leaf T block).1 q).2, rptr := PageBuffer.null,
              page_io_ := io + 1,
              mem := (get_right_sibling T (mem.new_leaf T block).2
                (mem.new_leaf T block).1.node).2 }) = (Except.ok r : Except InitFault TreeInit) →
      InitPair T r.lptr r.rptr := by
    intro block io h
    have hwl : (mem.new_leaf T block).1.node.WF := hw _
    have hl := init_left_buffer_ok T (mem.new_leaf T block).1 q hwl ⟨_, rfl⟩
    obtain ⟨l1, l2, l3, l4⟩ := init_left_buffer_slot (mem.new_leaf T block).1 q hwl
    have hln : NullShape (init_left_buffer (mem.new_leaf T block).1 q).2 :=
      fun hn => by rw [l2] at hn; cases hn
    split_ifs at h with hlt
    · simp only [Except.ok.injEq] at h
      subst h
      refine ⟨l1, init_right_same_leaf_slot _ _ hwl hl.2.1 hlt,
        hln, (fun hn => by simp [init_right_same_leaf] at hn), ?_⟩
      intro p p1 hp hp1
      dsimp only at hp hp1
      rw [l2] at hp
      injection hp with hp
      subst hp
      simp only [init_right_same_leaf, Option.some.injEq] at hp1
      subst hp1
      left
      refine ⟨rfl, ?_⟩
      have hm := slot_min _ hwl (init_left_buffer (mem.new_leaf T block).1 q).1 hl.2.1 hl.2.2
      rw [if_neg (by omega)] at hm
      dsimp only
      rw [hm] at l4
      simp only [init_right_same_leaf]
      omega
    · unfold get_right_sibling at h
      cases hsib : (mem.new_leaf T block).1.node.right_sibling_ with
      | none =>
        rw [hsib] at h
        simp only [Except.ok.injEq] at h
        subst h
        refine ⟨l1, hrnull, hln, hnull, ?_⟩
        intro p p1 _ hp1
        simp [PageBuffer.null] at hp1
      | some c =>
        rw [hsib] at h
        simp only [Except.ok.injEq] at h
        subst h
        refine ⟨l1, init_right_first_slot_slot _, hln,
          (fun hn => by simp [init_right_first_slot] at hn), ?_⟩
        intro p p1 hp hp1
        dsimp only at hp hp1
        rw [l2] at hp
        injection hp with hp
        subst hp
        simp only [init_right_first_slot, Option.some.injEq] at hp1
        subst hp1
        right
        exact ⟨c, hsib, rfl⟩
  unfold init_tree at h
  by_cases hroot : T.root_ > 1
  · rw [if_pos hroot] at h
    split at h
    · exact absurd h (by simp)
    · rename_i blk index_node lescape0 pio hd
      dsimp only at h
      by_cases hesc : (if index_node.find_position_by_key q < 0 then true else lescape0) = true
      · rw [if_pos hesc] at h
        split at h
        · exact absurd h (by simp)
        · simp only [Except.ok.injEq] at h
          subst h
          refine ⟨hlnull, init_right_first_slot_slot _, hnull,
            (fun hn => by simp [init_right_first_slot] at hn), ?_⟩
          intro p p1 hp _
          simp [PageBuffer.null] at hp
      · rw [if_neg hesc] at h
        split at h
        · exact absurd h (by simp)
        · exact from_leaf _ pio h
  · rw [if_neg hroot] at h
    have hwl : (mem.new_leaf T T.root_).1.node.WF := hw _
    have hl := init_left_buffer_ok T (mem.new_leaf T T.root_).1 q hwl ⟨_, rfl⟩
    obtain ⟨l1, l2, l3, l4⟩ := init_left_buffer_slot (mem.new_leaf T T.root_).1 q hwl
    have hln : NullShape (init_left_buffer (mem.new_leaf T T.root_).1 q).2 :=
      fun hn => by rw [l2] at hn; cases hn
    dsimp only at h
    split_ifs at h with hlt
    · simp only [Except.ok.injEq] at h
      subst h
      refine ⟨l1, init_right_same_leaf_slot _ _ hwl hl.2.1 hlt,
        hln, (fun hn => by simp [init_right_same_leaf] at hn), ?_⟩
      intro p p1 hp hp1
      dsimp only at hp hp1
      rw [l2] at hp
      injection hp with hp
      subst hp
      simp only [init_right_same_leaf, Option.some.injEq] at hp1
      subst hp1
      left
      refine ⟨rfl, ?_⟩
      have hm := slot_min _ hwl (init_left_buffer (mem.new_leaf T T.root_).1 q).1 hl.2.1 hl.2.2
      rw [if_neg (by omega)] at hm
      dsimp only
      rw [hm] at l4
      simp only [init_right_same_leaf]
      omega
    · simp only [Except.ok.injEq] at h
      subst h
      refine ⟨l1, hrnull, hln, hnull, ?_⟩
      intro p p1 _ hp1
      simp [PageBuffer.null] at hp1

theorem knn_start_pair (Q : Index) (E : Env) (query : Int → ℚ) (list : MinK_List)
    (fuel : Nat) (old s0 : State) (hw : Q.WF)
    (h : knn_start Q E query list fuel old = .ok s0) :
    ∀ i, 0 ≤ i → i < Q.m_ → InitPair (Q.trees_ i) (s0.lptr_ i) (s0.rptr_ i) := by
  have init_trees_pair : ∀ (Q : Index) (query : Int → ℚ) (fuel : Nat) (count : Nat) (i : Int) (s s1
      : State) (h : init_trees Q query fuel count i s = .ok s1) (hw : ∀ j, i ≤ j → j < i + count →
      (Q.trees_ j).WF),
      ∀ j, i ≤ j → j < i + count → InitPair (Q.trees_ j) (s1.lptr_ j) (s1.rptr_ j) := by
    intro Q query fuel count i s s1 h hw
    induction count generalizing i s with
    | zero => exact fun j h1 h2 => by simp at h2; omega
    | succ count ih =>
      simp only [init_trees] at h
      split at h
      · exact absurd h (by simp)
      · rename_i r hr
        have hr1 := init_tree_pair _ _ _ _ _ _ (hw i (le_refl _) (by push_cast; omega)) hr
        have h4 := ih _ _ h (fun j h1 h2 => hw j (by omega) (by push_cast; omega))
        have h6 := (init_trees_ok Q query fuel count (i + 1) _ s1 h
          (fun j h1 h2 => hw j (by omega) (by push_cast; omega))).2
        intro j h1 h2
        by_cases hji : j = i
        · subst hji
          have := h6 j (by omega)
          simp only [Function.update_same] at this
          rw [this.1, this.2]
          exact hr1
        · exact h4 j (by omega) (by push_cast at h2; omega)
  unfold knn_start at h
  split at h
  · exact absurd h (by simp)
  · rename_i s hs
    split at h
    · exact absurd h (by simp)
    · simp only [Except.ok.injEq] at h
      subst h
      unfold init_search_params at hs
      have := init_trees_pair Q query fuel _ _ _ _ hs (fun j h1 h2 => hw j h1 (by omega))
      intro i h0 h1
      exact this i h0 (by omega)

theorem reachable_slot_inv {Q : Index} {E : Env} {top_k : Int} {query : Int → ℚ}
    {list : MinK_List} {fuel : Nat} {old s : State} (hw : Q.WF)
    (h : Reachable Q E top_k query list fuel old s) :
    SlotInv Q s ∧ CursorsOK Q s ∧ PcRange Q s.pc := by
  have step_slot_inv : ∀ (Q : Index) (E : Env) (top_k : Int) (s : State) (hw : Q.WF) (hc : CursorsOK
      Q s) (hr : PcRange Q s.pc) (h : SlotInv Q s),
      SlotInv Q (step Q E top_k s) := by
    intro Q E top_k s hw hc hr h
    obtain ⟨h1, h2⟩ := h
    have keep : ∀ t : State, s.pc ≠ .returned → t.lptr_ = s.lptr_ → t.rptr_ = s.rptr_ →
        ScanOK t → SlotInv Q t := by
      intro t hne e1 e2 hs
      refine ⟨hs, fun i h0 hm => ?_⟩
      rw [e1, e2]
      exact ⟨(h2 i h0 hm).1, (h2 i h0 hm).2.1, fun _ => (h2 i h0 hm).2.2 hne⟩
    have hd := delete_tree_ptr_cursor Q s
    have hdf := (delete_tree_ptr_frame Q s).2.2.2.2.2.2.2.2.2.2.2.2
    unfold step
    split
    · rename_i hpc
      exact keep _ (by rw [hpc]; simp) rfl rfl (by simp [ScanOK])
    · rename_i hpc
      split_ifs <;> exact keep _ (by rw [hpc]; simp) rfl rfl (by simp [ScanOK])
    · rename_i i hpc
      rw [hpc] at hr
      have h0 : 0 ≤ i := hr
      have hne : s.pc ≠ .returned := by rw [hpc]; simp
      split_ifs with c1 c2
      · exact keep _ hne rfl rfl (by simp [ScanOK])
      · split
        · split_ifs
          · refine keep _ hne rfl rfl ?_
            simp only [ScanOK]
            refine ⟨trivial, le_refl _, fun hn => ?_⟩
            cases hp : (s.lptr_ i).leaf_node_ with
            | none => exact absurd hp hn
            | some p =>
              have := ((hc i h0 c1).1 p hp).2.2.2
              omega
          · refine keep _ hne rfl rfl ?_
            simp only [ScanOK]
            refine ⟨trivial, le_refl _, fun hn => ?_⟩
            cases hp : (s.rptr_ i).leaf_node_ with
            | none => exact absurd hp hn
            | some p =>
              have := ((hc i h0 c1).2 p hp).2.2.2
              omega
          · exact keep _ hne rfl rfl (by simp [ScanOK])
        · exact keep _ hne rfl rfl (by simp [ScanOK])
      · exact keep _ hne rfl rfl (by simp [ScanOK])
    · rename_i i j start hpc
      have hne : s.pc ≠ .returned := by rw [hpc]; simp
      simp only [ScanOK, hpc] at h1
      split_ifs with c
      · split
        · exact keep _ hne rfl rfl (by simp [ScanOK])
        · split
          · exact keep _ hne rfl rfl (by simp [ScanOK])
          · rename_i id _
            obtain ⟨f1, f2, _⟩ := collide_frame Q E top_k s id (.scan_left i (j - 1) start)
              (.advance_left i)
            refine keep _ hne f1 f2 ?_
            rcases collide_pc Q E top_k s id (.scan_left i (j - 1) start) (.advance_left i) with
              e | e | e
            · simp only [ScanOK, e]
            · simp only [ScanOK, e, f1]
              exact ⟨h1.1, by omega, fun _ => by omega⟩
            · simp only [ScanOK, e]
      · exact keep _ hne rfl rfl (by simp [ScanOK])
    · rename_i i hpc
      rw [hpc] at hr
      have hne : s.pc ≠ .returned := by rw [hpc]; simp
      split
      · exact keep _ hne rfl rfl (by simp [ScanOK])
      · rename_i a ha
        obtain ⟨u1, u2, _⟩ := update_left_buffer_slot _ _ _ _ _ a (hw i hr.1 hr.2)
          (hc i hr.1 hr.2).1 (h2 i hr.1 hr.2).1 ha
        refine ⟨by simp [ScanOK], fun j h0 hm => ?_⟩
        dsimp only
        by_cases e : j = i
        · subst e
          rw [Function.update_same]
          exact ⟨u1, (h2 j h0 hm).2.1, fun _ => ⟨u2, ((h2 j h0 hm).2.2 hne).2⟩⟩
        · rw [Function.update_noteq e]
          exact ⟨(h2 j h0 hm).1, (h2 j h0 hm).2.1, fun _ => (h2 j h0 hm).2.2 hne⟩
    · rename_i i j e hpc
      have hne : s.pc ≠ .returned := by rw [hpc]; simp
      simp only [ScanOK, hpc] at h1
      split_ifs with c
      · split
        · exact keep _ hne rfl rfl (by simp [ScanOK])
        · split
          · exact keep _ hne rfl rfl (by simp [ScanOK])
          · rename_i id _
            obtain ⟨f1, f2, _⟩ := collide_frame Q E top_k s id (.scan_right i (j + 1) e)
              (.advance_right i)
            refine keep _ hne f1 f2 ?_
            rcases collide_pc Q E top_k s id (.scan_right i (j + 1) e) (.advance_right i) with
              e' | e' | e'
            · simp only [ScanOK, e']
            · simp only [ScanOK, e', f2]
              exact ⟨h1.1, by omega, fun _ => by omega⟩
            · simp only [ScanOK, e']
      · exact keep _ hne rfl rfl (by simp [ScanOK])
    · rename_i i hpc
      rw [hpc] at hr
      have hne : s.pc ≠ .returned := by rw [hpc]; simp
      split
      · exact keep _ hne rfl rfl (by simp [ScanOK])
      · rename_i a ha
        obtain ⟨u1, u2, _⟩ := update_right_buffer_slot _ _ _ _ _ a (hw i hr.1 hr.2)
          (hc i hr.1 hr.2).2 (h2 i hr.1 hr.2).2.1 ha
        refine ⟨by simp [ScanOK], fun j h0 hm => ?_⟩
        dsimp only
        by_cases e : j = i
        · subst e
          rw [Function.update_same]
          exact ⟨(h2 j h0 hm).1, u1, fun _ => ⟨((h2 j h0 hm).2.2 hne).1, u2⟩⟩
        · rw [Function.update_noteq e]
          exact ⟨(h2 j h0 hm).1, (h2 j h0 hm).2.1, fun _ => (h2 j h0 hm).2.2 hne⟩
    · rename_i i hpc
      split_ifs <;> exact keep _ (by rw [hpc]; simp) rfl rfl (by simp [ScanOK])
    · rename_i hpc
      split_ifs <;> exact keep _ (by rw [hpc]; simp) rfl rfl (by simp [ScanOK])
    · rename_i hpc
      have hne : s.pc ≠ .returned := by rw [hpc]; simp
      have hret : SlotInv Q { delete_tree_ptr Q s with pc := .returned } := by
        refine ⟨by simp [ScanOK], fun i h0 hm => ⟨?_, ?_, fun hn => absurd rfl hn⟩⟩
        · rcases (hd i).1 with e | e
          · show LeftSlot ((delete_tree_ptr Q s).lptr_ i)
            rw [e]; exact (h2 i h0 hm).1
          · intro p hp
            have : ((delete_tree_ptr Q s).lptr_ i).leaf_node_ = none := by rw [e]
            rw [this] at hp; cases hp
        · rcases (hd i).2 with e | e
          · show RightSlot ((delete_tree_ptr Q s).rptr_ i)
            rw [e]; exact (h2 i h0 hm).2.1
          · intro p hp
            have : ((delete_tree_ptr Q s).rptr_ i).leaf_node_ = none := by rw [e]
            rw [this] at hp; cases hp
      split_ifs
      · exact hret
      · exact hret
      · split
        · exact keep _ hne rfl rfl (by simp [ScanOK])
        · exact keep _ hne rfl rfl (by simp [ScanOK])
    · exact ⟨h1, h2⟩
    · exact ⟨h1, h2⟩
  exact
    reachable_induct (fun s => SlotInv Q s ∧ CursorsOK Q s ∧ PcRange Q s.pc)
      (fun s0 h0 => by
        have hpc := (knn_start_spec Q E query list fuel old s0 h0).2.1
        have hp := knn_start_pair Q E query list fuel old s0 hw h0
        refine ⟨⟨by simp [ScanOK, hpc], fun i a b => ⟨(hp i a b).1, (hp i a b).2.1,
          fun _ => ⟨(hp i a b).2.2.1, (hp i a b).2.2.2.1⟩⟩⟩,
          knn_start_cursors_ok Q E query list fuel old s0 hw h0, by rw [hpc]; trivial⟩)
      (fun s ⟨a, b, c⟩ => ⟨step_slot_inv Q E top_k s hw b c a, step_cursors_ok Q E top_k s hw b,
        step_pc_range Q E top_k s c⟩) h

/-- C31: the cursor slot invariant. On an index whose leaves are well formed
(`increment ≥ 1`, `num_entries ≥ 1`, `num_keys = ceil(num_entries /
increment)`), in every state of `knn` after `init_search_params` each cursor
that points at a leaf has `0 ≤ index_pos_ < num_keys`, and the entries it
will emit (left: `leaf_pos_ - size_ + 1 .. leaf_pos_`, right: `leaf_pos_ ..
leaf_pos_ + size_ - 1`) are those of key-slot `index_pos_`, from
`index_pos_ * increment` up to, not including,
`min((index_pos_ + 1) * increment, num_entries)`; until `knn` returns a cursor
points at a leaf exactly when `size_ != -1`. Every `get_entry_id(j)` that
`knn` performs reads an entry of the leaf, inside that key-slot. -/
theorem knn_cursor_slots (Q : Index) (E : Env) (top_k : Int) (query : Int → ℚ)
    (list : MinK_List) (fuel : Nat) (old s : State) (hw : Q.WF)
    (h : Reachable Q E top_k query list fuel old s) (i : Int) (h0 : 0 ≤ i) (hm : i < Q.m_) :
    (∀ p, (s.lptr_ i).leaf_node_ = some p →
      0 ≤ (s.lptr_ i).index_pos_ ∧ (s.lptr_ i).index_pos_ < p.node.get_num_keys ∧
      (s.lptr_ i).leaf_pos_ - (s.lptr_ i).size_ + 1 =
        (s.lptr_ i).index_pos_ * p.node.get_increment ∧
      (s.lptr_ i).leaf_pos_ + 1 =
        min (((s.lptr_ i).index_pos_ + 1) * p.node.get_increment) p.node.get_num_entries) ∧
    (∀ p, (s.rptr_ i).leaf_node_ = some p →
      0 ≤ (s.rptr_ i).index_pos_ ∧ (s.rptr_ i).index_pos_ < p.node.get_num_keys ∧
      (s.rptr_ i).leaf_pos_ = (s.rptr_ i).index_pos_ * p.node.get_increment ∧
      (s.rptr_ i).leaf_pos_ + (s.rptr_ i).size_ =
        min (((s.rptr_ i).index_pos_ + 1) * p.node.get_increment) p.node.get_num_entries) ∧
    (s.pc ≠ .returned →
      ((s.lptr_ i).size_ ≠ -1 ↔ (s.lptr_ i).leaf_node_ ≠ none) ∧
      ((s.rptr_ i).size_ ≠ -1 ↔ (s.rptr_ i).leaf_node_ ≠ none)) ∧
    (∀ j start, s.pc = .scan_left i j start → j > start →
      ∃ p id, (s.lptr_ i).leaf_node_ = some p ∧ p.node.get_entry_id j = some id ∧
        0 ≤ j ∧ j < p.node.get_num_entries ∧
        (s.lptr_ i).index_pos_ * p.node.get_increment ≤ j ∧
        j < min (((s.lptr_ i).index_pos_ + 1) * p.node.get_increment) p.node.get_num_entries) ∧
    (∀ j e, s.pc = .scan_right i j e → j < e →
      ∃ p id, (s.rptr_ i).leaf_node_ = some p ∧ p.node.get_entry_id j = some id ∧
        0 ≤ j ∧ j < p.node.get_num_entries ∧
        (s.rptr_ i).index_pos_ * p.node.get_increment ≤ j ∧
        j < min (((s.rptr_ i).index_pos_ + 1) * p.node.get_increment)
          p.node.get_num_entries) := by
  obtain ⟨⟨hs, hsl⟩, hc, _⟩ := reachable_slot_inv hw h
  obtain ⟨l1, r1, hn⟩ := hsl i h0 hm
  obtain ⟨cl, cr⟩ := hc i h0 hm
  have hwf : ∀ (b : PageBuffer) p, CursorOK (Q.trees_ i) b → b.leaf_node_ = some p →
      p.node.WF ∧ 0 ≤ b.index_pos_ * p.node.get_increment := by
    intro b p hb hp
    obtain ⟨⟨blk, e⟩, c1, _, _⟩ := hb p hp
    have : p.node.WF := by rw [e]; exact hw i h0 hm blk
    exact ⟨this, Int.mul_nonneg c1 (by have := this.1; omega)⟩
  have hlive : ∀ b : PageBuffer, CursorOK (Q.trees_ i) b → NullShape b →
      (b.size_ ≠ -1 ↔ b.leaf_node_ ≠ none) := by
    intro b hb hnb
    constructor
    · intro hsz hnone
      exact hsz (hnb hnone).2
    · intro hnone hsz
      cases hp : b.leaf_node_ with
      | none => exact hnone hp
      | some p =>
        have := (hb p hp).2.2.2
        omega
  refine ⟨fun p hp => ⟨(cl p hp).2.1, (cl p hp).2.2.1, (l1 p hp).1, (l1 p hp).2⟩,
    fun p hp => ⟨(cr p hp).2.1, (cr p hp).2.2.1, (r1 p hp).1, (r1 p hp).2⟩,
    fun hne => ⟨hlive _ cl (hn hne).1, hlive _ cr (hn hne).2⟩, ?_, ?_⟩
  · intro j start hpc hj
    have hne : s.pc ≠ .returned := by rw [hpc]; simp
    simp only [ScanOK, hpc] at hs
    cases hp : (s.lptr_ i).leaf_node_ with
    | none =>
      have := (hn hne).1 hp
      omega
    | some p =>
      obtain ⟨a1, a2⟩ := l1 p hp
      obtain ⟨hwp, hnn⟩ := hwf _ p cl hp
      have hle : min (((s.lptr_ i).index_pos_ + 1) * p.node.get_increment)
          p.node.get_num_entries ≤ p.node.get_num_entries := min_le_right _ _
      have hj0 : 0 ≤ j := by omega
      have hj1 : j < p.node.get_num_entries := by omega
      obtain ⟨id, hid⟩ := arr_get_some p.node.id_ j hj0 hj1
      exact ⟨p, id, rfl, hid, hj0, hj1, by omega, by omega⟩
  · intro j e hpc hj
    have hne : s.pc ≠ .returned := by rw [hpc]; simp
    simp only [ScanOK, hpc] at hs
    cases hp : (s.rptr_ i).leaf_node_ with
    | none =>
      have := (hn hne).2 hp
      omega
    | some p =>
      obtain ⟨a1, a2⟩ := r1 p hp
      obtain ⟨hwp, hnn⟩ := hwf _ p cr hp
      have hle : min (((s.rptr_ i).index_pos_ + 1) * p.node.get_increment)
          p.node.get_num_entries ≤ p.node.get_num_entries := min_le_right _ _
      have hj0 : 0 ≤ j := by omega
      have hj1 : j < p.node.get_num_entries := by omega
      obtain ⟨id, hid⟩ := arr_get_some p.node.id_ j hj0 hj1
      exact ⟨p, id, rfl, hid, hj0, hj1, by omega, by omega⟩

theorem knn_cursor_slots_witness :
    ∃ p id, ((ex_state 8).lptr_ 1).leaf_node_ = some p ∧ p.node.get_entry_id 1 = some id ∧
      (0 : Int) ≤ 1 ∧ 1 < p.node.get_num_entries ∧
      ((ex_state 8).lptr_ 1).index_pos_ * p.node.get_increment ≤ 1 ∧
      1 < min ((((ex_state 8).lptr_ 1).index_pos_ + 1) * p.node.get_increment)
        p.node.get_num_entries :=
  (knn_cursor_slots ex_index ex_env 1 ex_query ⟨1, []⟩ 1 ex_old (ex_state 8) ex_index_wf
    (ex_reachable 8) 1 (by decide) (by decide)).2.2.2.1 1 0 (by decide!) (by decide)

theorem dist_list_congr (q q' : Int → ℚ) (l l' r r' : Int → PageBuffer) (count : Nat) (i : Int)
    (h : ∀ j, i ≤ j → j < i + count → q' j = q j ∧ l' j = l j ∧ r' j = r j) :
    dist_list q' l' r' count i = dist_list q l r count i := by
  induction count generalizing i with
  | zero => rfl
  | succ count ih =>
    unfold dist_list
    obtain ⟨a, b, c⟩ := h i (le_refl _) (by push_cast; omega)
    rw [a, b, c, ih (i + 1) (fun j h1 h2 => h j (by omega) (by push_cast at h2 ⊢; omega))]

theorem delete_tree_ptr_agree (Q : Index) (s t : State)
    (hc : ∀ i, 0 ≤ i → i < Q.m_ → t.lptr_ i = s.lptr_ i ∧ t.rptr_ i = s.rptr_ i)
    (hm : t.mem = s.mem) :
    (∀ i, 0 ≤ i → i < Q.m_ →
      (delete_tree_ptr Q t).lptr_ i = (delete_tree_ptr Q s).lptr_ i ∧
      (delete_tree_ptr Q t).rptr_ i = (delete_tree_ptr Q s).rptr_ i) ∧
    (delete_tree_ptr Q t).mem = (delete_tree_ptr Q s).mem := by
  unfold delete_tree_ptr
  have key : ∀ (l : List Int), (∀ a ∈ l, 0 ≤ a ∧ a < Q.m_) → ∀ s t : State,
      (∀ i, 0 ≤ i → i < Q.m_ → t.lptr_ i = s.lptr_ i ∧ t.rptr_ i = s.rptr_ i) →
      t.mem = s.mem →
      (∀ i, 0 ≤ i → i < Q.m_ →
        (l.foldl (fun s i => delete_tree_ptr_at s i) t).lptr_ i =
          (l.foldl (fun s i => delete_tree_ptr_at s i) s).lptr_ i ∧
        (l.foldl (fun s i => delete_tree_ptr_at s i) t).rptr_ i =
          (l.foldl (fun s i => delete_tree_ptr_at s i) s).rptr_ i) ∧
      (l.foldl (fun s i => delete_tree_ptr_at s i) t).mem =
        (l.foldl (fun s i => delete_tree_ptr_at s i) s).mem := by
    intro l
    induction l with
    | nil => exact fun _ s t hc hm => ⟨hc, hm⟩
    | cons a l ih =>
      intro hl s t hc hm
      rw [List.foldl_cons, List.foldl_cons]
      obtain ⟨e1, e2⟩ := hc a (hl a (List.mem_cons_self _ _)).1 (hl a (List.mem_cons_self _ _)).2
      have hstep : (∀ i, 0 ≤ i → i < Q.m_ →
          (delete_tree_ptr_at t a).lptr_ i = (delete_tree_ptr_at s a).lptr_ i ∧
          (delete_tree_ptr_at t a).rptr_ i = (delete_tree_ptr_at s a).rptr_ i) ∧
          (delete_tree_ptr_at t a).mem = (delete_tree_ptr_at s a).mem := by
        have upd : ∀ (f g : Int → PageBuffer) (v : PageBuffer) (i : Int),
            (∀ i, 0 ≤ i → i < Q.m_ → g i = f i) → 0 ≤ i → i < Q.m_ →
            Function.update g a v i = Function.update f a v i := by
          intro f g v i hfg h0 h1
          by_cases e : i = a
          · rw [e, Function.update_same, Function.update_same]
          · rw [Function.update_noteq e, Function.update_noteq e]; exact hfg i h0 h1
        have hcl := fun i h0 h1 => (hc i h0 h1).1
        have hcr := fun i h0 h1 => (hc i h0 h1).2
        unfold delete_tree_ptr_at
        rw [e1, e2, hm]
        cases hL : (s.lptr_ a).leaf_node_ with
        | none =>
          dsimp only
          rw [e2]
          cases hR : (s.rptr_ a).leaf_node_ with
          | none => exact ⟨hc, hm⟩
          | some q =>
            dsimp only
            try rw [hm, e2]
            exact ⟨fun i h0 h1 => ⟨hcl i h0 h1, upd _ _ _ i hcr h0 h1⟩, by rw [hm]⟩
        | some p =>
          dsimp only
          by_cases hP : (s.lptr_ a).ptr ≠ (s.rptr_ a).ptr
          · rw [if_pos hP, if_pos hP]
            dsimp only
            rw [e2]
            cases hR : (s.rptr_ a).leaf_node_ with
            | none => exact ⟨fun i h0 h1 => ⟨upd _ _ _ i hcl h0 h1, hcr i h0 h1⟩, rfl⟩
            | some q =>
              dsimp only
              try rw [e2]
              exact ⟨fun i h0 h1 => ⟨upd _ _ _ i hcl h0 h1, upd _ _ _ i hcr h0 h1⟩, rfl⟩
          · rw [if_neg hP, if_neg hP]
            rw [e2]
            cases hR : (s.rptr_ a).leaf_node_ with
            | none => exact ⟨hc, hm⟩
            | some q =>
              dsimp only
              try rw [hm, e2]
              exact ⟨fun i h0 h1 => ⟨hcl i h0 h1, upd _ _ _ i hcr h0 h1⟩, by rw [hm]⟩
      exact ih (fun b hb => hl b (List.mem_cons_of_mem _ hb)) _ _ hstep.1 hstep.2
  refine key _ (fun a ha => ?_) s t hc hm
  simp only [List.pure_def, List.bind_eq_flatMap, List.mem_flatMap, List.mem_range,
    List.mem_singleton] at ha
  obtain ⟨n, hn, rfl⟩ := ha
  omega

theorem collide_agree (Q : Index) (E : Env) (top_k : Int) (s t : State) (id : Int)
    (next brk : PC) (h : Agree Q s t) (hn : s.pc ≠ .round) :
    Agree Q (collide Q E top_k s id next brk) (collide Q E top_k t id next brk) := by
  obtain ⟨ha, hc, hf, hio, hdio, hnf, hk, hr, hb, hl, hm, htr, hpc⟩ := h
  have hf' := hf hn
  unfold collide
  by_cases hid : 0 ≤ id ∧ id < Q.n_pts_
  · obtain ⟨a1, a2⟩ := ha id hid.1 hid.2
    rw [if_neg (not_not.mpr hid), if_neg (not_not.mpr hid), a2]
    have hupd : ∀ j, 0 ≤ j → j < Q.n_pts_ →
        Function.update t.freq_ id (s.freq_ id + 1) j =
          Function.update s.freq_ id (s.freq_ id + 1) j := by
      intro j h0 h1
      by_cases e : j = id
      · subst e; rw [Function.update_same, Function.update_same]
      · rw [Function.update_noteq e, Function.update_noteq e]; exact (ha j h0 h1).1
    have hupc : ∀ j, 0 ≤ j → j < Q.n_pts_ →
        Function.update t.checked_ id true j = Function.update s.checked_ id true j := by
      intro j h0 h1
      by_cases e : j = id
      · subst e; rw [Function.update_same, Function.update_same]
      · rw [Function.update_noteq e, Function.update_noteq e]; exact (ha j h0 h1).2
    by_cases c1 : s.checked_ id = true
    · rw [if_pos c1, if_pos c1]
      exact ⟨ha, hc, fun _ => hf', hio, hdio, hnf, hk, hr, hb, hl, hm, htr, rfl⟩
    · rw [if_neg c1, if_neg c1]
      dsimp only
      rw [Function.update_same, Function.update_same, a1]
      by_cases c2 : s.freq_ id + 1 > Q.l_
      · rw [if_pos c2, if_pos c2]
        simp only [evaluate, hdio, hl, htr]
        split_ifs
        · exact ⟨fun j h0 h1 => ⟨hupd j h0 h1, hupc j h0 h1⟩, hc, fun _ => hf', hio, rfl, hnf,
            rfl, hr, hb, rfl, hm, rfl, rfl⟩
        · exact ⟨fun j h0 h1 => ⟨hupd j h0 h1, hupc j h0 h1⟩, hc, fun _ => hf', hio, rfl, hnf,
            rfl, hr, hb, rfl, hm, rfl, rfl⟩
      · rw [if_neg c2, if_neg c2]
        exact ⟨fun j h0 h1 => ⟨hupd j h0 h1, (ha j h0 h1).2⟩, hc, fun _ => hf', hio, hdio, hnf,
          hk, hr, hb, hl, hm, htr, rfl⟩
  · rw [if_pos hid, if_pos hid]
    exact ⟨ha, hc, fun _ => hf', hio, hdio, hnf, hk, hr, hb, hl, hm, htr, rfl⟩

theorem step_agree (Q : Index) (E : Env) (top_k : Int) (s t : State) (h : Agree Q s t)
    (hr : PcRange Q s.pc) : Agree Q (step Q E top_k s) (step Q E top_k t) := by
  have hcol := collide_agree Q E top_k s t
  have hdel := delete_tree_ptr_agree Q s t
  have hfs := delete_tree_ptr_frame Q s
  have hft := delete_tree_ptr_frame Q t
  obtain ⟨ha, hc, hf, hio, hdio, hnf, hk, hrad, hb, hl, hm, htr, hpc⟩ := h
  have hA : Agree Q s t := ⟨ha, hc, hf, hio, hdio, hnf, hk, hrad, hb, hl, hm, htr, hpc⟩
  have hur : update_radius Q E t.radius t.q_val_ t.lptr_ t.rptr_ =
      update_radius Q E s.radius s.q_val_ s.lptr_ s.rptr_ := by
    unfold update_radius
    rw [dist_list_congr s.q_val_ t.q_val_ s.lptr_ t.lptr_ s.rptr_ t.rptr_ Q.m_.toNat 0
      (fun j h0 h1 => hc j h0 (by omega)), hrad]
  unfold step
  rw [hpc]
  split
  · -- round
    rename_i hs
    refine ⟨ha, hc, fun _ i h0 h1 => ?_, ?_, ?_, ?_, ?_, ?_, ?_, ?_, ?_, ?_, rfl⟩
    all_goals try (first | rfl | assumption)
    simp [h0, h1]
  · rename_i hs
    have hf' := hf (by rw [hs]; simp)
    rw [hnf]
    split_ifs <;>
      (refine ⟨ha, hc, fun _ => hf', ?_, ?_, ?_, ?_, ?_, ?_, ?_, ?_, ?_, rfl⟩ <;> first | rfl | assumption)
  · rename_i i hs
    have hf' := hf (by rw [hs]; simp)
    rw [hs] at hr
    have h0 : 0 ≤ i := hr
    by_cases c1 : i < Q.m_
    · obtain ⟨q1, q2, q3⟩ := hc i h0 c1
      rw [if_pos c1, if_pos c1, hf' i h0 c1, q1, q2, q3, hb]
      split_ifs
      · (refine ⟨ha, hc, fun _ => hf', ?_, ?_, ?_, ?_, ?_, ?_, ?_, ?_, ?_, rfl⟩ <;> first | rfl | assumption)
      · split
        · split_ifs
          · (refine ⟨ha, hc, fun _ => hf', ?_, ?_, ?_, ?_, ?_, ?_, ?_, ?_, ?_, rfl⟩ <;> first | rfl | assumption)
          · (refine ⟨ha, hc, fun _ => hf', ?_, ?_, ?_, ?_, ?_, ?_, ?_, ?_, ?_, rfl⟩ <;> first | rfl | assumption)
          · refine ⟨ha, hc, fun _ j j0 j1 => ?_, ?_, ?_, ?_, ?_, ?_, ?_, ?_, ?_, ?_, rfl⟩
            all_goals try (first | rfl | assumption | (simp only [hnf]))
            try dsimp only
            by_cases e : j = i
            · rw [e, Function.update_same, Function.update_same]
            · rw [Function.update_noteq e, Function.update_noteq e]; exact hf' j j0 j1
        · (refine ⟨ha, hc, fun _ => hf', ?_, ?_, ?_, ?_, ?_, ?_, ?_, ?_, ?_, rfl⟩ <;> first | rfl | assumption)
    · rw [if_neg c1, if_neg c1]
      (refine ⟨ha, hc, fun _ => hf', ?_, ?_, ?_, ?_, ?_, ?_, ?_, ?_, ?_, rfl⟩ <;> first | rfl | assumption)
  · rename_i i j start hs
    have hn : s.pc ≠ .round := by rw [hs]; simp
    have hf' := hf hn
    rw [hs] at hr
    obtain ⟨q1, q2, q3⟩ := hc i hr.1 hr.2
    rw [q2]
    split_ifs
    · split
      · (refine ⟨ha, hc, fun _ => hf', ?_, ?_, ?_, ?_, ?_, ?_, ?_, ?_, ?_, rfl⟩ <;> first | rfl | assumption)
      · split
        · (refine ⟨ha, hc, fun _ => hf', ?_, ?_, ?_, ?_, ?_, ?_, ?_, ?_, ?_, rfl⟩ <;> first | rfl | assumption)
        · exact hcol _ _ _ hA hn
    · (refine ⟨ha, hc, fun _ => hf', ?_, ?_, ?_, ?_, ?_, ?_, ?_, ?_, ?_, rfl⟩ <;> first | rfl | assumption)
  · rename_i i hs
    have hn : s.pc ≠ .round := by rw [hs]; simp
    have hf' := hf hn
    rw [hs] at hr
    obtain ⟨q1, q2, q3⟩ := hc i hr.1 hr.2
    rw [q2, q3, hm, hio]
    split
    · (refine ⟨ha, hc, fun _ => hf', ?_, ?_, ?_, ?_, ?_, ?_, ?_, ?_, ?_, rfl⟩ <;> first | rfl | assumption)
    · refine ⟨ha, fun j j0 j1 => ⟨(hc j j0 j1).1, ?_, (hc j j0 j1).2.2⟩, fun _ => hf', ?_, ?_, ?_,
        ?_, ?_, ?_, ?_, ?_, ?_, rfl⟩
      all_goals try (first | rfl | assumption)
      try dsimp only
      by_cases e : j = i
      · rw [e, Function.update_same, Function.update_same]
      · rw [Function.update_noteq e, Function.update_noteq e]; exact (hc j j0 j1).2.1
  · rename_i i j e hs
    have hn : s.pc ≠ .round := by rw [hs]; simp
    have hf' := hf hn
    rw [hs] at hr
    obtain ⟨q1, q2, q3⟩ := hc i hr.1 hr.2
    rw [q3]
    split_ifs
    · split
      · (refine ⟨ha, hc, fun _ => hf', ?_, ?_, ?_, ?_, ?_, ?_, ?_, ?_, ?_, rfl⟩ <;> first | rfl | assumption)
      · split
        · (refine ⟨ha, hc, fun _ => hf', ?_, ?_, ?_, ?_, ?_, ?_, ?_, ?_, ?_, rfl⟩ <;> first | rfl | assumption)
        · exact hcol _ _ _ hA hn
    · (refine ⟨ha, hc, fun _ => hf', ?_, ?_, ?_, ?_, ?_, ?_, ?_, ?_, ?_, rfl⟩ <;> first | rfl | assumption)
  · rename_i i hs
    have hn : s.pc ≠ .round := by rw [hs]; simp
    have hf' := hf hn
    rw [hs] at hr
    obtain ⟨q1, q2, q3⟩ := hc i hr.1 hr.2
    rw [q2, q3, hm, hio]
    split
    · (refine ⟨ha, hc, fun _ => hf', ?_, ?_, ?_, ?_, ?_, ?_, ?_, ?_, ?_, rfl⟩ <;> first | rfl | assumption)
    · refine ⟨ha, fun j j0 j1 => ⟨(hc j j0 j1).1, (hc j j0 j1).2.1, ?_⟩, fun _ => hf', ?_, ?_, ?_,
        ?_, ?_, ?_, ?_, ?_, ?_, rfl⟩
      all_goals try (first | rfl | assumption)
      try dsimp only
      by_cases e : j = i
      · rw [e, Function.update_same, Function.update_same]
      · rw [Function.update_noteq e, Function.update_noteq e]; exact (hc j j0 j1).2.2
  · rename_i i hs
    have hf' := hf (by rw [hs]; simp)
    rw [hnf, hdio]
    split_ifs <;>
      (refine ⟨ha, hc, fun _ => hf', ?_, ?_, ?_, ?_, ?_, ?_, ?_, ?_, ?_, rfl⟩ <;> first | rfl | assumption)
  · rename_i hs
    have hf' := hf (by rw [hs]; simp)
    rw [hnf, hdio]
    split_ifs <;>
      (refine ⟨ha, hc, fun _ => hf', ?_, ?_, ?_, ?_, ?_, ?_, ?_, ?_, ?_, rfl⟩ <;> first | rfl | assumption)
  · rename_i hs
    have hf' := hf (by rw [hs]; simp)
    have hret : Agree Q { delete_tree_ptr Q s with pc := .returned }
        { delete_tree_ptr Q t with pc := .returned } := by
      obtain ⟨d1, d2⟩ := hdel (fun i h0 h1 => (hc i h0 h1).2) hm
      obtain ⟨s1, s2, s3, s4, s5, s6, s7, s8, s9, s10, s11, s12, _⟩ := hfs
      obtain ⟨t1, t2, t3, t4, t5, t6, t7, t8, t9, t10, t11, t12, _⟩ := hft
      refine ⟨?_, ?_, ?_, ?_, ?_, ?_, ?_, ?_, ?_, ?_, d2, ?_, rfl⟩
      · intro id h0 h1
        show (delete_tree_ptr Q t).freq_ id = (delete_tree_ptr Q s).freq_ id ∧
          (delete_tree_ptr Q t).checked_ id = (delete_tree_ptr Q s).checked_ id
        rw [s1, s2, t1, t2]; exact ha id h0 h1
      · intro i h0 h1
        show (delete_tree_ptr Q t).q_val_ i = (delete_tree_ptr Q s).q_val_ i ∧ _
        rw [s4, t4]
        exact ⟨(hc i h0 h1).1, d1 i h0 h1⟩
      · intro _ i h0 h1
        show (delete_tree_ptr Q t).flag_ i = (delete_tree_ptr Q s).flag_ i
        rw [s3, t3]; exact hf' i h0 h1
      · show (delete_tree_ptr Q t).page_io_ = (delete_tree_ptr Q s).page_io_
        rw [s5, t5]; exact hio
      · show (delete_tree_ptr Q t).dist_io_ = (delete_tree_ptr Q s).dist_io_
        rw [s6, t6]; exact hdio
      · show (delete_tree_ptr Q t).num_flag = (delete_tree_ptr Q s).num_flag
        rw [s7, t7]; exact hnf
      · show (delete_tree_ptr Q t).knn_dist = (delete_tree_ptr Q s).knn_dist
        rw [s8, t8]; exact hk
      · show (delete_tree_ptr Q t).radius = (delete_tree_ptr Q s).radius
        rw [s9, t9]; exact hrad
      · show (delete_tree_ptr Q t).bucket = (delete_tree_ptr Q s).bucket
        rw [s10, t10]; exact hb
      · show (delete_tree_ptr Q t).list = (delete_tree_ptr Q s).list
        rw [s11, t11]; exact hl
      · show (delete_tree_ptr Q t).trace = (delete_tree_ptr Q s).trace
        rw [s12, t12]; exact htr
    rw [hur, hk, hrad, hdio]
    split_ifs
    · exact hret
    · exact hret
    · split
      · (refine ⟨ha, hc, fun _ => hf', ?_, ?_, ?_, ?_, ?_, ?_, ?_, ?_, ?_, rfl⟩ <;> first | rfl | assumption)
      · (refine ⟨ha, hc, fun hn => absurd rfl hn, ?_, ?_, ?_, ?_, ?_, ?_, ?_, ?_, ?_, rfl⟩ <;>
          first | rfl | assumption)
  · exact hA
  · exact hA

theorem init_trees_agree (Q : Index) (query : Int → ℚ) (fuel : Nat) (count : Nat) :
    ∀ (i : Int) (s s' : State), s'.page_io_ = s.page_io_ → s'.mem = s.mem →
      (∀ j, 0 ≤ j → j < i →
        s'.q_val_ j = s.q_val_ j ∧ s'.lptr_ j = s.lptr_ j ∧ s'.rptr_ j = s.rptr_ j) →
      (∀ e, init_trees Q query fuel count i s = .error e →
        init_trees Q query fuel count i s' = .error e) ∧
      (∀ s1, init_trees Q query fuel count i s = .ok s1 →
        ∃ s1', init_trees Q query fuel count i s' = .ok s1' ∧ s1'.page_io_ = s1.page_io_ ∧
          s1'.mem = s1.mem ∧
          ∀ j, 0 ≤ j → j < i + count →
            s1'.q_val_ j = s1.q_val_ j ∧ s1'.lptr_ j = s1.lptr_ j ∧ s1'.rptr_ j = s1.rptr_ j) := by
  induction count with
  | zero =>
    intro i s s' h1 h2 h3
    refine ⟨fun e he => by simp [init_trees] at he, fun s1 hs => ?_⟩
    simp only [init_trees, Except.ok.injEq] at hs
    subst hs
    exact ⟨s', rfl, h1, h2, fun j j0 j1 => h3 j j0 (by simpa using j1)⟩
  | succ count ih =>
    intro i s s' h1 h2 h3
    simp only [init_trees]
    rw [h1, h2]
    cases hr : init_tree (Q.trees_ i) (calc_hash_value Q i query) fuel s.page_io_ s.mem with
    | error e => exact ⟨fun e he => he, fun s1 hs => by cases hs⟩
    | ok r =>
      dsimp only
      have hagree : ∀ j, 0 ≤ j → j < i + 1 →
          Function.update s'.q_val_ i (calc_hash_value Q i query) j =
            Function.update s.q_val_ i (calc_hash_value Q i query) j ∧
          Function.update s'.lptr_ i r.lptr j = Function.update s.lptr_ i r.lptr j ∧
          Function.update s'.rptr_ i r.rptr j = Function.update s.rptr_ i r.rptr j := by
        intro j j0 j1
        by_cases e : j = i
        · rw [e]; simp only [Function.update_same]; exact ⟨trivial, trivial, trivial⟩
        · simp only [Function.update_noteq e]; exact h3 j j0 (by omega)
      obtain ⟨a, b⟩ := ih (i + 1)
        { s with q_val_ := Function.update s.q_val_ i (calc_hash_value Q i query),
                 lptr_ := Function.update s.lptr_ i r.lptr,
                 rptr_ := Function.update s.rptr_ i r.rptr, page_io_ := r.page_io_, mem := r.mem }
        { s' with q_val_ := Function.update s'.q_val_ i (calc_hash_value Q i query),
                  lptr_ := Function.update s'.lptr_ i r.lptr,
                  rptr_ := Function.update s'.rptr_ i r.rptr, page_io_ := r.page_io_,
                  mem := r.mem }
        rfl rfl hagree
      refine ⟨a, fun s1 hs => ?_⟩
      obtain ⟨s1', e1, e2, e3, e4⟩ := b s1 hs
      exact ⟨s1', e1, e2, e3, fun j j0 j1 => e4 j j0 (by push_cast at j1; omega)⟩

theorem knn_start_agree (Q : Index) (E : Env) (query : Int → ℚ) (list : MinK_List)
    (fuel : Nat) (old old' : State) (hmem : old'.mem = old.mem) :
    (∀ e, knn_start Q E query list fuel old = .error e →
      knn_start Q E query list fuel old' = .error e) ∧
    (∀ s0, knn_start Q E query list fuel old = .ok s0 →
      ∃ s0', knn_start Q E query list fuel old' = .ok s0' ∧ Agree Q s0 s0') := by
  unfold knn_start init_search_params
  obtain ⟨a, b⟩ := init_trees_agree Q query fuel Q.m_.toNat 0
    { old with page_io_ := 0, dist_io_ := 0,
               freq_ := fun i => if 0 ≤ i ∧ i < Q.n_pts_ then 0 else old.freq_ i,
               checked_ := fun i => if 0 ≤ i ∧ i < Q.n_pts_ then false else old.checked_ i,
               lptr_ := fun i => if 0 ≤ i ∧ i < Q.m_ then PageBuffer.null else old.lptr_ i,
               rptr_ := fun i => if 0 ≤ i ∧ i < Q.m_ then PageBuffer.null else old.rptr_ i }
    { old' with page_io_ := 0, dist_io_ := 0,
                freq_ := fun i => if 0 ≤ i ∧ i < Q.n_pts_ then 0 else old'.freq_ i,
                checked_ := fun i => if 0 ≤ i ∧ i < Q.n_pts_ then false else old'.checked_ i,
                lptr_ := fun i => if 0 ≤ i ∧ i < Q.m_ then PageBuffer.null else old'.lptr_ i,
                rptr_ := fun i => if 0 ≤ i ∧ i < Q.m_ then PageBuffer.null else old'.rptr_ i }
    rfl hmem (fun j j0 j1 => by omega)
  cases hs : init_trees Q query fuel Q.m_.toNat 0
    { old with page_io_ := 0, dist_io_ := 0,
               freq_ := fun i => if 0 ≤ i ∧ i < Q.n_pts_ then 0 else old.freq_ i,
               checked_ := fun i => if 0 ≤ i ∧ i < Q.n_pts_ then false else old.checked_ i,
               lptr_ := fun i => if 0 ≤ i ∧ i < Q.m_ then PageBuffer.null else old.lptr_ i,
               rptr_ := fun i => if 0 ≤ i ∧ i < Q.m_ then PageBuffer.null else old.rptr_ i } with
  | error e =>
    rw [a e hs]
    exact ⟨fun e he => he, fun s0 h0 => by cases h0⟩
  | ok s1 =>
    obtain ⟨s1', e1, e2, e3, e4⟩ := b s1 hs
    have f1 := init_trees_frame _ _ _ _ _ _ _ hs
    have f2 := init_trees_frame _ _ _ _ _ _ _ e1
    have hfr : find_radius Q E s1'.q_val_ s1'.lptr_ s1'.rptr_ =
        find_radius Q E s1.q_val_ s1.lptr_ s1.rptr_ := by
      unfold find_radius update_radius
      rw [dist_list_congr s1.q_val_ s1'.q_val_ s1.lptr_ s1'.lptr_ s1.rptr_ s1'.rptr_ Q.m_.toNat 0
        (fun j h0 h1 => e4 j h0 (by omega))]
    rw [e1]
    dsimp only
    rw [hfr]
    cases hrad : find_radius Q E s1.q_val_ s1.lptr_ s1.rptr_ with
    | none => exact ⟨fun e he => he, fun s0 h0 => by cases h0⟩
    | some radius =>
      refine ⟨(fun e he => by cases he), fun s0 h0 => ?_⟩
      simp only [Except.ok.injEq] at h0
      subst h0
      refine ⟨_, rfl, ?_, fun i h0 h1 => e4 i h0 (by omega), fun hn => absurd rfl hn, e2, ?_, rfl,
        rfl, rfl, rfl, rfl, e3, rfl, rfl⟩
      · intro id h0 h1
        show s1'.freq_ id = s1.freq_ id ∧ s1'.checked_ id = s1.checked_ id
        rw [f1.1, f1.2.1, f2.1, f2.2.1]
        simp [h0, h1]
      · show s1'.dist_io_ = s1.dist_io_
        rw [f1.2.2.2.1, f2.2.2.2.1]

/-- C40: `knn` of qalsh.cc does not depend on what earlier queries left
behind. Two calls on the same index with the same query, `top_k`, result list
and allocation state, started from arbitrary contents of `freq_`, `checked_`,
`flag_`, `q_val_`, `lptr_`, `rptr_`, `page_io_` and `dist_io_` (and of the
local variables), fail in the preamble in the same way or run in lockstep:
after every number of steps they are at the same program point with the same
counters, the same calls made and the same result list, so they return the
same I/O count. -/
theorem knn_independent (Q : Index) (E : Env) (top_k : Int) (query : Int → ℚ)
    (list : MinK_List) (fuel : Nat) (old old' : State) (hmem : old'.mem = old.mem) :
    (∀ e, knn_start Q E query list fuel old = .error e →
      knn_start Q E query list fuel old' = .error e) ∧
    (∀ s0, knn_start Q E query list fuel old = .ok s0 →
      ∃ s0', knn_start Q E query list fuel old' = .ok s0' ∧
        ∀ n, result (run Q E top_k n s0') = result (run Q E top_k n s0) ∧
          (run Q E top_k n s0').list = (run Q E top_k n s0).list ∧
          (run Q E top_k n s0').pc = (run Q E top_k n s0).pc ∧
          (run Q E top_k n s0').page_io_ = (run Q E top_k n s0).page_io_ ∧
          (run Q E top_k n s0').dist_io_ = (run Q E top_k n s0).dist_io_ ∧
          (run Q E top_k n s0').trace = (run Q E top_k n s0).trace) := by
  obtain ⟨a, b⟩ := knn_start_agree Q E query list fuel old old' hmem
  refine ⟨a, fun s0 h0 => ?_⟩
  obtain ⟨s0', e, hag⟩ := b s0 h0
  refine ⟨s0', e, fun n => ?_⟩
  have hpc0 := (knn_start_spec Q E query list fuel old s0 h0).2.1
  have inv : ∀ n, Agree Q (run Q E top_k n s0) (run Q E top_k n s0') ∧
      PcRange Q (run Q E top_k n s0).pc := by
    intro n
    induction n with
    | zero => exact ⟨hag, by show PcRange Q s0.pc; rw [hpc0]; trivial⟩
    | succ n ih =>
      rw [run_succ_last, run_succ_last]
      exact ⟨step_agree Q E top_k _ _ ih.1 ih.2, step_pc_range Q E top_k _ ih.2⟩
  obtain ⟨⟨_, _, _, hio, hdio, _, _, _, _, hl, _, htr, hpc⟩, _⟩ := inv n
  refine ⟨?_, hl, hpc, hio, hdio, htr⟩
  unfold result
  rw [hpc, hio, hdio]

theorem knn_independent_witness :
    ∃ s0', knn_start ex_index ex_env ex_query ⟨1, []⟩ 1 ex_fresh = .ok s0' ∧
      ∀ n, result (run ex_index ex_env 1 n s0') = result (ex_state n) ∧
        (run ex_index ex_env 1 n s0').list = (ex_state n).list ∧
        (run ex_index ex_env 1 n s0').pc = (ex_state n).pc ∧
        (run ex_index ex_env 1 n s0').page_io_ = (ex_state n).page_io_ ∧
        (run ex_index ex_env 1 n s0').dist_io_ = (ex_state n).dist_io_ ∧
        (run ex_index ex_env 1 n s0').trace = (ex_state n).trace :=
  (knn_independent ex_index ex_env 1 ex_query ⟨1, []⟩ 1 ex_old ex_fresh rfl).2 _
    (start_state_ok _ ex_old (by decide!))

theorem sweep_mono (T : BTree) (rank : BLeafNode → Int) (L R L' R' : Option (Int × Int))
    (seen seen' : Int → Bool) (h : Sweep T rank L R seen)
    (hL : ∀ a', L' = some a' → ∃ a, L = some a ∧ (a' = a ∨ EntryLt a' a))
    (hR : ∀ b', R' = some b' → ∃ b, R = some b ∧ (b = b' ∨ EntryLt b b'))
    (hs : ∀ id, seen' id = true → seen id = true ∨
      ∀ blk j, (T.leaf_node blk).get_entry_id j = some id →
        (∀ a, L' = some a → EntryLt a (rank (T.leaf_node blk), j)) ∧
        (∀ b, R' = some b → EntryLt (rank (T.leaf_node blk), j) b)) :
    Sweep T rank L' R' seen' := by
  have tr1 : ∀ a b c : Int × Int, (a = b ∨ EntryLt a b) → EntryLt b c → EntryLt a c := by
    rintro a b c (rfl | h1) h2
    · exact h2
    · unfold EntryLt at *; omega
  have tr2 : ∀ a b c : Int × Int, EntryLt a b → (b = c ∨ EntryLt b c) → EntryLt a c := by
    rintro a b c h1 (rfl | h2)
    · exact h1
    · unfold EntryLt at *; omega
  obtain ⟨h1, h2⟩ := h
  have hA : ∀ a b, L' = some a → R' = some b → EntryLt a b := by
    intro a' b' ha hb
    obtain ⟨a, e1, l1⟩ := hL a' ha
    obtain ⟨b, e2, l2⟩ := hR b' hb
    exact tr1 _ _ _ l1 (tr2 _ _ _ (h1 a b e1 e2) l2)
  refine ⟨hA, fun id hid blk j hj => ?_⟩
  rcases hs id hid with hold | hnew
  · obtain ⟨g1, g2⟩ := h2 id hold blk j hj
    constructor
    · intro a' ha
      obtain ⟨a, e1, l1⟩ := hL a' ha
      exact tr1 _ _ _ l1 (g1 a e1)
    · intro b' hb
      obtain ⟨b, e2, l2⟩ := hR b' hb
      exact tr2 _ _ _ (g2 b e2) l2
  · exact hnew blk j hj

theorem front_left_le (rank : BLeafNode → Int) (s t : State) (i : Int)
    (hl : t.lptr_ i = s.lptr_ i)
    (he : (s.lptr_ i).leaf_node_ ≠ none → left_edge t i ≤ left_edge s i) :
    ∀ a', left_front rank t i = some a' →
      ∃ a, left_front rank s i = some a ∧ (a' = a ∨ EntryLt a' a) := by
  intro a' ha
  unfold left_front at ha ⊢
  rw [hl] at ha
  cases hp : (s.lptr_ i).leaf_node_ with
  | none => rw [hp] at ha; cases ha
  | some p =>
    rw [hp] at ha
    simp only [Option.map_some', Option.some.injEq] at ha
    have := he (by rw [hp]; simp)
    refine ⟨_, rfl, ?_⟩
    rw [← ha]
    rcases lt_or_eq_of_le this with c | c
    · right; right; exact ⟨rfl, c⟩
    · left; rw [c]

theorem front_right_le (rank : BLeafNode → Int) (s t : State) (i : Int)
    (hl : t.rptr_ i = s.rptr_ i)
    (he : (s.rptr_ i).leaf_node_ ≠ none → right_edge s i ≤ right_edge t i) :
    ∀ b', right_front rank t i = some b' →
      ∃ b, right_front rank s i = some b ∧ (b = b' ∨ EntryLt b b') := by
  intro b' hb
  unfold right_front at hb ⊢
  rw [hl] at hb
  cases hp : (s.rptr_ i).leaf_node_ with
  | none => rw [hp] at hb; cases hb
  | some p =>
    rw [hp] at hb
    simp only [Option.map_some', Option.some.injEq] at hb
    have := he (by rw [hp]; simp)
    refine ⟨_, rfl, ?_⟩
    rw [← hb]
    rcases lt_or_eq_of_le this with c | c
    · right; right; exact ⟨rfl, c⟩
    · left; rw [c]

/-- Outside the scan of a key-slot the cursors read next what `leaf_pos_`
says. -/
theorem edges_idle (s : State) (i : Int) (h : s.pc.active = none) :
    left_edge s i = (s.lptr_ i).leaf_pos_ ∧ right_edge s i = (s.rptr_ i).leaf_pos_ := by
  unfold left_edge right_edge
  cases hpc : s.pc <;> rw [hpc] at h <;> first | exact ⟨rfl, rfl⟩ | cases h

/-- Collision counting for the entry `j` of the scanned key-slot keeps the
invariant: the entry was not emitted before, and the cursor moves on. -/
theorem emit_freq_inv (Q : Index) (rank : Int → BLeafNode → Int) (s t : State) (i id : Int)
    (seen : Int → Int → Bool) (p : LeafPtr) (pos : Int) (left : Bool)
    (hi : 0 ≤ i ∧ i < Q.m_) (hst : (Q.trees_ i).Stores (rank i))
    (hC : ∀ id, 0 ≤ id → id < Q.n_pts_ →
      s.freq_ id ≤ ((List.range Q.m_.toNat).countP (fun (i : Nat) => seen (i : Int) id) : Int))
    (hS : ∀ k, 0 ≤ k → k < Q.m_ →
      Sweep (Q.trees_ k) (rank k) (left_front (rank k) s k) (right_front (rank k) s k) (seen k))
    (hp : ∃ blk, p.node = (Q.trees_ i).leaf_node blk) (hid : p.node.get_entry_id pos = some id)
    (hpos : (left = true ∧ left_front (rank i) s i = some (rank i p.node, pos)) ∨
      (left = false ∧ right_front (rank i) s i = some (rank i p.node, pos)))
    (hf : ∀ id', t.freq_ id' ≤ s.freq_ id' + (if id' = id then 1 else 0))
    (hL : t.pc ≠ .fault → ∀ k, 0 ≤ k → k < Q.m_ → ∀ a', left_front (rank k) t k = some a' →
      ∃ a, left_front (rank k) s k = some a ∧
        ((a' = a ∧ ¬ (k = i ∧ left = true)) ∨ EntryLt a' a))
    (hR : t.pc ≠ .fault → ∀ k, 0 ≤ k → k < Q.m_ → ∀ b', right_front (rank k) t k = some b' →
      ∃ b, right_front (rank k) s k = some b ∧
        ((b = b' ∧ ¬ (k = i ∧ left = false)) ∨ EntryLt b b')) :
    seen i id = false ∧
      SweepInv Q rank (fun k id' => if k = i ∧ id' = id then true else seen k id') t := by
  obtain ⟨blk0, hb0⟩ := hp
  rw [hb0] at hid
  have hfresh : seen i id = false := by
    cases hsn : seen i id with
    | false => rfl
    | true =>
      obtain ⟨g1, g2⟩ := (hS i hi.1 hi.2).2 id hsn blk0 pos hid
      rcases hpos with ⟨_, e⟩ | ⟨_, e⟩
      · have := g1 _ e
        rw [hb0] at this
        unfold EntryLt at this
        simp at this
      · have := g2 _ e
        rw [hb0] at this
        unfold EntryLt at this
        simp at this
  refine ⟨hfresh, ?_, fun hne k h0 h1 => ?_⟩
  · intro id' h0 h1
    by_cases e : id' = id
    · subst e
      have ef : (fun (k : Nat) => if (k : Int) = i ∧ id' = id' then true else seen (k : Int) id') =
          (fun (k : Nat) => Function.update (fun k => seen k id') i true (k : Int)) := by
        funext k
        by_cases c : (k : Int) = i
        · rw [c, Function.update_same]; simp
        · rw [Function.update_noteq c]; simp [c]
      rw [ef, count_update (fun k => seen k id') i Q.m_.toNat hi.1 (by omega) hfresh]
      have a1 := hC id' h0 h1
      have a2 := hf id'
      rw [if_pos rfl] at a2
      push_cast
      omega
    · have ef : (fun (k : Nat) => if (k : Int) = i ∧ id' = id then true else seen (k : Int) id') =
          (fun (k : Nat) => seen (k : Int) id') := by
        funext k
        simp [e]
      rw [ef]
      have a1 := hC id' h0 h1
      have a2 := hf id'
      rw [if_neg e] at a2
      omega
  · refine sweep_mono _ _ _ _ _ _ _ _ (hS k h0 h1) ?_ ?_ ?_
    · intro a' ha
      obtain ⟨a, e1, e2⟩ := hL hne k h0 h1 a' ha
      exact ⟨a, e1, e2.imp (fun x => x.1) (fun x => x)⟩
    · intro b' hb
      obtain ⟨b, e1, e2⟩ := hR hne k h0 h1 b' hb
      exact ⟨b, e1, e2.imp (fun x => x.1) (fun x => x)⟩
    · intro id' hsn
      by_cases e : k = i ∧ id' = id
      · right
        obtain ⟨rfl, rfl⟩ := e
        intro blk j hj
        obtain ⟨er, ej⟩ := hst.2.2 blk0 blk pos j id' hid hj
        rw [← er, ← ej, ← hb0]
        obtain ⟨hA, _⟩ := hS k h0 h1
        constructor
        · intro a' ha
          obtain ⟨a, e1, e2⟩ := hL hne k h0 h1 a' ha
          rcases hpos with ⟨hl, e⟩ | ⟨hl, e⟩
          · rw [e] at e1
            injection e1 with e1
            rw [e1]
            rcases e2 with ⟨_, c⟩ | c
            · exact absurd ⟨rfl, hl⟩ c
            · exact c
          · have := hA a _ e1 e
            rcases e2 with ⟨c, _⟩ | c
            · rw [c]; exact this
            · unfold EntryLt at *; omega
        · intro b' hb
          obtain ⟨b, e1, e2⟩ := hR hne k h0 h1 b' hb
          rcases hpos with ⟨hl, e⟩ | ⟨hl, e⟩
          · have := hA _ b e e1
            rcases e2 with ⟨c, _⟩ | c
            · rw [← c]; exact this
            · unfold EntryLt at *; omega
          · rw [e] at e1
            injection e1 with e1
            rw [e1]
            rcases e2 with ⟨_, c⟩ | c
            · exact absurd ⟨rfl, hl⟩ c
            · exact c
      · left
        dsimp only at hsn
        rw [if_neg e] at hsn
        exact hsn

theorem collide_freq (Q : Index) (E : Env) (top_k : Int) (s : State) (id : Int) (next brk : PC) :
    ∀ id', (collide Q E top_k s id next brk).freq_ id' ≤
      s.freq_ id' + (if id' = id then 1 else 0) := by
  intro id'
  have key : Function.update s.freq_ id (s.freq_ id + 1) id' ≤
      s.freq_ id' + (if id' = id then 1 else 0) := by
    by_cases c : id' = id
    · subst c; rw [Function.update_same, if_pos rfl]
    · rw [Function.update_noteq c, if_neg c]; omega
  rcases collide_cases Q E top_k s id next brk with
    ⟨_, e⟩ | ⟨_, _, e⟩ | ⟨_, _, _, e⟩ | ⟨_, _, _, e⟩ <;> rw [e]
  · show s.freq_ id' ≤ _
    split_ifs <;> omega
  · show s.freq_ id' ≤ _
    split_ifs <;> omega
  · exact key
  · exact key

/-- Without projections nothing is ever evaluated. -/
theorem no_projection_unchecked {Q : Index} {E : Env} {top_k : Int} {query : Int → ℚ}
    {list : MinK_List} {fuel : Nat} {old s : State} (hm : Q.m_ ≤ 0)
    (h : Reachable Q E top_k query list fuel old s) :
    PcRange Q s.pc ∧ ∀ id, 0 ≤ id → id < Q.n_pts_ → s.checked_ id = false :=
  reachable_induct (fun s => PcRange Q s.pc ∧ ∀ id, 0 ≤ id → id < Q.n_pts_ → s.checked_ id = false)
    (fun s0 h0 => by
      have hsp := knn_start_spec Q E query list fuel old s0 h0
      exact ⟨by rw [hsp.2.1]; trivial, fun id a b => (hsp.2.2.2.2.2.2 id a b).2⟩)
    (fun s ⟨a, b⟩ => by
      refine ⟨step_pc_range Q E top_k s a, ?_⟩
      rcases step_eval_cases Q E top_k s with ⟨c, _⟩ | ⟨c, _⟩
      · exfalso
        cases hpc : s.pc <;> rw [hpc] at c a <;>
          first | (cases a; omega) | cases c
      · rw [c.2.1]
        exact b) h

/-- What `emits` announces is the id the step passes to collision counting. -/
theorem emits_collide (Q : Index) (E : Env) (top_k : Int) (s : State) (i id : Int)
    (he : emits s = some (i, id)) :
    ∃ next brk, step Q E top_k s = collide Q E top_k s id next brk := by
  unfold emits at he
  split at he
  · rename_i k j start hpc
    split_ifs at he with c
    cases hp : (s.lptr_ k).leaf_node_ with
    | none => rw [hp] at he; cases he
    | some p =>
      rw [hp] at he
      cases hid : p.node.get_entry_id j with
      | none => simp [hid] at he
      | some id' =>
        simp only [Option.some_bind, hid, Option.map_some', Option.some.injEq,
          Prod.mk.injEq] at he
        obtain ⟨_, rfl⟩ := he
        refine ⟨.scan_left k (j - 1) start, .advance_left k, ?_⟩
        unfold step
        simp only [hpc, c, hp, hid, if_true]
  · rename_i k j e hpc
    split_ifs at he with c
    cases hp : (s.rptr_ k).leaf_node_ with
    | none => rw [hp] at he; cases he
    | some p =>
      rw [hp] at he
      cases hid : p.node.get_entry_id j with
      | none => simp [hid] at he
      | some id' =>
        simp only [Option.some_bind, hid, Option.map_some', Option.some.injEq,
          Prod.mk.injEq] at he
        obtain ⟨_, rfl⟩ := he
        refine ⟨.scan_right k (j + 1) e, .advance_right k, ?_⟩
        unfold step
        simp only [hpc, c, hp, hid, if_true]
  · cases he

/-- C32: collision counts are bounded by the number of projections. Assume the
leaves of the trees are well formed and each tree stores an id at most once,
in an entry of one leaf of its chain of leaves (`rank` numbers the leaves
along the sibling links). Then in every state of `knn` after
`init_search_params`: a pair (projection, id) that the next step passes to
collision counting is never passed to it again later in the call, so no leaf
entry of a projection is emitted twice; `freq_[id] ≤ m_` for every id in
`[0, n_pts_)`, and `freq_[id] ≤ l_ + 1` (for `l_ ≥ 0`); and if `l_ ≥ m_` then
no id has been distance-evaluated: `dist_io_ = 0`, no `calc_lp_dist` call
was made and no `checked_` entry is set. -/
theorem knn_freq_bound (Q : Index) (E : Env) (top_k : Int) (query : Int → ℚ)
    (list : MinK_List) (fuel : Nat) (old s : State) (rank : Int → BLeafNode → Int) (hw : Q.WF)
    (hst : ∀ i, 0 ≤ i → i < Q.m_ → (Q.trees_ i).Stores (rank i))
    (h : Reachable Q E top_k query list fuel old s) :
    (∀ i id, emits s = some (i, id) →
      (∃ next brk, step Q E top_k s = collide Q E top_k s id next brk) ∧
      ∀ n, emits (run Q E top_k (n + 1) s) ≠ some (i, id)) ∧
    (∀ id, 0 ≤ id → id < Q.n_pts_ →
      s.freq_ id ≤ (Q.m_.toNat : Int) ∧ (0 ≤ Q.m_ → s.freq_ id ≤ Q.m_) ∧
      (0 ≤ Q.l_ → s.freq_ id ≤ Q.l_ + 1)) ∧
    (Q.m_ ≤ Q.l_ → s.dist_io_ = 0 ∧ s.trace.countP Call.is_calc = 0 ∧
      ∀ id, 0 ≤ id → id < Q.n_pts_ → s.checked_ id = false) := by
  -- One step of the main loop keeps the sweep invariant of the collision counts.
  have step_sweep_inv : ∀ (Q : Index) (E : Env) (top_k : Int) (rank : Int → BLeafNode → Int) (s :
      State) (hw : Q.WF) (hst : ∀ i, 0 ≤ i → i < Q.m_ → (Q.trees_ i).Stores (rank i)) (hslot :
      SlotInv Q s) (hc : CursorsOK Q s) (hr : PcRange Q s.pc) (seen : Int → Int → Bool) (h :
      SweepInv Q rank seen s),
      SweepNext Q rank seen s (step Q E top_k s) := by
    intro Q E top_k rank s hw hst hslot hc hr seen h
    obtain ⟨hC, hS⟩ := h
    obtain ⟨hscan, hsl⟩ := hslot
    have keep : ∀ t : State, emits s = none → t.freq_ = s.freq_ →
        (t.pc ≠ .fault → s.pc ≠ .fault ∧ ∀ i, 0 ≤ i → i < Q.m_ →
          (∀ a', left_front (rank i) t i = some a' →
            ∃ a, left_front (rank i) s i = some a ∧ (a' = a ∨ EntryLt a' a)) ∧
          (∀ b', right_front (rank i) t i = some b' →
            ∃ b, right_front (rank i) s i = some b ∧ (b = b' ∨ EntryLt b b'))) →
        SweepNext Q rank seen s t := by
      intro t hem hf ht
      refine ⟨seen, ⟨by rw [hf]; exact hC, fun hne i h0 h1 => ?_⟩, fun _ _ h => h,
        fun i id he => by rw [hem] at he; cases he⟩
      obtain ⟨hsne, hfr⟩ := ht hne
      exact sweep_mono _ _ _ _ _ _ _ _ (hS hsne i h0 h1) (hfr i h0 h1).1 (hfr i h0 h1).2
        (fun id hid => Or.inl hid)
    have same : ∀ t : State, emits s = none → t.freq_ = s.freq_ → t.lptr_ = s.lptr_ → t.rptr_ = s.rptr_ →
        s.pc ≠ .fault →
        (∀ i, 0 ≤ i → i < Q.m_ →
          ((s.lptr_ i).leaf_node_ ≠ none → left_edge t i ≤ left_edge s i) ∧
          ((s.rptr_ i).leaf_node_ ≠ none → right_edge s i ≤ right_edge t i)) →
        SweepNext Q rank seen s t := by
      intro t hem hf hl hr' hne he
      exact keep t hem hf (fun _ => ⟨hne, fun i h0 h1 =>
        ⟨front_left_le _ s t i (by rw [hl]) (he i h0 h1).1,
          front_right_le _ s t i (by rw [hr']) (he i h0 h1).2⟩⟩)
    have idle : ∀ t : State, emits s = none → t.freq_ = s.freq_ → t.lptr_ = s.lptr_ → t.rptr_ = s.rptr_ →
        s.pc ≠ .fault → s.pc.active = none → t.pc.active = none → SweepNext Q rank seen s t := by
      intro t hem hf hl hr' hne hsa hta
      exact same t hem hf hl hr' hne (fun i _ _ =>
        ⟨fun _ => le_of_eq (by rw [(edges_idle t i hta).1, (edges_idle s i hsa).1, hl]),
          fun _ => le_of_eq (by rw [(edges_idle t i hta).2, (edges_idle s i hsa).2, hr'])⟩)
    have fault : ∀ t : State, emits s = none → t.freq_ = s.freq_ → t.pc = .fault →
        SweepNext Q rank seen s t :=
      fun t hem hf e => ⟨seen, ⟨by rw [hf]; exact hC, fun hne => absurd e hne⟩, fun _ _ h => h,
        fun i id he => by rw [hem] at he; cases he⟩
    have hd := delete_tree_ptr_cursor Q s
    have hdf := (delete_tree_ptr_frame Q s).1
    unfold step
    split
    · rename_i hpc
      have hem : emits s = none := by simp [emits, hpc]
      exact idle _ hem rfl rfl rfl (by rw [hpc]; simp) (by rw [hpc]; rfl) rfl
    · rename_i hpc
      have hem : emits s = none := by simp [emits, hpc]
      split_ifs <;> exact idle _ hem rfl rfl rfl (by rw [hpc]; simp) (by rw [hpc]; rfl) rfl
    · rename_i i hpc
      have hem : emits s = none := by simp [emits, hpc]
      have hne : s.pc ≠ .fault := by rw [hpc]; simp
      have hsa : s.pc.active = none := by rw [hpc]; rfl
      split_ifs with c1 c2
      · exact idle _ hem rfl rfl rfl hne hsa rfl
      · split
        · split_ifs
          · refine same _ hem rfl rfl rfl hne (fun k _ _ => ⟨fun _ => ?_, fun _ => ?_⟩)
            · simp only [left_edge, hpc]
              split_ifs with c
              · subst c; exact le_refl _
              · exact le_refl _
            · simp only [right_edge, hpc]
              exact le_refl _
          · refine same _ hem rfl rfl rfl hne (fun k _ _ => ⟨fun _ => ?_, fun _ => ?_⟩)
            · simp only [left_edge, hpc]
              exact le_refl _
            · simp only [right_edge, hpc]
              split_ifs with c
              · subst c; exact le_refl _
              · exact le_refl _
          · exact idle _ hem rfl rfl rfl hne hsa rfl
        · exact fault _ hem rfl rfl
      · exact idle _ hem rfl rfl rfl hne hsa rfl
    · rename_i i j start hpc
      have hne : s.pc ≠ .fault := by rw [hpc]; simp
      rw [hpc] at hr
      simp only [ScanOK, hpc] at hscan
      split_ifs with c
      · split
        · rename_i hp0
          exact fault _ (by simp [emits, hpc, hp0]) rfl rfl
        · rename_i p hp
          split
          · rename_i hid0
            exact fault _ (by simp [emits, hpc, hp, hid0]) rfl rfl
          · rename_i id hid
            have hemit : emits s = some (i, id) := by simp [emits, hpc, c, hp, hid]
            suffices key : seen i id = false ∧
                SweepInv Q rank (fun k id' => if k = i ∧ id' = id then true else seen k id')
                  (collide Q E top_k s id (.scan_left i (j - 1) start) (.advance_left i)) from
              ⟨_, key.2, fun k id' h => by simp [h], fun k id' he => by
                rw [hemit] at he
                simp only [Option.some.injEq, Prod.mk.injEq] at he
                obtain ⟨e1, e2⟩ := he
                subst e1 e2
                exact ⟨key.1, by simp⟩⟩
            obtain ⟨f1, f2, _⟩ := collide_frame Q E top_k s id (.scan_left i (j - 1) start)
              (.advance_left i)
            have hpos : left_front (rank i) s i = some (rank i p.node, j) := by
              simp [left_front, left_edge, hpc, hp]
            have hpcs := collide_pc Q E top_k s id (.scan_left i (j - 1) start) (.advance_left i)
            refine emit_freq_inv Q rank s _ i id seen p j true hr (hst i hr.1 hr.2) hC
              (hS hne) ((hc i hr.1 hr.2).1 p hp).1 hid (Or.inl ⟨rfl, hpos⟩)
              (collide_freq Q E top_k s id _ _) (fun hnf k h0 h1 a' ha => ?_)
              (fun hnf k h0 h1 b' hb => ?_)
            · by_cases e : k = i
              · subst e
                refine ⟨_, hpos, Or.inr ?_⟩
                simp only [left_front, f1, hp, Option.map_some', Option.some.injEq] at ha
                rw [← ha]
                right
                refine ⟨rfl, ?_⟩
                rcases hpcs with e | e | e
                · exact absurd e hnf
                · simp only [left_edge, e, if_true]; omega
                · simp only [left_edge, e, if_true, f1]; omega
              · obtain ⟨a, g1, g2⟩ := front_left_le (rank k) s _ k (by rw [f1]) (fun _ => by
                  rcases hpcs with e' | e' | e'
                  · exact absurd e' hnf
                  · simp only [left_edge, e', hpc, if_neg (Ne.symm e), f1]; exact le_refl _
                  · simp only [left_edge, e', hpc, if_neg (Ne.symm e), f1]; exact le_refl _) a' ha
                refine ⟨a, g1, ?_⟩
                rcases g2 with g | g
                · exact Or.inl ⟨g, fun x => e x.1⟩
                · exact Or.inr g
            · obtain ⟨b, g1, g2⟩ := front_right_le (rank k) s _ k (by rw [f2]) (fun _ => by
                rcases hpcs with e' | e' | e'
                · exact absurd e' hnf
                · simp only [right_edge, e', hpc, f2]; exact le_refl _
                · simp only [right_edge, e', hpc, f2]; exact le_refl _) b' hb
              refine ⟨b, g1, ?_⟩
              rcases g2 with g | g
              · exact Or.inl ⟨g, fun x => by simp at x⟩
              · exact Or.inr g
      · refine same _ (by simp [emits, hpc, c]) rfl rfl rfl hne
          (fun k _ _ => ⟨fun hn => ?_, fun _ => ?_⟩)
        · simp only [left_edge, hpc]
          split_ifs with e
          · subst e
            have := hscan.2.2 hn
            omega
          · exact le_refl _
        · simp only [right_edge, hpc]
          exact le_refl _
    · rename_i i hpc
      have hem : emits s = none := by simp [emits, hpc]
      have hne : s.pc ≠ .fault := by rw [hpc]; simp
      rw [hpc] at hr
      split
      · exact fault _ hem rfl rfl
      · rename_i a ha
        obtain ⟨_, _, u3⟩ := update_left_buffer_slot _ _ _ _ _ a (hw i hr.1 hr.2)
          (hc i hr.1 hr.2).1 (hsl i hr.1 hr.2).1 ha
        refine keep _ hem rfl (fun _ => ⟨hne, fun k h0 h1 => ⟨?_, ?_⟩⟩)
        · by_cases e : k = i
          · subst e
            intro a' ha'
            simp only [left_front, left_edge, Function.update_same] at ha'
            cases hold : (s.lptr_ k).leaf_node_ with
            | none =>
              unfold update_left_buffer at ha
              rw [hold] at ha
              simp at ha
            | some old =>
              have hfs : left_front (rank k) s k =
                  some (rank k old.node, (s.lptr_ k).leaf_pos_ - (s.lptr_ k).size_) := by
                simp [left_front, left_edge, hpc, hold]
              refine ⟨_, hfs, ?_⟩
              rcases u3 old hold with ⟨e1, e2⟩ | ⟨b, e1, e2⟩ | e1
              · rw [e1] at ha'
                simp only [Option.map_some', Option.some.injEq] at ha'
                left
                rw [← ha', e2]
              · rw [e2] at ha'
                simp only [Option.map_some', Option.some.injEq] at ha'
                right
                left
                rw [← ha']
                obtain ⟨blk, hb⟩ := ((hc k h0 h1).1 old hold).1
                rw [hb] at e1
                have := (hst k h0 h1).1 blk b e1
                show rank k ((Q.trees_ k).leaf_node b) < rank k old.node
                rw [hb]
                omega
              · rw [e1] at ha'
                cases ha'
          · refine front_left_le _ s _ k ?_ (fun _ => ?_)
            · show Function.update s.lptr_ i a.buf k = s.lptr_ k
              rw [Function.update_noteq e]
            · simp only [left_edge, hpc, if_neg (Ne.symm e), Function.update_noteq e]
              exact le_refl _
        · refine front_right_le _ s _ k rfl (fun _ => ?_)
          simp only [right_edge, hpc]
          exact le_refl _
    · rename_i i j e hpc
      have hne : s.pc ≠ .fault := by rw [hpc]; simp
      rw [hpc] at hr
      simp only [ScanOK, hpc] at hscan
      split_ifs with c
      · split
        · rename_i hp0
          exact fault _ (by simp [emits, hpc, hp0]) rfl rfl
        · rename_i p hp
          split
          · rename_i hid0
            exact fault _ (by simp [emits, hpc, hp, hid0]) rfl rfl
          · rename_i id hid
            have hemit : emits s = some (i, id) := by simp [emits, hpc, c, hp, hid]
            suffices key : seen i id = false ∧
                SweepInv Q rank (fun k id' => if k = i ∧ id' = id then true else seen k id')
                  (collide Q E top_k s id (.scan_right i (j + 1) e) (.advance_right i)) from
              ⟨_, key.2, fun k id' h => by simp [h], fun k id' he => by
                rw [hemit] at he
                simp only [Option.some.injEq, Prod.mk.injEq] at he
                obtain ⟨e1, e2⟩ := he
                subst e1 e2
                exact ⟨key.1, by simp⟩⟩
            obtain ⟨f1, f2, _⟩ := collide_frame Q E top_k s id (.scan_right i (j + 1) e)
              (.advance_right i)
            have hpos : right_front (rank i) s i = some (rank i p.node, j) := by
              simp [right_front, right_edge, hpc, hp]
            have hpcs := collide_pc Q E top_k s id (.scan_right i (j + 1) e) (.advance_right i)
            refine emit_freq_inv Q rank s _ i id seen p j false hr (hst i hr.1 hr.2) hC
              (hS hne) ((hc i hr.1 hr.2).2 p hp).1 hid (Or.inr ⟨rfl, hpos⟩)
              (collide_freq Q E top_k s id _ _) (fun hnf k h0 h1 a' ha => ?_)
              (fun hnf k h0 h1 b' hb => ?_)
            · obtain ⟨a, g1, g2⟩ := front_left_le (rank k) s _ k (by rw [f1]) (fun _ => by
                rcases hpcs with e' | e' | e'
                · exact absurd e' hnf
                · simp only [left_edge, e', hpc, f1]; exact le_refl _
                · simp only [left_edge, e', hpc, f1]; exact le_refl _) a' ha
              refine ⟨a, g1, ?_⟩
              rcases g2 with g | g
              · exact Or.inl ⟨g, fun x => by simp at x⟩
              · exact Or.inr g
            · by_cases e0 : k = i
              · subst e0
                refine ⟨_, hpos, Or.inr ?_⟩
                simp only [right_front, f2, hp, Option.map_some', Option.some.injEq] at hb
                rw [← hb]
                right
                refine ⟨rfl, ?_⟩
                rcases hpcs with e' | e' | e'
                · exact absurd e' hnf
                · simp only [right_edge, e', if_true]; omega
                · simp only [right_edge, e', if_true, f2]; omega
              · obtain ⟨b, g1, g2⟩ := front_right_le (rank k) s _ k (by rw [f2]) (fun _ => by
                  rcases hpcs with e' | e' | e'
                  · exact absurd e' hnf
                  · simp only [right_edge, e', hpc, if_neg (Ne.symm e0), f2]; exact le_refl _
                  · simp only [right_edge, e', hpc, if_neg (Ne.symm e0), f2]; exact le_refl _) b' hb
                refine ⟨b, g1, ?_⟩
                rcases g2 with g | g
                · exact Or.inl ⟨g, fun x => e0 x.1⟩
                · exact Or.inr g
      · refine same _ (by simp [emits, hpc, c]) rfl rfl rfl hne
          (fun k _ _ => ⟨fun _ => ?_, fun hn => ?_⟩)
        · simp only [left_edge, hpc]
          exact le_refl _
        · simp only [right_edge, hpc]
          split_ifs with e0
          · subst e0
            have := hscan.2.2 hn
            omega
          · exact le_refl _
    · rename_i i hpc
      have hem : emits s = none := by simp [emits, hpc]
      have hne : s.pc ≠ .fault := by rw [hpc]; simp
      rw [hpc] at hr
      split
      · exact fault _ hem rfl rfl
      · rename_i a ha
        obtain ⟨_, _, u3⟩ := update_right_buffer_slot _ _ _ _ _ a (hw i hr.1 hr.2)
          (hc i hr.1 hr.2).2 (hsl i hr.1 hr.2).2.1 ha
        refine keep _ hem rfl (fun _ => ⟨hne, fun k h0 h1 => ⟨?_, ?_⟩⟩)
        · refine front_left_le _ s _ k rfl (fun _ => ?_)
          simp only [left_edge, hpc]
          exact le_refl _
        · by_cases e : k = i
          · subst e
            intro b' hb'
            simp only [right_front, right_edge, Function.update_same] at hb'
            cases hold : (s.rptr_ k).leaf_node_ with
            | none =>
              unfold update_right_buffer at ha
              rw [hold] at ha
              simp at ha
            | some old =>
              have hfs : right_front (rank k) s k =
                  some (rank k old.node, (s.rptr_ k).leaf_pos_ + (s.rptr_ k).size_) := by
                simp [right_front, right_edge, hpc, hold]
              refine ⟨_, hfs, ?_⟩
              rcases u3 old hold with ⟨e1, e2⟩ | ⟨b, e1, e2, _⟩ | e1
              · rw [e1] at hb'
                simp only [Option.map_some', Option.some.injEq] at hb'
                left
                rw [← hb', e2]
              · rw [e2] at hb'
                simp only [Option.map_some', Option.some.injEq] at hb'
                right
                left
                rw [← hb']
                obtain ⟨blk, hb⟩ := ((hc k h0 h1).2 old hold).1
                rw [hb] at e1
                have := (hst k h0 h1).2.1 blk b e1
                show rank k old.node < rank k ((Q.trees_ k).leaf_node b)
                rw [hb]
                omega
              · rw [e1] at hb'
                cases hb'
          · refine front_right_le _ s _ k ?_ (fun _ => ?_)
            · show Function.update s.rptr_ i a.buf k = s.rptr_ k
              rw [Function.update_noteq e]
            · simp only [right_edge, hpc, if_neg (Ne.symm e), Function.update_noteq e]
              exact le_refl _
    · rename_i i hpc
      have hem : emits s = none := by simp [emits, hpc]
      split_ifs <;> exact idle _ hem rfl rfl rfl (by rw [hpc]; simp) (by rw [hpc]; rfl) rfl
    · rename_i hpc
      have hem : emits s = none := by simp [emits, hpc]
      split_ifs <;> exact idle _ hem rfl rfl rfl (by rw [hpc]; simp) (by rw [hpc]; rfl) rfl
    · rename_i hpc
      have hem : emits s = none := by simp [emits, hpc]
      have hne : s.pc ≠ .fault := by rw [hpc]; simp
      have hsa : s.pc.active = none := by rw [hpc]; rfl
      have hret : SweepNext Q rank seen s { delete_tree_ptr Q s with pc := .returned } := by
        refine keep _ hem hdf (fun _ => ⟨hne, fun k h0 h1 => ⟨?_, ?_⟩⟩)
        · rcases (hd k).1 with e | e
          · exact front_left_le _ s _ k e (fun _ => le_of_eq (by
              rw [(edges_idle { delete_tree_ptr Q s with pc := .returned } k rfl).1,
                (edges_idle s k hsa).1]
              show ((delete_tree_ptr Q s).lptr_ k).leaf_pos_ = _
              rw [e]))
          · intro a' ha'
            have : ((delete_tree_ptr Q s).lptr_ k).leaf_node_ = none := by rw [e]
            simp only [left_front, this] at ha'
            cases ha'
        · rcases (hd k).2 with e | e
          · exact front_right_le _ s _ k e (fun _ => le_of_eq (by
              rw [(edges_idle { delete_tree_ptr Q s with pc := .returned } k rfl).2,
                (edges_idle s k hsa).2]
              show _ = ((delete_tree_ptr Q s).rptr_ k).leaf_pos_
              rw [e]))
          · intro b' hb'
            have : ((delete_tree_ptr Q s).rptr_ k).leaf_node_ = none := by rw [e]
            simp only [right_front, this] at hb'
            cases hb'
      split_ifs
      · exact hret
      · exact hret
      · split
        · exact fault _ hem rfl rfl
        · exact idle _ hem rfl rfl rfl hne hsa rfl
    · rename_i hpc
      exact ⟨seen, ⟨hC, hS⟩, fun _ _ h => h, fun i id he => by simp [emits, hpc] at he⟩
    · rename_i hpc
      exact ⟨seen, ⟨hC, hS⟩, fun _ _ h => h, fun i id he => by simp [emits, hpc] at he⟩
  -- At the start of the main loop nothing was emitted and the left cursor is before the right
  -- cursor.
  have knn_start_sweep_inv : ∀ (Q : Index) (E : Env) (query : Int → ℚ) (list : MinK_List) (fuel :
      Nat) (old s0 : State) (rank : Int → BLeafNode → Int) (hw : Q.WF) (hst : ∀ i, 0 ≤ i → i <
      Q.m_ → (Q.trees_ i).Stores (rank i)) (h : knn_start Q E query list fuel old = .ok s0),
      SweepInv Q rank (fun _ _ => false) s0 := by
    intro Q E query list fuel old s0 rank hw hst h
    have hsp := knn_start_spec Q E query list fuel old s0 h
    have hp := knn_start_pair Q E query list fuel old s0 hw h
    have hco := knn_start_cursors_ok Q E query list fuel old s0 hw h
    refine ⟨fun id h0 h1 => ?_, fun _ i h0 h1 => ⟨?_, fun id hid => by cases hid⟩⟩
    · rw [(hsp.2.2.2.2.2.2 id h0 h1).1]
      exact Int.natCast_nonneg _
    · intro a b ha hb
      have hidle : s0.pc.active = none := by rw [hsp.2.1]; rfl
      unfold left_front at ha
      unfold right_front at hb
      rw [(edges_idle s0 i hidle).1] at ha
      rw [(edges_idle s0 i hidle).2] at hb
      cases hl : (s0.lptr_ i).leaf_node_ with
      | none => rw [hl] at ha; cases ha
      | some p =>
        cases hr : (s0.rptr_ i).leaf_node_ with
        | none => rw [hr] at hb; cases hb
        | some p1 =>
          rw [hl] at ha
          rw [hr] at hb
          simp only [Option.map_some', Option.some.injEq] at ha hb
          subst ha hb
          rcases (hp i h0 h1).2.2.2.2 p p1 hl hr with ⟨e1, e2⟩ | ⟨c, e1, e2⟩
          · right
            exact ⟨by rw [e1], e2⟩
          · left
            obtain ⟨blk, hb⟩ := ((hco i h0 h1).1 p hl).1
            rw [hb] at e1
            have := (hst i h0 h1).2.1 blk c e1
            show rank i p.node < rank i p1.node
            rw [hb, e2]
            omega
  -- Along a run the record of emitted pairs only grows.
  have run_sweep_inv : ∀ (Q : Index) (E : Env) (top_k : Int) (query : Int → ℚ) (list : MinK_List)
      (fuel : Nat) (old : State) (rank : Int → BLeafNode → Int) (hw : Q.WF) (hst : ∀ i, 0 ≤ i → i
      < Q.m_ → (Q.trees_ i).Stores (rank i)) (n : Nat),
      ∀ (s : State) (seen : Int → Int → Bool), Reachable Q E top_k query list fuel old s →
        SweepInv Q rank seen s →
        ∃ seen' : Int → Int → Bool, SweepInv Q rank seen' (run Q E top_k n s) ∧
          ∀ i id, seen i id = true → seen' i id = true := by
    intro Q E top_k query list fuel old rank hw hst n
    induction n with
    | zero => exact fun s seen _ h => ⟨seen, h, fun _ _ x => x⟩
    | succ n ih =>
      intro s seen hr h
      obtain ⟨a, b, c⟩ := reachable_slot_inv hw hr
      obtain ⟨seen1, h1, m1, _⟩ := step_sweep_inv Q E top_k rank s hw hst a b c seen h
      obtain ⟨seen2, h2, m2⟩ := ih _ seen1 (reachable_step hr) h1
      exact ⟨seen2, h2, fun i id x => m2 i id (m1 i id x)⟩
  have hi := reachable_eval_inv h
  obtain ⟨seen, hsw⟩ : ∃ seen : Int → Int → Bool, SweepInv Q rank seen s := by
    obtain ⟨s0, n, h0, rfl⟩ := h
    obtain ⟨seen, a, _⟩ := run_sweep_inv Q E top_k query list fuel old rank hw hst n s0
      (fun _ _ => false) ⟨s0, 0, h0, rfl⟩
      (knn_start_sweep_inv Q E query list fuel old s0 rank hw hst h0)
    exact ⟨seen, a⟩
  have hfm : ∀ id, 0 ≤ id → id < Q.n_pts_ → s.freq_ id ≤ (Q.m_.toNat : Int) := by
    intro id h0 h1
    have a := hsw.1 id h0 h1
    have b : (List.range Q.m_.toNat).countP (fun (i : Nat) => seen (i : Int) id) ≤
        Q.m_.toNat := le_trans (List.countP_le_length _) (by rw [List.length_range])
    omega
  refine ⟨fun i id he => ⟨emits_collide Q E top_k s i id he, fun n hn => ?_⟩,
    fun id h0 h1 => ⟨hfm id h0 h1, fun hm => by have := hfm id h0 h1; omega, fun hl => ?_⟩,
    fun hml => ?_⟩
  · obtain ⟨a, b, c⟩ := reachable_slot_inv hw h
    obtain ⟨seen1, h1, _, e1⟩ := step_sweep_inv Q E top_k rank s hw hst a b c seen hsw
    obtain ⟨seen2, h2, m2⟩ := run_sweep_inv Q E top_k query list fuel old rank hw hst n _
      seen1 (reachable_step h) h1
    have ht := reachable_run (reachable_step h) n
    obtain ⟨a', b', c'⟩ := reachable_slot_inv hw ht
    obtain ⟨_, _, _, e2⟩ := step_sweep_inv Q E top_k rank _ hw hst a' b' c' seen2 h2
    have x1 := m2 i id (e1 i id he).2
    have x2 := (e2 i id hn).1
    rw [x1] at x2
    cases x2
  · have := hi.freq_eq hl id h0 h1
    cases hc : s.checked_ id with
    | true => have := this.1 hc; omega
    | false => have := this.2 hc; omega
  · have hno : ∀ id, 0 ≤ id → id < Q.n_pts_ → s.checked_ id = false := by
      by_cases hm : Q.m_ ≤ 0
      · exact (no_projection_unchecked hm h).2
      · intro id h0 h1
        cases hc : s.checked_ id with
        | false => rfl
        | true =>
          have := hi.freq_gt id h0 h1 hc
          have := hfm id h0 h1
          omega
    have hnil : inserted s.trace = [] := by
      rw [List.eq_nil_iff_forall_not_mem]
      intro id hid
      obtain ⟨a, b, c⟩ := (hi.mem_inserted id).1 hid
      rw [hno id a b] at c
      cases c
    have hd : s.dist_io_ = 0 := by
      rw [← hi.inserts, ← inserted_length, hnil]
      rfl
    refine ⟨hd, ?_, hno⟩
    have := hi.calcs
    rw [hd] at this
    exact_mod_cast this

/-- The single leaf of `ex_tree` stores the ids 0, 1, 2 once each. -/
theorem ex_tree_stores : ex_tree.Stores (fun _ => 0) := by
  refine ⟨(fun b c h => by cases h), (fun b c h => by cases h), fun b c j k id hj hk => ⟨rfl, ?_⟩⟩
  have key : ∀ j id, ex_leaf.get_entry_id j = some id → j = id := by
    intro j id hj
    unfold BLeafNode.get_entry_id arr_get at hj
    split_ifs at hj with c
    obtain ⟨n, rfl⟩ := Int.eq_ofNat_of_zero_le c
    simp only [Int.toNat_ofNat] at hj
    match n, hj with
    | 0, hj => simp [ex_leaf] at hj; omega
    | 1, hj => simp [ex_leaf] at hj; omega
    | 2, hj => simp [ex_leaf] at hj; omega
    | n + 3, hj => simp [ex_leaf] at hj
  rw [key j id hj, key k id hk]

theorem knn_freq_bound_witness :
    emits (ex_state 8) = some (1, 1) ∧
    (∀ n, emits (run ex_index ex_env 1 (n + 1) (ex_state 8)) ≠ some (1, 1)) ∧
    (ex_state 8).freq_ 1 ≤ 2 :=
  have h := knn_freq_bound ex_index ex_env 1 ex_query ⟨1, []⟩ 1 ex_old (ex_state 8)
    (fun _ _ => 0) ex_index_wf (fun _ _ _ => ex_tree_stores) (ex_reachable 8)
  ⟨by decide!, (h.1 1 1 (by decide!)).2, (h.2.1 1 (by decide) (by decide)).2.1 (by decide)⟩

end QALSH
